import Mathlib

/-!
# CS107: the segregated-free-list allocator (assign7/mm.c), the implicit-list
allocator (assign7/mm_ifl.c), bit operations (assign4/bits.c) and the
containers of assign3 (cmap.c, cvector.c)

A shallow embedding of `src/assign7/mm.c` (with the DEBUG build's
`mm_checkheap`) on a byte-addressed memory, with the allocator's globals and
the state of the memory-extension primitive `mem_sbrk` in a record `Heap`; of
`coalesce` of `src/assign7/mm_ifl.c` on the same memory; of `make_set`,
`is_single`, `cmp_bits`, `sat_add_signed` and `sat_add_unsigned` of
`src/assign4/bits.c`; of `cmap_put` / `cmap_get` of `src/assign3/cmap.c` on
buckets that are lists of blobs; and of `cvec_insert` of
`src/assign3/cvector.c` on a buffer of bytes.

Machine integers are natural numbers with explicit wrap-around: `size_t` and
pointers modulo `2^64`, boundary tags and `unsigned int` modulo `2^32`,
`unsigned short` modulo `2^16`. Loops and recursions of the C code that need
not terminate (`find_fit`, the walks over lists) take a fuel argument; `none`
means that the fuel ran out. In the container models `none` is a call that
aborts on an `assert` or whose behaviour is undefined in C.

The main result about the allocator is `Reachable.inv`: every state reached
from a fresh arena by `mm_init` and calls of `malloc`, `free`, `realloc`,
`calloc` on valid arguments (and stores of the client into live payloads)
satisfies the invariant `Inv`: the blocks tile the arena between Prologue and
Epilogue, header and footer tags agree, the free lists are well-formed doubly
linked lists that hold exactly the free blocks, each in the list of its size
class, and no two adjacent blocks are free.
-/

/-! # Definitions -/

namespace MM

/-!
# Segregated-free-list allocator (`assign7/mm.c`)

A shallow embedding of the allocator of `src/assign7/mm.c`.  The arena is a
byte-addressed memory (`Nat → Nat`, little-endian multi-byte accesses), the
nine list heads and `heap_ptr` are fields of the state `Heap`, and the loops
that follow pointers stored in memory take a fuel argument (`none` = the loop
or recursion did not finish within the fuel).
-/

/-! ## Constants (`#define`s of mm.c) -/

def ALIGNMENT : Nat := 8

def WORD_SIZE : Nat := 4

def DWORD_SIZE : Nat := 8

def NUM_SIZE_CLASSES : Nat := 9

def MIN_BLK_SIZE : Nat := 3 * DWORD_SIZE

def INT_MAX : Nat := 2147483647

def MAX_BLK_SIZE : Nat := INT_MAX

def HEAP_EXT_SIZE : Nat := 1 <<< 12

def NULL : Nat := 0

/-! ## Machine arithmetic: `size_t` and pointers are 64 bit, tags are 32 bit -/

/-- Addition of two 64-bit quantities (`size_t`, `char *`), wrapping. -/
def add64 (a b : Nat) : Nat := (a + b) % 2 ^ 64

/-- Subtraction of two 64-bit quantities, wrapping. -/
def sub64 (a b : Nat) : Nat := (a + (2 ^ 64 - b % 2 ^ 64)) % 2 ^ 64

/-- Multiplication of two 64-bit quantities, wrapping. -/
def mul64 (a b : Nat) : Nat := (a * b) % 2 ^ 64

/-! ## Byte-addressed memory -/

/-- The memory: one byte (taken modulo 256 on reading) per address. -/
abbrev Mem := Nat → Nat

def read_u8 (m : Mem) (a : Nat) : Nat := m a % 256

def write_u8 (m : Mem) (a v : Nat) : Mem := fun x => if x = a then v % 256 else m x

/-- Load of an `unsigned int` (4 bytes, little endian). -/
def get_u32 (m : Mem) (a : Nat) : Nat :=
  read_u8 m a + 256 * read_u8 m (a + 1) + 65536 * read_u8 m (a + 2)
    + 16777216 * read_u8 m (a + 3)

/-- Store of an `unsigned int` (4 bytes, little endian). -/
def put_u32 (m : Mem) (a v : Nat) : Mem := fun x =>
  if x = a then v % 256
  else if x = a + 1 then v / 256 % 256
  else if x = a + 2 then v / 65536 % 256
  else if x = a + 3 then v / 16777216 % 256
  else m x

/-- Load of a pointer (8 bytes, little endian). -/
def get_u64 (m : Mem) (a : Nat) : Nat :=
  get_u32 m a + 4294967296 * get_u32 m (a + 4)

/-- Store of a pointer (8 bytes, little endian). -/
def put_u64 (m : Mem) (a v : Nat) : Mem :=
  put_u32 (put_u32 m a (v % 4294967296)) (a + 4) (v / 4294967296)

/-- The libc `memcpy(dst, src, n)` on the byte memory. -/
def memcpy (m : Mem) (dst src n : Nat) : Mem := fun x =>
  if dst ≤ x ∧ x < dst + n then m (src + (x - dst)) else m x

/-- The libc `memset(dst, c, n)` on the byte memory. -/
def memset (m : Mem) (dst c n : Nat) : Mem := fun x =>
  if dst ≤ x ∧ x < dst + n then c % 256 else m x

/-! ## Boundary tags and free headers -/

/-- `struct free_hdr` (packed): tag at offset 0, `prev_hdr_addr` at offset 4,
`next_hdr_addr` at offset 12. -/
structure free_hdr where
  tag : Nat
  prev_hdr_addr : Nat
  next_hdr_addr : Nat

/-- `max` of mm.c: both parameters are `unsigned int`. -/
def max (a b : Nat) : Nat :=
  let a := a % 2 ^ 32
  let b := b % 2 ^ 32
  if a ≥ b then a else b

/-- `make_btag`: `blk_info = (size | alloc)`, stored in an `unsigned int`. -/
def make_btag (size alloc : Nat) : Nat := (size ||| alloc) % 2 ^ 32

def make_free_hdr (new_btag prev_hdr_addr next_hdr_addr : Nat) : free_hdr :=
  { tag := new_btag, prev_hdr_addr := prev_hdr_addr, next_hdr_addr := next_hdr_addr }

def put_val (m : Mem) (mem_addr val : Nat) : Mem := put_u32 m mem_addr val

def put_btag (m : Mem) (mem_addr new_btag : Nat) : Mem := put_u32 m mem_addr new_btag

def put_free_hdr (m : Mem) (mem_addr : Nat) (h : free_hdr) : Mem :=
  put_u64 (put_u64 (put_u32 m mem_addr h.tag) (mem_addr + 4) h.prev_hdr_addr)
    (mem_addr + 12) h.next_hdr_addr

/-- `get_size`: `tag->blk_info & ~0x7` (the mask is `0xFFFFFFF8` as `unsigned int`). -/
def get_size (m : Mem) (tag : Nat) : Nat := get_u32 m tag &&& 0xFFFFFFF8

/-- `get_alloc`: `tag->blk_info & 0x1`. -/
def get_alloc (m : Mem) (tag : Nat) : Nat := get_u32 m tag &&& 0x1

/-- Field `prev_hdr_addr` of the free header at `blk`. -/
def get_prev_free (m : Mem) (blk : Nat) : Nat := get_u64 m (blk + 4)

/-- Field `next_hdr_addr` of the free header at `blk`. -/
def get_next_free (m : Mem) (blk : Nat) : Nat := get_u64 m (blk + 12)

def get_hdr_addr (m : Mem) (ftr_addr : Nat) : Nat :=
  sub64 ftr_addr (sub64 (get_size m ftr_addr) WORD_SIZE)

def get_ftr_addr (m : Mem) (hdr_addr : Nat) : Nat :=
  add64 hdr_addr (sub64 (get_size m hdr_addr) WORD_SIZE)

def get_prev_hdr_addr (m : Mem) (hdr_addr : Nat) : Nat :=
  get_hdr_addr m (sub64 hdr_addr WORD_SIZE)

def get_next_hdr_addr (m : Mem) (hdr_addr : Nat) : Nat :=
  add64 hdr_addr (get_size m hdr_addr)

/-- The `while` loop of `get_free_lists_index`; the first argument bounds the
number of iterations, which is at most `NUM_SIZE_CLASSES - 1` because `index`
grows by one per iteration. -/
def get_free_lists_index_loop : Nat → Nat → Nat → Nat
  | 0, _, index => index
  | k + 1, size, index =>
    if size ≠ 0 ∧ index < NUM_SIZE_CLASSES - 1 then
      get_free_lists_index_loop k (size >>> 1) (index + 1)
    else index

def get_free_lists_index (size : Nat) : Nat :=
  get_free_lists_index_loop (NUM_SIZE_CLASSES - 1) ((sub64 size 1) >>> 5) 0

/-! ## Allocator state -/

/-- The globals of mm.c (`free_lists`, `heap_ptr`) together with the memory
and the state of the memory-extension primitive. -/
structure Heap where
  /-- the bytes of the address space -/
  mem : Mem
  /-- first byte of the arena (constant) -/
  mem_heap : Nat
  /-- current end of the arena (first byte not owned) -/
  mem_brk : Nat
  /-- the arena may not grow beyond this address -/
  mem_max_addr : Nat
  /-- the byte counts passed to `mem_sbrk` so far, most recent first -/
  sbrk_calls : List Nat
  /-- `free_lists[i]` -/
  free_lists : Nat → Nat
  /-- `heap_ptr` -/
  heap_ptr : Nat

/-- Modelled from the spec: `mem_sbrk` of memlib (not in the repository
sources), the memory-extension primitive `requestMoreMemory(deltaBytes) ->
newRegionStart | failure`.  It grows the arena monotonically at its end and
returns the old end, or fails (`none`, standing for `(void *) -1`) and leaves
the arena as it is when the limit would be exceeded. -/
def mem_sbrk (incr : Nat) (s : Heap) : Option Nat × Heap :=
  if s.mem_brk + incr ≤ s.mem_max_addr then
    (some s.mem_brk,
      { s with mem_brk := s.mem_brk + incr, sbrk_calls := incr :: s.sbrk_calls })
  else (none, { s with sbrk_calls := incr :: s.sbrk_calls })

def add_to_free_list (mem_addr size : Nat) (s : Heap) : Heap :=
  let new_btag := make_btag size 0
  let index := get_free_lists_index size
  let new_free_hdr := make_free_hdr new_btag NULL (s.free_lists index)
  -- rewrite header
  let m := put_free_hdr s.mem mem_addr new_free_hdr
  -- rewrite footer
  let m := put_btag m (get_ftr_addr m mem_addr) new_btag
  -- insert at beginning of free list
  let free_lists := fun i => if i = index then mem_addr else s.free_lists i
  -- update prev_hdr_addr of next block
  let m :=
    if get_next_free m (free_lists index) ≠ NULL then
      put_u64 m (get_next_free m (free_lists index) + 4) (free_lists index)
    else m
  { s with mem := m, free_lists := free_lists }

def remove_from_free_list (blk_addr : Nat) (s : Heap) : Heap :=
  -- first block in list: update free list pointer
  let free_lists :=
    if get_prev_free s.mem blk_addr = NULL then
      fun i =>
        if i = get_free_lists_index (get_size s.mem blk_addr) then get_next_free s.mem blk_addr
        else s.free_lists i
    else s.free_lists
  -- block not first: update next_hdr_addr of previous block
  let m :=
    if get_prev_free s.mem blk_addr = NULL then s.mem
    else put_u64 s.mem (get_prev_free s.mem blk_addr + 12) (get_next_free s.mem blk_addr)
  -- update prev_hdr_addr of next block
  let m :=
    if get_next_free m blk_addr ≠ NULL then
      put_u64 m (get_next_free m blk_addr + 4) (get_prev_free m blk_addr)
    else m
  { s with mem := m, free_lists := free_lists }

def coalesce (blk_addr : Nat) (s : Heap) : Nat × Heap :=
  let prev_blk_addr := get_prev_hdr_addr s.mem blk_addr
  let next_blk_addr := get_next_hdr_addr s.mem blk_addr
  let prev_alloc := get_alloc s.mem prev_blk_addr
  let next_alloc := get_alloc s.mem next_blk_addr
  let size := get_size s.mem blk_addr
  -- neighboring blocks are allocated
  if prev_alloc ≠ 0 ∧ next_alloc ≠ 0 then (blk_addr, s)
  -- previous block allocated, next free
  else if prev_alloc ≠ 0 ∧ next_alloc = 0 then
    let s := remove_from_free_list next_blk_addr s
    let size := add64 size (get_size s.mem next_blk_addr)
    let new_hdr_addr := blk_addr
    let new_ftr_addr := get_ftr_addr s.mem next_blk_addr
    -- update boundary tags
    (new_hdr_addr,
      { s with
        mem := put_btag (put_btag s.mem new_hdr_addr (make_btag size 0)) new_ftr_addr
          (make_btag size 0) })
  -- previous block free, next allocated
  else if prev_alloc = 0 ∧ next_alloc ≠ 0 then
    let s := remove_from_free_list prev_blk_addr s
    let size := add64 size (get_size s.mem prev_blk_addr)
    let new_hdr_addr := prev_blk_addr
    let new_ftr_addr := get_ftr_addr s.mem blk_addr
    (new_hdr_addr,
      { s with
        mem := put_btag (put_btag s.mem new_hdr_addr (make_btag size 0)) new_ftr_addr
          (make_btag size 0) })
  -- neighboring blocks are free
  else
    let s := remove_from_free_list prev_blk_addr s
    let s := remove_from_free_list next_blk_addr s
    let size := add64 size (add64 (get_size s.mem prev_blk_addr) (get_size s.mem next_blk_addr))
    let new_hdr_addr := prev_blk_addr
    let new_ftr_addr := get_ftr_addr s.mem next_blk_addr
    (new_hdr_addr,
      { s with
        mem := put_btag (put_btag s.mem new_hdr_addr (make_btag size 0)) new_ftr_addr
          (make_btag size 0) })

/-- `extend_heap`; the result pointer is `NULL` when `mem_sbrk` failed. -/
def extend_heap (words : Nat) (s : Heap) : Nat × Heap :=
  -- allocate an even number of words to maintain alignment
  let words := if words % 2 ≠ 0 then add64 words 1 else words
  let size := mul64 words WORD_SIZE
  match mem_sbrk size s with
  | (none, s) => (NULL, s)
  | (some new_mem, s) =>
    -- update epilogue
    let m := put_btag s.mem (add64 (sub64 new_mem WORD_SIZE) size) (make_btag 0 1)
    -- add header to new block
    let m := put_btag m (sub64 new_mem WORD_SIZE) (make_btag size 0)
    let r := coalesce (sub64 new_mem WORD_SIZE) { s with mem := m }
    let blk_addr := r.1
    let size := get_size r.2.mem blk_addr
    -- add block to free list
    (blk_addr, add_to_free_list blk_addr size r.2)

/-- `mm_init`: the result is `0` on success and `-1` on failure. -/
def mm_init (s : Heap) : Int × Heap :=
  match mem_sbrk (4 * WORD_SIZE) s with
  | (none, s) => (-1, { s with heap_ptr := 2 ^ 64 - 1 })
  | (some p, s) =>
    let heap_ptr := p
    -- alignment padding
    let m := put_val s.mem heap_ptr 0x0
    -- prologue header
    let m := put_btag m (heap_ptr + 1 * WORD_SIZE) (make_btag DWORD_SIZE 1)
    -- prologue footer
    let m := put_btag m (heap_ptr + 2 * WORD_SIZE) (make_btag DWORD_SIZE 1)
    -- epilogue
    let m := put_btag m (heap_ptr + 3 * WORD_SIZE) (make_btag 0 1)
    -- point to memory after prologue
    let heap_ptr := heap_ptr + 3 * WORD_SIZE
    -- initialize free lists
    let free_lists := fun i => if i < NUM_SIZE_CLASSES then NULL else s.free_lists i
    let r := extend_heap (HEAP_EXT_SIZE / WORD_SIZE)
      { s with mem := m, heap_ptr := heap_ptr, free_lists := free_lists }
    if r.1 = NULL then (-1, r.2) else (0, r.2)

/-- The inner `while (blk_addr != NULL)` loop of `find_fit`: `some blk` when a
block of size `>= size` is found, `some NULL` when the end of the list is
reached, `none` when the fuel runs out first. -/
def find_fit_list : Nat → Mem → Nat → Nat → Option Nat
  | 0, _, _, _ => none
  | fuel + 1, m, size, blk_addr =>
    if blk_addr ≠ NULL then
      if get_size m blk_addr ≥ size then some blk_addr
      else find_fit_list fuel m size (get_next_free m blk_addr)
    else some NULL

/-- The outer `while (index < NUM_SIZE_CLASSES)` loop of `find_fit`; the first
argument bounds the number of iterations (`index` grows by one per
iteration, so `NUM_SIZE_CLASSES` suffices). -/
def find_fit_lists : Nat → Nat → Heap → Nat → Nat → Option Nat
  | 0, _, _, _, _ => some NULL
  | k + 1, fuel, s, size, index =>
    if index < NUM_SIZE_CLASSES then
      match find_fit_list fuel s.mem size (s.free_lists index) with
      | none => none
      | some blk_addr =>
        if blk_addr ≠ NULL then some blk_addr
        else find_fit_lists k fuel s size (index + 1)
    else some NULL

/-- The end of `find_fit` once the lists have been scanned: the block found is
taken off its list and returned; when nothing fits (`blk_addr == NULL`) the
result is that of the recursive call `rest`, made after `extend_heap`. -/
def find_fit_result (scan : Option Nat) (s : Heap) (rest : Option (Nat × Heap)) :
    Option (Nat × Heap) :=
  match scan with
  | none => none
  | some blk_addr =>
    if blk_addr ≠ NULL then some (blk_addr, remove_from_free_list blk_addr s) else rest

/-- `find_fit`: scan the lists; when nothing fits, call `extend_heap` (its
result is ignored) and recurse.  `none` when the fuel runs out. -/
def find_fit : Nat → Nat → Heap → Option (Nat × Heap)
  | 0, _, _ => none
  | fuel + 1, size, s =>
    find_fit_result
      (find_fit_lists NUM_SIZE_CLASSES (fuel + 1) s size (get_free_lists_index size)) s
      (find_fit fuel size (extend_heap (max size HEAP_EXT_SIZE / WORD_SIZE) s).2)

def allocate (blk_addr size : Nat) (s : Heap) : Heap :=
  let blk_size := get_size s.mem blk_addr
  if sub64 blk_size size ≥ MIN_BLK_SIZE then
    -- split block
    let new_btag := make_btag size 1
    let m := put_btag s.mem blk_addr new_btag
    let m := put_btag m (get_ftr_addr m blk_addr) new_btag
    let blk_addr := get_next_hdr_addr m blk_addr
    -- add fragment to free list
    add_to_free_list blk_addr (sub64 blk_size size) { s with mem := m }
  else
    let new_btag := make_btag blk_size 1
    let m := put_btag s.mem blk_addr new_btag
    { s with mem := put_btag m (get_ftr_addr m blk_addr) new_btag }

/-- `malloc` (`mm_malloc`): `some (p, s)` when the call returns `p` in state
`s`, `none` when it does not return within the fuel. -/
def malloc (fuel size : Nat) (s : Heap) : Option (Nat × Heap) :=
  if size = 0 ∨ size > MAX_BLK_SIZE then some (NULL, s)
  else
    let adj_size :=
      if size ≤ 2 * DWORD_SIZE then MIN_BLK_SIZE
      else mul64 DWORD_SIZE (add64 size (DWORD_SIZE + (DWORD_SIZE - 1)) / DWORD_SIZE)
    match find_fit fuel adj_size s with
    | none => none
    | some (blk_addr, s) => some (add64 blk_addr WORD_SIZE, allocate blk_addr adj_size s)

/-- `free` (`mm_free`). -/
def free (ptr : Nat) (s : Heap) : Heap :=
  if ptr = NULL then s
  else
    let r := coalesce (sub64 ptr WORD_SIZE) s
    let blk_addr := r.1
    let size := get_size r.2.mem blk_addr
    add_to_free_list blk_addr size r.2

/-- `realloc` (`mm_realloc`). -/
def realloc (fuel old_ptr size : Nat) (s : Heap) : Option (Nat × Heap) :=
  if size = 0 then some (NULL, free old_ptr s)
  else if old_ptr = NULL then malloc fuel size s
  else
    let old_size := sub64 (get_size s.mem (sub64 old_ptr WORD_SIZE)) DWORD_SIZE
    let size := max old_size size
    match malloc fuel size s with
    | none => none
    | some (new_ptr, s) =>
      if new_ptr = NULL then some (NULL, s)
      else
        -- copy contents to new block, free old block
        some (new_ptr, free old_ptr { s with mem := memcpy s.mem new_ptr old_ptr old_size })

/-- `calloc` (`mm_calloc`). -/
def calloc (fuel num_elems elem_size : Nat) (s : Heap) : Option (Nat × Heap) :=
  let bytes := mul64 num_elems elem_size
  match malloc fuel bytes s with
  | none => none
  | some (new_ptr, s) => some (new_ptr, { s with mem := memset s.mem new_ptr 0 bytes })

/-! ## Reading the heap: the block walk and the list walk

`heap_walk` is the walk of `mm_checkheap`: start at `heap_ptr`, stop at the
epilogue tag (size 0, allocated), step by `get_next_hdr_addr`. -/

/-- A block as read from its header tag. -/
structure Blk where
  addr : Nat
  size : Nat
  alloc : Nat
deriving DecidableEq

def heap_walk : Nat → Mem → Nat → List Blk
  | 0, _, _ => []
  | fuel + 1, m, blk =>
    if get_size m blk = 0 ∧ get_alloc m blk = 1 then []
    else ⟨blk, get_size m blk, get_alloc m blk⟩ :: heap_walk fuel m (get_next_hdr_addr m blk)

/-- Address at which the walk of `mm_checkheap` stops. -/
def heap_walk_end : Nat → Mem → Nat → Nat
  | 0, _, blk => blk
  | fuel + 1, m, blk =>
    if get_size m blk = 0 ∧ get_alloc m blk = 1 then blk
    else heap_walk_end fuel m (get_next_hdr_addr m blk)

/-- The nodes met when following `next_hdr_addr` from a list head, as the
free-list check of `mm_checkheap` does. -/
def list_walk : Nat → Mem → Nat → List Nat
  | 0, _, _ => []
  | fuel + 1, m, p => if p ≠ NULL then p :: list_walk fuel m (get_next_free m p) else []

/-- The blocks between Prologue and Epilogue. -/
def heap_blocks (s : Heap) : List Blk := heap_walk s.mem_brk s.mem s.heap_ptr

/-- The nodes of free list `i`. -/
def free_list (s : Heap) (i : Nat) : List Nat := list_walk s.mem_brk s.mem (s.free_lists i)

/-- A pointer is live when it is the payload address of an allocated block. -/
def Live (s : Heap) (p : Nat) : Prop :=
  ∃ b ∈ heap_blocks s, b.alloc = 1 ∧ b.addr + WORD_SIZE = p

instance (s : Heap) (p : Nat) : Decidable (Live s p) := by
  unfold Live; infer_instance

/-- Size of the block whose payload is at `p`, minus header and footer. -/
def usable (s : Heap) (p : Nat) : Nat := get_size s.mem (p - WORD_SIZE) - DWORD_SIZE

/-! ## Ghost description of a heap -/

/-- Consecutive blocks from `a` to `e`, each of a size that is a multiple of 8
and at least `MIN_BLK_SIZE`. -/
def Layout : Nat → List Blk → Nat → Prop
  | a, [], e => a = e
  | a, b :: bs, e =>
    b.addr = a ∧ 24 ≤ b.size ∧ b.size % 8 = 0 ∧ b.alloc ≤ 1 ∧ Layout (a + b.size) bs e

/-- Header and footer of the block hold its tag. -/
def TagOK (m : Mem) (b : Blk) : Prop :=
  get_u32 m b.addr = b.size + b.alloc ∧ get_u32 m (b.addr + b.size - 4) = b.size + b.alloc

/-- A doubly linked segment: starting at `h` with predecessor `p`, the nodes
`xs`, the `next` link of the last one being `t`. -/
def FSeg (m : Mem) : Nat → Nat → List Nat → Nat → Prop
  | _, h, [], t => h = t
  | p, h, x :: xs, t =>
    h = x ∧ x ≠ NULL ∧ get_prev_free m x = p ∧ FSeg m x (get_next_free m x) xs t

/-- A well-formed (null-terminated) free list with head `h` and nodes `xs`. -/
def FList (m : Mem) (h : Nat) (xs : List Nat) : Prop := FSeg m NULL h xs NULL

/-- No two physically adjacent blocks are both free. -/
def NoAdjFree (bs : List Blk) : Prop := List.Chain' (fun a b => a.alloc = 1 ∨ b.alloc = 1) bs

/-- The allocator invariant relative to the block list `all`, of which the
blocks satisfying `G` carry valid tags and are filed in the lists `L`. -/
structure Gen (s : Heap) (all : List Blk) (G : Blk → Prop) (L : Nat → List Nat) : Prop where
  hp_eq : s.heap_ptr = s.mem_heap + 12
  hp_al : s.mem_heap % 8 = 0
  brk_hi : s.mem_brk ≤ s.mem_max_addr
  max_lt : s.mem_max_addr < 2 ^ 64
  small : s.mem_max_addr ≤ s.mem_heap + 2 ^ 32
  pro_h : get_u32 s.mem (s.mem_heap + 4) = 9
  pro_f : get_u32 s.mem (s.mem_heap + 8) = 9
  epi : get_u32 s.mem (s.mem_brk - 4) = 1
  lay : Layout s.heap_ptr all (s.mem_brk - 4)
  sub : ∀ b, G b → b ∈ all
  tags : ∀ b, G b → TagOK s.mem b
  lists : ∀ i, i < 9 → FList s.mem (s.free_lists i) (L i)
  nodup : ∀ i, i < 9 → (L i).Nodup
  sound : ∀ i, i < 9 → ∀ x, x ∈ L i →
    ∃ b, G b ∧ b.addr = x ∧ b.alloc = 0 ∧ get_free_lists_index b.size = i
  complete : ∀ b, G b → b.alloc = 0 → b.addr ∈ L (get_free_lists_index b.size)

/-- The allocator invariant: `bs` are the blocks of the heap, `L` the lists. -/
structure Inv (s : Heap) (bs : List Blk) (L : Nat → List Nat) : Prop where
  gen : Gen s bs (fun b => b ∈ bs) L
  noadj : NoAdjFree bs

/-- An arena on which `mm_init` may be called: empty, 8-byte aligned, and
limited to 4 GiB within the 64-bit address space. -/
structure Fresh (s : Heap) : Prop where
  empty : s.mem_brk = s.mem_heap
  aligned : s.mem_heap % 8 = 0
  max_lt : s.mem_max_addr < 2 ^ 64
  small : s.mem_max_addr ≤ s.mem_heap + 2 ^ 32

/-- The states reached from a fresh arena by `mm_init` followed by calls of the
four public operations on valid arguments, and by stores of the client into
the payload of a live block. -/
inductive Reachable : Heap → Prop
  | init (s0 : Heap) : Fresh s0 → (mm_init s0).1 = 0 → Reachable (mm_init s0).2
  | malloc (s : Heap) (fuel n p : Nat) (s' : Heap) :
      Reachable s → malloc fuel n s = some (p, s') → Reachable s'
  | free (s : Heap) (p : Nat) :
      Reachable s → (p = NULL ∨ Live s p) → Reachable (free p s)
  | realloc (s : Heap) (fuel p n q : Nat) (s' : Heap) :
      Reachable s → (p = NULL ∨ Live s p) → realloc fuel p n s = some (q, s') → Reachable s'
  | calloc (s : Heap) (fuel k n q : Nat) (s' : Heap) :
      Reachable s → calloc fuel k n s = some (q, s') → (q ≠ NULL ∨ mul64 k n = 0) →
      Reachable s'
  | store (s : Heap) (p a v : Nat) :
      Reachable s → Live s p → p ≤ a → a < p + usable s p →
      Reachable { s with mem := write_u8 s.mem a v }

/-- Sum of the sizes of the blocks. -/
def total_size (bs : List Blk) : Nat := (bs.map (fun b => b.size)).sum

/-! ## Consequences of the invariant -/

/-- The fields of the arena other than the memory and the list heads agree. -/
def SameArena (s s' : Heap) : Prop :=
  s'.mem_heap = s.mem_heap ∧ s'.mem_brk = s.mem_brk ∧ s'.mem_max_addr = s.mem_max_addr ∧
    s'.heap_ptr = s.heap_ptr ∧ s'.sbrk_calls = s.sbrk_calls

/-- Memory that differs only in link cells of the filed free blocks. -/
def LinkOnly (G : Blk → Prop) (m m' : Mem) : Prop :=
  ∀ x, (∀ b, G b → b.alloc = 0 → x < b.addr + 4 ∨ b.addr + 20 ≤ x) → m' x = m x

/-- The memory after `add_to_free_list`. -/
def add_mem (m : Mem) (a size h : Nat) : Mem :=
  let m2 := put_u32 (put_u64 (put_u64 (put_u32 m a size) (a + 4) NULL) (a + 12) h)
    (a + size - 4) size
  if h ≠ NULL then put_u64 m2 (h + 4) a else m2

/-- State after the two tag stores that end the merging branches of `coalesce`. -/
def retag (s : Heap) (hdr ftr size : Nat) : Heap :=
  { s with mem := put_btag (put_btag s.mem hdr (make_btag size 0)) ftr (make_btag size 0) }

/-- Blocks allocated in `bs` keep all their bytes. -/
def KeepAlloc (bs : List Blk) (m m' : Mem) : Prop :=
  ∀ b, b ∈ bs → b.alloc = 1 → ∀ x, b.addr ≤ x → x < b.addr + b.size → m' x = m x

/-! ### Removing a free neighbour -/

/-- The lists after block `n` has been taken out of its list. -/
def unfile (L : Nat → List Nat) (n : Blk) : Nat → List Nat :=
  fun j => if j = get_free_lists_index n.size then (L j).erase n.addr else L j

/-! ## Filling a hole -/

/-- The lists after block `t` has been pushed on the list of its size class. -/
def file (L : Nat → List Nat) (t : Blk) : Nat → List Nat :=
  fun j => if j = get_free_lists_index t.size then t.addr :: L j else L j

/-! ## `free` -/

/-- Blocks allocated in `bs` are still blocks of `bs'` and keep their bytes. -/
def Stable (bs : List Blk) (m : Mem) (bs' : List Blk) (m' : Mem) : Prop :=
  ∀ c, c ∈ bs → c.alloc = 1 →
    c ∈ bs' ∧ ∀ x, c.addr ≤ x → x < c.addr + c.size → m' x = m x

/-! ## `extend_heap` -/

/-- Number of bytes `extend_heap words` asks of `mem_sbrk`. -/
def ext_bytes (words : Nat) : Nat :=
  mul64 (if words % 2 ≠ 0 then add64 words 1 else words) WORD_SIZE

/-- State after a successful `mem_sbrk size` and the two tag stores of
`extend_heap` (new epilogue, header of the new block). -/
def grow (s : Heap) (size : Nat) : Heap :=
  { s with
    mem := put_btag (put_btag s.mem (add64 (sub64 s.mem_brk WORD_SIZE) size) (make_btag 0 1))
      (sub64 s.mem_brk WORD_SIZE) (make_btag size 0)
    mem_brk := s.mem_brk + size
    sbrk_calls := size :: s.sbrk_calls }

/-- The fields of the arena after a successful extension by `size` bytes. -/
def Grown (s s' : Heap) (size : Nat) : Prop :=
  s'.mem_heap = s.mem_heap ∧ s'.mem_brk = s.mem_brk + size ∧
    s'.mem_max_addr = s.mem_max_addr ∧ s'.heap_ptr = s.heap_ptr ∧
    s'.sbrk_calls = size :: s.sbrk_calls

/-- The arena has at most grown. -/
def Ext (s s' : Heap) : Prop :=
  s'.mem_heap = s.mem_heap ∧ s'.mem_max_addr = s.mem_max_addr ∧ s'.heap_ptr = s.heap_ptr ∧
    s.mem_brk ≤ s'.mem_brk

/-- Memory after the header and footer of the block at `a` have been set to
the tag `(size, 1)`. -/
def mark (m : Mem) (a size : Nat) : Mem :=
  put_u32 (put_u32 m a (size + 1)) (a + size - 4) (size + 1)

/-! ## `malloc` -/

/-- The adjusted block size `adj_size` computed by `malloc`. -/
def adj_size (size : Nat) : Nat :=
  if size ≤ 2 * DWORD_SIZE then MIN_BLK_SIZE
  else mul64 DWORD_SIZE (add64 size (DWORD_SIZE + (DWORD_SIZE - 1)) / DWORD_SIZE)

/-- The size `realloc` passes to `malloc`. -/
def realloc_size (old_ptr size : Nat) (s : Heap) : Nat :=
  max (sub64 (get_size s.mem (sub64 old_ptr WORD_SIZE)) DWORD_SIZE) size

/-! ## The size-class table -/

/-- The size classes as a table. -/
def size_class (s : Nat) : Nat :=
  if s ≤ 32 then 0 else if s ≤ 64 then 1 else if s ≤ 128 then 2 else if s ≤ 256 then 3
  else if s ≤ 512 then 4 else if s ≤ 1024 then 5 else if s ≤ 2048 then 6
  else if s ≤ 4096 then 7 else 8

/-! ## `mm_init` -/

/-- State of `mm_init` after the first `mem_sbrk`, the four stores of the
sentinels and the reset of the lists, before the call of `extend_heap`. -/
def init_base (s : Heap) : Heap :=
  { s with
    mem := put_btag (put_btag (put_btag (put_val s.mem s.mem_brk 0x0)
      (s.mem_brk + 1 * WORD_SIZE) (make_btag DWORD_SIZE 1))
      (s.mem_brk + 2 * WORD_SIZE) (make_btag DWORD_SIZE 1))
      (s.mem_brk + 3 * WORD_SIZE) (make_btag 0 1)
    mem_brk := s.mem_brk + 4 * WORD_SIZE
    sbrk_calls := 4 * WORD_SIZE :: s.sbrk_calls
    heap_ptr := s.mem_brk + 3 * WORD_SIZE
    free_lists := fun i => if i < NUM_SIZE_CLASSES then NULL else s.free_lists i }

/-- The lists of the state reached by a successful `mm_init`. -/
def init_lists (a : Nat) : Nat → List Nat := fun i => if i = 7 then [a] else []

/-! ## The scan finds the first fit -/

/-- Result of the scan of one list: `NULL` when no node fits, otherwise the
first node that fits. -/
def FirstFit (m : Mem) (size : Nat) (xs : List Nat) (r : Nat) : Prop :=
  (r = NULL ∧ ∀ x, x ∈ xs → get_size m x < size) ∨
    (r ≠ NULL ∧ size ≤ get_size m r ∧
      ∃ ys zs, xs = ys ++ r :: zs ∧ ∀ y, y ∈ ys → get_size m y < size)

/-- Result of the scan of the lists `index, index + 1, ..`: `NULL` when no node
of these lists fits, otherwise the first fit of the first list that has one. -/
def FirstFitLists (s : Heap) (L : Nat → List Nat) (size index k : Nat) (r : Nat) : Prop :=
  (r = NULL ∧ ∀ i, index ≤ i → i < index + k → i < 9 → ∀ x, x ∈ L i → get_size s.mem x < size) ∨
    (r ≠ NULL ∧ ∃ i, index ≤ i ∧ i < index + k ∧ i < 9 ∧ FirstFit s.mem size (L i) r ∧
      ∀ j, index ≤ j → j < i → ∀ x, x ∈ L j → get_size s.mem x < size)

/-! ## A concrete arena -/

/-- An empty arena of 1 MiB at address 4096, all bytes zero. -/
def ex_s0 : Heap :=
  { mem := fun _ => 0, mem_heap := 4096, mem_brk := 4096, mem_max_addr := 1052672,
    sbrk_calls := [], free_lists := fun _ => 0, heap_ptr := 0 }

/-- The arena after `mm_init`. -/
def ex_s1 : Heap := (mm_init ex_s0).2

/-- Result of `malloc(100)` on the initialised arena. -/
def ex_r1 : Nat × Heap := (malloc 2 100 ex_s1).getD (NULL, ex_s1)

def ex_p1 : Nat := ex_r1.1

def ex_s2 : Heap := ex_r1.2

/-- An empty arena at address 4096 that has room for `mm_init` and no more. -/
def ex_t0 : Heap :=
  { mem := fun _ => 0, mem_heap := 4096, mem_brk := 4096, mem_max_addr := 8208,
    sbrk_calls := [], free_lists := fun _ => 0, heap_ptr := 0 }

def ex_t1 : Heap := (mm_init ex_t0).2

/-- The free remainder of the initial chunk after `malloc(100)`. -/
def ex_free : Blk := ⟨4220, 3984, 0⟩

/-- The block handed out by `malloc(100)` on the initialised arena. -/
def ex_used : Blk := ⟨4108, 112, 1⟩

/-- Result of `realloc(p1, 200)` after `p1 = malloc(100)`. -/
def ex_r2 : Nat × Heap := (realloc 2 ex_p1 200 ex_s2).getD (NULL, ex_s2)

def ex_q : Nat := ex_r2.1

def ex_s3 : Heap := ex_r2.2

/-- Result of `realloc(p1, 2^32)` after `p1 = malloc(100)`. -/
def ex_r3 : Nat × Heap := (realloc 2 ex_p1 4294967296 ex_s2).getD (NULL, ex_s2)

/-- A state whose memory holds the byte 255 everywhere. -/
def ex_u : Heap :=
  { mem := fun _ => 255, mem_heap := 4096, mem_brk := 4096, mem_max_addr := 1052672,
    sbrk_calls := [], free_lists := fun _ => 0, heap_ptr := 0 }

/-- Result of a second `malloc(100)`. -/
def ex_r4 : Nat × Heap := (malloc 2 100 ex_s2).getD (NULL, ex_s2)

/-- Result of a third `malloc(100)`. -/
def ex_r5 : Nat × Heap := (malloc 2 100 ex_r4.2).getD (NULL, ex_r4.2)

/-- The arena after three calls `malloc(100)`. -/
def ex_w : Heap := ex_r5.2

end MM

namespace Bits

/-! # assign4/bits.c: `make_set` and `is_single` -/

/-- `make_set`: the loop `set |= (0x1 << values[i])` over the first `nvalues`
entries, `set` being an `unsigned short`; `none` when the `assert` fails (or
the array is shorter than `nvalues`). -/
def make_set_loop : List Int → Nat → Nat → Option Nat
  | _, 0, set => some set
  | [], _ + 1, _ => none
  | v :: values, n + 1, set =>
    if v > 0 ∧ v ≤ 9 then make_set_loop values n ((set ||| (0x1 <<< v.toNat)) % 2 ^ 16)
    else none

def make_set (values : List Int) (nvalues : Nat) : Option Nat := make_set_loop values nvalues 0x0

/-- `is_single`: the arguments are `unsigned short`; `~` and `- 1` are computed
on `int` (32 bit, two's complement) after integer promotion. -/
def is_single (used_in_row used_in_col used_in_block : Nat) : Option Bool :=
  match make_set [1, 2, 3, 4, 5, 6, 7, 8, 9] 9 with
  | none => none
  | some mask =>
    let used_in_row := (used_in_row % 2 ^ 16) &&& mask
    let used_in_col := (used_in_col % 2 ^ 16) &&& mask
    let used_in_block := (used_in_block % 2 ^ 16) &&& mask
    let digits_possible :=
      ((2 ^ 32 - 1 - (used_in_row ||| used_in_col ||| used_in_block)) &&& mask) % 2 ^ 16
    if digits_possible &&& ((digits_possible + (2 ^ 32 - 1)) % 2 ^ 32) = 0 then some true
    else some false

/-- The digits in 1..9 that are in none of the three sets (bit `d` stands for
digit `d`). -/
def unused_digits (used_in_row used_in_col used_in_block : Nat) : List Nat :=
  (List.range' 1 9).filter
    (fun d => ! (used_in_row ||| used_in_col ||| used_in_block).testBit d)

/-- `is_single` as a function of the bits 1..9 of the union of the sets. -/
def single_of_union (v : Nat) : Bool :=
  decide ((((2 ^ 32 - 1 - v) &&& 1022) % 2 ^ 16) &&&
    (((((2 ^ 32 - 1 - v) &&& 1022) % 2 ^ 16) + (2 ^ 32 - 1)) % 2 ^ 32) = 0)

/-! # assign4/bits.c: `cmp_bits`, `sat_add_signed` and `sat_add_unsigned` -/

/-- One counting loop of `cmp_bits`: `while (a != 0x0) { if (a & 0x1) a_on++;
a >>= 1; }` on a signed `int`; `>>` on a negative `int` is the arithmetic shift
(sign extension), as gcc and clang define it. `none`: the fuel ran out. -/
def cmp_bits_loop : Nat → Int → Int → Option Int
  | 0, _, _ => none
  | fuel + 1, a, a_on =>
    if a ≠ 0x0 then
      cmp_bits_loop fuel (a >>> (1 : Nat)) (if Int.land a 0x1 ≠ 0 then a_on + 1 else a_on)
    else some a_on

/-- `cmp_bits`: the loop for `a`, then the loop for `b`, then `a_on - b_on`. -/
def cmp_bits (fuel : Nat) (a b : Int) : Option Int :=
  match cmp_bits_loop fuel a 0 with
  | none => none
  | some a_on =>
    match cmp_bits_loop fuel b 0 with
    | none => none
    | some b_on => some (a_on - b_on)

/-- Number of 1 bits in the 32-bit two's-complement representation of `a`. -/
def on_bits (a : Int) : Nat :=
  ((List.range 32).filter (fun i => (a % 2 ^ 32).toNat.testBit i)).length

/-- Conversion of an `int` to `stype` (`signed char`), wrapping modulo 256. -/
def to_stype (x : Int) : Int := (x + 128) % 256 - 128

/-- Conversion of an `int` to `utype` (`unsigned char`). -/
def to_utype (x : Int) : Int := x % 256

/-- `sat_add_signed`: arguments and locals are 8 bits wide, every operation is
done on `int` after integer promotion. -/
def sat_add_signed (a b : Int) : Int :=
  let max_u := to_utype (0x0 - 1)
  let max_u := to_utype (max_u / 2)
  let max := to_stype max_u
  let min := to_stype (max + 1)
  if b > max - a then max
  else if b < min - a then min
  else to_stype (a + b)

/-- `sat_add_unsigned`. -/
def sat_add_unsigned (a b : Int) : Int :=
  let result := to_utype (a + b)
  if result < a then to_utype (0x0 - 1)
  else result

end Bits

namespace CMap

/-! # assign3/cmap.c: `cmap_put` and `cmap_get`

A bucket is a singly linked list of blobs; it is modelled by the list of its
blobs in link order, a `NULL` bucket being the empty list, and a pointer to a
blob of a bucket by the position of the blob. A key is the list of the
characters before the terminating NUL, a value the list of its bytes. A call
that aborts on an `assert` or whose behaviour is undefined yields `none`. -/

def INT_MAX : Int := 2147483647

/-- Conversion of a `size_t` or `unsigned long` to `int`: wraps modulo 2^32. -/
def to_int (x : Nat) : Int := ((x : Int) + 2 ^ 31) % 2 ^ 32 - 2 ^ 31

/-- A blob of a bucket: the `next` pointer is the rest of the list. -/
structure blob where
  key : List Nat
  val : List Nat
deriving DecidableEq

/-- The fields of `struct cmap_implementation`; `buckets i` is the chain
hanging off `buckets[i]`. The cleanup callback belongs to the client and does
not touch the map. -/
structure cmap where
  val_size : Nat
  num_buckets : Int
  num_entries : Int
  buckets : Nat → List blob

def MULTIPLIER : Nat := 2630849305

/-- The loop of `hash`: `hashcode = hashcode * MULTIPLIER + string[i]` on
`unsigned long`; a `char` is signed and is sign-extended. -/
def hash_loop : List Nat → Nat → Nat
  | [], hashcode => hashcode
  | c :: string, hashcode =>
    hash_loop string
      ((hashcode * MULTIPLIER + (if c < 128 then c else 2 ^ 64 - 256 + c)) % 2 ^ 64)

/-- `hash`: `hashcode % num_buckets` is computed on `unsigned long` and then
converted to `int`. -/
def hash (string : List Nat) (num_buckets : Int) : Int :=
  to_int (hash_loop string 0 % (num_buckets % 2 ^ 64).toNat)

/-- `create_blob`: `malloc(num_bytes)` with `num_bytes` an `int`; the link, the
key with its NUL and `val_size` bytes of the value are then written, which is
within the allocation only when `num_bytes` is the untruncated byte count. -/
def create_blob (m : cmap) (key val : List Nat) : Option blob :=
  let num_bytes := to_int ((8 + key.length + 1 + m.val_size) % 2 ^ 64)
  if num_bytes = ((8 + key.length + 1 + m.val_size : Nat) : Int) then
    some ⟨key, val.take m.val_size⟩
  else none

/-- `search_bucket`: the first blob of the chain whose key compares equal. -/
def search_bucket : List blob → List Nat → Option Nat
  | [], _ => none
  | b :: rest, key =>
    if b.key = key then some 0
    else
      match search_bucket rest key with
      | none => none
      | some pos => some (pos + 1)

/-- `insert_blob`: follows the links to the last blob and hangs the new blob
on it. -/
def insert_blob : List blob → blob → Option (List blob)
  | [], _ => none
  | [b], new_blob => some [b, new_blob]
  | b :: c :: rest, new_blob =>
    match insert_blob (c :: rest) new_blob with
    | none => none
    | some l => some (b :: l)

/-- The `memcpy` of `val_size` bytes over the value of the blob at `pos`. -/
def put_val : List blob → Nat → List Nat → List blob
  | [], _, _ => []
  | b :: rest, 0, val => ⟨b.key, val⟩ :: rest
  | b :: rest, pos + 1, val => b :: put_val rest pos val

/-- The value stored in the blob at `pos`, as read through `get_val_addr`. -/
def get_val : List blob → Nat → Option (List Nat)
  | [], _ => none
  | b :: _, 0 => some b.val
  | _ :: rest, pos + 1 => get_val rest pos

/-- `cmap_get`: `none` is the `NULL` result, `some v` the value found at the
returned address. -/
def cmap_get (m : cmap) (key : List Nat) : Option (List Nat) :=
  let index := hash key m.num_buckets
  if m.buckets index.toNat ≠ [] then
    match search_bucket (m.buckets index.toNat) key with
    | some pos => get_val (m.buckets index.toNat) pos
    | none => none
  else none

def cmap_count (m : cmap) : Int := m.num_entries

/-- `cmap_put`. The index must be within `buckets`, and `num_entries++` must
not overflow. -/
def cmap_put (m : cmap) (key val : List Nat) : Option cmap :=
  let index := hash key m.num_buckets
  if ¬ (0 ≤ index ∧ index < m.num_buckets) then none
  else if m.buckets index.toNat = [] then
    match create_blob m key val with
    | none => none
    | some b =>
      if m.num_entries + 1 > INT_MAX then none
      else some ⟨m.val_size, m.num_buckets, m.num_entries + 1,
        Function.update m.buckets index.toNat [b]⟩
  else
    match search_bucket (m.buckets index.toNat) key with
    | some pos =>
      some ⟨m.val_size, m.num_buckets, m.num_entries,
        Function.update m.buckets index.toNat
          (put_val (m.buckets index.toNat) pos (val.take m.val_size))⟩
    | none =>
      match create_blob m key val with
      | none => none
      | some b =>
        match insert_blob (m.buckets index.toNat) b with
        | none => none
        | some l =>
          if m.num_entries + 1 > INT_MAX then none
          else some ⟨m.val_size, m.num_buckets, m.num_entries + 1,
            Function.update m.buckets index.toNat l⟩

/-- What `cmap_get` finds in one bucket. -/
def bucket_get (bs : List blob) (key : List Nat) : Option (List Nat) :=
  match search_bucket bs key with
  | some pos => get_val bs pos
  | none => none

/-- A map with 10 buckets and 4-byte values, holding nothing. -/
def ex_map : cmap := ⟨4, 10, 0, fun _ => []⟩

/-- A map whose values are 4 GiB wide. -/
def ex_wide : cmap := ⟨4294967296, 10, 0, fun _ => []⟩

end CMap

namespace CVec

/-! # assign3/cvector.c: `cvec_insert`

The element buffer `elems` is modelled by its bytes, addressed by their offset
from `elems`, together with the size in bytes of the allocation; an address
inside the buffer is its offset. A call that aborts on an `assert`, overflows
an `int` or writes outside the allocation yields `none`. -/

def INT_MAX : Int := 2147483647

/-- The fields of `struct cvec_implementation`, the cleanup callback apart;
`alloc` is the size of the allocation behind `elems`. -/
structure cvector where
  elem_size : Nat
  cap_hint : Int
  capacity : Int
  num_elems : Int
  alloc : Nat
  elems : Nat → Nat

/-- Conversion of an `int` to `size_t`. -/
def to_size (x : Int) : Nat := (x % 2 ^ 64).toNat

/-- `get_elem_addr`: `elems + index * elem_size`, the product taken in
`size_t`. -/
def get_elem_addr (v : cvector) (index : Int) : Nat :=
  (to_size index * v.elem_size) % 2 ^ 64

/-- `cvec_nth`: the offset of element `index`, behind the `assert`. -/
def cvec_nth (v : cvector) (index : Int) : Option Nat :=
  if index ≥ 0 ∧ index < v.num_elems then some (get_elem_addr v index) else none

def cvec_count (v : cvector) : Int := v.num_elems

/-- `grow`: doubles `capacity` (an `int`) and calls `realloc` for
`capacity * elem_size` bytes. `fresh` is the answer of `realloc`: `none` when
it returns `NULL` (the `assert` then fails), otherwise the bytes found beyond
the part of the old buffer that is kept. -/
def grow (fresh : Option (Nat → Nat)) (v : cvector) : Option cvector :=
  if 2 * v.capacity > INT_MAX ∨ 2 * v.capacity < - INT_MAX - 1 then none
  else
    match fresh with
    | none => none
    | some junk =>
      some ⟨v.elem_size, v.cap_hint, 2 * v.capacity, v.num_elems,
        (to_size (2 * v.capacity) * v.elem_size) % 2 ^ 64,
        fun a =>
          if a < v.alloc ∧ a < (to_size (2 * v.capacity) * v.elem_size) % 2 ^ 64 then v.elems a
          else junk a⟩

/-- `memcpy(elems + dest, src, n)` from a buffer of the caller. -/
def memcpy (v : cvector) (dest : Nat) (src : List Nat) (n : Nat) : Option cvector :=
  if dest + n ≤ v.alloc then
    some ⟨v.elem_size, v.cap_hint, v.capacity, v.num_elems, v.alloc,
      fun a => if dest ≤ a ∧ a < dest + n then src.getD (a - dest) 0 else v.elems a⟩
  else none

/-- `memmove(elems + dest, elems + src, n)` within the buffer. -/
def memmove (v : cvector) (dest src n : Nat) : Option cvector :=
  if dest + n ≤ v.alloc ∧ src + n ≤ v.alloc then
    some ⟨v.elem_size, v.cap_hint, v.capacity, v.num_elems, v.alloc,
      fun a => if dest ≤ a ∧ a < dest + n then v.elems (a - dest + src) else v.elems a⟩
  else none

/-- `num_elems++` / `num_elems--` on an `int`. -/
def set_num_elems (v : cvector) (n : Int) : Option cvector :=
  if n > INT_MAX ∨ n < - INT_MAX - 1 then none
  else some ⟨v.elem_size, v.cap_hint, v.capacity, n, v.alloc, v.elems⟩

/-- `shift_elems`. -/
def shift_elems (v : cvector) (index : Int) (up : Bool) : Option cvector :=
  (cvec_nth v index).bind fun src =>
  (cvec_nth v (v.num_elems - 1)).bind fun last =>
  let num_bytes := to_size ((last : Int) + v.elem_size - src)
  if up then
    (set_num_elems v (v.num_elems + 1)).bind fun v1 =>
    (cvec_nth v1 (index + 1)).bind fun dest =>
    memmove v1 dest src num_bytes
  else
    (set_num_elems v (v.num_elems - 1)).bind fun v1 =>
    (cvec_nth v1 (index - 1)).bind fun dest =>
    memmove v1 dest src num_bytes

/-- `cvec_append`. -/
def cvec_append (fresh : Option (Nat → Nat)) (v : cvector) (elem : List Nat) :
    Option cvector :=
  (if v.num_elems = v.capacity then grow fresh v else some v).bind fun v1 =>
  (set_num_elems v1 (v1.num_elems + 1)).bind fun v2 =>
  (cvec_nth v2 (v2.num_elems - 1)).bind fun new_elem_addr =>
  memcpy v2 new_elem_addr elem v2.elem_size

/-- `cvec_insert`. -/
def cvec_insert (fresh : Option (Nat → Nat)) (v : cvector) (elem : List Nat) (index : Int) :
    Option cvector :=
  if ¬ (index ≥ 0 ∧ index ≤ v.num_elems) then none
  else
    (if v.num_elems = v.capacity then grow fresh v else some v).bind fun v1 =>
    if index = v1.num_elems then cvec_append fresh v1 elem
    else
      (shift_elems v1 index true).bind fun v2 =>
      (cvec_nth v2 index).bind fun new_elem_addr =>
      memcpy v2 new_elem_addr elem v2.elem_size

/-- The bytes of the element at the address `cvec_nth` returns. -/
def nth_value (v : cvector) (index : Int) : Option (List Nat) :=
  (cvec_nth v index).bind fun addr =>
  some ((List.range v.elem_size).map fun k => v.elems (addr + k))

/-- A vector as `cvec_create` and the operations leave it: the buffer holds
`capacity` elements of `elem_size` bytes and is smaller than 2^63 bytes. -/
structure WF (v : cvector) : Prop where
  es_pos : 0 < v.elem_size
  cap_pos : 0 < v.capacity
  cap_le : v.capacity ≤ INT_MAX
  num_lo : 0 ≤ v.num_elems
  num_hi : v.num_elems ≤ v.capacity
  size : v.alloc = v.capacity.toNat * v.elem_size
  room : v.alloc < 2 ^ 63

/-- A full vector of four one-byte elements 10, 11, 12, 13. -/
def ex_vec : cvector := ⟨1, 4, 4, 4, 4, fun a => a + 10⟩

/-- A full vector of 2^30 one-byte elements. -/
def ex_big : cvector := ⟨1, 1073741824, 1073741824, 1073741824, 1073741824, fun _ => 0⟩

/-- The buffer after `elem` has been inserted before element `i` of `n`. -/
def inserted (e : Nat → Nat) (es : Nat) (elem : List Nat) (i n : Nat) : Nat → Nat :=
  fun a =>
    if i * es ≤ a ∧ a < i * es + es then elem.getD (a - i * es) 0
    else if (i + 1) * es ≤ a ∧ a < (n + 1) * es then e (a - es)
    else e a

end CVec

namespace MM

/-! ## A heap on which first fit is not best fit -/

/-- Result of `malloc(40)` on the freshly initialised example arena. -/
def ex_a1 : Nat × Heap := (malloc 2 40 ex_s1).getD (NULL, ex_s1)

/-- Result of a following `malloc(24)`. -/
def ex_a2 : Nat × Heap := (malloc 2 24 ex_a1.2).getD (NULL, ex_a1.2)

/-- Result of a following `malloc(56)`. -/
def ex_a3 : Nat × Heap := (malloc 2 56 ex_a2.2).getD (NULL, ex_a2.2)

/-- Result of a following `malloc(24)`. -/
def ex_a4 : Nat × Heap := (malloc 2 24 ex_a3.2).getD (NULL, ex_a3.2)

/-- The arena after the four calls and `free` of the first block. -/
def ex_f1 : Heap := free (4108 + 4) ex_a4.2

/-- The arena after `free` of the third block as well: list 1 holds the block
of 64 bytes before the block of 48 bytes. -/
def ex_ff : Heap := free (4188 + 4) ex_f1

/-- The state `s'` holds the blocks `pre ++ m :: post`, where `m` is a free
block whose header and footer hold its tag and which is the head of the list
of its size class, before the nodes `L` of that list; the other lists are
`L`. -/
def Coalesced (s' : Heap) (pre : List Blk) (m : Blk) (post : List Blk)
    (L : Nat → List Nat) : Prop :=
  heap_blocks s' = pre ++ m :: post ∧ m.alloc = 0 ∧
    get_u32 s'.mem m.addr = make_btag m.size 0 ∧
    get_u32 s'.mem (m.addr + m.size - 4) = make_btag m.size 0 ∧
    free_list s' (get_free_lists_index m.size) = m.addr :: L (get_free_lists_index m.size) ∧
    ∀ i, i < 9 → i ≠ get_free_lists_index m.size → free_list s' i = L i

/-- Result of `malloc(4080)` on the freshly initialised example arena: the
whole block of 4096 bytes is handed out. -/
def ex_b1 : Nat × Heap := (malloc 2 4080 ex_s1).getD (NULL, ex_s1)

/-- The example arena with its only block allocated. -/
def ex_full : Heap := ex_b1.2

/-! ## Payload isolation -/

/-- Block `c` of state `s` is still a block of `s'`, and none of its bytes
(header, payload, footer) has changed. -/
def Kept (c : Blk) (s s' : Heap) : Prop :=
  c ∈ heap_blocks s' ∧ ∀ x, c.addr ≤ x → x < c.addr + c.size → s'.mem x = s.mem x

end MM

namespace IFL

/-! ## The implicit-free-list allocator of `src/assign7/mm_ifl.c`: `coalesce` -/

def WORD_SIZE : Nat := 4

def DWORD_SIZE : Nat := 8

/-- `pack`: `size | alloc` with `size_t size` and `unsigned char alloc`,
returned as `unsigned int`. -/
def pack (size alloc : Nat) : Nat := (size ||| alloc % 256) % 2 ^ 32

/-- `put`: `* (unsigned int *) mem_addr = val`. -/
def put (m : MM.Mem) (mem_addr val : Nat) : MM.Mem := MM.put_u32 m mem_addr val

/-- `get`: `* (unsigned int *) mem_addr`. -/
def get (m : MM.Mem) (mem_addr : Nat) : Nat := MM.get_u32 m mem_addr

/-- `get_size`: `get(mem_addr) & ~0x7`. -/
def get_size (m : MM.Mem) (mem_addr : Nat) : Nat := get m mem_addr &&& 0xFFFFFFF8

/-- `get_alloc`: `get(mem_addr) & 0x1`. -/
def get_alloc (m : MM.Mem) (mem_addr : Nat) : Nat := get m mem_addr &&& 0x1

def get_hdr_addr (blk_ptr : Nat) : Nat := MM.sub64 blk_ptr WORD_SIZE

def get_ftr_addr (m : MM.Mem) (blk_ptr : Nat) : Nat :=
  MM.sub64 (MM.add64 blk_ptr (get_size m (get_hdr_addr blk_ptr))) DWORD_SIZE

def get_next_blk_ptr (m : MM.Mem) (blk_ptr : Nat) : Nat :=
  MM.add64 blk_ptr (get_size m (MM.sub64 blk_ptr WORD_SIZE))

def get_prev_blk_ptr (m : MM.Mem) (blk_ptr : Nat) : Nat :=
  MM.sub64 blk_ptr (get_size m (MM.sub64 blk_ptr DWORD_SIZE))

/-- `coalesce(blk_ptr)` of mm_ifl.c: the returned pointer and the memory after
the call. -/
def coalesce (blk_ptr : Nat) (m : MM.Mem) : Nat × MM.Mem :=
  let prev_alloc := get_alloc m (get_ftr_addr m (get_prev_blk_ptr m blk_ptr))
  let next_alloc := get_alloc m (get_hdr_addr (get_next_blk_ptr m blk_ptr))
  let size := get_size m (get_hdr_addr blk_ptr)
  if prev_alloc ≠ 0 ∧ next_alloc ≠ 0 then (blk_ptr, m)
  else if prev_alloc ≠ 0 ∧ next_alloc = 0 then
    let size1 := MM.add64 size (get_size m (get_hdr_addr (get_next_blk_ptr m blk_ptr)))
    let m1 := put m (get_hdr_addr blk_ptr) (pack size1 0)
    let m2 := put m1 (get_ftr_addr m1 blk_ptr) (pack size1 0)
    (blk_ptr, m2)
  else if prev_alloc = 0 ∧ next_alloc ≠ 0 then
    let size1 := MM.add64 size (get_size m (get_hdr_addr (get_prev_blk_ptr m blk_ptr)))
    let m1 := put m (get_hdr_addr (get_prev_blk_ptr m blk_ptr)) (pack size1 0)
    let m2 := put m1 (get_ftr_addr m1 blk_ptr) (pack size1 0)
    (get_prev_blk_ptr m2 blk_ptr, m2)
  else
    let size1 := MM.add64 size
      ((get_size m (get_hdr_addr (get_prev_blk_ptr m blk_ptr)) +
        get_size m (get_hdr_addr (get_next_blk_ptr m blk_ptr))) % 2 ^ 32)
    let m1 := put m (get_hdr_addr (get_prev_blk_ptr m blk_ptr)) (pack size1 0)
    let m2 := put m1 (get_ftr_addr m1 (get_next_blk_ptr m1 blk_ptr)) (pack size1 0)
    (blk_ptr, m2)

/-- The blocks around the free block with payload pointer `b` and size `sz`:
the previous block has size `sp` and allocation bit `pa` in header and footer,
the next block has size `sn` and allocation bit `na` in its header; the block
at `b` carries the tag (`sz`, free) in header and footer, as `free` and
`extend_heap` leave it before they call `coalesce`. -/
def Around (m : MM.Mem) (b sp pa sz sn na : Nat) : Prop :=
  sp + 4 ≤ b ∧ b + sz + sn < 2 ^ 64 ∧ sp + sz + sn < 2 ^ 32 ∧
  sp % 8 = 0 ∧ sz % 8 = 0 ∧ sn % 8 = 0 ∧ 8 ≤ sp ∧ 8 ≤ sz ∧ pa ≤ 1 ∧ na ≤ 1 ∧
  get m (b - 8) = sp + pa ∧ get m (b - sp - 4) = sp + pa ∧
  get m (b - 4) = sz ∧ get m (b + sz - 8) = sz ∧ get m (b + sz - 4) = sn + na

/-- Three free blocks of 16 bytes in a row, with payload pointers 16, 32, 48. -/
def ex_mem : MM.Mem :=
  put (put (put (put (put (put (fun _ => 0) 12 16) 24 16) 28 16) 40 16) 44 16) 56 16

end IFL

namespace MM

/-! ## The consistency check `mm_checkheap` of the DEBUG build -/

/-- The statement `num_free_blks[i]++` on an array of `size_t`. -/
def bump (num_free_blks : Nat → Nat) (i : Nat) : Nat → Nat :=
  fun j => if j = i then add64 (num_free_blks j) 1 else num_free_blks j

/-- The block loop of `mm_checkheap`, from `blk_ptr` to the epilogue. `none`:
the fuel ran out; `some none`: the check printed its message and called
`exit(1)`; `some (some num)`: the epilogue was reached with the counters
`num_free_blks`. -/
def check_blocks : Nat → Mem → Nat → (Nat → Nat) → Option (Option (Nat → Nat))
  | 0, _, _, _ => none
  | fuel + 1, m, blk_ptr, num_free_blks =>
    if get_size m blk_ptr = 0 ∧ get_alloc m blk_ptr = 1 then some (some num_free_blks)
    else if get_size m (get_ftr_addr m blk_ptr) ≠ get_size m blk_ptr ∧
        get_alloc m (get_ftr_addr m blk_ptr) ≠ get_alloc m blk_ptr then some none
    else
      check_blocks fuel m (get_next_hdr_addr m blk_ptr)
        (if get_alloc m blk_ptr = 0 then
          bump num_free_blks (get_free_lists_index (get_size m blk_ptr))
        else num_free_blks)

/-- The inner loop of the free-list check: `blk_count` after following
`next_hdr_addr` from `free_blk_ptr` to `NULL`. -/
def count_list : Nat → Mem → Nat → Nat → Option Nat
  | 0, _, _, _ => none
  | fuel + 1, m, free_blk_ptr, blk_count =>
    if free_blk_ptr ≠ NULL then
      count_list fuel m (get_next_free m free_blk_ptr) (add64 blk_count 1)
    else some blk_count

/-- The outer loop of the free-list check, from `index` on; the first argument
bounds the number of iterations. `some false` is `exit(1)`. -/
def check_lists (fuel : Nat) (m : Mem) (free_lists : Nat → Nat) (num_free_blks : Nat → Nat) :
    Nat → Nat → Option Bool
  | 0, _ => some true
  | k + 1, index =>
    if index < NUM_SIZE_CLASSES then
      match count_list fuel m (free_lists index) 0 with
      | none => none
      | some blk_count =>
        if blk_count ≠ num_free_blks index then some false
        else check_lists fuel m free_lists num_free_blks k (index + 1)
    else some true

/-- `mm_checkheap`: `some true` when it prints "Heap seems okay.", `some false`
when it ends the process with `exit(1)`, `none` when the fuel ran out. -/
def mm_checkheap (fuel : Nat) (s : Heap) : Option Bool :=
  if get_u32 s.mem (sub64 s.heap_ptr DWORD_SIZE) ≠ 9 then some false
  else if get_u32 s.mem (sub64 s.heap_ptr WORD_SIZE) ≠ 9 then some false
  else
    match check_blocks fuel s.mem s.heap_ptr (fun _ => 0) with
    | none => none
    | some none => some false
    | some (some num_free_blks) =>
      check_lists fuel s.mem s.free_lists num_free_blks NUM_SIZE_CLASSES 0

/-- The counters after the block loop has passed the blocks `bs`. -/
def tally : List Blk → (Nat → Nat) → Nat → Nat
  | [], num => num
  | b :: bs, num =>
    tally bs (if b.alloc = 0 then bump num (get_free_lists_index b.size) else num)

/-- The footer of `b` agrees with the header in the size or in the allocation
bit: the test of `mm_checkheap` lets the block pass. -/
def FtrWeak (m : Mem) (b : Blk) : Prop :=
  get_size m (b.addr + b.size - 4) = b.size ∨ get_alloc m (b.addr + b.size - 4) = b.alloc

end MM

/-! # Theorems -/

namespace MM

/-! ## Arithmetic facts about tags -/

theorem and_mask_eq (x : Nat) (hx : x < 2 ^ 32) : x &&& 0xFFFFFFF8 = x / 8 * 8 := by
  apply Nat.eq_of_testBit_eq
  intro i
  have h8 : x / 8 * 8 = 2 ^ 3 * (x >>> 3) := by
    rw [Nat.shiftRight_eq_div_pow]; omega
  rw [h8, Nat.testBit_and, Nat.testBit_mul_pow_two, Nat.testBit_shiftRight]
  by_cases hi : i < 32
  · by_cases h3 : 3 ≤ i
    · have e : 3 + (i - 3) = i := by omega
      have hb : Nat.testBit 4294967288 i = true := by
        interval_cases i <;> rfl
      simp [hb, h3, e]
    · have hb : Nat.testBit 4294967288 i = false := by
        interval_cases i <;> rfl
      simp [hb, h3]
  · have hx2 : x < 2 ^ i :=
      lt_of_lt_of_le hx (Nat.pow_le_pow_right (by norm_num) (by omega))
    have hb : Nat.testBit x i = false := Nat.testBit_lt_two_pow hx2
    have e : 3 + (i - 3) = i := by omega
    simp [hb, e]

theorem or_small (s a : Nat) (hs : s % 8 = 0) (ha : a < 8) : s ||| a = s + a := by
  have h := Nat.mul_add_lt_is_or (i := 3) (b := a) (by simpa using ha) (s / 8)
  have e : 2 ^ 3 * (s / 8) = s := by omega
  rw [e] at h
  exact h.symm

theorem make_btag_eq (size al : Nat) (hs : size % 8 = 0) (ha : al < 8)
    (hlt : size < 2 ^ 32) : make_btag size al = size + al := by
  unfold make_btag
  rw [or_small size al hs ha]
  omega

/-! ## Reading and writing memory -/

theorem read_u8_lt (m : Mem) (a : Nat) : read_u8 m a < 256 := by
  unfold read_u8; omega

theorem get_u32_lt (m : Mem) (a : Nat) : get_u32 m a < 2 ^ 32 := by
  have h0 := read_u8_lt m a
  have h1 := read_u8_lt m (a + 1)
  have h2 := read_u8_lt m (a + 2)
  have h3 := read_u8_lt m (a + 3)
  unfold get_u32; omega

theorem get_u64_lt (m : Mem) (a : Nat) : get_u64 m a < 2 ^ 64 := by
  have h0 := get_u32_lt m a
  have h1 := get_u32_lt m (a + 4)
  unfold get_u64; omega

theorem put_u32_out (m : Mem) (a v x : Nat) (h : x < a ∨ a + 4 ≤ x) :
    put_u32 m a v x = m x := by
  unfold put_u32
  have h0 : x ≠ a := by omega
  have h1 : x ≠ a + 1 := by omega
  have h2 : x ≠ a + 2 := by omega
  have h3 : x ≠ a + 3 := by omega
  simp [h0, h1, h2, h3]

theorem put_u64_out (m : Mem) (a v x : Nat) (h : x < a ∨ a + 8 ≤ x) :
    put_u64 m a v x = m x := by
  unfold put_u64
  rw [put_u32_out _ _ _ _ (by omega), put_u32_out _ _ _ _ (by omega)]

theorem get_u32_congr (m m' : Mem) (a : Nat)
    (h : ∀ x, a ≤ x → x < a + 4 → m' x = m x) : get_u32 m' a = get_u32 m a := by
  unfold get_u32 read_u8
  rw [h a (by omega) (by omega), h (a + 1) (by omega) (by omega),
    h (a + 2) (by omega) (by omega), h (a + 3) (by omega) (by omega)]

theorem get_u64_congr (m m' : Mem) (a : Nat)
    (h : ∀ x, a ≤ x → x < a + 8 → m' x = m x) : get_u64 m' a = get_u64 m a := by
  unfold get_u64
  rw [get_u32_congr m m' a (fun x h1 h2 => h x h1 (by omega)),
    get_u32_congr m m' (a + 4) (fun x h1 h2 => h x (by omega) (by omega))]

theorem get_u32_put_u32_same (m : Mem) (a v : Nat) :
    get_u32 (put_u32 m a v) a = v % 2 ^ 32 := by
  unfold get_u32 read_u8 put_u32
  simp
  omega

theorem get_u32_put_u32_ne (m : Mem) (a v b : Nat) (h : a + 4 ≤ b ∨ b + 4 ≤ a) :
    get_u32 (put_u32 m a v) b = get_u32 m b :=
  get_u32_congr _ _ _ (fun x h1 h2 => put_u32_out _ _ _ _ (by omega))

theorem get_u32_put_u64_ne (m : Mem) (a v b : Nat) (h : a + 8 ≤ b ∨ b + 4 ≤ a) :
    get_u32 (put_u64 m a v) b = get_u32 m b :=
  get_u32_congr _ _ _ (fun x h1 h2 => put_u64_out _ _ _ _ (by omega))

theorem get_u64_put_u32_ne (m : Mem) (a v b : Nat) (h : a + 4 ≤ b ∨ b + 8 ≤ a) :
    get_u64 (put_u32 m a v) b = get_u64 m b :=
  get_u64_congr _ _ _ (fun x h1 h2 => put_u32_out _ _ _ _ (by omega))

theorem get_u64_put_u64_ne (m : Mem) (a v b : Nat) (h : a + 8 ≤ b ∨ b + 8 ≤ a) :
    get_u64 (put_u64 m a v) b = get_u64 m b :=
  get_u64_congr _ _ _ (fun x h1 h2 => put_u64_out _ _ _ _ (by omega))

theorem get_u64_put_u64_same (m : Mem) (a v : Nat) :
    get_u64 (put_u64 m a v) a = v % 2 ^ 64 := by
  unfold get_u64 put_u64
  rw [get_u32_put_u32_ne _ _ _ _ (by omega), get_u32_put_u32_same,
    get_u32_put_u32_same]
  omega

attribute [irreducible] read_u8 write_u8 get_u32 put_u32 get_u64 put_u64

/-! ## The size-class index -/

theorem get_free_lists_index_loop_le (k size index : Nat) (h : index ≤ 8) :
    get_free_lists_index_loop k size index ≤ 8 := by
  induction k generalizing size index with
  | zero => simpa [get_free_lists_index_loop] using h
  | succ k ih =>
    unfold get_free_lists_index_loop
    split
    · rename_i hc
      have : index < 8 := by simpa [NUM_SIZE_CLASSES] using hc.2
      exact ih _ _ (by omega)
    · exact h

theorem get_free_lists_index_lt (n : Nat) : get_free_lists_index n < 9 := by
  have := get_free_lists_index_loop_le 8 ((sub64 n 1) >>> 5) 0 (by omega)
  have e : NUM_SIZE_CLASSES - 1 = 8 := rfl
  unfold get_free_lists_index
  rw [e]
  omega

/-! ## 64-bit arithmetic without wrap-around -/

theorem add64_eq (a b : Nat) (h : a + b < 2 ^ 64) : add64 a b = a + b := by
  unfold add64; omega

theorem sub64_eq (a b : Nat) (h : b ≤ a) (ha : a < 2 ^ 64) : sub64 a b = a - b := by
  unfold sub64; omega

theorem mul64_eq (a b : Nat) (h : a * b < 2 ^ 64) : mul64 a b = a * b := by
  unfold mul64; omega

/-! ## Tags -/

theorem get_size_of_tag (m : Mem) (a size al : Nat) (h : get_u32 m a = size + al)
    (hs : size % 8 = 0) (ha : al ≤ 1) : get_size m a = size := by
  unfold get_size
  rw [and_mask_eq _ (get_u32_lt m a), h]
  omega

theorem get_alloc_of_tag (m : Mem) (a size al : Nat) (h : get_u32 m a = size + al)
    (hs : size % 8 = 0) (ha : al ≤ 1) : get_alloc m a = al := by
  unfold get_alloc
  rw [Nat.and_one_is_mod, h]
  omega

theorem get_size_lt (m : Mem) (a : Nat) : get_size m a < 2 ^ 32 := by
  unfold get_size
  rw [and_mask_eq _ (get_u32_lt m a)]
  have := get_u32_lt m a
  omega

theorem get_size_mod (m : Mem) (a : Nat) : get_size m a % 8 = 0 := by
  unfold get_size
  rw [and_mask_eq _ (get_u32_lt m a)]
  omega

theorem get_alloc_le (m : Mem) (a : Nat) : get_alloc m a ≤ 1 := by
  unfold get_alloc
  rw [Nat.and_one_is_mod]
  omega

theorem get_size_congr (m m' : Mem) (a : Nat)
    (h : ∀ x, a ≤ x → x < a + 4 → m' x = m x) : get_size m' a = get_size m a := by
  unfold get_size; rw [get_u32_congr m m' a h]

theorem get_alloc_congr (m m' : Mem) (a : Nat)
    (h : ∀ x, a ≤ x → x < a + 4 → m' x = m x) : get_alloc m' a = get_alloc m a := by
  unfold get_alloc; rw [get_u32_congr m m' a h]

/-! ## Layout -/

theorem Layout_append (a e : Nat) (xs ys : List Blk) :
    Layout a (xs ++ ys) e ↔ ∃ mid, Layout a xs mid ∧ Layout mid ys e := by
  induction xs generalizing a with
  | nil =>
    constructor
    · intro h; exact ⟨a, rfl, h⟩
    · rintro ⟨mid, h1, h2⟩
      have : a = mid := h1
      subst this; exact h2
  | cons x xs ih =>
    simp only [List.cons_append, Layout]
    constructor
    · rintro ⟨h1, h2, h3, h4, h5⟩
      obtain ⟨mid, h6, h7⟩ := (ih _).1 h5
      exact ⟨mid, ⟨h1, h2, h3, h4, h6⟩, h7⟩
    · rintro ⟨mid, ⟨h1, h2, h3, h4, h6⟩, h7⟩
      exact ⟨h1, h2, h3, h4, (ih _).2 ⟨mid, h6, h7⟩⟩

theorem Layout_total (a e : Nat) (bs : List Blk) (h : Layout a bs e) :
    e = a + total_size bs := by
  induction bs generalizing a with
  | nil => simpa [total_size] using h.symm
  | cons b bs ih =>
    obtain ⟨h1, _, _, _, h5⟩ := h
    have := ih _ h5
    simp only [total_size, List.map_cons, List.sum_cons] at this ⊢
    omega

theorem Layout_le (a e : Nat) (bs : List Blk) (h : Layout a bs e) : a ≤ e := by
  have := Layout_total a e bs h; omega

theorem Layout_mem (a e : Nat) (bs : List Blk) (h : Layout a bs e) (b : Blk) (hb : b ∈ bs) :
    a ≤ b.addr ∧ b.addr + b.size ≤ e ∧ 24 ≤ b.size ∧ b.size % 8 = 0 ∧ b.alloc ≤ 1 ∧
      b.addr % 8 = a % 8 := by
  induction bs generalizing a with
  | nil => cases hb
  | cons c bs ih =>
    obtain ⟨h1, h2, h3, h4, h5⟩ := h
    rcases List.mem_cons.1 hb with rfl | hb
    · have := Layout_le _ _ _ h5
      refine ⟨by omega, by omega, h2, h3, h4, by omega⟩
    · have := ih _ h5 hb
      refine ⟨by omega, this.2.1, this.2.2.1, this.2.2.2.1, this.2.2.2.2.1, by omega⟩

theorem Layout_split (a e : Nat) (pre post : List Blk) (t : Blk)
    (h : Layout a (pre ++ t :: post) e) :
    Layout a pre t.addr ∧ Layout (t.addr + t.size) post e ∧ 24 ≤ t.size ∧ t.size % 8 = 0 ∧
      t.alloc ≤ 1 := by
  obtain ⟨mid, h1, h2⟩ := (Layout_append _ _ _ _).1 h
  obtain ⟨h3, h4, h5, h6, h7⟩ := h2
  subst h3
  exact ⟨h1, h7, h4, h5, h6⟩

theorem Layout_join (a e : Nat) (pre post : List Blk) (t : Blk)
    (h1 : Layout a pre t.addr) (h2 : Layout (t.addr + t.size) post e) (h3 : 24 ≤ t.size)
    (h4 : t.size % 8 = 0) (h5 : t.alloc ≤ 1) : Layout a (pre ++ t :: post) e :=
  (Layout_append _ _ _ _).2 ⟨t.addr, h1, rfl, h3, h4, h5, h2⟩

theorem Layout_disj (a e : Nat) (bs : List Blk) (h : Layout a bs e) (b c : Blk)
    (hb : b ∈ bs) (hc : c ∈ bs) :
    b = c ∨ b.addr + b.size ≤ c.addr ∨ c.addr + c.size ≤ b.addr := by
  induction bs generalizing a with
  | nil => cases hb
  | cons d bs ih =>
    obtain ⟨h1, h2, h3, h4, h5⟩ := h
    rcases List.mem_cons.1 hb with hb1 | hb1 <;> rcases List.mem_cons.1 hc with hc1 | hc1
    · left; rw [hb1, hc1]
    · have := Layout_mem _ _ _ h5 c hc1
      subst hb1
      right; left; omega
    · have := Layout_mem _ _ _ h5 b hb1
      subst hc1
      right; right; omega
    · exact ih _ h5 hb1 hc1

theorem Layout_inj (a e : Nat) (bs : List Blk) (h : Layout a bs e) (b c : Blk)
    (hb : b ∈ bs) (hc : c ∈ bs) (hbc : b.addr = c.addr) : b = c := by
  rcases Layout_disj a e bs h b c hb hc with h1 | h1 | h1
  · exact h1
  · have := Layout_mem a e bs h b hb; omega
  · have := Layout_mem a e bs h c hc; omega

theorem Layout_mem_pre (a e : Nat) (pre post : List Blk) (t : Blk)
    (h : Layout a (pre ++ t :: post) e) (b : Blk) (hb : b ∈ pre) :
    a ≤ b.addr ∧ b.addr + b.size ≤ t.addr := by
  have h1 := (Layout_split a e pre post t h).1
  have := Layout_mem _ _ _ h1 b hb
  exact ⟨this.1, this.2.1⟩

theorem Layout_mem_post (a e : Nat) (pre post : List Blk) (t : Blk)
    (h : Layout a (pre ++ t :: post) e) (b : Blk) (hb : b ∈ post) :
    t.addr + t.size ≤ b.addr ∧ b.addr + b.size ≤ e := by
  have h1 := (Layout_split a e pre post t h).2.1
  have := Layout_mem _ _ _ h1 b hb
  exact ⟨this.1, this.2.1⟩

/-- The hole `t` is none of the other blocks. -/
theorem Layout_not_mem (a e : Nat) (pre post : List Blk) (t : Blk)
    (h : Layout a (pre ++ t :: post) e) (b : Blk) (hb : b ∈ pre ++ post) :
    b.addr + b.size ≤ t.addr ∨ t.addr + t.size ≤ b.addr := by
  rcases List.mem_append.1 hb with hb | hb
  · exact Or.inl (Layout_mem_pre a e pre post t h b hb).2
  · exact Or.inr (Layout_mem_post a e pre post t h b hb).1

/-! ## Tags and links depend only on the bytes of their block -/

theorem TagOK_congr (m m' : Mem) (b : Blk) (hs : 8 ≤ b.size)
    (h : ∀ x, b.addr ≤ x → x < b.addr + b.size → m' x = m x) (ht : TagOK m b) :
    TagOK m' b := by
  unfold TagOK at *
  rw [get_u32_congr m m' b.addr (fun x h1 h2 => h x h1 (by omega)),
    get_u32_congr m m' (b.addr + b.size - 4) (fun x h1 h2 => h x (by omega) (by omega))]
  exact ht

theorem get_prev_free_congr (m m' : Mem) (a : Nat)
    (h : ∀ x, a + 4 ≤ x → x < a + 12 → m' x = m x) :
    get_prev_free m' a = get_prev_free m a := by
  unfold get_prev_free
  exact get_u64_congr m m' (a + 4) (fun x h1 h2 => h x h1 (by omega))

theorem get_next_free_congr (m m' : Mem) (a : Nat)
    (h : ∀ x, a + 12 ≤ x → x < a + 20 → m' x = m x) :
    get_next_free m' a = get_next_free m a := by
  unfold get_next_free
  exact get_u64_congr m m' (a + 12) (fun x h1 h2 => h x h1 (by omega))

theorem FSeg_congr (m m' : Mem) (p h t : Nat) (xs : List Nat)
    (hx : ∀ x, x ∈ xs → get_prev_free m' x = get_prev_free m x ∧
      get_next_free m' x = get_next_free m x)
    (hs : FSeg m p h xs t) : FSeg m' p h xs t := by
  induction xs generalizing p h with
  | nil => exact hs
  | cons x xs ih =>
    obtain ⟨h1, h2, h3, h4⟩ := hs
    have hx0 := hx x (List.mem_cons_self _ _)
    refine ⟨h1, h2, by rw [hx0.1]; exact h3, ?_⟩
    rw [hx0.2]
    exact ih _ _ (fun y hy => hx y (List.mem_cons_of_mem _ hy)) h4

theorem FSeg_append (m : Mem) (p h t : Nat) (xs ys : List Nat) :
    FSeg m p h (xs ++ ys) t ↔
      ∃ mid, FSeg m p h xs mid ∧ FSeg m (xs.getLastD p) mid ys t := by
  induction xs generalizing p h with
  | nil =>
    constructor
    · intro hs; exact ⟨h, rfl, hs⟩
    · rintro ⟨mid, h1, h2⟩
      have : h = mid := h1
      subst this; exact h2
  | cons x xs ih =>
    simp only [List.cons_append, FSeg]
    have e : (x :: xs).getLastD p = xs.getLastD x := by
      cases xs <;> simp [List.getLastD]
    rw [e]
    constructor
    · rintro ⟨h1, h2, h3, h4⟩
      obtain ⟨mid, h5, h6⟩ := (ih _ _).1 h4
      exact ⟨mid, ⟨h1, h2, h3, h5⟩, h6⟩
    · rintro ⟨mid, ⟨h1, h2, h3, h5⟩, h6⟩
      exact ⟨h1, h2, h3, (ih _ _).2 ⟨mid, h5, h6⟩⟩

theorem FSeg_ne_null (m : Mem) (p h t : Nat) (xs : List Nat) (hs : FSeg m p h xs t)
    (x : Nat) (hx : x ∈ xs) : x ≠ NULL := by
  induction xs generalizing p h with
  | nil => cases hx
  | cons y ys ih =>
    obtain ⟨_, h2, _, h4⟩ := hs
    rcases List.mem_cons.1 hx with rfl | hx
    · exact h2
    · exact ih _ _ h4 hx

theorem get_prev_free_lt (m : Mem) (a : Nat) : get_prev_free m a < 2 ^ 64 := get_u64_lt _ _

theorem get_next_free_lt (m : Mem) (a : Nat) : get_next_free m a < 2 ^ 64 := get_u64_lt _ _

attribute [irreducible] get_size get_alloc add64 sub64 mul64 make_btag get_free_lists_index
  get_prev_free get_next_free

/-! ## Unlinking a node from a doubly linked list -/

theorem getLastD_concat (xs : List Nat) (w p : Nat) : (xs ++ [w]).getLastD p = w := by
  induction xs generalizing p with
  | nil => rfl
  | cons x xs ih =>
    have e : (x :: xs ++ [w]).getLastD p = (xs ++ [w]).getLastD x := by
      cases xs <;> simp [List.getLastD]
    rw [e, ih]

theorem list_nil_or_snoc (xs : List Nat) : xs = [] ∨ ∃ xs' w, xs = xs' ++ [w] := by
  rcases List.eq_nil_or_concat xs with h0 | ⟨xs', w, h0⟩
  · exact Or.inl h0
  · exact Or.inr ⟨xs', w, by rw [h0, List.concat_eq_append]⟩

theorem list_nil_or_snoc' {α : Type} (xs : List α) : xs = [] ∨ ∃ xs' w, xs = xs' ++ [w] := by
  rcases List.eq_nil_or_concat xs with h0 | ⟨xs', w, h0⟩
  · exact Or.inl h0
  · exact Or.inr ⟨xs', w, by rw [h0, List.concat_eq_append]⟩

theorem FSeg_next_head (m : Mem) (p h : Nat) (ys : List Nat) (hs : FSeg m p h ys NULL) :
    h = ys.headD NULL := by
  cases ys with
  | nil => exact hs
  | cons z zs => exact hs.1

/-- The links of the nodes after the two stores of `remove_from_free_list`. -/
theorem unlink_mem (m : Mem) (h y : Nat) (xs ys : List Nat)
    (hl : FList m h (xs ++ y :: ys)) (hnd : (xs ++ y :: ys).Nodup)
    (hsep : ∀ a, a ∈ xs ++ y :: ys → ∀ b, b ∈ xs ++ y :: ys → a ≠ b → a + 24 ≤ b ∨ b + 24 ≤ a)
    (P N : Nat) (m1 m2 : Mem) (hPdef : P = xs.getLastD NULL) (hNdef : N = ys.headD NULL)
    (hm1def : m1 = if P = NULL then m else put_u64 m (P + 12) N)
    (hm2def : m2 = if N ≠ NULL then put_u64 m1 (N + 4) P else m1) :
    get_prev_free m y = P ∧ get_next_free m y = N ∧
    get_prev_free m1 y = P ∧ get_next_free m1 y = N ∧
    (P = NULL ↔ xs = []) ∧
    FList m2 (if P = NULL then N else h) (xs ++ ys) ∧
    (∀ x, (∀ a, a ∈ xs ++ ys → x < a + 4 ∨ a + 20 ≤ x) → m2 x = m x) ∧
    (∀ x, (∀ a, a ∈ xs ++ ys → x < a + 4 ∨ a + 20 ≤ x) → m1 x = m x) := by
  obtain ⟨mid, hA, hB⟩ := (FSeg_append m NULL h NULL xs (y :: ys)).1 hl
  obtain ⟨hB1, hy0, hB3, hB4⟩ := hB
  subst hB1
  rw [← hPdef] at hB3
  have hN : get_next_free m mid = N := by rw [hNdef]; exact FSeg_next_head m mid _ ys hB4
  have hPlt : P < 2 ^ 64 := by rw [← hB3]; exact get_prev_free_lt _ _
  have hNlt : N < 2 ^ 64 := by rw [← hN]; exact get_next_free_lt _ _
  have hnn : ∀ a, a ∈ xs ++ mid :: ys → a ≠ NULL := FSeg_ne_null m NULL h NULL _ hl
  have hymem : mid ∈ xs ++ mid :: ys := by simp
  have hdis := (List.nodup_append.1 hnd).2.2
  have hndy := (List.nodup_cons.1 (List.nodup_append.1 hnd).2.1)
  -- the predecessor
  have hPx : P = NULL ↔ xs = [] := by
    constructor
    · intro hP
      rcases list_nil_or_snoc xs with h0 | ⟨xs', w, h0⟩
      · exact h0
      · exfalso
        have hw : P = w := by rw [hPdef, h0]; exact getLastD_concat _ _ _
        exact hnn w (by rw [h0]; simp) (by rw [← hw]; exact hP)
    · intro h0; rw [hPdef, h0]; rfl
  have hPmem : P ≠ NULL → P ∈ xs := by
    intro hP
    rcases list_nil_or_snoc xs with h0 | ⟨xs', w, h0⟩
    · exact absurd (hPx.2 h0) hP
    · have hw : P = w := by rw [hPdef, h0]; exact getLastD_concat _ _ _
      rw [hw, h0]; simp
  have hNmem : N ≠ NULL → N ∈ ys := by
    intro hN0
    cases ys with
    | nil => exact absurd hNdef hN0
    | cons z zs => rw [hNdef]; simp
  have hPy : P ≠ NULL → (P + 24 ≤ mid ∨ mid + 24 ≤ P) := by
    intro hP
    have hm := hPmem hP
    refine hsep P (by simp [hm]) mid hymem ?_
    intro e
    rw [e] at hm
    exact hdis hm (List.mem_cons_self _ _)
  have hNy : N ≠ NULL → (N + 24 ≤ mid ∨ mid + 24 ≤ N) := by
    intro hN0
    have hm := hNmem hN0
    refine hsep N (by simp [hm]) mid hymem ?_
    intro e
    rw [e] at hm
    exact hndy.1 hm
  have hPN : P ≠ NULL → N ≠ NULL → (P + 24 ≤ N ∨ N + 24 ≤ P) := by
    intro hP hN0
    have hm := hPmem hP
    have hm2 := hNmem hN0
    refine hsep P (by simp [hm]) N (by simp [hm2]) ?_
    intro e
    rw [e] at hm
    exact hdis hm (List.mem_cons_of_mem _ hm2)
  -- byte-level description of the two stores
  have hm1 : ∀ x, (P = NULL ∨ x < P + 12 ∨ P + 20 ≤ x) → m1 x = m x := by
    intro x hx
    rw [hm1def]
    by_cases hP : P = NULL
    · rw [if_pos hP]
    · rw [if_neg hP]
      exact put_u64_out _ _ _ _ (by omega)
  have hm2 : ∀ x, (N = NULL ∨ x < N + 4 ∨ N + 12 ≤ x) → m2 x = m1 x := by
    intro x hx
    rw [hm2def]
    by_cases hN0 : N = NULL
    · rw [if_neg (by simpa using hN0)]
    · rw [if_pos hN0]
      exact put_u64_out _ _ _ _ (by omega)
  have hfr1 : ∀ x, (∀ a, a ∈ xs ++ ys → x < a + 4 ∨ a + 20 ≤ x) → m1 x = m x := by
    intro x hx
    apply hm1
    by_cases hP : P = NULL
    · exact Or.inl hP
    · have := hx P (by simp [hPmem hP]); omega
  have hfr2 : ∀ x, (∀ a, a ∈ xs ++ ys → x < a + 4 ∨ a + 20 ≤ x) → m2 x = m x := by
    intro x hx
    rw [hm2, hfr1 x hx]
    by_cases hN0 : N = NULL
    · exact Or.inl hN0
    · have := hx N (by simp [hNmem hN0]); omega
  -- links of an arbitrary node other than P and N are unchanged
  have hother : ∀ a, a ∈ xs ++ mid :: ys → a ≠ P → a ≠ N →
      get_prev_free m2 a = get_prev_free m a ∧ get_next_free m2 a = get_next_free m a := by
    intro a ha haP haN
    have h1 : P ≠ NULL → (a + 24 ≤ P ∨ P + 24 ≤ a) := fun hP =>
      hsep a ha P (by simp [hPmem hP]) haP
    have h2 : N ≠ NULL → (a + 24 ≤ N ∨ N + 24 ≤ a) := fun hN0 =>
      hsep a ha N (by simp [hNmem hN0]) haN
    have hb : ∀ x, a + 4 ≤ x → x < a + 20 → m2 x = m x := by
      intro x hx1 hx2
      rw [hm2, hm1]
      · by_cases hP : P = NULL
        · exact Or.inl hP
        · have := h1 hP; omega
      · by_cases hN0 : N = NULL
        · exact Or.inl hN0
        · have := h2 hN0; omega
    exact ⟨get_prev_free_congr m m2 a (fun x h1 h2 => hb x h1 (by omega)),
      get_next_free_congr m m2 a (fun x h1 h2 => hb x (by omega) h2)⟩
  have hy1p : get_prev_free m1 mid = P := by
    rw [get_prev_free_congr m m1 mid, hB3]
    intro x hx1 hx2
    apply hm1
    by_cases hP : P = NULL
    · exact Or.inl hP
    · have := hPy hP; omega
  have hy1n : get_next_free m1 mid = N := by
    rw [get_next_free_congr m m1 mid, hN]
    intro x hx1 hx2
    apply hm1
    by_cases hP : P = NULL
    · exact Or.inl hP
    · have := hPy hP; omega
  refine ⟨hB3, hN, hy1p, hy1n, hPx, ?_, hfr2, hfr1⟩
  -- the new list
  apply (FSeg_append m2 NULL _ NULL xs ys).2
  refine ⟨N, ?_, ?_⟩
  · -- the part before the removed node
    rcases list_nil_or_snoc xs with h0 | ⟨xs', w, h0⟩
    · rw [if_pos (hPx.2 h0), h0]; rfl
    · have hw : P = w := by rw [hPdef, h0]; exact getLastD_concat _ _ _
      have hP0 : P ≠ NULL := fun hP => by
        have := hPx.1 hP; rw [h0] at this; simp at this
      rw [if_neg hP0]
      rw [h0] at hA
      obtain ⟨mid2, hA1, hA2⟩ := (FSeg_append m NULL h mid xs' [w]).1 hA
      obtain ⟨hA3, hA4, hA5, hA6⟩ := hA2
      subst hA3
      rw [h0]
      apply (FSeg_append m2 NULL h N xs' [mid2]).2
      refine ⟨mid2, ?_, rfl, hA4, ?_, ?_⟩
      · apply FSeg_congr m m2 _ _ _ _ _ hA1
        intro a ha
        have hnd' : (xs' ++ [mid2]).Nodup := by
          rw [h0] at hnd; exact (List.nodup_append.1 hnd).1
        have hane : a ≠ mid2 := by
          intro e
          rw [e] at ha
          exact (List.nodup_append.1 hnd').2.2 ha (List.mem_singleton_self _)
        apply hother a (by rw [h0]; simp [ha]) (by rw [hw]; exact hane)
        intro e
        by_cases hN0 : N = NULL
        · exact hnn a (by rw [h0]; simp [ha]) (by rw [e]; exact hN0)
        · have hm := hNmem hN0
          rw [← e] at hm
          exact hdis (by rw [h0]; simp [ha]) (List.mem_cons_of_mem _ hm)
      · -- prev link of w
        rw [← hA5]
        apply get_prev_free_congr
        intro x hx1 hx2
        rw [hm2, hm1]
        · right; rw [hw]; omega
        · by_cases hN0 : N = NULL
          · exact Or.inl hN0
          · have := hPN hP0 hN0; rw [hw] at this; omega
      · -- next link of w
        show get_next_free m2 mid2 = N
        have e1 : get_next_free m2 mid2 = get_next_free m1 mid2 := by
          apply get_next_free_congr
          intro x hx1 hx2
          apply hm2
          by_cases hN0 : N = NULL
          · exact Or.inl hN0
          · have := hPN hP0 hN0; rw [hw] at this; omega
        rw [e1, hm1def, if_neg hP0, hw]
        unfold get_next_free
        rw [get_u64_put_u64_same]
        omega
  · -- the part after the removed node
    cases ys with
    | nil => exact hNdef
    | cons z zs =>
      have hNz : N = z := hNdef
      have hz0 : z ≠ NULL := hnn z (by simp)
      obtain ⟨_, _, hz3, hz4⟩ := hB4
      have hN0 : N ≠ NULL := by rw [hNz]; exact hz0
      refine ⟨hNz, hz0, ?_, ?_⟩
      · rw [hm2def, if_pos hN0, hNz]
        unfold get_prev_free
        rw [get_u64_put_u64_same, ← hPdef]
        omega
      · have e1 : get_next_free m2 z = get_next_free m z := by
          apply get_next_free_congr
          intro x hx1 hx2
          rw [hm2, hm1]
          · by_cases hP : P = NULL
            · exact Or.inl hP
            · have := hPN hP hN0; rw [hNz] at this; omega
          · right; rw [hNz]; omega
        rw [e1]
        apply FSeg_congr m m2 _ _ _ _ _ hz4
        intro a ha
        have hndz : (z :: zs).Nodup := hndy.2
        have hane : a ≠ z := by
          intro e
          rw [e] at ha
          exact (List.nodup_cons.1 hndz).1 ha
        apply hother a (by simp [ha]) _ (by rw [hNz]; exact hane)
        intro e
        by_cases hP : P = NULL
        · exact hnn a (by simp [ha]) (by rw [e]; exact hP)
        · have hm := hPmem hP
          rw [← e] at hm
          exact hdis hm (List.mem_cons_of_mem _ (List.mem_cons_of_mem _ ha))

theorem SameArena.same_refl (s : Heap) : SameArena s s := ⟨rfl, rfl, rfl, rfl, rfl⟩

theorem SameArena.same_trans {s s' s'' : Heap} (h1 : SameArena s s') (h2 : SameArena s' s'') :
    SameArena s s'' := by
  obtain ⟨a1, a2, a3, a4, a5⟩ := h1
  obtain ⟨b1, b2, b3, b4, b5⟩ := h2
  exact ⟨by rw [b1, a1], by rw [b2, a2], by rw [b3, a3], by rw [b4, a4], by rw [b5, a5]⟩

theorem Gen.blk {s : Heap} {all : List Blk} {G : Blk → Prop} {L : Nat → List Nat}
    (hg : Gen s all G L) (b : Blk) (hb : b ∈ all) :
    s.heap_ptr ≤ b.addr ∧ b.addr + b.size ≤ s.mem_brk - 4 ∧ 24 ≤ b.size ∧ b.size % 8 = 0 ∧
      b.alloc ≤ 1 ∧ b.addr % 8 = 4 ∧ b.size < 2 ^ 32 ∧ b.addr + b.size < 2 ^ 64 ∧
      s.mem_heap + 12 ≤ b.addr := by
  have h := Layout_mem _ _ _ hg.lay b hb
  have h1 := hg.hp_eq
  have h2 := hg.hp_al
  have h3 := hg.brk_hi
  have h4 := hg.max_lt
  have h5 := hg.small
  refine ⟨h.1, h.2.1, h.2.2.1, h.2.2.2.1, h.2.2.2.2.1, by omega, by omega, by omega, by omega⟩

theorem Gen.brk_lo {s : Heap} {all : List Blk} {G : Blk → Prop} {L : Nat → List Nat}
    (hg : Gen s all G L) : s.heap_ptr ≤ s.mem_brk - 4 := Layout_le _ _ _ hg.lay

theorem Gen.node {s : Heap} {all : List Blk} {G : Blk → Prop} {L : Nat → List Nat}
    (hg : Gen s all G L) (i : Nat) (hi : i < 9) (x : Nat) (hx : x ∈ L i) :
    ∃ b, G b ∧ b ∈ all ∧ b.addr = x ∧ b.alloc = 0 ∧ get_free_lists_index b.size = i := by
  obtain ⟨b, h1, h2, h3, h4⟩ := hg.sound i hi x hx
  exact ⟨b, h1, hg.sub b h1, h2, h3, h4⟩

/-- Two blocks at different addresses are at least 24 bytes apart. -/
theorem Gen.sep {s : Heap} {all : List Blk} {G : Blk → Prop} {L : Nat → List Nat}
    (hg : Gen s all G L) (b c : Blk) (hb : b ∈ all) (hc : c ∈ all) (hne : b.addr ≠ c.addr) :
    b.addr + 24 ≤ c.addr ∨ c.addr + 24 ≤ b.addr := by
  have h1 := hg.blk b hb
  have h2 := hg.blk c hc
  rcases Layout_disj _ _ _ hg.lay b c hb hc with h | h | h
  · exact absurd (by rw [h]) hne
  · omega
  · omega

theorem Gen.node_sep {s : Heap} {all : List Blk} {G : Blk → Prop} {L : Nat → List Nat}
    (hg : Gen s all G L) (i j : Nat) (hi : i < 9) (hj : j < 9) (x y : Nat)
    (hx : x ∈ L i) (hy : y ∈ L j) (hne : x ≠ y) : x + 24 ≤ y ∨ y + 24 ≤ x := by
  obtain ⟨b, _, hb, hbx, _, _⟩ := hg.node i hi x hx
  obtain ⟨c, _, hc, hcy, _, _⟩ := hg.node j hj y hy
  have := hg.sep b c hb hc (by rw [hbx, hcy]; exact hne)
  rw [hbx, hcy] at this
  exact this

/-- A node occurs in one list only. -/
theorem Gen.node_idx {s : Heap} {all : List Blk} {G : Blk → Prop} {L : Nat → List Nat}
    (hg : Gen s all G L) (i j : Nat) (hi : i < 9) (hj : j < 9) (x : Nat)
    (hx : x ∈ L i) (hy : x ∈ L j) : i = j := by
  obtain ⟨b, _, hb, hbx, _, hbi⟩ := hg.node i hi x hx
  obtain ⟨c, _, hc, hcy, _, hcj⟩ := hg.node j hj x hy
  have : b = c := Layout_inj _ _ _ hg.lay b c hb hc (by rw [hbx, hcy])
  rw [← hbi, ← hcj, this]

/-- A store outside the link cells of the free blocks filed in the lists
leaves the tags of every block alone. -/
theorem Gen.tag_cells {s : Heap} {all : List Blk} {G : Blk → Prop} {L : Nat → List Nat}
    (hg : Gen s all G L) (b : Blk) (hb : b ∈ all) (x : Nat)
    (hx : (b.addr ≤ x ∧ x < b.addr + 4) ∨ (b.addr + b.size - 4 ≤ x ∧ x < b.addr + b.size))
    (c : Blk) (hc : c ∈ all) : x < c.addr + 4 ∨ c.addr + 20 ≤ x := by
  have h1 := hg.blk b hb
  have h2 := hg.blk c hc
  rcases Layout_disj _ _ _ hg.lay b c hb hc with h | h | h
  · subst h; omega
  · omega
  · omega

theorem LinkOnly.tag {s : Heap} {all : List Blk} {G : Blk → Prop} {L : Nat → List Nat}
    (hg : Gen s all G L) {G' : Blk → Prop} (hG : ∀ b, G' b → G b) {m' : Mem}
    (hl : LinkOnly G' s.mem m') (b : Blk) (hb : b ∈ all) :
    get_u32 m' b.addr = get_u32 s.mem b.addr ∧
      get_u32 m' (b.addr + b.size - 4) = get_u32 s.mem (b.addr + b.size - 4) := by
  have h1 := hg.blk b hb
  constructor
  · apply get_u32_congr
    intro x hx1 hx2
    apply hl
    intro c hc _
    exact hg.tag_cells b hb x (Or.inl ⟨hx1, hx2⟩) c (hg.sub c (hG c hc))
  · apply get_u32_congr
    intro x hx1 hx2
    apply hl
    intro c hc _
    exact hg.tag_cells b hb x (Or.inr ⟨hx1, by omega⟩) c (hg.sub c (hG c hc))

/-- Blocks that are not free blocks of the lists keep all their bytes. -/
theorem LinkOnly.extent {s : Heap} {all : List Blk} {G : Blk → Prop} {L : Nat → List Nat}
    (hg : Gen s all G L) {G' : Blk → Prop} (hG : ∀ b, G' b → G b) {m' : Mem}
    (hl : LinkOnly G' s.mem m') (b : Blk) (hb : b ∈ all) (hn : ¬ (G' b ∧ b.alloc = 0))
    (x : Nat) (hx1 : b.addr ≤ x) (hx2 : x < b.addr + b.size) : m' x = s.mem x := by
  apply hl
  intro c hc hc0
  have h1 := hg.blk b hb
  have h2 := hg.blk c (hg.sub c (hG c hc))
  rcases Layout_disj _ _ _ hg.lay b c hb (hg.sub c (hG c hc)) with h | h | h
  · subst h; exact absurd ⟨hc, hc0⟩ hn
  · omega
  · omega

theorem LinkOnly.outside {s : Heap} {all : List Blk} {G : Blk → Prop} {L : Nat → List Nat}
    (hg : Gen s all G L) {G' : Blk → Prop} (hG : ∀ b, G' b → G b) {m' : Mem}
    (hl : LinkOnly G' s.mem m') (x : Nat) (hx : x < s.heap_ptr ∨ s.mem_brk - 4 ≤ x) :
    m' x = s.mem x := by
  apply hl
  intro c hc _
  have h2 := hg.blk c (hg.sub c (hG c hc))
  omega

/-! ## `remove_from_free_list` -/

theorem remove_arena (blk : Nat) (s : Heap) : SameArena s (remove_from_free_list blk s) :=
  ⟨rfl, rfl, rfl, rfl, rfl⟩

theorem remove_mem (blk : Nat) (s : Heap) (P N : Nat) (m1 : Mem)
    (hP : get_prev_free s.mem blk = P) (hN : get_next_free s.mem blk = N)
    (hm1 : m1 = if P = NULL then s.mem else put_u64 s.mem (P + 12) N)
    (hP1 : get_prev_free m1 blk = P) (hN1 : get_next_free m1 blk = N) :
    (remove_from_free_list blk s).mem = (if N ≠ NULL then put_u64 m1 (N + 4) P else m1) := by
  show (if get_next_free (if get_prev_free s.mem blk = NULL then s.mem
          else put_u64 s.mem (get_prev_free s.mem blk + 12) (get_next_free s.mem blk)) blk ≠ NULL
        then put_u64 _ _ _ else _) = _
  rw [hP, hN, ← hm1, hN1, hP1]

theorem remove_free_lists (blk : Nat) (s : Heap) (j : Nat) :
    (remove_from_free_list blk s).free_lists j =
      if get_prev_free s.mem blk = NULL ∧ j = get_free_lists_index (get_size s.mem blk) then
        get_next_free s.mem blk
      else s.free_lists j := by
  show (if get_prev_free s.mem blk = NULL then
      fun i => if i = get_free_lists_index (get_size s.mem blk) then get_next_free s.mem blk
        else s.free_lists i
    else s.free_lists) j = _
  by_cases h : get_prev_free s.mem blk = NULL
  · by_cases h2 : j = get_free_lists_index (get_size s.mem blk)
    · simp [h, h2]
    · simp [h, h2]
  · simp [h]

theorem erase_mid (xs ys : List Nat) (y : Nat) (h : (xs ++ y :: ys).Nodup) :
    (xs ++ y :: ys).erase y = xs ++ ys := by
  have hy : y ∉ xs := fun hm => (List.nodup_append.1 h).2.2 hm (List.mem_cons_self _ _)
  rw [List.erase_append_right _ hy, List.erase_cons_head]

/-- Removing a filed free block from its list: the block becomes a hole, the
other lists and all tags are as before, only link cells of other filed free
blocks are written. -/
theorem remove_spec {s : Heap} {all : List Blk} {G : Blk → Prop} {L : Nat → List Nat}
    (hg : Gen s all G L) (t : Blk) (ht : G t) (hf : t.alloc = 0) :
    Gen (remove_from_free_list t.addr s) all (fun b => G b ∧ b ≠ t)
        (fun j => if j = get_free_lists_index t.size then (L j).erase t.addr else L j) ∧
      SameArena s (remove_from_free_list t.addr s) ∧
      LinkOnly (fun b => G b ∧ b ≠ t) s.mem (remove_from_free_list t.addr s).mem := by
  have hi := get_free_lists_index_lt t.size
  have htall := hg.sub t ht
  have htb := hg.blk t htall
  have hmem := hg.complete t ht hf
  obtain ⟨xs, ys, hL⟩ := List.append_of_mem hmem
  have hnd := hg.nodup _ hi
  rw [hL] at hnd
  have hlist := hg.lists _ hi
  rw [hL] at hlist
  have hsep : ∀ a, a ∈ xs ++ t.addr :: ys → ∀ b, b ∈ xs ++ t.addr :: ys → a ≠ b →
      a + 24 ≤ b ∨ b + 24 ≤ a := by
    intro a ha b hb hne
    exact hg.node_sep _ _ hi hi a b (by rw [hL]; exact ha) (by rw [hL]; exact hb) hne
  obtain ⟨u1, u2, u3, u4, u5, u6, u7, -⟩ :=
    unlink_mem s.mem _ t.addr xs ys hlist hnd hsep _ _ _ _ rfl rfl rfl rfl
  have hmemeq := remove_mem t.addr s _ _ _ u1 u2 rfl u3 u4
  have hsize : get_size s.mem t.addr = t.size :=
    get_size_of_tag _ _ _ _ (hg.tags t ht).1 htb.2.2.2.1 htb.2.2.2.2.1
  have harena := remove_arena t.addr s
  -- nodes of the shortened list are filed free blocks other than `t`
  have hnode : ∀ a, a ∈ xs ++ ys → ∃ b, (G b ∧ b ≠ t) ∧ b.alloc = 0 ∧ b.addr = a := by
    intro a ha
    have ha' : a ∈ L (get_free_lists_index t.size) := by
      rw [hL]
      rcases List.mem_append.1 ha with h | h
      · exact List.mem_append_left _ h
      · exact List.mem_append_right _ (List.mem_cons_of_mem _ h)
    obtain ⟨b, hb1, hb2, hb3, _⟩ := hg.sound _ hi a ha'
    refine ⟨b, ⟨hb1, ?_⟩, hb3, hb2⟩
    intro e
    rw [e] at hb2
    rw [← hb2] at ha
    rcases List.mem_append.1 ha with h | h
    · exact (List.nodup_append.1 hnd).2.2 h (List.mem_cons_self _ _)
    · exact (List.nodup_cons.1 (List.nodup_append.1 hnd).2.1).1 h
  have hlink : LinkOnly (fun b => G b ∧ b ≠ t) s.mem (remove_from_free_list t.addr s).mem := by
    intro x hx
    rw [hmemeq]
    apply u7
    intro a ha
    obtain ⟨b, hb1, hb2, hb3⟩ := hnode a ha
    rw [← hb3]
    exact hx b hb1 hb2
  have hGsub : ∀ b, (fun b => G b ∧ b ≠ t) b → G b := fun b hb => hb.1
  refine ⟨?_, harena, hlink⟩
  obtain ⟨a1, a2, a3, a4, a5⟩ := harena
  have hout := fun x hx => LinkOnly.outside hg hGsub hlink x hx
  have hge := hg.brk_lo
  have h1 := hg.hp_eq
  refine
    { hp_eq := by rw [a4, a1]; exact hg.hp_eq
      hp_al := by rw [a1]; exact hg.hp_al
      brk_hi := by rw [a2, a3]; exact hg.brk_hi
      max_lt := by rw [a3]; exact hg.max_lt
      small := by rw [a3, a1]; exact hg.small
      pro_h := ?_
      pro_f := ?_
      epi := ?_
      lay := by rw [a4, a2]; exact hg.lay
      sub := fun b hb => hg.sub b hb.1
      tags := ?_
      lists := ?_
      nodup := ?_
      sound := ?_
      complete := ?_ }
  · rw [a1, ← hg.pro_h]
    exact get_u32_congr _ _ _ (fun x hx1 hx2 => hout x (by omega))
  · rw [a1, ← hg.pro_f]
    exact get_u32_congr _ _ _ (fun x hx1 hx2 => hout x (by omega))
  · rw [a2, ← hg.epi]
    exact get_u32_congr _ _ _ (fun x hx1 hx2 => hout x (by omega))
  · intro b hb
    have := LinkOnly.tag hg hGsub hlink b (hg.sub b hb.1)
    have h0 := hg.tags b hb.1
    unfold TagOK at *
    rw [this.1, this.2]
    exact h0
  · intro j hj
    by_cases hji : j = get_free_lists_index t.size
    · subst hji
      simp only [if_true]
      rw [hL, erase_mid xs ys t.addr hnd, hmemeq, remove_free_lists, u1, hsize]
      have : (xs.getLastD NULL = NULL ∧
          get_free_lists_index t.size = get_free_lists_index t.size) ↔
          xs.getLastD NULL = NULL := by simp
      rw [if_congr this rfl rfl, u2]
      exact u6
    · simp only [if_neg hji]
      rw [remove_free_lists, hsize, if_neg (fun h => hji h.2)]
      apply FSeg_congr s.mem _ _ _ _ _ _ (hg.lists j hj)
      intro a ha
      have hb : ∀ x, a + 4 ≤ x → x < a + 20 → (remove_from_free_list t.addr s).mem x = s.mem x := by
        intro x hx1 hx2
        rw [hmemeq]
        apply u7
        intro c hc
        have hc' : c ∈ L (get_free_lists_index t.size) := by
          rw [hL]
          rcases List.mem_append.1 hc with h | h
          · exact List.mem_append_left _ h
          · exact List.mem_append_right _ (List.mem_cons_of_mem _ h)
        have hne : a ≠ c := by
          intro e
          rw [e] at ha
          exact hji (hg.node_idx _ _ hj hi c ha hc')
        have := hg.node_sep _ _ hj hi a c ha hc' hne
        omega
      exact ⟨get_prev_free_congr _ _ a (fun x h1 h2 => hb x h1 (by omega)),
        get_next_free_congr _ _ a (fun x h1 h2 => hb x (by omega) h2)⟩
  · intro j hj
    by_cases hji : j = get_free_lists_index t.size
    · simp only [if_pos hji]
      exact (hg.nodup j hj).erase _
    · simp only [if_neg hji]
      exact hg.nodup j hj
  · intro j hj x hx
    have hxL : x ∈ L j ∧ x ≠ t.addr := by
      by_cases hji : j = get_free_lists_index t.size
      · simp only [if_pos hji] at hx
        exact ⟨List.mem_of_mem_erase hx, fun e => by
          rw [e] at hx
          exact ((hg.nodup j hj).not_mem_erase) hx⟩
      · simp only [if_neg hji] at hx
        refine ⟨hx, fun e => ?_⟩
        rw [e] at hx
        exact hji (hg.node_idx _ _ hj hi t.addr hx hmem)
    obtain ⟨b, hb1, hb2, hb3, hb4⟩ := hg.sound j hj x hxL.1
    refine ⟨b, ⟨hb1, fun e => hxL.2 ?_⟩, hb2, hb3, hb4⟩
    rw [← hb2, e]
  · intro b hb hb0
    have hbm := hg.complete b hb.1 hb0
    by_cases hji : get_free_lists_index b.size = get_free_lists_index t.size
    · simp only [if_pos hji]
      refine (List.mem_erase_of_ne ?_).2 hbm
      intro e
      exact hb.2 (Layout_inj _ _ _ hg.lay b t (hg.sub b hb.1) htall e)
    · simp only [if_neg hji]
      exact hbm

/-! ## `add_to_free_list` -/

theorem add_arena (a size : Nat) (s : Heap) : SameArena s (add_to_free_list a size s) := by
  unfold add_to_free_list
  exact ⟨rfl, rfl, rfl, rfl, rfl⟩

theorem add_free_lists (a size : Nat) (s : Heap) (j : Nat) :
    (add_to_free_list a size s).free_lists j =
      if j = get_free_lists_index size then a else s.free_lists j := by
  unfold add_to_free_list
  rfl

theorem add_mem_eq (a size : Nat) (s : Heap) (hs8 : size % 8 = 0) (hlt : size < 2 ^ 32)
    (h24 : 24 ≤ size) (ha : a + size < 2 ^ 64)
    (hh : s.free_lists (get_free_lists_index size) < 2 ^ 64) :
    (add_to_free_list a size s).mem =
      add_mem s.mem a size (s.free_lists (get_free_lists_index size)) := by
  have htag : make_btag size 0 = size := by
    have := make_btag_eq size 0 hs8 (by omega) hlt; simpa using this
  generalize hh0 : s.free_lists (get_free_lists_index size) = h at hh
  have hm1 : put_free_hdr s.mem a (make_free_hdr (make_btag size 0) NULL h) =
      put_u64 (put_u64 (put_u32 s.mem a size) (a + 4) NULL) (a + 12) h := by
    rw [htag]; rfl
  generalize hm1' : put_u64 (put_u64 (put_u32 s.mem a size) (a + 4) NULL) (a + 12) h = m1 at hm1
  have hsz : get_size m1 a = size := by
    apply get_size_of_tag _ _ size 0 _ hs8 (by omega)
    rw [← hm1', get_u32_put_u64_ne _ _ _ _ (by omega), get_u32_put_u64_ne _ _ _ _ (by omega),
      get_u32_put_u32_same]
    omega
  have e1 : get_ftr_addr m1 a = a + size - 4 := by
    unfold get_ftr_addr
    rw [hsz, sub64_eq _ _ (by simp only [WORD_SIZE]; omega) (by omega),
      add64_eq _ _ (by simp only [WORD_SIZE]; omega)]
    simp only [WORD_SIZE]; omega
  have e2 : get_next_free (put_u32 m1 (a + size - 4) size) a = h := by
    unfold get_next_free
    rw [← hm1', get_u64_put_u32_ne _ _ _ _ (by omega), get_u64_put_u64_same]
    omega
  unfold add_to_free_list
  simp only [if_true]
  rw [hh0, hm1, e1, htag]
  unfold put_btag add_mem
  rw [e2, hm1']

theorem add_mem_out (m : Mem) (a size h x : Nat) (h24 : 24 ≤ size)
    (hx : x < a ∨ a + size ≤ x) (hx2 : h = NULL ∨ x < h + 4 ∨ h + 12 ≤ x) :
    add_mem m a size h x = m x := by
  unfold add_mem
  have e : put_u32 (put_u64 (put_u64 (put_u32 m a size) (a + 4) NULL) (a + 12) h)
      (a + size - 4) size x = m x := by
    rw [put_u32_out _ _ _ _ (by omega), put_u64_out _ _ _ _ (by omega),
      put_u64_out _ _ _ _ (by omega), put_u32_out _ _ _ _ (by omega)]
  by_cases hh : h = NULL
  · rw [if_neg (by simpa using hh)]; exact e
  · rw [if_pos hh, put_u64_out _ _ _ _ (by omega)]; exact e

/-- Values stored in the new node by `add_to_free_list`. -/
theorem add_mem_node (m : Mem) (a size h : Nat) (h24 : 24 ≤ size) (hlt : size < 2 ^ 32)
    (hh : h < 2 ^ 64) (hsep : h = NULL ∨ a + size ≤ h ∨ h + 24 ≤ a) :
    get_u32 (add_mem m a size h) a = size ∧
    get_u32 (add_mem m a size h) (a + size - 4) = size ∧
    get_prev_free (add_mem m a size h) a = NULL ∧
    get_next_free (add_mem m a size h) a = h := by
  have key : ∀ m', (∀ x, a ≤ x → x < a + size → m' x =
      put_u32 (put_u64 (put_u64 (put_u32 m a size) (a + 4) NULL) (a + 12) h)
        (a + size - 4) size x) →
      get_u32 m' a = size ∧ get_u32 m' (a + size - 4) = size ∧
      get_prev_free m' a = NULL ∧ get_next_free m' a = h := by
    intro m' hm'
    refine ⟨?_, ?_, ?_, ?_⟩
    · rw [get_u32_congr _ m' a (fun x h1 h2 => hm' x h1 (by omega)),
        get_u32_put_u32_ne _ _ _ _ (by omega), get_u32_put_u64_ne _ _ _ _ (by omega),
        get_u32_put_u64_ne _ _ _ _ (by omega), get_u32_put_u32_same]
      omega
    · rw [get_u32_congr _ m' _ (fun x h1 h2 => hm' x (by omega) (by omega)),
        get_u32_put_u32_same]
      omega
    · unfold get_prev_free
      rw [get_u64_congr _ m' _ (fun x h1 h2 => hm' x (by omega) (by omega)),
        get_u64_put_u32_ne _ _ _ _ (by omega), get_u64_put_u64_ne _ _ _ _ (by omega),
        get_u64_put_u64_same]
      simp [NULL]
    · unfold get_next_free
      rw [get_u64_congr _ m' _ (fun x h1 h2 => hm' x (by omega) (by omega)),
        get_u64_put_u32_ne _ _ _ _ (by omega), get_u64_put_u64_same]
      omega
  apply key
  intro x hx1 hx2
  unfold add_mem
  by_cases hh0 : h = NULL
  · rw [if_neg (by simpa using hh0)]
  · rw [if_pos hh0, put_u64_out _ _ _ _ (by omega)]

theorem FList_head (m : Mem) (h : Nat) (xs : List Nat) (hl : FList m h xs) :
    h = xs.headD NULL := FSeg_next_head m NULL h xs hl

/-- Filing a hole as a free block: `add_to_free_list` writes its header, links
and footer and pushes it at the head of the list of its size class. -/
theorem add_spec {s : Heap} {all : List Blk} {G : Blk → Prop} {L : Nat → List Nat}
    (hg : Gen s all G L) (t : Blk) (ht : t ∈ all) (hnG : ¬ G t) (hf : t.alloc = 0) :
    Gen (add_to_free_list t.addr t.size s) all (fun b => G b ∨ b = t)
        (fun j => if j = get_free_lists_index t.size then t.addr :: L j else L j) ∧
      SameArena s (add_to_free_list t.addr t.size s) ∧
      (∀ x, (x < t.addr ∨ t.addr + t.size ≤ x) →
        (∀ b, G b → b.alloc = 0 → x < b.addr + 4 ∨ b.addr + 20 ≤ x) →
        (add_to_free_list t.addr t.size s).mem x = s.mem x) := by
  have hi := get_free_lists_index_lt t.size
  have htb := hg.blk t ht
  have hlist := hg.lists _ hi
  have hhead := FList_head _ _ _ hlist
  generalize hh0 : s.free_lists (get_free_lists_index t.size) = h at hlist hhead
  -- the old head is null or a filed free block
  have hhnode : h ≠ NULL → ∃ c, G c ∧ c ∈ all ∧ c.addr = h ∧ c.alloc = 0 ∧ c ≠ t ∧
      h ∈ L (get_free_lists_index t.size) := by
    intro hne
    have hm : h ∈ L (get_free_lists_index t.size) := by
      cases hL : L (get_free_lists_index t.size) with
      | nil => rw [hL] at hhead; exact absurd hhead hne
      | cons z zs => rw [hL] at hhead; rw [hhead]; simp
    obtain ⟨c, hc1, hc2, hc3, hc4, _⟩ := hg.node _ hi h hm
    exact ⟨c, hc1, hc2, hc3, hc4, fun e => hnG (e ▸ hc1), hm⟩
  have hhlt : h < 2 ^ 64 := by
    by_cases hne : h = NULL
    · rw [hne]; simp [NULL]
    · obtain ⟨c, _, hc2, hc3, _⟩ := hhnode hne
      have := hg.blk c hc2
      omega
  have hhsep : h = NULL ∨ t.addr + t.size ≤ h ∨ h + 24 ≤ t.addr := by
    by_cases hne : h = NULL
    · exact Or.inl hne
    · obtain ⟨c, _, hc2, hc3, _, hc5, _⟩ := hhnode hne
      have hcb := hg.blk c hc2
      rcases Layout_disj _ _ _ hg.lay t c ht hc2 with e | e | e
      · exact absurd e.symm hc5
      · right; left; omega
      · right; right; omega
  have hmemeq : (add_to_free_list t.addr t.size s).mem = add_mem s.mem t.addr t.size h := by
    rw [add_mem_eq t.addr t.size s htb.2.2.2.1 htb.2.2.2.2.2.2.1 htb.2.2.1 htb.2.2.2.2.2.2.2.1
      (by rw [hh0]; exact hhlt), hh0]
  obtain ⟨n1, n2, n3, n4⟩ := add_mem_node s.mem t.addr t.size h htb.2.2.1 htb.2.2.2.2.2.2.1
    hhlt hhsep
  rw [← hmemeq] at n1 n2 n3 n4
  have harena := add_arena t.addr t.size s
  -- bytes outside the hole and outside the prev cell of the old head
  have hout : ∀ x, (x < t.addr ∨ t.addr + t.size ≤ x) → (h = NULL ∨ x < h + 4 ∨ h + 12 ≤ x) →
      (add_to_free_list t.addr t.size s).mem x = s.mem x := by
    intro x hx1 hx2
    rw [hmemeq]
    exact add_mem_out _ _ _ _ _ htb.2.2.1 hx1 hx2
  have hframe : ∀ x, (x < t.addr ∨ t.addr + t.size ≤ x) →
      (∀ b, G b → b.alloc = 0 → x < b.addr + 4 ∨ b.addr + 20 ≤ x) →
      (add_to_free_list t.addr t.size s).mem x = s.mem x := by
    intro x hx1 hx2
    apply hout x hx1
    by_cases hne : h = NULL
    · exact Or.inl hne
    · obtain ⟨c, hc1, _, hc3, hc4, _⟩ := hhnode hne
      have := hx2 c hc1 hc4
      omega
  -- tags of the other blocks
  have htagcell : ∀ b, b ∈ all → b ≠ t →
      get_u32 (add_to_free_list t.addr t.size s).mem b.addr = get_u32 s.mem b.addr ∧
      get_u32 (add_to_free_list t.addr t.size s).mem (b.addr + b.size - 4) =
        get_u32 s.mem (b.addr + b.size - 4) := by
    intro b hb hbt
    have hbb := hg.blk b hb
    have hdis : b.addr + b.size ≤ t.addr ∨ t.addr + t.size ≤ b.addr := by
      rcases Layout_disj _ _ _ hg.lay b t hb ht with e | e | e
      · exact absurd e hbt
      · exact Or.inl e
      · exact Or.inr e
    have hcell : ∀ x, (b.addr ≤ x ∧ x < b.addr + 4) ∨
        (b.addr + b.size - 4 ≤ x ∧ x < b.addr + b.size) →
        (h = NULL ∨ x < h + 4 ∨ h + 12 ≤ x) := by
      intro x hx
      by_cases hne : h = NULL
      · exact Or.inl hne
      · obtain ⟨c, _, hc2, hc3, _⟩ := hhnode hne
        have := hg.tag_cells b hb x hx c hc2
        omega
    constructor
    · apply get_u32_congr
      intro x hx1 hx2
      exact hout x (by omega) (hcell x (Or.inl ⟨hx1, hx2⟩))
    · apply get_u32_congr
      intro x hx1 hx2
      exact hout x (by omega) (hcell x (Or.inr ⟨hx1, by omega⟩))
  -- links of the nodes
  have hnodeb : ∀ j, j < 9 → ∀ a, a ∈ L j → (a + 24 ≤ t.addr ∨ t.addr + t.size ≤ a) := by
    intro j hj a ha
    obtain ⟨c, hc1, hc2, hc3, _⟩ := hg.node j hj a ha
    have hcb := hg.blk c hc2
    rcases Layout_disj _ _ _ hg.lay t c ht hc2 with e | e | e
    · exact absurd (e ▸ hc1) hnG
    · right; omega
    · left; omega
  have hnext : ∀ j, j < 9 → ∀ a, a ∈ L j →
      get_next_free (add_to_free_list t.addr t.size s).mem a = get_next_free s.mem a := by
    intro j hj a ha
    apply get_next_free_congr
    intro x hx1 hx2
    have h1 := hnodeb j hj a ha
    apply hout x (by omega)
    by_cases hne : h = NULL
    · exact Or.inl hne
    · obtain ⟨c, _, _, _, _, _, hm⟩ := hhnode hne
      by_cases hah : a = h
      · omega
      · have := hg.node_sep _ _ hj hi a h ha hm hah
        omega
  have hprev : ∀ j, j < 9 → ∀ a, a ∈ L j → a ≠ h →
      get_prev_free (add_to_free_list t.addr t.size s).mem a = get_prev_free s.mem a := by
    intro j hj a ha hah
    apply get_prev_free_congr
    intro x hx1 hx2
    have h1 := hnodeb j hj a ha
    apply hout x (by omega)
    by_cases hne : h = NULL
    · exact Or.inl hne
    · obtain ⟨c, _, _, _, _, _, hm⟩ := hhnode hne
      have := hg.node_sep _ _ hj hi a h ha hm hah
      omega
  have htnot : t.addr ∉ L (get_free_lists_index t.size) := by
    intro hm
    have := hnodeb _ hi t.addr hm
    omega
  refine ⟨?_, harena, hframe⟩
  obtain ⟨a1, a2, a3, a4, a5⟩ := harena
  have hge := hg.brk_lo
  have h1 := hg.hp_eq
  have hlow : ∀ x, x < s.heap_ptr ∨ s.mem_brk - 4 ≤ x →
      (add_to_free_list t.addr t.size s).mem x = s.mem x := by
    intro x hx
    apply hframe x (by omega)
    intro b hb _
    have := hg.blk b (hg.sub b hb)
    omega
  refine
    { hp_eq := by rw [a4, a1]; exact hg.hp_eq
      hp_al := by rw [a1]; exact hg.hp_al
      brk_hi := by rw [a2, a3]; exact hg.brk_hi
      max_lt := by rw [a3]; exact hg.max_lt
      small := by rw [a3, a1]; exact hg.small
      pro_h := ?_
      pro_f := ?_
      epi := ?_
      lay := by rw [a4, a2]; exact hg.lay
      sub := ?_
      tags := ?_
      lists := ?_
      nodup := ?_
      sound := ?_
      complete := ?_ }
  · rw [a1, ← hg.pro_h]
    exact get_u32_congr _ _ _ (fun x hx1 hx2 => hlow x (by omega))
  · rw [a1, ← hg.pro_f]
    exact get_u32_congr _ _ _ (fun x hx1 hx2 => hlow x (by omega))
  · rw [a2, ← hg.epi]
    exact get_u32_congr _ _ _ (fun x hx1 hx2 => hlow x (by omega))
  · intro b hb
    rcases hb with hb | hb
    · exact hg.sub b hb
    · rw [hb]; exact ht
  · intro b hb
    rcases hb with hb | hb
    · have hbt : b ≠ t := fun e => hnG (e ▸ hb)
      have := htagcell b (hg.sub b hb) hbt
      have h0 := hg.tags b hb
      unfold TagOK at *
      rw [this.1, this.2]
      exact h0
    · rw [hb]
      unfold TagOK
      rw [n1, n2, hf]
      exact ⟨rfl, rfl⟩
  · intro j hj
    rw [add_free_lists]
    by_cases hji : j = get_free_lists_index t.size
    · subst hji
      simp only [if_true]
      refine ⟨rfl, ?_, n3, ?_⟩
      · have := htb.1; simp only [NULL]; omega
      · rw [n4]
        cases hL : L (get_free_lists_index t.size) with
        | nil => rw [hL] at hhead; exact hhead
        | cons z zs =>
          rw [hL] at hhead hlist
          have hz : h = z := hhead
          have hzm : z ∈ L (get_free_lists_index t.size) := by rw [hL]; simp
          obtain ⟨_, hz0, _, hz4⟩ := hlist
          refine ⟨hz, hz0, ?_, ?_⟩
          · have hne : h ≠ NULL := by rw [hz]; exact hz0
            rw [hmemeq]
            unfold add_mem get_prev_free
            rw [if_pos hne, hz, get_u64_put_u64_same]
            omega
          · rw [hnext _ hi z hzm]
            apply FSeg_congr s.mem _ _ _ _ _ _ hz4
            intro a ha
            have ham : a ∈ L (get_free_lists_index t.size) := by rw [hL]; simp [ha]
            have hnd := hg.nodup _ hi
            rw [hL] at hnd
            have haz : a ≠ h := by
              rw [hz]; intro e; rw [e] at ha
              exact (List.nodup_cons.1 hnd).1 ha
            exact ⟨hprev _ hi a ham haz, hnext _ hi a ham⟩
    · simp only [if_neg hji]
      apply FSeg_congr s.mem _ _ _ _ _ _ (hg.lists j hj)
      intro a ha
      refine ⟨hprev j hj a ha ?_, hnext j hj a ha⟩
      intro e
      have hne : h ≠ NULL := by
        rw [← e]; exact FSeg_ne_null _ _ _ _ _ (hg.lists j hj) a ha
      obtain ⟨_, _, _, _, _, _, hm⟩ := hhnode hne
      rw [e] at ha
      exact hji (hg.node_idx _ _ hj hi h ha hm)
  · intro j hj
    by_cases hji : j = get_free_lists_index t.size
    · subst hji
      simp only [if_true]
      exact List.nodup_cons.2 ⟨htnot, hg.nodup _ hj⟩
    · simp only [if_neg hji]
      exact hg.nodup j hj
  · intro j hj x hx
    by_cases hji : j = get_free_lists_index t.size
    · subst hji
      simp only [if_true] at hx
      rcases List.mem_cons.1 hx with e | hx'
      · exact ⟨t, Or.inr rfl, e.symm, hf, rfl⟩
      · obtain ⟨b, hb1, hb2, hb3, hb4⟩ := hg.sound _ hj x hx'
        exact ⟨b, Or.inl hb1, hb2, hb3, hb4⟩
    · simp only [if_neg hji] at hx
      obtain ⟨b, hb1, hb2, hb3, hb4⟩ := hg.sound _ hj x hx
      exact ⟨b, Or.inl hb1, hb2, hb3, hb4⟩
  · intro b hb hb0
    rcases hb with hb | hb
    · have := hg.complete b hb hb0
      by_cases hji : get_free_lists_index b.size = get_free_lists_index t.size
      · simp only [if_pos hji]
        exact List.mem_cons_of_mem _ this
      · simp only [if_neg hji]
        exact this
    · rw [hb]
      simp only [if_true]
      exact List.mem_cons_self _ _

attribute [irreducible] remove_from_free_list add_to_free_list add_mem

/-! ## Generic transformations of the invariant -/

theorem Gen.congrG {s : Heap} {all : List Blk} {G G' : Blk → Prop} {L : Nat → List Nat}
    (hg : Gen s all G L) (h : ∀ b, G b ↔ G' b) : Gen s all G' L :=
  { hp_eq := hg.hp_eq, hp_al := hg.hp_al, brk_hi := hg.brk_hi, max_lt := hg.max_lt,
    small := hg.small, pro_h := hg.pro_h, pro_f := hg.pro_f, epi := hg.epi, lay := hg.lay,
    sub := fun b hb => hg.sub b ((h b).2 hb)
    tags := fun b hb => hg.tags b ((h b).2 hb)
    lists := hg.lists, nodup := hg.nodup
    sound := fun i hi x hx => by
      obtain ⟨b, h1, h2⟩ := hg.sound i hi x hx
      exact ⟨b, (h b).1 h1, h2⟩
    complete := fun b hb hb0 => hg.complete b ((h b).2 hb) hb0 }

theorem Gen.congrL {s : Heap} {all : List Blk} {G : Blk → Prop} {L L' : Nat → List Nat}
    (hg : Gen s all G L) (h : ∀ i, L i = L' i) : Gen s all G L' := by
  have : L = L' := funext h
  rw [← this]; exact hg

/-- The blocks outside `G` may be regrouped at will. -/
theorem Gen.regroup {s : Heap} {all : List Blk} {G : Blk → Prop} {L : Nat → List Nat}
    (hg : Gen s all G L) (all' : List Blk) (hl : Layout s.heap_ptr all' (s.mem_brk - 4))
    (hs : ∀ b, G b → b ∈ all') : Gen s all' G L :=
  { hp_eq := hg.hp_eq, hp_al := hg.hp_al, brk_hi := hg.brk_hi, max_lt := hg.max_lt,
    small := hg.small, pro_h := hg.pro_h, pro_f := hg.pro_f, epi := hg.epi, lay := hl,
    sub := hs, tags := hg.tags, lists := hg.lists, nodup := hg.nodup, sound := hg.sound,
    complete := hg.complete }

/-- Stores outside the blocks of `G` and outside the sentinels keep the invariant. -/
theorem Gen.frame {s : Heap} {all : List Blk} {G : Blk → Prop} {L : Nat → List Nat}
    (hg : Gen s all G L) (s' : Heap) (ha : SameArena s s')
    (hfl : ∀ i, i < 9 → s'.free_lists i = s.free_lists i)
    (hm : ∀ x, (x < s.heap_ptr ∨ s.mem_brk - 4 ≤ x ∨ ∃ b, G b ∧ b.addr ≤ x ∧ x < b.addr + b.size) →
      s'.mem x = s.mem x) : Gen s' all G L := by
  obtain ⟨a1, a2, a3, a4, a5⟩ := ha
  have hge := hg.brk_lo
  have h1 := hg.hp_eq
  have hblk : ∀ b, G b → ∀ x, b.addr ≤ x → x < b.addr + b.size → s'.mem x = s.mem x :=
    fun b hb x hx1 hx2 => hm x (Or.inr (Or.inr ⟨b, hb, hx1, hx2⟩))
  refine
    { hp_eq := by rw [a4, a1]; exact hg.hp_eq
      hp_al := by rw [a1]; exact hg.hp_al
      brk_hi := by rw [a2, a3]; exact hg.brk_hi
      max_lt := by rw [a3]; exact hg.max_lt
      small := by rw [a3, a1]; exact hg.small
      pro_h := ?_
      pro_f := ?_
      epi := ?_
      lay := by rw [a4, a2]; exact hg.lay
      sub := hg.sub
      tags := ?_
      lists := ?_
      nodup := hg.nodup
      sound := hg.sound
      complete := hg.complete }
  · rw [a1, ← hg.pro_h]
    exact get_u32_congr _ _ _ (fun x hx1 hx2 => hm x (by omega))
  · rw [a1, ← hg.pro_f]
    exact get_u32_congr _ _ _ (fun x hx1 hx2 => hm x (by omega))
  · rw [a2, ← hg.epi]
    exact get_u32_congr _ _ _ (fun x hx1 hx2 => hm x (by omega))
  · intro b hb
    have hbb := hg.blk b (hg.sub b hb)
    exact TagOK_congr _ _ b (by omega) (hblk b hb) (hg.tags b hb)
  · intro i hi
    rw [hfl i hi]
    apply FSeg_congr s.mem _ _ _ _ _ _ (hg.lists i hi)
    intro a ha
    obtain ⟨c, hc1, hc2, hc3, _⟩ := hg.node i hi a ha
    have hcb := hg.blk c hc2
    rw [← hc3]
    exact ⟨get_prev_free_congr _ _ _ (fun x h1 h2 => hblk c hc1 x (by omega) (by omega)),
      get_next_free_congr _ _ _ (fun x h1 h2 => hblk c hc1 x (by omega) (by omega))⟩

/-- An allocated block with valid tags may join `G`. -/
theorem Gen.adopt {s : Heap} {all : List Blk} {G : Blk → Prop} {L : Nat → List Nat}
    (hg : Gen s all G L) (t : Blk) (ht : t ∈ all) (hal : t.alloc = 1) (htag : TagOK s.mem t) :
    Gen s all (fun b => G b ∨ b = t) L :=
  { hp_eq := hg.hp_eq, hp_al := hg.hp_al, brk_hi := hg.brk_hi, max_lt := hg.max_lt,
    small := hg.small, pro_h := hg.pro_h, pro_f := hg.pro_f, epi := hg.epi, lay := hg.lay,
    sub := fun b hb => by
      rcases hb with hb | hb
      · exact hg.sub b hb
      · rw [hb]; exact ht
    tags := fun b hb => by
      rcases hb with hb | hb
      · exact hg.tags b hb
      · rw [hb]; exact htag
    lists := hg.lists, nodup := hg.nodup
    sound := fun i hi x hx => by
      obtain ⟨b, h1, h2⟩ := hg.sound i hi x hx
      exact ⟨b, Or.inl h1, h2⟩
    complete := fun b hb hb0 => by
      rcases hb with hb | hb
      · exact hg.complete b hb hb0
      · rw [hb, hal] at hb0; exact absurd hb0 (by decide) }

/-- An allocated block may leave `G` and become a hole. -/
theorem Gen.release {s : Heap} {all : List Blk} {G : Blk → Prop} {L : Nat → List Nat}
    (hg : Gen s all G L) (t : Blk) (hal : t.alloc = 1) :
    Gen s all (fun b => G b ∧ b ≠ t) L :=
  { hp_eq := hg.hp_eq, hp_al := hg.hp_al, brk_hi := hg.brk_hi, max_lt := hg.max_lt,
    small := hg.small, pro_h := hg.pro_h, pro_f := hg.pro_f, epi := hg.epi, lay := hg.lay,
    sub := fun b hb => hg.sub b hb.1
    tags := fun b hb => hg.tags b hb.1
    lists := hg.lists, nodup := hg.nodup
    sound := fun i hi x hx => by
      obtain ⟨b, h1, h2, h3, h4⟩ := hg.sound i hi x hx
      refine ⟨b, ⟨h1, fun e => ?_⟩, h2, h3, h4⟩
      rw [e, hal] at h3; exact absurd h3 (by decide)
    complete := fun b hb hb0 => hg.complete b hb.1 hb0 }

/-- Membership in the blocks around a hole. -/
theorem mem_around (a e : Nat) (pre post : List Blk) (t : Blk)
    (hl : Layout a (pre ++ t :: post) e) (b : Blk) :
    (b ∈ pre ++ t :: post ∧ b ≠ t) ↔ b ∈ pre ++ post := by
  constructor
  · rintro ⟨h1, h2⟩
    rcases List.mem_append.1 h1 with h | h
    · exact List.mem_append_left _ h
    · rcases List.mem_cons.1 h with h | h
      · exact absurd h h2
      · exact List.mem_append_right _ h
  · intro h
    have hd := Layout_not_mem a e pre post t hl b h
    have ht := (Layout_split a e pre post t hl).2.2.1
    refine ⟨?_, fun e => by rw [e] at hd; omega⟩
    rcases List.mem_append.1 h with h | h
    · exact List.mem_append_left _ h
    · exact List.mem_append_right _ (List.mem_cons_of_mem _ h)

/-- Any store inside a hole keeps the invariant, and the hole may be given any
size-compatible description. -/
theorem Gen.hole {s : Heap} {all : List Blk} {pre post : List Blk} {L : Nat → List Nat}
    (hg : Gen s all (fun b => b ∈ pre ++ post) L) (a size al : Nat)
    (h1 : Layout s.heap_ptr pre a) (h2 : Layout (a + size) post (s.mem_brk - 4))
    (h24 : 24 ≤ size) (h8 : size % 8 = 0) (hal : al ≤ 1) (m' : Mem)
    (hm : ∀ x, x < a ∨ a + size ≤ x → m' x = s.mem x) :
    Gen { s with mem := m' } (pre ++ ⟨a, size, al⟩ :: post) (fun b => b ∈ pre ++ post) L := by
  have hl : Layout s.heap_ptr (pre ++ ⟨a, size, al⟩ :: post) (s.mem_brk - 4) :=
    Layout_join _ _ pre post ⟨a, size, al⟩ h1 h2 h24 h8 hal
  have hsub : ∀ b, b ∈ pre ++ post → b ∈ pre ++ ⟨a, size, al⟩ :: post := by
    intro b hb
    rcases List.mem_append.1 hb with h | h
    · exact List.mem_append_left _ h
    · exact List.mem_append_right _ (List.mem_cons_of_mem _ h)
  have hg' := hg.regroup _ hl hsub
  apply hg'.frame { s with mem := m' } ⟨rfl, rfl, rfl, rfl, rfl⟩ (fun i _ => rfl)
  intro x hx
  apply hm
  have hle1 := Layout_le _ _ _ h1
  have hle2 := Layout_le _ _ _ h2
  rcases hx with hx | hx | ⟨b, hb, hx1, hx2⟩
  · omega
  · omega
  · have := Layout_not_mem _ _ pre post ⟨a, size, al⟩ hl b hb
    simp only at this
    omega

/-! ## `coalesce`: the four branches -/

theorem coalesce_AA (blk : Nat) (s : Heap)
    (h1 : get_alloc s.mem (get_prev_hdr_addr s.mem blk) ≠ 0)
    (h2 : get_alloc s.mem (get_next_hdr_addr s.mem blk) ≠ 0) :
    coalesce blk s = (blk, s) := by
  unfold coalesce
  simp only [h1, h2, ne_eq, not_false_eq_true, and_self, if_true]

theorem coalesce_AF (blk : Nat) (s : Heap)
    (h1 : get_alloc s.mem (get_prev_hdr_addr s.mem blk) ≠ 0)
    (h2 : get_alloc s.mem (get_next_hdr_addr s.mem blk) = 0) :
    coalesce blk s =
      (blk, retag (remove_from_free_list (get_next_hdr_addr s.mem blk) s) blk
        (get_ftr_addr (remove_from_free_list (get_next_hdr_addr s.mem blk) s).mem
          (get_next_hdr_addr s.mem blk))
        (add64 (get_size s.mem blk)
          (get_size (remove_from_free_list (get_next_hdr_addr s.mem blk) s).mem
            (get_next_hdr_addr s.mem blk)))) := by
  unfold coalesce retag
  simp only [h1, h2, ne_eq, not_false_eq_true, not_true_eq_false, and_false, and_self,
    if_true, if_false]

theorem coalesce_FA (blk : Nat) (s : Heap)
    (h1 : get_alloc s.mem (get_prev_hdr_addr s.mem blk) = 0)
    (h2 : get_alloc s.mem (get_next_hdr_addr s.mem blk) ≠ 0) :
    coalesce blk s =
      (get_prev_hdr_addr s.mem blk,
        retag (remove_from_free_list (get_prev_hdr_addr s.mem blk) s)
          (get_prev_hdr_addr s.mem blk)
          (get_ftr_addr (remove_from_free_list (get_prev_hdr_addr s.mem blk) s).mem blk)
          (add64 (get_size s.mem blk)
            (get_size (remove_from_free_list (get_prev_hdr_addr s.mem blk) s).mem
              (get_prev_hdr_addr s.mem blk)))) := by
  unfold coalesce retag
  simp only [h1, h2, ne_eq, not_false_eq_true, not_true_eq_false, and_false, false_and,
    and_self, if_true, if_false]

theorem coalesce_FF (blk : Nat) (s : Heap)
    (h1 : get_alloc s.mem (get_prev_hdr_addr s.mem blk) = 0)
    (h2 : get_alloc s.mem (get_next_hdr_addr s.mem blk) = 0) :
    coalesce blk s =
      (get_prev_hdr_addr s.mem blk,
        retag (remove_from_free_list (get_next_hdr_addr s.mem blk)
            (remove_from_free_list (get_prev_hdr_addr s.mem blk) s))
          (get_prev_hdr_addr s.mem blk)
          (get_ftr_addr (remove_from_free_list (get_next_hdr_addr s.mem blk)
            (remove_from_free_list (get_prev_hdr_addr s.mem blk) s)).mem
            (get_next_hdr_addr s.mem blk))
          (add64 (get_size s.mem blk)
            (add64
              (get_size (remove_from_free_list (get_next_hdr_addr s.mem blk)
                (remove_from_free_list (get_prev_hdr_addr s.mem blk) s)).mem
                (get_prev_hdr_addr s.mem blk))
              (get_size (remove_from_free_list (get_next_hdr_addr s.mem blk)
                (remove_from_free_list (get_prev_hdr_addr s.mem blk) s)).mem
                (get_next_hdr_addr s.mem blk))))) := by
  unfold coalesce retag
  simp only [h1, h2, ne_eq, not_false_eq_true, not_true_eq_false, and_false, false_and,
    and_self, if_true, if_false]

attribute [irreducible] coalesce

theorem Layout_nodup (a e : Nat) (bs : List Blk) (h : Layout a bs e) : bs.Nodup := by
  induction bs generalizing a with
  | nil => exact List.nodup_nil
  | cons b bs ih =>
    obtain ⟨h1, h2, h3, h4, h5⟩ := h
    refine List.nodup_cons.2 ⟨fun hm => ?_, ih _ h5⟩
    have := Layout_mem _ _ _ h5 b hm
    omega

/-! ### What `coalesce` reads -/

section reads

variable {s : Heap} {pre post : List Blk} {t : Blk} {L : Nat → List Nat}

theorem hole_blk (hg : Gen s (pre ++ t :: post) (fun b => b ∈ pre ++ post) L) :
    s.heap_ptr ≤ t.addr ∧ t.addr + t.size ≤ s.mem_brk - 4 ∧ 24 ≤ t.size ∧ t.size % 8 = 0 ∧
      t.alloc ≤ 1 ∧ t.addr % 8 = 4 ∧ t.size < 2 ^ 32 ∧ t.addr + t.size < 2 ^ 64 ∧
      s.mem_heap + 12 ≤ t.addr :=
  hg.blk t (by simp)

theorem prev_read_nil (hg : Gen s (pre ++ t :: post) (fun b => b ∈ pre ++ post) L)
    (hpre : pre = []) : get_alloc s.mem (get_prev_hdr_addr s.mem t.addr) = 1 := by
  subst hpre
  have hl := hg.lay
  have hta : t.addr = s.heap_ptr := hl.1
  have h1 := hg.hp_eq
  have h2 := hg.max_lt
  have h3 := hg.brk_hi
  have hb := hole_blk hg
  have e1 : sub64 t.addr WORD_SIZE = s.mem_heap + 8 := by
    rw [sub64_eq _ _ (by simp only [WORD_SIZE]; omega) (by omega)]
    simp only [WORD_SIZE]; omega
  have e2 : get_size s.mem (s.mem_heap + 8) = 8 :=
    get_size_of_tag _ _ 8 1 hg.pro_f (by omega) (by omega)
  unfold get_prev_hdr_addr get_hdr_addr
  rw [e1, e2, sub64_eq 8 WORD_SIZE (by simp only [WORD_SIZE]; omega) (by omega),
    sub64_eq _ _ (by simp only [WORD_SIZE]; omega) (by omega)]
  have e3 : s.mem_heap + 8 - (8 - WORD_SIZE) = s.mem_heap + 4 := by
    simp only [WORD_SIZE]; omega
  rw [e3]
  exact get_alloc_of_tag _ _ 8 1 hg.pro_h (by omega) (by omega)

theorem prev_read_snoc (hg : Gen s (pre ++ t :: post) (fun b => b ∈ pre ++ post) L)
    (pre0 : List Blk) (p : Blk) (hpre : pre = pre0 ++ [p]) :
    get_prev_hdr_addr s.mem t.addr = p.addr ∧ get_alloc s.mem p.addr = p.alloc ∧
      get_size s.mem p.addr = p.size ∧ p.addr + p.size = t.addr := by
  subst hpre
  have hpm : p ∈ pre0 ++ [p] ++ t :: post := by simp
  have hpG : p ∈ pre0 ++ [p] ++ post := by simp
  have hpb := hg.blk p hpm
  have hb := hole_blk hg
  have htag := hg.tags p hpG
  have hadj : p.addr + p.size = t.addr := by
    have hl := hg.lay
    rw [List.append_assoc] at hl
    have := (Layout_split _ _ pre0 ([] ++ t :: post) p (by simpa using hl)).2.1
    exact this.1.symm
  have h2 := hg.max_lt
  have h3 := hg.brk_hi
  have e1 : sub64 t.addr WORD_SIZE = p.addr + p.size - 4 := by
    rw [sub64_eq _ _ (by simp only [WORD_SIZE]; omega) (by omega)]
    simp only [WORD_SIZE]; omega
  have e2 : get_size s.mem (p.addr + p.size - 4) = p.size :=
    get_size_of_tag _ _ p.size p.alloc htag.2 hpb.2.2.2.1 hpb.2.2.2.2.1
  refine ⟨?_, get_alloc_of_tag _ _ p.size p.alloc htag.1 hpb.2.2.2.1 hpb.2.2.2.2.1,
    get_size_of_tag _ _ p.size p.alloc htag.1 hpb.2.2.2.1 hpb.2.2.2.2.1, hadj⟩
  unfold get_prev_hdr_addr get_hdr_addr
  rw [e1, e2, sub64_eq p.size WORD_SIZE (by simp only [WORD_SIZE]; omega) (by omega),
    sub64_eq _ _ (by simp only [WORD_SIZE]; omega) (by omega)]
  simp only [WORD_SIZE]; omega

theorem next_addr (hg : Gen s (pre ++ t :: post) (fun b => b ∈ pre ++ post) L)
    (hsz : get_size s.mem t.addr = t.size) :
    get_next_hdr_addr s.mem t.addr = t.addr + t.size := by
  have hb := hole_blk hg
  unfold get_next_hdr_addr
  rw [hsz, add64_eq _ _ (by omega)]

theorem next_read_nil (hg : Gen s (pre ++ t :: post) (fun b => b ∈ pre ++ post) L)
    (hsz : get_size s.mem t.addr = t.size) (hpost : post = []) :
    get_alloc s.mem (get_next_hdr_addr s.mem t.addr) = 1 := by
  subst hpost
  rw [next_addr hg hsz]
  have hl := (Layout_split _ _ pre [] t hg.lay).2.1
  have : t.addr + t.size = s.mem_brk - 4 := hl
  rw [this]
  exact get_alloc_of_tag _ _ 0 1 (by rw [hg.epi]) (by omega) (by omega)

theorem next_read_cons (hg : Gen s (pre ++ t :: post) (fun b => b ∈ pre ++ post) L)
    (hsz : get_size s.mem t.addr = t.size) (n : Blk) (post0 : List Blk)
    (hpost : post = n :: post0) :
    get_next_hdr_addr s.mem t.addr = n.addr ∧ get_alloc s.mem n.addr = n.alloc ∧
      get_size s.mem n.addr = n.size ∧ t.addr + t.size = n.addr := by
  subst hpost
  have hnm : n ∈ pre ++ t :: n :: post0 := by simp
  have hnG : n ∈ pre ++ n :: post0 := by simp
  have hnb := hg.blk n hnm
  have htag := hg.tags n hnG
  have hadj : t.addr + t.size = n.addr := by
    have := (Layout_split _ _ pre (n :: post0) t hg.lay).2.1
    exact this.1.symm
  rw [next_addr hg hsz]
  exact ⟨hadj, get_alloc_of_tag _ _ n.size n.alloc htag.1 hnb.2.2.2.1 hnb.2.2.2.2.1,
    get_size_of_tag _ _ n.size n.alloc htag.1 hnb.2.2.2.1 hnb.2.2.2.2.1, hadj⟩

end reads

/-- The two tag stores that end the merging branches of `coalesce` turn the
region `[a, a + size)` into a single hole with a valid header. -/
theorem retag_spec {s : Heap} {all pre post : List Blk} {L : Nat → List Nat}
    (hg : Gen s all (fun b => b ∈ pre ++ post) L) (a size : Nat)
    (h1 : Layout s.heap_ptr pre a) (h2 : Layout (a + size) post (s.mem_brk - 4))
    (h24 : 24 ≤ size) (h8 : size % 8 = 0) :
    Gen (retag s a (a + size - 4) size) (pre ++ ⟨a, size, 0⟩ :: post)
        (fun b => b ∈ pre ++ post) L ∧
      get_size (retag s a (a + size - 4) size).mem a = size ∧
      (∀ x, x < a ∨ a + size ≤ x → (retag s a (a + size - 4) size).mem x = s.mem x) := by
  have hle1 := Layout_le _ _ _ h1
  have hle2 := Layout_le _ _ _ h2
  have hq1 := hg.hp_eq
  have hq2 := hg.brk_hi
  have hq3 := hg.small
  have hlt : size < 2 ^ 32 := by omega
  have htag : make_btag size 0 = size := by
    have := make_btag_eq size 0 h8 (by omega) hlt; simpa using this
  have hm : ∀ x, x < a ∨ a + size ≤ x → (retag s a (a + size - 4) size).mem x = s.mem x := by
    intro x hx
    show put_btag (put_btag s.mem a (make_btag size 0)) (a + size - 4) (make_btag size 0) x = _
    unfold put_btag
    rw [put_u32_out _ _ _ _ (by omega), put_u32_out _ _ _ _ (by omega)]
  refine ⟨hg.hole a size 0 h1 h2 h24 h8 (by omega) _ hm, ?_, hm⟩
  apply get_size_of_tag _ _ size 0 _ h8 (by omega)
  show get_u32 (put_btag (put_btag s.mem a (make_btag size 0)) (a + size - 4)
    (make_btag size 0)) a = _
  unfold put_btag
  rw [htag, get_u32_put_u32_ne _ _ _ _ (by omega), get_u32_put_u32_same]
  omega

/-- `remove_from_free_list` on a filed free block, in terms of block lists. -/
theorem remove_neighbor {s : Heap} {all A : List Blk} {L : Nat → List Nat}
    (hg : Gen s all (fun b => b ∈ A) L) (n : Blk) (hn : n ∈ A) (hf : n.alloc = 0)
    (hnd : A.Nodup) :
    Gen (remove_from_free_list n.addr s) all (fun b => b ∈ A.erase n) (unfile L n) ∧
      SameArena s (remove_from_free_list n.addr s) ∧
      (∀ b, b ∈ all → TagOK s.mem b → TagOK (remove_from_free_list n.addr s).mem b) ∧
      (∀ b, b ∈ all → get_size (remove_from_free_list n.addr s).mem b.addr =
        get_size s.mem b.addr) ∧
      (∀ b, b ∈ all → ¬ (b ∈ A ∧ b.alloc = 0 ∧ b ≠ n) →
        ∀ x, b.addr ≤ x → x < b.addr + b.size →
        (remove_from_free_list n.addr s).mem x = s.mem x) ∧
      (∀ x, x < s.heap_ptr ∨ s.mem_brk - 4 ≤ x →
        (remove_from_free_list n.addr s).mem x = s.mem x) := by
  obtain ⟨r1, r2, r3⟩ := remove_spec hg n hn hf
  have hGsub : ∀ b, (fun b => b ∈ A ∧ b ≠ n) b → (fun b => b ∈ A) b := fun b hb => hb.1
  refine ⟨r1.congrG (fun b => and_comm.trans (hnd.mem_erase_iff).symm), r2, ?_, ?_, ?_, ?_⟩
  · intro b hb htag
    have := LinkOnly.tag hg hGsub r3 b hb
    unfold TagOK at *
    rw [this.1, this.2]; exact htag
  · intro b hb
    have := LinkOnly.tag hg hGsub r3 b hb
    exact get_size_congr _ _ _ (fun x hx1 hx2 => by
      apply r3
      intro c hc _
      exact hg.tag_cells b hb x (Or.inl ⟨hx1, hx2⟩) c (hg.sub c hc.1))
  · intro b hb hnot x hx1 hx2
    exact LinkOnly.extent hg hGsub r3 b hb (fun h => hnot ⟨h.1.1, h.2, h.1.2⟩) x hx1 hx2
  · intro x hx
    exact LinkOnly.outside hg hGsub r3 x hx

theorem erase_post (pre post0 : List Blk) (n : Blk) (hnd : (pre ++ n :: post0).Nodup) :
    (pre ++ n :: post0).erase n = pre ++ post0 := by
  have hy : n ∉ pre := fun hm => (List.nodup_append.1 hnd).2.2 hm (List.mem_cons_self _ _)
  rw [List.erase_append_right _ hy, List.erase_cons_head]

/-! ### The four cases of `coalesce` on a hole -/

section cases

variable {s : Heap} {pre post : List Blk} {t : Blk} {L : Nat → List Nat}

/-- Both neighbours allocated (or sentinels): nothing happens. -/
theorem coalesce_case_AA (hg : Gen s (pre ++ t :: post) (fun b => b ∈ pre ++ post) L)
    (hsz : get_size s.mem t.addr = t.size)
    (hp : ∀ p, p ∈ pre.getLast? → p.alloc = 1) (hn : ∀ n, n ∈ post.head? → n.alloc = 1) :
    coalesce t.addr s = (t.addr, s) := by
  apply coalesce_AA
  · rcases list_nil_or_snoc' pre with h0 | ⟨pre0, p, h0⟩
    · rw [prev_read_nil hg h0]; decide
    · obtain ⟨e1, e2, _⟩ := prev_read_snoc hg pre0 p h0
      rw [e1, e2, hp p (by rw [h0]; simp)]; decide
  · cases hpost : post with
    | nil => rw [next_read_nil hg hsz hpost]; decide
    | cons n post0 =>
      obtain ⟨e1, e2, _⟩ := next_read_cons hg hsz n post0 hpost
      rw [e1, e2, hn n (by rw [hpost]; simp)]; decide

theorem ftr_addr_eq (m : Mem) (a size : Nat) (hs : get_size m a = size) (h4 : 4 ≤ size)
    (hlt : a + size < 2 ^ 64) : get_ftr_addr m a = a + size - 4 := by
  unfold get_ftr_addr
  rw [hs, sub64_eq _ _ (by simp only [WORD_SIZE]; omega) (by omega),
    add64_eq _ _ (by simp only [WORD_SIZE]; omega)]
  simp only [WORD_SIZE]; omega

theorem prev_cond (hg : Gen s (pre ++ t :: post) (fun b => b ∈ pre ++ post) L)
    (hp : ∀ p, p ∈ pre.getLast? → p.alloc = 1) :
    get_alloc s.mem (get_prev_hdr_addr s.mem t.addr) ≠ 0 := by
  rcases list_nil_or_snoc' pre with h0 | ⟨pre0, p, h0⟩
  · rw [prev_read_nil hg h0]; decide
  · obtain ⟨e1, e2, _⟩ := prev_read_snoc hg pre0 p h0
    rw [e1, e2, hp p (by rw [h0]; simp)]; decide

theorem next_cond (hg : Gen s (pre ++ t :: post) (fun b => b ∈ pre ++ post) L)
    (hsz : get_size s.mem t.addr = t.size) (hn : ∀ n, n ∈ post.head? → n.alloc = 1) :
    get_alloc s.mem (get_next_hdr_addr s.mem t.addr) ≠ 0 := by
  cases hpost : post with
  | nil => rw [next_read_nil hg hsz hpost]; decide
  | cons n post0 =>
    obtain ⟨e1, e2, _⟩ := next_read_cons hg hsz n post0 hpost
    rw [e1, e2, hn n (by rw [hpost]; simp)]; decide

/-- Previous block allocated, next block free. -/
theorem coalesce_case_AF {n : Blk} {post0 : List Blk}
    (hg : Gen s (pre ++ t :: n :: post0) (fun b => b ∈ pre ++ n :: post0) L)
    (hsz : get_size s.mem t.addr = t.size)
    (hp : ∀ p, p ∈ pre.getLast? → p.alloc = 1) (hn : n.alloc = 0) :
    ∃ s', coalesce t.addr s = (t.addr, s') ∧
      Gen s' (pre ++ ⟨t.addr, t.size + n.size, 0⟩ :: post0) (fun b => b ∈ pre ++ post0)
        (unfile L n) ∧
      get_size s'.mem t.addr = t.size + n.size ∧ SameArena s s' ∧
      KeepAlloc (pre ++ post0) s.mem s'.mem := by
  have hnd := Layout_nodup _ _ _ hg.lay
  have hAnd : (pre ++ n :: post0).Nodup :=
    hnd.sublist ((List.Sublist.refl pre).append (List.sublist_cons_self t _))
  have hnall : n ∈ pre ++ t :: n :: post0 := by simp
  have hnb := hg.blk n hnall
  have htb := hole_blk hg
  obtain ⟨r1, r2, r3, r4, r5, r6⟩ := remove_neighbor hg n (by simp) hn hAnd
  rw [erase_post pre post0 n hAnd] at r1
  obtain ⟨e1, e2, e3, e4⟩ := next_read_cons hg hsz n post0 rfl
  have h1 := prev_cond hg hp
  have h2 : get_alloc s.mem (get_next_hdr_addr s.mem t.addr) = 0 := by rw [e1, e2, hn]
  have hco := coalesce_AF t.addr s h1 h2
  rw [e1] at hco
  have e5 : get_size (remove_from_free_list n.addr s).mem n.addr = n.size := by
    rw [r4 n hnall, e3]
  have e6 := ftr_addr_eq _ _ _ e5 (by omega) hnb.2.2.2.2.2.2.2.1
  have hq1 := hg.max_lt
  have hq2 := hg.brk_hi
  have e7 : add64 (get_size s.mem t.addr) n.size = t.size + n.size := by
    rw [hsz, add64_eq _ _ (by omega)]
  have e8 : n.addr + n.size - 4 = t.addr + (t.size + n.size) - 4 := by omega
  rw [e5, e6, e7, e8] at hco
  obtain ⟨a1, a2, a3, a4, a5⟩ := r2
  have hl1 := (Layout_split _ _ pre (n :: post0) t hg.lay).1
  have hl2 := (Layout_split _ _ pre (n :: post0) t hg.lay).2.1
  have hl3 : Layout (t.addr + (t.size + n.size)) post0 (s.mem_brk - 4) := by
    have := hl2.2.2.2.2
    rw [Nat.add_assoc] at this
    exact this
  obtain ⟨g1, g2, g3⟩ := retag_spec r1 t.addr (t.size + n.size)
    (by rw [a4]; exact hl1) (by rw [a2]; exact hl3) (by omega) (by omega)
  refine ⟨_, hco, g1, g2, ⟨a1, a2, a3, a4, a5⟩, ?_⟩
  intro b hb hb1 x hx1 hx2
  have hball : b ∈ pre ++ t :: n :: post0 := by
    rcases List.mem_append.1 hb with h | h
    · exact List.mem_append_left _ h
    · exact List.mem_append_right _ (List.mem_cons_of_mem _ (List.mem_cons_of_mem _ h))
  have hdis : b.addr + b.size ≤ t.addr ∨ t.addr + (t.size + n.size) ≤ b.addr := by
    rcases List.mem_append.1 hb with h | h
    · left; exact (Layout_mem _ _ _ hl1 b h).2.1
    · right; exact (Layout_mem _ _ _ hl3 b h).1
  rw [g3 x (by omega)]
  exact r5 b hball (fun h => by rw [hb1] at h; exact absurd h.2.1 (by decide)) x hx1 hx2

/-- Previous block free, next block allocated. -/
theorem coalesce_case_FA {p : Blk} {pre0 : List Blk}
    (hg : Gen s ((pre0 ++ [p]) ++ t :: post) (fun b => b ∈ (pre0 ++ [p]) ++ post) L)
    (hsz : get_size s.mem t.addr = t.size)
    (hp : p.alloc = 0) (hn : ∀ n, n ∈ post.head? → n.alloc = 1) :
    ∃ s', coalesce t.addr s = (p.addr, s') ∧
      Gen s' (pre0 ++ ⟨p.addr, t.size + p.size, 0⟩ :: post) (fun b => b ∈ pre0 ++ post)
        (unfile L p) ∧
      get_size s'.mem p.addr = t.size + p.size ∧ SameArena s s' ∧
      KeepAlloc (pre0 ++ post) s.mem s'.mem := by
  have hnd := Layout_nodup _ _ _ hg.lay
  have hsub : List.Sublist ((pre0 ++ [p]) ++ post) ((pre0 ++ [p]) ++ t :: post) :=
    (List.Sublist.refl _).append (List.sublist_cons_self t _)
  have hAnd : ((pre0 ++ [p]) ++ post).Nodup := hnd.sublist hsub
  have hpall : p ∈ (pre0 ++ [p]) ++ t :: post := by simp
  have htall : t ∈ (pre0 ++ [p]) ++ t :: post := by simp
  have hpb := hg.blk p hpall
  have htb := hole_blk hg
  obtain ⟨r1, r2, r3, r4, r5, r6⟩ := remove_neighbor hg p (by simp) hp hAnd
  have hA : (pre0 ++ [p] ++ post).erase p = pre0 ++ post := by
    have : pre0 ++ [p] ++ post = pre0 ++ p :: post := by simp
    rw [this]
    rw [this] at hAnd
    exact erase_post pre0 post p hAnd
  rw [hA] at r1
  obtain ⟨e1, e2, e3, e4⟩ := prev_read_snoc hg pre0 p rfl
  have h1 : get_alloc s.mem (get_prev_hdr_addr s.mem t.addr) = 0 := by rw [e1, e2, hp]
  have h2 := next_cond hg hsz hn
  have hco := coalesce_FA t.addr s h1 h2
  rw [e1] at hco
  have e5 : get_size (remove_from_free_list p.addr s).mem p.addr = p.size := by
    rw [r4 p hpall, e3]
  have e5' : get_size (remove_from_free_list p.addr s).mem t.addr = t.size := by
    rw [r4 t htall, hsz]
  have e6 := ftr_addr_eq _ _ _ e5' (by omega) htb.2.2.2.2.2.2.2.1
  have hq1 := hg.max_lt
  have hq2 := hg.brk_hi
  have e7 : add64 (get_size s.mem t.addr) p.size = t.size + p.size := by
    rw [hsz, add64_eq _ _ (by omega)]
  have e8 : t.addr + t.size - 4 = p.addr + (t.size + p.size) - 4 := by omega
  rw [e5, e6, e7, e8] at hco
  obtain ⟨a1, a2, a3, a4, a5⟩ := r2
  have hlay := hg.lay
  have hlay' : Layout s.heap_ptr (pre0 ++ p :: t :: post) (s.mem_brk - 4) := by
    simpa using hlay
  have hl1 := (Layout_split _ _ pre0 (t :: post) p hlay').1
  have hl2 := (Layout_split _ _ pre0 (t :: post) p hlay').2.1
  have hl3 : Layout (p.addr + (t.size + p.size)) post (s.mem_brk - 4) := by
    have := hl2.2.2.2.2
    have e : p.addr + p.size + t.size = p.addr + (t.size + p.size) := by omega
    rw [e] at this
    exact this
  obtain ⟨g1, g2, g3⟩ := retag_spec r1 p.addr (t.size + p.size)
    (by rw [a4]; exact hl1) (by rw [a2]; exact hl3) (by omega) (by omega)
  refine ⟨_, hco, g1, g2, ⟨a1, a2, a3, a4, a5⟩, ?_⟩
  intro b hb hb1 x hx1 hx2
  have hball : b ∈ (pre0 ++ [p]) ++ t :: post := by
    rcases List.mem_append.1 hb with h | h
    · simp [h]
    · simp [h]
  have hdis : b.addr + b.size ≤ p.addr ∨ p.addr + (t.size + p.size) ≤ b.addr := by
    rcases List.mem_append.1 hb with h | h
    · left; exact (Layout_mem _ _ _ hl1 b h).2.1
    · right; exact (Layout_mem _ _ _ hl3 b h).1
  rw [g3 x (by omega)]
  exact r5 b hball (fun h => by rw [hb1] at h; exact absurd h.2.1 (by decide)) x hx1 hx2

/-- Both neighbours free. -/
theorem coalesce_case_FF {p n : Blk} {pre0 post0 : List Blk}
    (hg : Gen s ((pre0 ++ [p]) ++ t :: n :: post0)
      (fun b => b ∈ (pre0 ++ [p]) ++ n :: post0) L)
    (hsz : get_size s.mem t.addr = t.size) (hp : p.alloc = 0) (hn : n.alloc = 0) :
    ∃ s', coalesce t.addr s = (p.addr, s') ∧
      Gen s' (pre0 ++ ⟨p.addr, t.size + (p.size + n.size), 0⟩ :: post0)
        (fun b => b ∈ pre0 ++ post0) (unfile (unfile L p) n) ∧
      get_size s'.mem p.addr = t.size + (p.size + n.size) ∧ SameArena s s' ∧
      KeepAlloc (pre0 ++ post0) s.mem s'.mem := by
  have hnd := Layout_nodup _ _ _ hg.lay
  have hsub : List.Sublist ((pre0 ++ [p]) ++ n :: post0) ((pre0 ++ [p]) ++ t :: n :: post0) :=
    (List.Sublist.refl _).append (List.sublist_cons_self t _)
  have hAnd : ((pre0 ++ [p]) ++ n :: post0).Nodup := hnd.sublist hsub
  have hpall : p ∈ (pre0 ++ [p]) ++ t :: n :: post0 := by simp
  have htall : t ∈ (pre0 ++ [p]) ++ t :: n :: post0 := by simp
  have hnall : n ∈ (pre0 ++ [p]) ++ t :: n :: post0 := by simp
  have hpb := hg.blk p hpall
  have hnb := hg.blk n hnall
  have htb := hole_blk hg
  obtain ⟨r1, r2, r3, r4, r5, r6⟩ := remove_neighbor hg p (by simp) hp hAnd
  have hA : (pre0 ++ [p] ++ n :: post0).erase p = pre0 ++ n :: post0 := by
    have : pre0 ++ [p] ++ n :: post0 = pre0 ++ p :: n :: post0 := by simp
    rw [this]
    rw [this] at hAnd
    exact erase_post pre0 (n :: post0) p hAnd
  rw [hA] at r1
  have hAnd1 : (pre0 ++ n :: post0).Nodup := by
    rw [← hA]; exact hAnd.erase p
  obtain ⟨q1, q2, q3, q4, q5, q6⟩ := remove_neighbor r1 n (by simp) hn hAnd1
  rw [erase_post pre0 post0 n hAnd1] at q1
  obtain ⟨e1, e2, e3, e4⟩ := prev_read_snoc hg pre0 p rfl
  obtain ⟨f1, f2, f3, f4⟩ := next_read_cons hg hsz n post0 rfl
  have h1 : get_alloc s.mem (get_prev_hdr_addr s.mem t.addr) = 0 := by rw [e1, e2, hp]
  have h2 : get_alloc s.mem (get_next_hdr_addr s.mem t.addr) = 0 := by rw [f1, f2, hn]
  have hco := coalesce_FF t.addr s h1 h2
  rw [e1, f1] at hco
  have e5 : get_size (remove_from_free_list n.addr (remove_from_free_list p.addr s)).mem
      p.addr = p.size := by
    rw [q4 p hpall, r4 p hpall, e3]
  have e5' : get_size (remove_from_free_list n.addr (remove_from_free_list p.addr s)).mem
      n.addr = n.size := by
    rw [q4 n hnall, r4 n hnall, f3]
  have e6 := ftr_addr_eq _ _ _ e5' (by omega) hnb.2.2.2.2.2.2.2.1
  have hq1 := hg.max_lt
  have hq2 := hg.brk_hi
  have e7 : add64 (get_size s.mem t.addr) (add64 p.size n.size) =
      t.size + (p.size + n.size) := by
    rw [hsz, add64_eq p.size _ (by omega), add64_eq _ _ (by omega)]
  have e8 : n.addr + n.size - 4 = p.addr + (t.size + (p.size + n.size)) - 4 := by omega
  rw [e5, e5', e6, e7, e8] at hco
  have r2' := r2
  obtain ⟨a1, a2, a3, a4, a5⟩ := r2
  have q2' := q2
  obtain ⟨b1, b2, b3, b4, b5⟩ := q2
  have hlay := hg.lay
  have hlay' : Layout s.heap_ptr (pre0 ++ p :: t :: n :: post0) (s.mem_brk - 4) := by
    simpa using hlay
  have hl1 := (Layout_split _ _ pre0 (t :: n :: post0) p hlay').1
  have hl2 := (Layout_split _ _ pre0 (t :: n :: post0) p hlay').2.1
  have hl3 : Layout (p.addr + (t.size + (p.size + n.size))) post0 (s.mem_brk - 4) := by
    have := hl2.2.2.2.2.2.2.2.2
    have e : p.addr + p.size + t.size + n.size = p.addr + (t.size + (p.size + n.size)) := by
      omega
    rw [e] at this
    exact this
  obtain ⟨g1, g2, g3⟩ := retag_spec q1 p.addr (t.size + (p.size + n.size))
    (by rw [b4, a4]; exact hl1) (by rw [b2, a2]; exact hl3) (by omega) (by omega)
  refine ⟨_, hco, g1, g2, r2'.same_trans q2', ?_⟩
  intro b hb hb1 x hx1 hx2
  have hball : b ∈ (pre0 ++ [p]) ++ t :: n :: post0 := by
    rcases List.mem_append.1 hb with h | h
    · simp [h]
    · simp [h]
  have hdis : b.addr + b.size ≤ p.addr ∨ p.addr + (t.size + (p.size + n.size)) ≤ b.addr := by
    rcases List.mem_append.1 hb with h | h
    · left; exact (Layout_mem _ _ _ hl1 b h).2.1
    · right; exact (Layout_mem _ _ _ hl3 b h).1
  rw [g3 x (by omega),
    q5 b hball (fun h => by rw [hb1] at h; exact absurd h.2.1 (by decide)) x hx1 hx2]
  exact r5 b hball (fun h => by rw [hb1] at h; exact absurd h.2.1 (by decide)) x hx1 hx2

end cases

/-! ### Adjacent free blocks -/

theorem noadj_join (pre post : List Blk) (t : Blk) (h1 : NoAdjFree pre) (h2 : NoAdjFree post)
    (hp : ∀ x, x ∈ pre.getLast? → x.alloc = 1) (hn : ∀ y, y ∈ post.head? → y.alloc = 1) :
    NoAdjFree (pre ++ t :: post) := by
  unfold NoAdjFree at *
  rw [List.chain'_append]
  refine ⟨h1, List.chain'_cons'.2 ⟨fun y hy => Or.inr (hn y hy), h2⟩, ?_⟩
  intro x hx y _
  exact Or.inl (hp x hx)

theorem noadj_split (pre post : List Blk) (t : Blk) (h : NoAdjFree (pre ++ t :: post)) :
    NoAdjFree pre ∧ NoAdjFree post ∧
      (t.alloc = 0 → (∀ x, x ∈ pre.getLast? → x.alloc = 1) ∧
        (∀ y, y ∈ post.head? → y.alloc = 1)) := by
  unfold NoAdjFree at *
  rw [List.chain'_append] at h
  obtain ⟨h1, h2, h3⟩ := h
  rw [List.chain'_cons'] at h2
  refine ⟨h1, h2.2, fun ht => ⟨fun x hx => ?_, fun y hy => ?_⟩⟩
  · rcases h3 x hx t (by simp) with h | h
    · exact h
    · rw [ht] at h; exact absurd h (by decide)
  · rcases h2.1 y hy with h | h
    · rw [ht] at h; exact absurd h (by decide)
    · exact h

theorem noadj_snoc (pre0 : List Blk) (p : Blk) (h : NoAdjFree (pre0 ++ [p])) (hp : p.alloc = 0) :
    NoAdjFree pre0 ∧ ∀ x, x ∈ pre0.getLast? → x.alloc = 1 := by
  have := noadj_split pre0 [] p h
  exact ⟨this.1, (this.2.2 hp).1⟩

theorem noadj_cons (post0 : List Blk) (n : Blk) (h : NoAdjFree (n :: post0)) (hn : n.alloc = 0) :
    NoAdjFree post0 ∧ ∀ y, y ∈ post0.head? → y.alloc = 1 := by
  have := noadj_split [] post0 n h
  exact ⟨this.2.1, (this.2.2 hn).2⟩

theorem alloc_cases (b : Blk) (h : b.alloc ≤ 1) : b.alloc = 0 ∨ b.alloc = 1 := by omega

/-! ### `coalesce` on a hole: summary -/

/-- `coalesce` on a hole with a valid header returns a hole that has no free
neighbour; blocks allocated before keep their place and their bytes. -/
theorem coalesce_spec {s : Heap} {pre post : List Blk} {t : Blk} {L : Nat → List Nat}
    (hg : Gen s (pre ++ t :: post) (fun b => b ∈ pre ++ post) L)
    (hsz : get_size s.mem t.addr = t.size) (hn1 : NoAdjFree pre) (hn2 : NoAdjFree post) :
    ∃ s' pre' t' post' L', coalesce t.addr s = (t'.addr, s') ∧
      Gen s' (pre' ++ t' :: post') (fun b => b ∈ pre' ++ post') L' ∧
      get_size s'.mem t'.addr = t'.size ∧ t'.alloc = 0 ∧ SameArena s s' ∧
      NoAdjFree (pre' ++ t' :: post') ∧
      t'.addr ≤ t.addr ∧ t.addr + t.size ≤ t'.addr + t'.size ∧
      (∀ b, b ∈ pre ++ post → b.alloc = 1 → b ∈ pre' ++ post') ∧
      (∀ b, b ∈ pre' ++ post' → b ∈ pre ++ post) ∧
      KeepAlloc (pre' ++ post') s.mem s'.mem := by
  have htb := hole_blk hg
  -- shape of the left neighbour
  have hleft : (∀ p, p ∈ pre.getLast? → p.alloc = 1) ∨
      ∃ pre0 p, pre = pre0 ++ [p] ∧ p.alloc = 0 := by
    rcases list_nil_or_snoc' pre with h0 | ⟨pre0, p, h0⟩
    · left; intro p hp; rw [h0] at hp; simp at hp
    · have hpb := hg.blk p (by rw [h0]; simp)
      rcases alloc_cases p hpb.2.2.2.2.1 with h | h
      · right; exact ⟨pre0, p, h0, h⟩
      · left; intro q hq
        rw [h0, List.getLast?_concat] at hq
        simp at hq; rw [← hq]; exact h
  have hright : (∀ n, n ∈ post.head? → n.alloc = 1) ∨
      ∃ n post0, post = n :: post0 ∧ n.alloc = 0 := by
    cases hpost : post with
    | nil => left; intro n hn; simp at hn
    | cons n post0 =>
      have hnb := hg.blk n (by rw [hpost]; simp)
      rcases alloc_cases n hnb.2.2.2.2.1 with h | h
      · right; exact ⟨n, post0, rfl, h⟩
      · left; intro q hq
        simp at hq; rw [← hq]; exact h
  rcases hleft with hp | ⟨pre0, p, hpre, hp⟩ <;> rcases hright with hn | ⟨n, post0, hpost, hn⟩
  · -- both allocated
    have hco := coalesce_case_AA hg hsz hp hn
    have hsp := Layout_split _ _ pre post t hg.lay
    have hl : Layout s.heap_ptr (pre ++ ⟨t.addr, t.size, 0⟩ :: post) (s.mem_brk - 4) :=
      Layout_join _ _ pre post ⟨t.addr, t.size, 0⟩ hsp.1 hsp.2.1 hsp.2.2.1 hsp.2.2.2.1
        (by simp)
    have hg' := hg.regroup _ hl (fun b hb => by
      rcases List.mem_append.1 hb with h | h
      · exact List.mem_append_left _ h
      · exact List.mem_append_right _ (List.mem_cons_of_mem _ h))
    exact ⟨s, pre, ⟨t.addr, t.size, 0⟩, post, L, hco, hg', hsz, rfl, SameArena.same_refl s,
      noadj_join pre post _ hn1 hn2 hp hn, le_refl _, le_refl _, fun b hb _ => hb,
      fun b hb => hb, fun b _ _ x _ _ => rfl⟩
  · -- next free
    subst hpost
    obtain ⟨s', c1, c2, c3, c4, c5⟩ := coalesce_case_AF hg hsz hp hn
    have hnb := hg.blk n (by simp)
    have hadj := (next_read_cons hg hsz n post0 rfl).2.2.2
    obtain ⟨k1, k2⟩ := noadj_cons post0 n hn2 hn
    refine ⟨s', pre, ⟨t.addr, t.size + n.size, 0⟩, post0, unfile L n, c1, c2, c3, rfl, c4,
      noadj_join pre post0 _ hn1 k1 hp k2, le_refl _, by simp only; omega, ?_, ?_, c5⟩
    · intro b hb hb1
      rcases List.mem_append.1 hb with h | h
      · exact List.mem_append_left _ h
      · rcases List.mem_cons.1 h with h | h
        · rw [h, hn] at hb1; exact absurd hb1 (by decide)
        · exact List.mem_append_right _ h
    · intro b hb
      rcases List.mem_append.1 hb with h | h
      · exact List.mem_append_left _ h
      · exact List.mem_append_right _ (List.mem_cons_of_mem _ h)
  · -- previous free
    subst hpre
    obtain ⟨s', c1, c2, c3, c4, c5⟩ := coalesce_case_FA hg hsz hp hn
    have hpb := hg.blk p (by simp)
    have hadj := (prev_read_snoc hg pre0 p rfl).2.2.2
    obtain ⟨k1, k2⟩ := noadj_snoc pre0 p hn1 hp
    refine ⟨s', pre0, ⟨p.addr, t.size + p.size, 0⟩, post, unfile L p, c1, c2, c3, rfl, c4,
      noadj_join pre0 post _ k1 hn2 k2 hn, by simp only; omega, by simp only; omega,
      ?_, ?_, c5⟩
    · intro b hb hb1
      rcases List.mem_append.1 hb with h | h
      · rcases List.mem_append.1 h with h | h
        · exact List.mem_append_left _ h
        · rw [List.mem_singleton.1 h, hp] at hb1; exact absurd hb1 (by decide)
      · exact List.mem_append_right _ h
    · intro b hb
      rcases List.mem_append.1 hb with h | h
      · exact List.mem_append_left _ (List.mem_append_left _ h)
      · exact List.mem_append_right _ h
  · -- both free
    subst hpre
    subst hpost
    obtain ⟨s', c1, c2, c3, c4, c5⟩ := coalesce_case_FF hg hsz hp hn
    have hpb := hg.blk p (by simp)
    have hnb := hg.blk n (by simp)
    have hadj := (prev_read_snoc hg pre0 p rfl).2.2.2
    have hadj2 := (next_read_cons hg hsz n post0 rfl).2.2.2
    obtain ⟨k1, k2⟩ := noadj_snoc pre0 p hn1 hp
    obtain ⟨k3, k4⟩ := noadj_cons post0 n hn2 hn
    refine ⟨s', pre0, ⟨p.addr, t.size + (p.size + n.size), 0⟩, post0, unfile (unfile L p) n,
      c1, c2, c3, rfl, c4, noadj_join pre0 post0 _ k1 k3 k2 k4, by simp only; omega,
      by simp only; omega, ?_, ?_, c5⟩
    · intro b hb hb1
      rcases List.mem_append.1 hb with h | h
      · rcases List.mem_append.1 h with h | h
        · exact List.mem_append_left _ h
        · rw [List.mem_singleton.1 h, hp] at hb1; exact absurd hb1 (by decide)
      · rcases List.mem_cons.1 h with h | h
        · rw [h, hn] at hb1; exact absurd hb1 (by decide)
        · exact List.mem_append_right _ h
    · intro b hb
      rcases List.mem_append.1 hb with h | h
      · exact List.mem_append_left _ (List.mem_append_left _ h)
      · exact List.mem_append_right _ (List.mem_cons_of_mem _ h)

theorem mem_insert_hole (pre post : List Blk) (t b : Blk) :
    (b ∈ pre ++ post ∨ b = t) ↔ b ∈ pre ++ t :: post := by
  simp only [List.mem_append, List.mem_cons]
  tauto

/-- Filing the hole as a free block gives back the invariant. -/
theorem file_hole {s : Heap} {pre post : List Blk} {t : Blk} {L : Nat → List Nat}
    (hg : Gen s (pre ++ t :: post) (fun b => b ∈ pre ++ post) L) (ht0 : t.alloc = 0)
    (hna : NoAdjFree (pre ++ t :: post)) :
    Inv (add_to_free_list t.addr t.size s) (pre ++ t :: post) (file L t) ∧
      SameArena s (add_to_free_list t.addr t.size s) ∧
      KeepAlloc (pre ++ post) s.mem (add_to_free_list t.addr t.size s).mem := by
  have hnG : ¬ (t ∈ pre ++ post) := by
    intro h
    have := Layout_not_mem _ _ pre post t hg.lay t h
    have := hole_blk hg
    omega
  obtain ⟨r1, r2, r3⟩ := add_spec hg t (by simp) hnG ht0
  refine ⟨⟨r1.congrG (mem_insert_hole pre post t), hna⟩, r2, ?_⟩
  intro b hb hb1 x hx1 hx2
  have hball : b ∈ pre ++ t :: post := (mem_insert_hole pre post t b).1 (Or.inl hb)
  have hbb := hg.blk b hball
  apply r3
  · have := Layout_not_mem _ _ pre post t hg.lay b hb
    omega
  · intro c hc hc0
    have hcall : c ∈ pre ++ t :: post := (mem_insert_hole pre post t c).1 (Or.inl hc)
    have hcb := hg.blk c hcall
    rcases Layout_disj _ _ _ hg.lay b c hball hcall with e | e | e
    · rw [e, hc0] at hb1; exact absurd hb1 (by decide)
    · omega
    · omega

/-- Marking the hole as an allocated block gives back the invariant. -/
theorem alloc_hole {s : Heap} {pre post : List Blk} {t : Blk} {L : Nat → List Nat}
    (hg : Gen s (pre ++ t :: post) (fun b => b ∈ pre ++ post) L) (ht1 : t.alloc = 1)
    (htag : TagOK s.mem t) (hn1 : NoAdjFree pre) (hn2 : NoAdjFree post) :
    Inv s (pre ++ t :: post) L := by
  refine ⟨(hg.adopt t (by simp) ht1 htag).congrG (mem_insert_hole pre post t), ?_⟩
  unfold NoAdjFree at *
  rw [List.chain'_append]
  refine ⟨hn1, List.chain'_cons'.2 ⟨fun y _ => Or.inl ht1, hn2⟩, ?_⟩
  intro x _ y hy
  simp at hy
  rw [← hy]
  exact Or.inr ht1

/-- Taking an allocated block out of the invariant leaves a hole. -/
theorem open_hole {s : Heap} {pre post : List Blk} {t : Blk} {L : Nat → List Nat}
    (hi : Inv s (pre ++ t :: post) L) (ht1 : t.alloc = 1) :
    Gen s (pre ++ t :: post) (fun b => b ∈ pre ++ post) L ∧
      get_size s.mem t.addr = t.size ∧ NoAdjFree pre ∧ NoAdjFree post := by
  have hb := hi.gen.blk t (by simp)
  have hsp := noadj_split pre post t hi.noadj
  refine ⟨(hi.gen.release t ht1).congrG (mem_around _ _ pre post t hi.gen.lay), ?_,
    hsp.1, hsp.2.1⟩
  exact get_size_of_tag _ _ _ _ (hi.gen.tags t (by simp)).1 hb.2.2.2.1 hb.2.2.2.2.1

theorem Stable.stable_refl (bs : List Blk) (m : Mem) : Stable bs m bs m :=
  fun _ hc _ => ⟨hc, fun _ _ _ => rfl⟩

theorem Stable.stable_trans {bs bs' bs'' : List Blk} {m m' m'' : Mem}
    (h1 : Stable bs m bs' m') (h2 : Stable bs' m' bs'' m'') : Stable bs m bs'' m'' := by
  intro c hc hc1
  obtain ⟨a1, a2⟩ := h1 c hc hc1
  obtain ⟨b1, b2⟩ := h2 c a1 hc1
  exact ⟨b1, fun x hx1 hx2 => by rw [b2 x hx1 hx2, a2 x hx1 hx2]⟩

theorem free_null (s : Heap) : free NULL s = s := by
  unfold free
  exact if_pos rfl

theorem free_eq (ptr : Nat) (s : Heap) (hne : ptr ≠ NULL) (blk : Nat) (s1 : Heap)
    (hco : coalesce (sub64 ptr WORD_SIZE) s = (blk, s1)) :
    free ptr s = add_to_free_list blk (get_size s1.mem blk) s1 := by
  unfold free
  rw [if_neg hne]
  simp only [hco]

/-- `free` of the payload pointer of an allocated block. -/
theorem free_spec {s : Heap} {pre post : List Blk} {t : Blk} {L : Nat → List Nat}
    (hi : Inv s (pre ++ t :: post) L) (ht1 : t.alloc = 1) :
    ∃ bs' L' t', Inv (free (t.addr + 4) s) bs' L' ∧ SameArena s (free (t.addr + 4) s) ∧
      Stable (pre ++ post) s.mem bs' (free (t.addr + 4) s).mem ∧
      t' ∈ bs' ∧ t'.alloc = 0 ∧ t'.addr ≤ t.addr ∧ t.addr + t.size ≤ t'.addr + t'.size ∧
      (∀ c, c ∈ bs' → c ≠ t' → c ∈ pre ++ post) := by
  obtain ⟨hg, hsz, hn1, hn2⟩ := open_hole hi ht1
  have htb := hole_blk hg
  obtain ⟨s1, pre', t', post', L', c1, c2, c3, c4, c5, c6, c7, c8, c9, c10, c11⟩ :=
    coalesce_spec hg hsz hn1 hn2
  have hq := hg.max_lt
  have hq2 := hg.brk_hi
  have hsub : sub64 (t.addr + 4) WORD_SIZE = t.addr := by
    rw [sub64_eq _ _ (by simp only [WORD_SIZE]; omega) (by omega)]
    simp only [WORD_SIZE]; omega
  have hfree : free (t.addr + 4) s = add_to_free_list t'.addr t'.size s1 := by
    rw [free_eq (t.addr + 4) s (by simp only [NULL]; omega) t'.addr s1 (by rw [hsub]; exact c1),
      c3]
  obtain ⟨f1, f2, f3⟩ := file_hole c2 c4 c6
  rw [hfree]
  refine ⟨pre' ++ t' :: post', file L' t', t', f1, c5.same_trans f2, ?_, by simp, c4, c7, c8, ?_⟩
  · intro c hc hc1
    have hc' := c9 c hc hc1
    refine ⟨(mem_insert_hole pre' post' t' c).1 (Or.inl hc'), fun x hx1 hx2 => ?_⟩
    rw [f3 c hc' hc1 x hx1 hx2, c11 c hc' hc1 x hx1 hx2]
  · intro c hc hne
    rcases (mem_insert_hole pre' post' t' c).2 hc with h | h
    · exact c10 c h
    · exact absurd h hne

theorem mem_sbrk_fail (size : Nat) (s : Heap) (h : ¬ (s.mem_brk + size ≤ s.mem_max_addr)) :
    mem_sbrk size s = (none, { s with sbrk_calls := size :: s.sbrk_calls }) := by
  unfold mem_sbrk
  exact if_neg h

theorem mem_sbrk_ok (size : Nat) (s : Heap) (h : s.mem_brk + size ≤ s.mem_max_addr) :
    mem_sbrk size s = (some s.mem_brk,
      { s with mem_brk := s.mem_brk + size, sbrk_calls := size :: s.sbrk_calls }) := by
  unfold mem_sbrk
  exact if_pos h

theorem extend_heap_fail (words : Nat) (s : Heap)
    (h : ¬ (s.mem_brk + ext_bytes words ≤ s.mem_max_addr)) :
    extend_heap words s = (NULL, { s with sbrk_calls := ext_bytes words :: s.sbrk_calls }) := by
  unfold extend_heap
  show (match mem_sbrk (ext_bytes words) s with
    | (none, s) => (NULL, s)
    | (some new_mem, s) => _) = _
  rw [mem_sbrk_fail _ s h]

theorem extend_heap_ok (words : Nat) (s : Heap)
    (h : s.mem_brk + ext_bytes words ≤ s.mem_max_addr) :
    extend_heap words s =
      ((coalesce (sub64 s.mem_brk WORD_SIZE) (grow s (ext_bytes words))).1,
        add_to_free_list (coalesce (sub64 s.mem_brk WORD_SIZE) (grow s (ext_bytes words))).1
          (get_size (coalesce (sub64 s.mem_brk WORD_SIZE) (grow s (ext_bytes words))).2.mem
            (coalesce (sub64 s.mem_brk WORD_SIZE) (grow s (ext_bytes words))).1)
          (coalesce (sub64 s.mem_brk WORD_SIZE) (grow s (ext_bytes words))).2) := by
  unfold extend_heap
  show (match mem_sbrk (ext_bytes words) s with
    | (none, s) => (NULL, s)
    | (some new_mem, s) => _) = _
  rw [mem_sbrk_ok _ s h]
  rfl

attribute [irreducible] extend_heap mem_sbrk

theorem make_btag_epi : make_btag 0 1 = 1 := by
  have := make_btag_eq 0 1 (by omega) (by omega) (by norm_num)
  simpa using this

/-- After a successful `mem_sbrk` and the two tag stores, the old blocks are as
before and the new bytes form a hole with a valid header at the end. -/
theorem grow_spec {s : Heap} {bs : List Blk} {L : Nat → List Nat}
    (hg : Gen s bs (fun b => b ∈ bs) L) (size : Nat) (h24 : 24 ≤ size) (h8 : size % 8 = 0)
    (hfit : s.mem_brk + size ≤ s.mem_max_addr) :
    Gen (grow s size) (bs ++ ⟨s.mem_brk - 4, size, 0⟩ :: []) (fun b => b ∈ bs ++ []) L ∧
      get_size (grow s size).mem (s.mem_brk - 4) = size ∧
      (∀ x, x < s.mem_brk - 4 → (grow s size).mem x = s.mem x) := by
  have hge := hg.brk_lo
  have h1 := hg.hp_eq
  have h2 := hg.max_lt
  have h3 := hg.small
  have h4 := hg.brk_hi
  have hlt : size < 2 ^ 32 := by omega
  have e1 : sub64 s.mem_brk WORD_SIZE = s.mem_brk - 4 := by
    rw [sub64_eq _ _ (by simp only [WORD_SIZE]; omega) (by omega)]
    rfl
  have e2 : add64 (s.mem_brk - 4) size = s.mem_brk - 4 + size := add64_eq _ _ (by omega)
  have htag : make_btag size 0 = size := by
    have := make_btag_eq size 0 h8 (by omega) hlt; simpa using this
  have hmem : (grow s size).mem =
      put_u32 (put_u32 s.mem (s.mem_brk - 4 + size) 1) (s.mem_brk - 4) size := by
    show put_btag (put_btag s.mem (add64 (sub64 s.mem_brk WORD_SIZE) size) (make_btag 0 1))
      (sub64 s.mem_brk WORD_SIZE) (make_btag size 0) = _
    rw [e1, e2, htag, make_btag_epi]
    rfl
  have hm : ∀ x, x < s.mem_brk - 4 → (grow s size).mem x = s.mem x := by
    intro x hx
    rw [hmem, put_u32_out _ _ _ _ (by omega), put_u32_out _ _ _ _ (by omega)]
  have hsz : get_size (grow s size).mem (s.mem_brk - 4) = size := by
    apply get_size_of_tag _ _ size 0 _ h8 (by omega)
    rw [hmem, get_u32_put_u32_same]
    omega
  refine ⟨?_, hsz, hm⟩
  have hblk : ∀ b, b ∈ bs → ∀ x, b.addr ≤ x → x < b.addr + b.size →
      (grow s size).mem x = s.mem x := by
    intro b hb x hx1 hx2
    have := hg.blk b hb
    exact hm x (by omega)
  refine
    { hp_eq := hg.hp_eq
      hp_al := hg.hp_al
      brk_hi := hfit
      max_lt := hg.max_lt
      small := hg.small
      pro_h := ?_
      pro_f := ?_
      epi := ?_
      lay := ?_
      sub := fun b hb => by simpa using Or.inl (by simpa using hb)
      tags := ?_
      lists := ?_
      nodup := hg.nodup
      sound := ?_
      complete := ?_ }
  · show get_u32 (grow s size).mem (s.mem_heap + 4) = 9
    rw [← hg.pro_h]
    exact get_u32_congr _ _ _ (fun x hx1 hx2 => hm x (by omega))
  · show get_u32 (grow s size).mem (s.mem_heap + 8) = 9
    rw [← hg.pro_f]
    exact get_u32_congr _ _ _ (fun x hx1 hx2 => hm x (by omega))
  · show get_u32 (grow s size).mem (s.mem_brk + size - 4) = 1
    have e : s.mem_brk + size - 4 = s.mem_brk - 4 + size := by omega
    rw [hmem, e, get_u32_put_u32_ne _ _ _ _ (by omega), get_u32_put_u32_same]
    norm_num
  · show Layout s.heap_ptr (bs ++ [⟨s.mem_brk - 4, size, 0⟩]) (s.mem_brk + size - 4)
    apply (Layout_append _ _ _ _).2
    refine ⟨s.mem_brk - 4, hg.lay, rfl, h24, h8, by simp, ?_⟩
    show s.mem_brk - 4 + size = s.mem_brk + size - 4
    omega
  · intro b hb
    have hb' : b ∈ bs := by simpa using hb
    have hbb := hg.blk b hb'
    exact TagOK_congr _ _ b (by omega) (hblk b hb') (hg.tags b hb')
  · intro i hi
    show FList (grow s size).mem (s.free_lists i) (L i)
    apply FSeg_congr s.mem _ _ _ _ _ _ (hg.lists i hi)
    intro a ha
    obtain ⟨c, hc1, hc2, hc3, _⟩ := hg.node i hi a ha
    have hcb := hg.blk c hc2
    rw [← hc3]
    exact ⟨get_prev_free_congr _ _ _ (fun x h1 h2 => hblk c hc1 x (by omega) (by omega)),
      get_next_free_congr _ _ _ (fun x h1 h2 => hblk c hc1 x (by omega) (by omega))⟩
  · intro i hi x hx
    obtain ⟨b, hb1, hb2⟩ := hg.sound i hi x hx
    exact ⟨b, by simpa using hb1, hb2⟩
  · intro b hb hb0
    exact hg.complete b (by simpa using hb) hb0

/-- A successful `extend_heap`: the invariant holds again, the arena has grown
by the requested number of bytes, the returned block is free, lies at the end
and is at least that large, and allocated blocks are untouched. -/
theorem extend_heap_spec_ok {s : Heap} {bs : List Blk} {L : Nat → List Nat}
    (hi : Inv s bs L) (words : Nat) (h24 : 24 ≤ ext_bytes words)
    (h8 : ext_bytes words % 8 = 0)
    (hfit : s.mem_brk + ext_bytes words ≤ s.mem_max_addr) :
    ∃ s' pre' t' L', extend_heap words s = (t'.addr, s') ∧ Inv s' (pre' ++ [t']) L' ∧
      Grown s s' (ext_bytes words) ∧ t'.alloc = 0 ∧ ext_bytes words ≤ t'.size ∧
      t'.addr + t'.size = s'.mem_brk - 4 ∧
      Stable bs s.mem (pre' ++ [t']) s'.mem ∧ (∀ c, c ∈ pre' → c ∈ bs) := by
  obtain ⟨g1, g2, g3⟩ := grow_spec hi.gen (ext_bytes words) h24 h8 hfit
  have hge := hi.gen.brk_lo
  have h2 := hi.gen.max_lt
  have h4 := hi.gen.brk_hi
  have h1 := hi.gen.hp_eq
  have e1 : sub64 s.mem_brk WORD_SIZE = s.mem_brk - 4 := by
    rw [sub64_eq _ _ (by simp only [WORD_SIZE]; omega) (by omega)]
    rfl
  obtain ⟨s1, pre', t', post', L', c1, c2, c3, c4, c5, c6, c7, c8, c9, c10, c11⟩ :=
    coalesce_spec (t := ⟨s.mem_brk - 4, ext_bytes words, 0⟩) g1 g2 hi.noadj
      (List.chain'_nil)
  simp only at c1 c7 c8
  have hpost : post' = [] := by
    cases hp : post' with
    | nil => rfl
    | cons n rest =>
      exfalso
      have hn : n ∈ bs ++ [] := c10 n (by rw [hp]; simp)
      have hnb := hi.gen.blk n (by simpa using hn)
      have hl := Layout_mem_post _ _ pre' post' t' c2.lay n (by rw [hp]; simp)
      omega
  subst hpost
  obtain ⟨f1, f2, f3⟩ := file_hole c2 c4 c6
  have hext := extend_heap_ok words s hfit
  rw [e1, c1] at hext
  simp only [c3] at hext
  obtain ⟨a1, a2, a3, a4, a5⟩ := c5
  obtain ⟨b1, b2, b3, b4, b5⟩ := f2
  have hend : t'.addr + t'.size = s1.mem_brk - 4 := (Layout_split _ _ pre' [] t' c2.lay).2.1
  refine ⟨_, pre', t', file L' t', hext, f1, ⟨?_, ?_, ?_, ?_, ?_⟩, c4, by omega, ?_, ?_, ?_⟩
  · rw [b1, a1]; rfl
  · rw [b2, a2]; rfl
  · rw [b3, a3]; rfl
  · rw [b4, a4]; rfl
  · rw [b5, a5]; rfl
  · rw [b2]; exact hend
  · intro c hc hc1
    have hc' := c9 c (by simpa using hc) hc1
    have hcb := hi.gen.blk c hc
    refine ⟨List.mem_append_left _ (by simpa using hc'), fun x hx1 hx2 => ?_⟩
    rw [f3 c hc' hc1 x hx1 hx2, c11 c hc' hc1 x hx1 hx2]
    exact g3 x (by omega)
  · intro c hc
    simpa using c10 c (by simpa using hc)

/-- A failing `extend_heap` changes nothing but the log of `mem_sbrk` calls. -/
theorem Inv.log {s : Heap} {bs : List Blk} {L : Nat → List Nat} (hi : Inv s bs L)
    (log : List Nat) : Inv { s with sbrk_calls := log } bs L :=
  ⟨{ hp_eq := hi.gen.hp_eq, hp_al := hi.gen.hp_al, brk_hi := hi.gen.brk_hi,
     max_lt := hi.gen.max_lt, small := hi.gen.small, pro_h := hi.gen.pro_h,
     pro_f := hi.gen.pro_f, epi := hi.gen.epi, lay := hi.gen.lay, sub := hi.gen.sub,
     tags := hi.gen.tags, lists := hi.gen.lists, nodup := hi.gen.nodup,
     sound := hi.gen.sound, complete := hi.gen.complete }, hi.noadj⟩

/-! ## `find_fit` -/

theorem find_fit_list_succ (fuel : Nat) (m : Mem) (size blk : Nat) :
    find_fit_list (fuel + 1) m size blk =
      if blk ≠ NULL then
        if get_size m blk ≥ size then some blk
        else find_fit_list fuel m size (get_next_free m blk)
      else some NULL := rfl

/-- What the scan of one list returns lies in the list and is large enough. -/
theorem find_fit_list_sound (m : Mem) (size blk : Nat) (fuel : Nat) :
    ∀ (p h : Nat) (xs : List Nat), FSeg m p h xs NULL →
      find_fit_list fuel m size h = some blk → blk ≠ NULL →
      blk ∈ xs ∧ size ≤ get_size m blk := by
  induction fuel with
  | zero => intro p h xs _ hf; exact absurd hf (by simp [find_fit_list])
  | succ fuel ih =>
    intro p h xs hs hf hne
    rw [find_fit_list_succ] at hf
    cases xs with
    | nil =>
      have h0 : h = NULL := hs
      rw [if_neg (by simpa using h0)] at hf
      exact absurd (Option.some.inj hf).symm hne
    | cons x xs' =>
      obtain ⟨h1, h2, h3, h4⟩ := hs
      subst h1
      rw [if_pos h2] at hf
      by_cases hc : get_size m h ≥ size
      · rw [if_pos hc] at hf
        have := Option.some.inj hf
        subst this
        exact ⟨List.mem_cons_self _ _, hc⟩
      · rw [if_neg hc] at hf
        have := ih _ _ xs' h4 hf hne
        exact ⟨List.mem_cons_of_mem _ this.1, this.2⟩

theorem find_fit_lists_succ (k fuel : Nat) (s : Heap) (size index : Nat) :
    find_fit_lists (k + 1) fuel s size index =
      if index < NUM_SIZE_CLASSES then
        match find_fit_list fuel s.mem size (s.free_lists index) with
        | none => none
        | some blk_addr =>
          if blk_addr ≠ NULL then some blk_addr
          else find_fit_lists k fuel s size (index + 1)
      else some NULL := rfl

/-- What the scan of the lists returns lies in one of them and is large enough. -/
theorem find_fit_lists_sound (s : Heap) (L : Nat → List Nat)
    (hl : ∀ i, i < 9 → FList s.mem (s.free_lists i) (L i)) (size blk fuel : Nat) (k : Nat) :
    ∀ index, find_fit_lists k fuel s size index = some blk → blk ≠ NULL →
      ∃ i, i < 9 ∧ blk ∈ L i ∧ size ≤ get_size s.mem blk := by
  induction k with
  | zero =>
    intro index hf hne
    exact absurd (Option.some.inj hf).symm hne
  | succ k ih =>
    intro index hf hne
    rw [find_fit_lists_succ] at hf
    by_cases hi : index < NUM_SIZE_CLASSES
    · rw [if_pos hi] at hf
      cases hscan : find_fit_list fuel s.mem size (s.free_lists index) with
      | none => rw [hscan] at hf; exact absurd hf (by simp)
      | some b =>
        rw [hscan] at hf
        simp only at hf
        by_cases hb : b ≠ NULL
        · rw [if_pos hb] at hf
          have := Option.some.inj hf
          subst this
          have hi9 : index < 9 := hi
          have := find_fit_list_sound s.mem size b fuel _ _ _ (hl index hi9) hscan hb
          exact ⟨index, hi9, this.1, this.2⟩
        · rw [if_neg hb] at hf
          exact ih _ hf hne
    · rw [if_neg hi] at hf
      exact absurd (Option.some.inj hf).symm hne

theorem find_fit_zero (size : Nat) (s : Heap) : find_fit 0 size s = none := rfl

theorem find_fit_succ (fuel size : Nat) (s : Heap) :
    find_fit (fuel + 1) size s =
      find_fit_result
        (find_fit_lists NUM_SIZE_CLASSES (fuel + 1) s size (get_free_lists_index size)) s
        (find_fit fuel size (extend_heap (max size HEAP_EXT_SIZE / WORD_SIZE) s).2) := rfl

theorem find_fit_result_none (s : Heap) (rest : Option (Nat × Heap)) :
    find_fit_result none s rest = none := rfl

theorem find_fit_result_found (b : Nat) (s : Heap) (rest : Option (Nat × Heap))
    (h : b ≠ NULL) : find_fit_result (some b) s rest = some (b, remove_from_free_list b s) := by
  unfold find_fit_result
  exact if_pos h

theorem find_fit_result_null (s : Heap) (rest : Option (Nat × Heap)) :
    find_fit_result (some NULL) s rest = rest := by
  unfold find_fit_result
  exact if_neg (fun h => h rfl)

theorem HEAP_EXT_SIZE_eq : HEAP_EXT_SIZE = 4096 := by decide

theorem max_bounds (size : Nat) :
    4096 ≤ max size HEAP_EXT_SIZE ∧ max size HEAP_EXT_SIZE < 2 ^ 32 ∧
      (size < 2 ^ 32 → size ≤ max size HEAP_EXT_SIZE) ∧
      (max size HEAP_EXT_SIZE = 4096 ∨ max size HEAP_EXT_SIZE = size % 2 ^ 32) := by
  unfold max
  rw [HEAP_EXT_SIZE_eq]
  simp only []
  split <;> omega

/-- The extension requested by `find_fit` is a multiple of 8 of at least 4096
bytes; it is at least the request when that is a multiple of 4. -/
theorem ext_bytes_max (size : Nat) :
    4096 ≤ ext_bytes (max size HEAP_EXT_SIZE / WORD_SIZE) ∧
      ext_bytes (max size HEAP_EXT_SIZE / WORD_SIZE) % 8 = 0 ∧
      ext_bytes (max size HEAP_EXT_SIZE / WORD_SIZE) < 2 ^ 32 + 4 ∧
      (size % 4 = 0 → size < 2 ^ 32 → size ≤ ext_bytes (max size HEAP_EXT_SIZE / WORD_SIZE)) := by
  obtain ⟨hm1, hm2, hm3, hm4⟩ := max_bounds size
  generalize max size HEAP_EXT_SIZE = e at hm1 hm2 hm3 hm4 ⊢
  unfold ext_bytes
  have hw : WORD_SIZE = 4 := rfl
  rw [hw]
  by_cases hodd : e / 4 % 2 ≠ 0
  · rw [if_pos hodd, add64_eq _ _ (by omega), mul64_eq _ _ (by omega)]
    omega
  · rw [if_neg hodd, mul64_eq _ _ (by omega)]
    omega

theorem Ext.ext_refl (s : Heap) : Ext s s := ⟨rfl, rfl, rfl, le_refl _⟩

theorem Ext.ext_trans {s s' s'' : Heap} (h1 : Ext s s') (h2 : Ext s' s'') : Ext s s'' := by
  obtain ⟨a1, a2, a3, a4⟩ := h1
  obtain ⟨b1, b2, b3, b4⟩ := h2
  exact ⟨by rw [b1, a1], by rw [b2, a2], by rw [b3, a3], le_trans a4 b4⟩

theorem SameArena.same_ext {s s' : Heap} (h : SameArena s s') : Ext s s' :=
  ⟨h.1, h.2.2.1, h.2.2.2.1, le_of_eq h.2.1.symm⟩

theorem Grown.grown_ext {s s' : Heap} {size : Nat} (h : Grown s s' size) : Ext s s' :=
  ⟨h.1, h.2.2.1, h.2.2.2.1, by rw [h.2.1]; exact Nat.le_add_right _ _⟩

/-- Whatever `find_fit` returns is a free block of the heap that is large enough
and has been taken off its list; the other blocks are as before, except that
the heap may have been extended. -/
theorem find_fit_spec (size : Nat) (fuel : Nat) :
    ∀ (s : Heap) (bs : List Blk) (L : Nat → List Nat), Inv s bs L →
      ∀ (blk : Nat) (s1 : Heap), find_fit fuel size s = some (blk, s1) →
      ∃ pre t post L1, t.addr = blk ∧ t.alloc = 0 ∧ size ≤ t.size ∧
        Gen s1 (pre ++ t :: post) (fun b => b ∈ pre ++ post) L1 ∧ TagOK s1.mem t ∧
        NoAdjFree (pre ++ t :: post) ∧ Stable bs s.mem (pre ++ post) s1.mem ∧ Ext s s1 ∧
        (∀ c, c ∈ pre ++ post → c.alloc = 1 → c ∈ bs) := by
  induction fuel with
  | zero =>
    intro s bs L _ blk s1 h
    rw [find_fit_zero] at h
    exact absurd h (by simp)
  | succ fuel ih =>
    intro s bs L hi blk s1 h
    rw [find_fit_succ] at h
    cases hscan : find_fit_lists NUM_SIZE_CLASSES (fuel + 1) s size
        (get_free_lists_index size) with
    | none =>
      rw [hscan, find_fit_result_none] at h
      exact absurd h (by simp)
    | some b =>
      rw [hscan] at h
      by_cases hb : b ≠ NULL
      · rw [find_fit_result_found b s _ hb] at h
        have h' := Option.some.inj h
        have hblk : b = blk := congrArg Prod.fst h'
        have hs1 : remove_from_free_list b s = s1 := congrArg Prod.snd h'
        obtain ⟨i, hi9, hbi, hsz⟩ := find_fit_lists_sound s L hi.gen.lists size b (fuel + 1)
          NUM_SIZE_CLASSES _ hscan hb
        obtain ⟨n, hn1, hn2, hn3, hn4, hn5⟩ := hi.gen.node i hi9 b hbi
        obtain ⟨pre, post, hsplit⟩ := List.append_of_mem hn2
        subst hsplit
        have hnd := Layout_nodup _ _ _ hi.gen.lay
        obtain ⟨r1, r2, r3, r4, r5, r6⟩ := remove_neighbor hi.gen n hn2 hn4 hnd
        rw [erase_post pre post n hnd, hn3, hs1] at r1
        rw [hn3, hs1] at r2 r3 r5
        have hnb := hi.gen.blk n hn2
        have hgs : get_size s.mem n.addr = n.size :=
          get_size_of_tag _ _ _ _ (hi.gen.tags n hn2).1 hnb.2.2.2.1 hnb.2.2.2.2.1
        refine ⟨pre, n, post, unfile L n, by rw [hn3, hblk], hn4, ?_, r1,
          r3 n hn2 (hi.gen.tags n hn2), hi.noadj, ?_, r2.same_ext, ?_⟩
        · rw [← hgs, hn3]; exact hsz
        · intro c hc hc1
          have hcn : c ≠ n := fun e => by rw [e, hn4] at hc1; exact absurd hc1 (by decide)
          refine ⟨(mem_around _ _ pre post n hi.gen.lay c).1 ⟨hc, hcn⟩, ?_⟩
          intro x hx1 hx2
          exact r5 c hc (fun hh => by rw [hh.2.1] at hc1; exact absurd hc1 (by decide))
            x hx1 hx2
        · intro c hc _
          exact ((mem_around _ _ pre post n hi.gen.lay c).2 hc).1
      · have hb0 : b = NULL := by
          by_contra hh; exact hb hh
        subst hb0
        rw [find_fit_result_null] at h
        obtain ⟨e1, e2, _, _⟩ := ext_bytes_max size
        by_cases hfit : s.mem_brk + ext_bytes (max size HEAP_EXT_SIZE / WORD_SIZE) ≤
            s.mem_max_addr
        · obtain ⟨s', pre', t', L', x1, x2, x3, x4, x5, x6, x7, x8⟩ :=
            extend_heap_spec_ok hi (max size HEAP_EXT_SIZE / WORD_SIZE) (by omega) e2 hfit
          rw [x1] at h
          obtain ⟨pre, t, post, L1, y1, y2, y3, y4, y5, y6, y7, y8, y9⟩ :=
            ih s' _ _ x2 blk s1 h
          refine ⟨pre, t, post, L1, y1, y2, y3, y4, y5, y6, x7.stable_trans y7, x3.grown_ext.ext_trans y8, ?_⟩
          intro c hc hc1
          have := y9 c hc hc1
          rcases List.mem_append.1 this with hh | hh
          · exact x8 c hh
          · rw [List.mem_singleton.1 hh, x4] at hc1
            exact absurd hc1 (by decide)
        · rw [extend_heap_fail _ s hfit] at h
          obtain ⟨pre, t, post, L1, y1, y2, y3, y4, y5, y6, y7, y8, y9⟩ :=
            ih _ _ _ (hi.log _) blk s1 h
          exact ⟨pre, t, post, L1, y1, y2, y3, y4, y5, y6, y7, y8, y9⟩

/-! ## `allocate` -/

theorem MIN_BLK_SIZE_eq : MIN_BLK_SIZE = 24 := rfl

theorem mark_out (m : Mem) (a size x : Nat) (h8 : 8 ≤ size) (h : x < a ∨ a + size ≤ x) :
    mark m a size x = m x := by
  unfold mark
  rw [put_u32_out _ _ _ _ (by omega), put_u32_out _ _ _ _ (by omega)]

theorem mark_tag (m : Mem) (a size : Nat) (h8 : 8 ≤ size) (hlt : size + 1 < 2 ^ 32) :
    TagOK (mark m a size) ⟨a, size, 1⟩ := by
  unfold TagOK mark
  simp only
  constructor
  · rw [get_u32_put_u32_ne _ _ _ _ (by omega), get_u32_put_u32_same]
    omega
  · rw [get_u32_put_u32_same]
    omega

theorem allocate_reads (m : Mem) (a size : Nat) (h24 : 24 ≤ size) (h8 : size % 8 = 0)
    (hlt : size < 2 ^ 32) (ha : a + size < 2 ^ 64) :
    make_btag size 1 = size + 1 ∧
      get_ftr_addr (put_btag m a (size + 1)) a = a + size - 4 ∧
      put_btag (put_btag m a (size + 1)) (a + size - 4) (size + 1) = mark m a size ∧
      get_next_hdr_addr (mark m a size) a = a + size := by
  have htag : make_btag size 1 = size + 1 := make_btag_eq size 1 h8 (by omega) hlt
  have hsz1 : get_size (put_btag m a (size + 1)) a = size := by
    apply get_size_of_tag _ _ size 1 _ h8 (by omega)
    unfold put_btag
    rw [get_u32_put_u32_same]
    omega
  have hftr := ftr_addr_eq _ _ _ hsz1 (by omega) ha
  have hsz2 : get_size (mark m a size) a = size :=
    get_size_of_tag _ _ size 1 (mark_tag m a size (by omega) (by omega)).1 h8 (by omega)
  refine ⟨htag, hftr, rfl, ?_⟩
  unfold get_next_hdr_addr
  rw [hsz2, add64_eq _ _ ha]

theorem allocate_split_eq (a adj B : Nat) (s : Heap) (hB : get_size s.mem a = B)
    (hle : adj ≤ B) (h24 : 24 ≤ adj) (h8 : adj % 8 = 0) (hB32 : B < 2 ^ 32)
    (ha : a + B < 2 ^ 64) (hsp : 24 ≤ B - adj) :
    allocate a adj s =
      add_to_free_list (a + adj) (B - adj) { s with mem := mark s.mem a adj } := by
  obtain ⟨r1, r2, r3, r4⟩ := allocate_reads s.mem a adj h24 h8 (by omega) (by omega)
  have hsub : sub64 B adj = B - adj := sub64_eq _ _ hle (by omega)
  unfold allocate
  simp only [hB, hsub, r1, r2, r3, r4]
  rw [if_pos (by rw [MIN_BLK_SIZE_eq]; exact hsp)]

theorem allocate_whole_eq (a adj B : Nat) (s : Heap) (hB : get_size s.mem a = B)
    (hle : adj ≤ B) (h24 : 24 ≤ B) (h8 : B % 8 = 0) (hB32 : B < 2 ^ 32)
    (ha : a + B < 2 ^ 64) (hsp : ¬ (24 ≤ B - adj)) :
    allocate a adj s = { s with mem := mark s.mem a B } := by
  obtain ⟨r1, r2, r3, r4⟩ := allocate_reads s.mem a B h24 h8 hB32 ha
  have hsub : sub64 B adj = B - adj := sub64_eq _ _ hle (by omega)
  unfold allocate
  simp only [hB, hsub, r1, r2, r3]
  rw [if_neg (by rw [MIN_BLK_SIZE_eq]; exact hsp)]

/-- The whole block is handed out. -/
theorem allocate_whole {s : Heap} {pre post : List Blk} {t : Blk} {L : Nat → List Nat}
    (hg : Gen s (pre ++ t :: post) (fun b => b ∈ pre ++ post) L)
    (hna : NoAdjFree (pre ++ t :: post)) :
    Inv { s with mem := mark s.mem t.addr t.size } (pre ++ ⟨t.addr, t.size, 1⟩ :: post) L := by
  have htb := hole_blk hg
  obtain ⟨l1, l2, _⟩ := Layout_split _ _ pre post t hg.lay
  obtain ⟨n1, n2, _⟩ := noadj_split pre post t hna
  have hg1 := hg.hole t.addr t.size 1 l1 l2 (by omega) (by omega) (by omega)
    (mark s.mem t.addr t.size) (fun x hx => mark_out _ _ _ _ (by omega) hx)
  exact alloc_hole hg1 rfl (mark_tag _ _ _ (by omega) (by omega)) n1 n2

/-- The block is split: its first `adj` bytes are handed out and the rest is
filed as a free block. -/
theorem allocate_split {s : Heap} {pre post : List Blk} {t : Blk} {L : Nat → List Nat}
    (hg : Gen s (pre ++ t :: post) (fun b => b ∈ pre ++ post) L)
    (hna : NoAdjFree (pre ++ t :: post)) (ht0 : t.alloc = 0) (adj : Nat) (hle : adj ≤ t.size)
    (h24 : 24 ≤ adj) (h8 : adj % 8 = 0) (hsp : 24 ≤ t.size - adj) :
    Inv (add_to_free_list (t.addr + adj) (t.size - adj) { s with mem := mark s.mem t.addr adj })
        ((pre ++ [⟨t.addr, adj, 1⟩]) ++ ⟨t.addr + adj, t.size - adj, 0⟩ :: post)
        (file L ⟨t.addr + adj, t.size - adj, 0⟩) ∧
      SameArena s
        (add_to_free_list (t.addr + adj) (t.size - adj) { s with mem := mark s.mem t.addr adj }) ∧
      KeepAlloc (pre ++ post) s.mem
        (add_to_free_list (t.addr + adj) (t.size - adj)
          { s with mem := mark s.mem t.addr adj }).mem := by
  have htb := hole_blk hg
  obtain ⟨l1, l2, _⟩ := Layout_split _ _ pre post t hg.lay
  obtain ⟨n1, n2, n3⟩ := noadj_split pre post t hna
  obtain ⟨n4, n5⟩ := n3 ht0
  have hlA : Layout s.heap_ptr (pre ++ [⟨t.addr, adj, 1⟩]) (t.addr + adj) :=
    Layout_join _ _ pre [] ⟨t.addr, adj, 1⟩ l1 rfl h24 h8 (by simp)
  have hl : Layout s.heap_ptr
      ((pre ++ [⟨t.addr, adj, 1⟩]) ++ ⟨t.addr + adj, t.size - adj, 0⟩ :: post)
      (s.mem_brk - 4) := by
    apply Layout_join _ _ _ post ⟨t.addr + adj, t.size - adj, 0⟩ hlA _ hsp (by simp only; omega)
      (by simp)
    have e : t.addr + adj + (t.size - adj) = t.addr + t.size := by omega
    simp only [e]
    exact l2
  have hsub : ∀ b, b ∈ pre ++ post →
      b ∈ (pre ++ [⟨t.addr, adj, 1⟩]) ++ ⟨t.addr + adj, t.size - adj, 0⟩ :: post := by
    intro b hb
    rcases List.mem_append.1 hb with h | h
    · exact List.mem_append_left _ (List.mem_append_left _ h)
    · exact List.mem_append_right _ (List.mem_cons_of_mem _ h)
  have hout : ∀ b, b ∈ pre ++ post → ∀ x, b.addr ≤ x → x < b.addr + b.size →
      mark s.mem t.addr adj x = s.mem x := by
    intro b hb x hx1 hx2
    have := Layout_not_mem _ _ pre post t hg.lay b hb
    exact mark_out _ _ _ _ (by omega) (by omega)
  have hg1 : Gen { s with mem := mark s.mem t.addr adj }
      ((pre ++ [⟨t.addr, adj, 1⟩]) ++ ⟨t.addr + adj, t.size - adj, 0⟩ :: post)
      (fun b => b ∈ pre ++ post) L := by
    refine (hg.regroup _ hl hsub).frame { s with mem := mark s.mem t.addr adj }
      ⟨rfl, rfl, rfl, rfl, rfl⟩ (fun i _ => rfl) ?_
    intro x hx
    rcases hx with hx | hx | ⟨b, hb, hx1, hx2⟩
    · exact mark_out _ _ _ _ (by omega) (by omega)
    · exact mark_out _ _ _ _ (by omega) (by omega)
    · exact hout b hb x hx1 hx2
  have hg2 : Gen { s with mem := mark s.mem t.addr adj }
      ((pre ++ [⟨t.addr, adj, 1⟩]) ++ ⟨t.addr + adj, t.size - adj, 0⟩ :: post)
      (fun b => b ∈ (pre ++ [⟨t.addr, adj, 1⟩]) ++ post) L :=
    (hg1.adopt ⟨t.addr, adj, 1⟩ (by simp) rfl (mark_tag _ _ _ (by omega) (by omega))).congrG
      (fun b => by
        simp only [List.mem_append, List.mem_singleton]
        tauto)
  have hnA : NoAdjFree (pre ++ [⟨t.addr, adj, 1⟩]) :=
    noadj_join pre [] _ n1 List.chain'_nil n4 (fun y hy => by simp at hy)
  have hna2 : NoAdjFree
      ((pre ++ [⟨t.addr, adj, 1⟩]) ++ ⟨t.addr + adj, t.size - adj, 0⟩ :: post) := by
    apply noadj_join _ post _ hnA n2 _ n5
    intro x hx
    rw [List.getLast?_append_of_ne_nil _ (by simp)] at hx
    simp at hx
    rw [← hx]
  obtain ⟨f1, f2, f3⟩ := file_hole hg2 rfl hna2
  refine ⟨f1, f2, ?_⟩
  intro c hc hc1 x hx1 hx2
  have hc' : c ∈ (pre ++ [⟨t.addr, adj, 1⟩]) ++ post := by
    rcases List.mem_append.1 hc with h | h
    · exact List.mem_append_left _ (List.mem_append_left _ h)
    · exact List.mem_append_right _ h
  rw [f3 c hc' hc1 x hx1 hx2]
  exact hout c hc x hx1 hx2

/-- `allocate` on the block returned by `find_fit`: the invariant holds again
and the block at the same address is allocated with at least `adj` bytes. -/
theorem allocate_spec {s : Heap} {pre post : List Blk} {t : Blk} {L : Nat → List Nat}
    (hg : Gen s (pre ++ t :: post) (fun b => b ∈ pre ++ post) L) (htag : TagOK s.mem t)
    (hna : NoAdjFree (pre ++ t :: post)) (ht0 : t.alloc = 0) (adj : Nat) (hle : adj ≤ t.size)
    (h24 : 24 ≤ adj) (h8 : adj % 8 = 0) :
    ∃ bs' L' t', Inv (allocate t.addr adj s) bs' L' ∧ SameArena s (allocate t.addr adj s) ∧
      t' ∈ bs' ∧ t'.addr = t.addr ∧ t'.alloc = 1 ∧ adj ≤ t'.size ∧ t'.size ≤ t.size ∧
      (∀ c, c ∈ pre ++ post → c ∈ bs') ∧
      KeepAlloc (pre ++ post) s.mem (allocate t.addr adj s).mem ∧
      (∀ c, c ∈ bs' → c.alloc = 1 → c = t' ∨ c ∈ pre ++ post) := by
  have htb := hole_blk hg
  have hB : get_size s.mem t.addr = t.size :=
    get_size_of_tag _ _ _ _ htag.1 htb.2.2.2.1 htb.2.2.2.2.1
  by_cases hsp : 24 ≤ t.size - adj
  · rw [allocate_split_eq t.addr adj t.size s hB hle h24 h8 (by omega) (by omega) hsp]
    obtain ⟨f1, f2, f3⟩ := allocate_split hg hna ht0 adj hle h24 h8 hsp
    refine ⟨_, _, ⟨t.addr, adj, 1⟩, f1, f2, by simp, rfl, rfl, le_refl _, hle, ?_, f3, ?_⟩
    · intro c hc
      rcases List.mem_append.1 hc with h | h
      · exact List.mem_append_left _ (List.mem_append_left _ h)
      · exact List.mem_append_right _ (List.mem_cons_of_mem _ h)
    · intro c hc hc1
      simp only [List.mem_append, List.mem_singleton, List.mem_cons] at hc
      rcases hc with (h | h | h) | h | h
      · exact Or.inr (List.mem_append_left _ h)
      · exact Or.inl h
      · exact absurd h (List.not_mem_nil _)
      · rw [h] at hc1; exact absurd hc1 (fun e => by cases e)
      · exact Or.inr (List.mem_append_right _ h)
  · rw [allocate_whole_eq t.addr adj t.size s hB hle (by omega) (by omega) (by omega)
      (by omega) hsp]
    have f1 := allocate_whole hg hna
    refine ⟨_, _, ⟨t.addr, t.size, 1⟩, f1, ⟨rfl, rfl, rfl, rfl, rfl⟩, by simp, rfl, rfl, hle,
      le_refl _, ?_, ?_, ?_⟩
    · intro c hc
      rcases List.mem_append.1 hc with h | h
      · exact List.mem_append_left _ h
      · exact List.mem_append_right _ (List.mem_cons_of_mem _ h)
    · intro c hc hc1 x hx1 hx2
      have := Layout_not_mem _ _ pre post t hg.lay c hc
      exact mark_out _ _ _ _ (by omega) (by omega)
    · intro c hc _
      simp only [List.mem_append, List.mem_cons] at hc
      rcases hc with h | h | h
      · exact Or.inr (List.mem_append_left _ h)
      · exact Or.inl h
      · exact Or.inr (List.mem_append_right _ h)

theorem MAX_BLK_SIZE_eq : MAX_BLK_SIZE = 2147483647 := rfl

theorem adj_size_spec (n : Nat) (h1 : 1 ≤ n) (h2 : n ≤ 2147483647) :
    24 ≤ adj_size n ∧ adj_size n % 8 = 0 ∧ n + 8 ≤ adj_size n ∧ adj_size n < 2 ^ 32 := by
  unfold adj_size
  have hd : DWORD_SIZE = 8 := rfl
  rw [hd, MIN_BLK_SIZE_eq]
  by_cases h : n ≤ 2 * 8
  · rw [if_pos h]
    omega
  · rw [if_neg h, add64_eq _ _ (by omega), mul64_eq _ _ (by omega)]
    omega

theorem malloc_reject (fuel size : Nat) (s : Heap) (h : size = 0 ∨ size > MAX_BLK_SIZE) :
    malloc fuel size s = some (NULL, s) := by
  unfold malloc
  exact if_pos h

theorem malloc_some (fuel size : Nat) (s : Heap) (h : ¬ (size = 0 ∨ size > MAX_BLK_SIZE))
    (blk : Nat) (s1 : Heap) (hf : find_fit fuel (adj_size size) s = some (blk, s1)) :
    malloc fuel size s = some (add64 blk WORD_SIZE, allocate blk (adj_size size) s1) := by
  unfold malloc
  rw [if_neg h]
  show (match find_fit fuel (adj_size size) s with
    | none => none
    | some (blk_addr, s) => _) = _
  rw [hf]
  rfl

theorem malloc_none (fuel size : Nat) (s : Heap) (h : ¬ (size = 0 ∨ size > MAX_BLK_SIZE))
    (hf : find_fit fuel (adj_size size) s = none) : malloc fuel size s = none := by
  unfold malloc
  rw [if_neg h]
  show (match find_fit fuel (adj_size size) s with
    | none => none
    | some (blk_addr, s) => _) = _
  rw [hf]

/-- A call of `malloc` that returns has got a block from `find_fit`. -/
theorem malloc_inv (fuel size : Nat) (s : Heap) (h : ¬ (size = 0 ∨ size > MAX_BLK_SIZE))
    (p : Nat) (s' : Heap) (hm : malloc fuel size s = some (p, s')) :
    ∃ blk s1, find_fit fuel (adj_size size) s = some (blk, s1) ∧ p = add64 blk WORD_SIZE ∧
      s' = allocate blk (adj_size size) s1 := by
  cases hf : find_fit fuel (adj_size size) s with
  | none => rw [malloc_none fuel size s h hf] at hm; exact absurd hm (by simp)
  | some r =>
    obtain ⟨blk, s1⟩ := r
    rw [malloc_some fuel size s h blk s1 hf] at hm
    have h' := Option.some.inj hm
    exact ⟨blk, s1, rfl, (congrArg Prod.fst h').symm, (congrArg Prod.snd h').symm⟩

/-- A successful `malloc`: the invariant holds again; the result is the payload
of an allocated block that is new, 8-byte aligned and large enough; blocks
allocated before are still there with their bytes. -/
theorem malloc_spec {s : Heap} {bs : List Blk} {L : Nat → List Nat} (hi : Inv s bs L)
    (fuel n p : Nat) (s' : Heap) (h1 : 1 ≤ n) (h2 : n ≤ 2147483647)
    (hm : malloc fuel n s = some (p, s')) :
    ∃ bs' L' t, Inv s' bs' L' ∧ Ext s s' ∧ t ∈ bs' ∧ t.alloc = 1 ∧ p = t.addr + 4 ∧
      n + 8 ≤ t.size ∧ adj_size n ≤ t.size ∧ p % 8 = 0 ∧ Stable bs s.mem bs' s'.mem ∧
      (∀ c, c ∈ bs → c.alloc = 1 → c.addr ≠ t.addr) ∧
      (∀ c, c ∈ bs' → c.alloc = 1 → c = t ∨ c ∈ bs) := by
  have hv : ¬ (n = 0 ∨ n > MAX_BLK_SIZE) := by
    rw [MAX_BLK_SIZE_eq]; omega
  obtain ⟨blk, s1, hf, hp, hs'⟩ := malloc_inv fuel n s hv p s' hm
  obtain ⟨a1, a2, a3, a4⟩ := adj_size_spec n h1 h2
  obtain ⟨pre, t, post, L1, y1, y2, y3, y4, y5, y6, y7, y8, y9⟩ :=
    find_fit_spec (adj_size n) fuel s bs L hi blk s1 hf
  obtain ⟨bs', L', t', z1, z2, z3, z4, z5, z6, z7, z8, z9, z10⟩ :=
    allocate_spec y4 y5 y6 y2 (adj_size n) y3 a1 a2
  rw [y1, ← hs'] at z1 z2 z9
  have htb := z1.gen.blk t' z3
  have hq := z1.gen.max_lt
  have hq2 := z1.gen.brk_hi
  have hpe : p = t'.addr + 4 := by
    rw [hp, ← y1, ← z4, add64_eq _ _ (by simp only [WORD_SIZE]; omega)]
    rfl
  refine ⟨bs', L', t', z1, y8.ext_trans z2.same_ext, z3, z5, hpe, by omega, z6, by omega, ?_, ?_, ?_⟩
  · intro c hc hc1
    obtain ⟨k1, k2⟩ := y7 c hc hc1
    refine ⟨z8 c k1, fun x hx1 hx2 => ?_⟩
    rw [z9 c k1 hc1 x hx1 hx2, k2 x hx1 hx2]
  · intro c hc hc1 he
    obtain ⟨k1, _⟩ := y7 c hc hc1
    have := Layout_not_mem _ _ pre post t y4.lay c k1
    have hcb := y4.blk c ((mem_insert_hole pre post t c).1 (Or.inl k1))
    rw [z4] at he
    omega
  · intro c hc hc1
    rcases z10 c hc hc1 with h | h
    · exact Or.inl h
    · exact Or.inr (y9 c h hc1)

/-! ## Stores into the payload of an allocated block -/

theorem Blk.eta1 (t : Blk) (h : t.alloc = 1) : (⟨t.addr, t.size, 1⟩ : Blk) = t := by
  cases t
  simp only at h
  rw [h]

/-- Stores between the header and the footer of an allocated block keep the
invariant. -/
theorem Inv.store {s : Heap} {bs : List Blk} {L : Nat → List Nat} (hi : Inv s bs L)
    (t : Blk) (ht : t ∈ bs) (ht1 : t.alloc = 1) (m' : Mem)
    (hm : ∀ x, x < t.addr + 4 ∨ t.addr + t.size - 4 ≤ x → m' x = s.mem x) :
    Inv { s with mem := m' } bs L := by
  obtain ⟨pre, post, hsplit⟩ := List.append_of_mem ht
  subst hsplit
  obtain ⟨hg, hsz, n1, n2⟩ := open_hole hi ht1
  have htb := hole_blk hg
  obtain ⟨l1, l2, _⟩ := Layout_split _ _ pre post t hg.lay
  have hg1 := hg.hole t.addr t.size 1 l1 l2 (by omega) (by omega) (by omega) m'
    (fun x hx => hm x (by omega))
  have htag : TagOK m' ⟨t.addr, t.size, 1⟩ := by
    have h0 := hi.gen.tags t ht
    unfold TagOK at *
    simp only
    rw [get_u32_congr s.mem m' t.addr (fun x h1 h2 => hm x (by omega)),
      get_u32_congr s.mem m' (t.addr + t.size - 4) (fun x h1 h2 => hm x (by omega)), h0.1, h0.2,
      ht1]
    exact ⟨rfl, rfl⟩
  have := alloc_hole hg1 rfl htag n1 n2
  rw [Blk.eta1 t ht1] at this
  exact this

theorem memcpy_out (m : Mem) (dst src n x : Nat) (h : x < dst ∨ dst + n ≤ x) :
    memcpy m dst src n x = m x := by
  unfold memcpy
  exact if_neg (by omega)

theorem memcpy_in (m : Mem) (dst src n i : Nat) (h : i < n) :
    memcpy m dst src n (dst + i) = m (src + i) := by
  unfold memcpy
  rw [if_pos (by omega)]
  congr 1
  omega

theorem memset_out (m : Mem) (dst c n x : Nat) (h : x < dst ∨ dst + n ≤ x) :
    memset m dst c n x = m x := by
  unfold memset
  exact if_neg (by omega)

theorem memset_in (m : Mem) (dst c n i : Nat) (h : i < n) :
    memset m dst c n (dst + i) = c % 256 := by
  unfold memset
  exact if_pos (by omega)

theorem memset_zero_len (m : Mem) (dst c : Nat) : memset m dst c 0 = m := by
  funext x
  exact memset_out m dst c 0 x (by omega)

theorem write_u8_out (m : Mem) (a v x : Nat) (h : x ≠ a) : write_u8 m a v x = m x := by
  unfold write_u8
  exact if_neg h

/-! ## `realloc` -/

theorem realloc_zero (fuel old_ptr : Nat) (s : Heap) :
    realloc fuel old_ptr 0 s = some (NULL, free old_ptr s) := by
  unfold realloc
  exact if_pos rfl

theorem realloc_null (fuel size : Nat) (s : Heap) (h : size ≠ 0) :
    realloc fuel NULL size s = malloc fuel size s := by
  unfold realloc
  rw [if_neg h, if_pos rfl]

theorem realloc_none (fuel old_ptr size : Nat) (s : Heap) (h : size ≠ 0) (hp : old_ptr ≠ NULL)
    (hm : malloc fuel (realloc_size old_ptr size s) s = none) :
    realloc fuel old_ptr size s = none := by
  unfold realloc
  rw [if_neg h, if_neg hp]
  show (match malloc fuel (realloc_size old_ptr size s) s with
    | none => none
    | some (new_ptr, s) => _) = _
  rw [hm]

theorem realloc_fail (fuel old_ptr size : Nat) (s : Heap) (h : size ≠ 0) (hp : old_ptr ≠ NULL)
    (s1 : Heap) (hm : malloc fuel (realloc_size old_ptr size s) s = some (NULL, s1)) :
    realloc fuel old_ptr size s = some (NULL, s1) := by
  unfold realloc
  rw [if_neg h, if_neg hp]
  show (match malloc fuel (realloc_size old_ptr size s) s with
    | none => none
    | some (new_ptr, s) => _) = _
  rw [hm]
  rfl

theorem realloc_move (fuel old_ptr size : Nat) (s : Heap) (h : size ≠ 0) (hp : old_ptr ≠ NULL)
    (q : Nat) (s1 : Heap) (hm : malloc fuel (realloc_size old_ptr size s) s = some (q, s1))
    (hq : q ≠ NULL) :
    realloc fuel old_ptr size s =
      some (q, free old_ptr
        { s1 with mem := memcpy s1.mem q old_ptr (sub64 (get_size s.mem (sub64 old_ptr WORD_SIZE)) DWORD_SIZE) }) := by
  unfold realloc
  rw [if_neg h, if_neg hp]
  show (match malloc fuel (realloc_size old_ptr size s) s with
    | none => none
    | some (new_ptr, s) => _) = _
  rw [hm]
  exact if_neg hq

/-! ## `calloc` -/

theorem calloc_none (fuel k n : Nat) (s : Heap) (hm : malloc fuel (mul64 k n) s = none) :
    calloc fuel k n s = none := by
  unfold calloc
  show (match malloc fuel (mul64 k n) s with
    | none => none
    | some (new_ptr, s) => _) = _
  rw [hm]

theorem calloc_some (fuel k n : Nat) (s : Heap) (q : Nat) (s1 : Heap)
    (hm : malloc fuel (mul64 k n) s = some (q, s1)) :
    calloc fuel k n s = some (q, { s1 with mem := memset s1.mem q 0 (mul64 k n) }) := by
  unfold calloc
  show (match malloc fuel (mul64 k n) s with
    | none => none
    | some (new_ptr, s) => _) = _
  rw [hm]

theorem max_ge_left (a b : Nat) (ha : a < 2 ^ 32) : a ≤ max a b := by
  unfold max
  simp only []
  rw [Nat.mod_eq_of_lt ha]
  split <;> omega

theorem max_eq (a b : Nat) (ha : a < 2 ^ 32) (hb : b < 2 ^ 32) :
    max a b = if a ≥ b then a else b := by
  unfold max
  simp only []
  rw [Nat.mod_eq_of_lt ha, Nat.mod_eq_of_lt hb]

/-- What `realloc` reads from the header of an allocated block. -/
theorem realloc_reads {s : Heap} {bs : List Blk} {L : Nat → List Nat} (hi : Inv s bs L)
    (t : Blk) (ht : t ∈ bs) :
    sub64 (get_size s.mem (sub64 (t.addr + 4) WORD_SIZE)) DWORD_SIZE = t.size - 8 ∧
      t.addr + 4 ≠ NULL ∧ usable s (t.addr + 4) = t.size - 8 := by
  have htb := hi.gen.blk t ht
  have hq := hi.gen.max_lt
  have hq2 := hi.gen.brk_hi
  have hsub : sub64 (t.addr + 4) WORD_SIZE = t.addr := by
    rw [sub64_eq _ _ (by simp only [WORD_SIZE]; omega) (by omega)]
    simp only [WORD_SIZE]; omega
  have hsz : get_size s.mem t.addr = t.size :=
    get_size_of_tag _ _ _ _ (hi.gen.tags t ht).1 htb.2.2.2.1 htb.2.2.2.2.1
  refine ⟨?_, by simp only [NULL]; omega, ?_⟩
  · rw [hsub, hsz, sub64_eq _ _ (by simp only [DWORD_SIZE]; omega) (by omega)]
    rfl
  · unfold usable
    have e : t.addr + 4 - WORD_SIZE = t.addr := by simp only [WORD_SIZE]; omega
    rw [e, hsz]
    rfl

/-- `realloc` of a live pointer with a non-zero size: either `malloc` rejects
the size and nothing changes, or the data moves to a new block. -/
theorem realloc_spec {s : Heap} {bs : List Blk} {L : Nat → List Nat} (hi : Inv s bs L)
    (t : Blk) (ht : t ∈ bs) (ht1 : t.alloc = 1) (fuel n q : Nat) (s' : Heap) (hn : n ≠ 0)
    (hr : realloc fuel (t.addr + 4) n s = some (q, s')) :
    (q = NULL ∧ s' = s ∧ (max (t.size - 8) n = 0 ∨ max (t.size - 8) n > MAX_BLK_SIZE)) ∨
    (q ≠ NULL ∧ max (t.size - 8) n ≤ MAX_BLK_SIZE ∧
      ∃ bs' L' t2 f, Inv s' bs' L' ∧ Ext s s' ∧ t2 ∈ bs' ∧ t2.alloc = 1 ∧ q = t2.addr + 4 ∧
        q % 8 = 0 ∧ max (t.size - 8) n + 8 ≤ t2.size ∧
        (∀ c, c ∈ bs → c.alloc = 1 → c.addr ≠ t2.addr) ∧
        (∀ i, i < t.size - 8 → s'.mem (q + i) = s.mem (t.addr + 4 + i)) ∧
        f ∈ bs' ∧ f.alloc = 0 ∧ f.addr ≤ t.addr ∧ t.addr + t.size ≤ f.addr + f.size ∧
        (∀ c, c ∈ bs → c.alloc = 1 → c ≠ t →
          c ∈ bs' ∧ ∀ x, c.addr ≤ x → x < c.addr + c.size → s'.mem x = s.mem x) ∧
        (∀ c, c ∈ bs' → c.alloc = 1 → c = t2 ∨ (c ∈ bs ∧ c ≠ t))) := by
  obtain ⟨hu, hp, _⟩ := realloc_reads hi t ht
  have htb := hi.gen.blk t ht
  have hsize : realloc_size (t.addr + 4) n s = max (t.size - 8) n := by
    unfold realloc_size
    rw [hu]
  by_cases hv : max (t.size - 8) n = 0 ∨ max (t.size - 8) n > MAX_BLK_SIZE
  · left
    have hm := malloc_reject fuel _ s hv
    rw [← hsize] at hm
    rw [realloc_fail fuel _ n s hn hp s hm] at hr
    have h' := Option.some.inj hr
    exact ⟨(congrArg Prod.fst h').symm, (congrArg Prod.snd h').symm, hv⟩
  · right
    have hv' : 1 ≤ max (t.size - 8) n ∧ max (t.size - 8) n ≤ 2147483647 := by
      rw [MAX_BLK_SIZE_eq] at hv; omega
    cases hm : malloc fuel (realloc_size (t.addr + 4) n s) s with
    | none =>
      rw [realloc_none fuel _ n s hn hp hm] at hr
      exact absurd hr (by simp)
    | some r =>
      obtain ⟨q1, s1⟩ := r
      have hm' := hm
      rw [hsize] at hm'
      obtain ⟨bs1, L1, t2, m1, m2, m3, m4, m5, m6, _, m7, m8, m9, m10⟩ :=
        malloc_spec hi fuel _ q1 s1 hv'.1 hv'.2 hm'
      have hq1 : q1 ≠ NULL := by rw [m5]; simp only [NULL]; omega
      rw [realloc_move fuel _ n s hn hp q1 s1 hm hq1, hu] at hr
      have h' := Option.some.inj hr
      have hq : q = q1 := (congrArg Prod.fst h').symm
      have hs' := congrArg Prod.snd h'
      simp only at hs'
      have hge := max_ge_left (t.size - 8) n (by omega)
      have ht2b := m1.gen.blk t2 m3
      -- the copy stays inside the payload of the new block
      have hic : Inv { s1 with mem := memcpy s1.mem q1 (t.addr + 4) (t.size - 8) } bs1 L1 :=
        m1.store t2 m3 m4 _ (fun x hx => memcpy_out _ _ _ _ _ (by omega))
      obtain ⟨k1, k2⟩ := m8 t ht ht1
      obtain ⟨pre, post, hsplit⟩ := List.append_of_mem k1
      subst hsplit
      obtain ⟨bs', L', f, f1, f2, f3, f4, f5, f6, f7, f8⟩ := free_spec hic ht1
      rw [hs'] at f1 f2 f3
      have hne : t2.addr ≠ t.addr := fun e => m9 t ht ht1 e.symm
      have ht2 : t2 ∈ pre ++ post :=
        (mem_around _ _ pre post t m1.gen.lay t2).1 ⟨m3, fun e => hne (by rw [e])⟩
      obtain ⟨g1, g2⟩ := f3 t2 ht2 m4
      refine ⟨hq1 ∘ (fun e => by rw [← hq]; exact e), hv'.2.trans (le_of_eq MAX_BLK_SIZE_eq.symm),
        bs', L', t2, f, f1, m2.ext_trans f2.same_ext, g1, m4, by rw [hq]; exact m5, by rw [hq]; exact m7,
        m6, m9, ?_, f4, f5, f6, f7, ?_, ?_⟩
      · intro i hi'
        rw [hq, m5, g2 (t2.addr + 4 + i) (by omega) (by omega)]
        show memcpy s1.mem q1 (t.addr + 4) (t.size - 8) (t2.addr + 4 + i) = _
        rw [m5, memcpy_in _ _ _ _ _ hi']
        exact k2 _ (by omega) (by omega)
      · intro c hc hc1 hct
        obtain ⟨c1, c2⟩ := m8 c hc hc1
        have hcp : c ∈ pre ++ post := (mem_around _ _ pre post t m1.gen.lay c).1 ⟨c1, hct⟩
        obtain ⟨c3, c4⟩ := f3 c hcp hc1
        refine ⟨c3, fun x hx1 hx2 => ?_⟩
        rw [c4 x hx1 hx2]
        show memcpy s1.mem q1 (t.addr + 4) (t.size - 8) x = _
        have hcb := m1.gen.blk c c1
        have hd := Layout_disj _ _ _ m1.gen.lay c t2 c1 m3
        have hcne := m9 c hc hc1
        rw [memcpy_out _ _ _ _ _ (by
          rcases hd with e | e | e
          · exact absurd (by rw [e]) hcne
          · omega
          · omega)]
        exact c2 x hx1 hx2
      · intro c hc hc1
        have hcf : c ≠ f := fun e => by rw [e, f5] at hc1; exact absurd hc1 (by decide)
        have hcp := f8 c hc hcf
        obtain ⟨c1, c2⟩ := (mem_around _ _ pre post t m1.gen.lay c).2 hcp
        rcases m10 c c1 hc1 with e | e
        · exact Or.inl e
        · exact Or.inr ⟨e, c2⟩

/-- A `calloc` whose byte count is accepted by `malloc`. -/
theorem calloc_spec {s : Heap} {bs : List Blk} {L : Nat → List Nat} (hi : Inv s bs L)
    (fuel k n q : Nat) (s' : Heap) (h1 : 1 ≤ mul64 k n) (h2 : mul64 k n ≤ 2147483647)
    (hc : calloc fuel k n s = some (q, s')) :
    ∃ bs' L' t, Inv s' bs' L' ∧ Ext s s' ∧ t ∈ bs' ∧ t.alloc = 1 ∧ q = t.addr + 4 ∧
      q % 8 = 0 ∧ mul64 k n + 8 ≤ t.size ∧ (∀ i, i < mul64 k n → s'.mem (q + i) = 0) ∧
      Stable bs s.mem bs' s'.mem ∧ (∀ c, c ∈ bs → c.alloc = 1 → c.addr ≠ t.addr) ∧
      (∀ c, c ∈ bs' → c.alloc = 1 → c = t ∨ c ∈ bs) := by
  cases hm : malloc fuel (mul64 k n) s with
  | none =>
    rw [calloc_none fuel k n s hm] at hc
    exact absurd hc (by simp)
  | some r =>
    obtain ⟨q1, s1⟩ := r
    rw [calloc_some fuel k n s q1 s1 hm] at hc
    have h' := Option.some.inj hc
    have hq : q1 = q := congrArg Prod.fst h'
    have hs' := congrArg Prod.snd h'
    simp only at hs'
    obtain ⟨bs1, L1, t, m1, m2, m3, m4, m5, m6, _, m7, m8, m9, m10⟩ :=
      malloc_spec hi fuel _ q1 s1 h1 h2 hm
    have htb := m1.gen.blk t m3
    have hic : Inv { s1 with mem := memset s1.mem q1 0 (mul64 k n) } bs1 L1 :=
      m1.store t m3 m4 _ (fun x hx => memset_out _ _ _ _ _ (by omega))
    rw [hs'] at hic
    refine ⟨bs1, L1, t, hic, ?_, m3, m4, by rw [← hq]; exact m5, by rw [← hq]; exact m7, m6,
      ?_, ?_, m9, m10⟩
    · rw [← hs']; exact m2
    · intro i hi'
      rw [← hs', ← hq]
      exact memset_in _ _ _ _ _ hi'
    · intro c hc hc1
      obtain ⟨c1, c2⟩ := m8 c hc hc1
      refine ⟨c1, fun x hx1 hx2 => ?_⟩
      rw [← hs']
      show memset s1.mem q1 0 (mul64 k n) x = _
      have hcb := m1.gen.blk c c1
      have hd := Layout_disj _ _ _ m1.gen.lay c t c1 m3
      have hcne := m9 c hc hc1
      rw [memset_out _ _ _ _ _ (by
        rcases hd with e | e | e
        · exact absurd (by rw [e]) hcne
        · omega
        · omega)]
      exact c2 x hx1 hx2

theorem loop_succ (k size index : Nat) :
    get_free_lists_index_loop (k + 1) size index =
      if size ≠ 0 ∧ index < NUM_SIZE_CLASSES - 1 then
        get_free_lists_index_loop k (size >>> 1) (index + 1)
      else index := rfl

theorem loop_top (k : Nat) : ∀ x i, i + k = 8 → (k = 0 ∨ 2 ^ (k - 1) ≤ x) →
    get_free_lists_index_loop k x i = 8 := by
  induction k with
  | zero => intro x i h _; simpa [get_free_lists_index_loop] using h
  | succ k ih =>
    intro x i h hx
    have hx' : 2 ^ k ≤ x := by
      rcases hx with h0 | h0
      · omega
      · simpa using h0
    have hpos : 0 < 2 ^ k := Nat.two_pow_pos k
    have e : NUM_SIZE_CLASSES - 1 = 8 := rfl
    rw [loop_succ, e, if_pos ⟨by omega, by omega⟩]
    apply ih _ _ (by omega)
    rcases Nat.eq_zero_or_pos k with h0 | h0
    · left; exact h0
    · right
      rw [Nat.shiftRight_eq_div_pow]
      have : 2 ^ k = 2 ^ (k - 1) * 2 := by
        rw [← Nat.pow_succ]; congr 1; omega
      rw [this] at hx'
      simp only [pow_one]
      omega

theorem loop_small : ∀ q, q < 128 →
    get_free_lists_index_loop 8 q 0 = size_class (32 * q + 1) := by
  decide

theorem size_class_div (s : Nat) (h1 : 1 ≤ s) :
    size_class (32 * ((s - 1) / 32) + 1) = size_class s := by
  have key : ∀ T, T % 32 = 0 → (32 * ((s - 1) / 32) + 1 ≤ T ↔ s ≤ T) := by
    intro T hT; omega
  unfold size_class
  simp only [key 32 (by norm_num), key 64 (by norm_num), key 128 (by norm_num),
    key 256 (by norm_num), key 512 (by norm_num), key 1024 (by norm_num),
    key 2048 (by norm_num), key 4096 (by norm_num)]

theorem size_class_top (s : Nat) (h : 4096 < s) : size_class s = 8 := by
  unfold size_class
  split_ifs <;> omega

theorem get_free_lists_index_eq (s : Nat) (h1 : 1 ≤ s) (h2 : s < 2 ^ 64) :
    get_free_lists_index s = size_class s := by
  unfold get_free_lists_index
  have e : NUM_SIZE_CLASSES - 1 = 8 := rfl
  have e5 : 2 ^ 5 = 32 := rfl
  rw [e, sub64_eq _ _ h1 h2, Nat.shiftRight_eq_div_pow, e5]
  by_cases hq : (s - 1) / 32 < 128
  · rw [loop_small _ hq]
    exact size_class_div s h1
  · have h128 : 2 ^ (8 - 1) ≤ (s - 1) / 32 := by
      have : 2 ^ (8 - 1) = 128 := rfl
      rw [this]; omega
    rw [loop_top 8 _ 0 rfl (Or.inr h128), size_class_top s (by omega)]

theorem size_class_le (a : Nat) : size_class a ≤ 8 := by
  unfold size_class
  split_ifs <;> omega

/-- The class is the number of thresholds below the size. -/
theorem size_class_count (c : Nat) : size_class c =
    (if 32 < c then 1 else 0) + (if 64 < c then 1 else 0) + (if 128 < c then 1 else 0) +
    (if 256 < c then 1 else 0) + (if 512 < c then 1 else 0) + (if 1024 < c then 1 else 0) +
    (if 2048 < c then 1 else 0) + (if 4096 < c then 1 else 0) := by
  unfold size_class
  by_cases c0 : c ≤ 32
  · rw [if_pos c0, if_neg (by omega : ¬ 32 < c), if_neg (by omega : ¬ 64 < c), if_neg (by omega
      : ¬ 128 < c), if_neg (by omega : ¬ 256 < c), if_neg (by omega : ¬ 512 < c), if_neg (by omega
      : ¬ 1024 < c), if_neg (by omega : ¬ 2048 < c), if_neg (by omega : ¬ 4096 < c)]
  by_cases c1 : c ≤ 64
  · rw [if_neg (by omega : ¬ c ≤ 32), if_pos c1, if_pos (by omega : 32 < c), if_neg (by omega :
      ¬ 64 < c), if_neg (by omega : ¬ 128 < c), if_neg (by omega : ¬ 256 < c), if_neg (by omega :
      ¬ 512 < c), if_neg (by omega : ¬ 1024 < c), if_neg (by omega : ¬ 2048 < c), if_neg (by omega
      : ¬ 4096 < c)]
  by_cases c2 : c ≤ 128
  · rw [if_neg (by omega : ¬ c ≤ 32), if_neg (by omega : ¬ c ≤ 64), if_pos c2, if_pos (by omega
      : 32 < c), if_pos (by omega : 64 < c), if_neg (by omega : ¬ 128 < c), if_neg (by omega : ¬
      256 < c), if_neg (by omega : ¬ 512 < c), if_neg (by omega : ¬ 1024 < c), if_neg (by omega :
      ¬ 2048 < c), if_neg (by omega : ¬ 4096 < c)]
  by_cases c3 : c ≤ 256
  · rw [if_neg (by omega : ¬ c ≤ 32), if_neg (by omega : ¬ c ≤ 64), if_neg (by omega : ¬ c ≤
      128), if_pos c3, if_pos (by omega : 32 < c), if_pos (by omega : 64 < c), if_pos (by omega :
      128 < c), if_neg (by omega : ¬ 256 < c), if_neg (by omega : ¬ 512 < c), if_neg (by omega : ¬
      1024 < c), if_neg (by omega : ¬ 2048 < c), if_neg (by omega : ¬ 4096 < c)]
  by_cases c4 : c ≤ 512
  · rw [if_neg (by omega : ¬ c ≤ 32), if_neg (by omega : ¬ c ≤ 64), if_neg (by omega : ¬ c ≤
      128), if_neg (by omega : ¬ c ≤ 256), if_pos c4, if_pos (by omega : 32 < c), if_pos (by omega
      : 64 < c), if_pos (by omega : 128 < c), if_pos (by omega : 256 < c), if_neg (by omega : ¬
      512 < c), if_neg (by omega : ¬ 1024 < c), if_neg (by omega : ¬ 2048 < c), if_neg (by omega :
      ¬ 4096 < c)]
  by_cases c5 : c ≤ 1024
  · rw [if_neg (by omega : ¬ c ≤ 32), if_neg (by omega : ¬ c ≤ 64), if_neg (by omega : ¬ c ≤
      128), if_neg (by omega : ¬ c ≤ 256), if_neg (by omega : ¬ c ≤ 512), if_pos c5, if_pos (by
      omega : 32 < c), if_pos (by omega : 64 < c), if_pos (by omega : 128 < c), if_pos (by omega :
      256 < c), if_pos (by omega : 512 < c), if_neg (by omega : ¬ 1024 < c), if_neg (by omega : ¬
      2048 < c), if_neg (by omega : ¬ 4096 < c)]
  by_cases c6 : c ≤ 2048
  · rw [if_neg (by omega : ¬ c ≤ 32), if_neg (by omega : ¬ c ≤ 64), if_neg (by omega : ¬ c ≤
      128), if_neg (by omega : ¬ c ≤ 256), if_neg (by omega : ¬ c ≤ 512), if_neg (by omega : ¬ c ≤
      1024), if_pos c6, if_pos (by omega : 32 < c), if_pos (by omega : 64 < c), if_pos (by omega :
      128 < c), if_pos (by omega : 256 < c), if_pos (by omega : 512 < c), if_pos (by omega : 1024
      < c), if_neg (by omega : ¬ 2048 < c), if_neg (by omega : ¬ 4096 < c)]
  by_cases c7 : c ≤ 4096
  · rw [if_neg (by omega : ¬ c ≤ 32), if_neg (by omega : ¬ c ≤ 64), if_neg (by omega : ¬ c ≤
      128), if_neg (by omega : ¬ c ≤ 256), if_neg (by omega : ¬ c ≤ 512), if_neg (by omega : ¬ c ≤
      1024), if_neg (by omega : ¬ c ≤ 2048), if_pos c7, if_pos (by omega : 32 < c), if_pos (by
      omega : 64 < c), if_pos (by omega : 128 < c), if_pos (by omega : 256 < c), if_pos (by omega
      : 512 < c), if_pos (by omega : 1024 < c), if_pos (by omega : 2048 < c), if_neg (by omega : ¬
      4096 < c)]
  rw [if_neg (by omega : ¬ c ≤ 32), if_neg (by omega : ¬ c ≤ 64), if_neg (by omega : ¬ c ≤ 128),
    if_neg (by omega : ¬ c ≤ 256), if_neg (by omega : ¬ c ≤ 512), if_neg (by omega : ¬ c ≤ 1024),
    if_neg (by omega : ¬ c ≤ 2048), if_neg (by omega : ¬ c ≤ 4096), if_pos (by omega : 32 < c),
    if_pos (by omega : 64 < c), if_pos (by omega : 128 < c), if_pos (by omega : 256 < c), if_pos
    (by omega : 512 < c), if_pos (by omega : 1024 < c), if_pos (by omega : 2048 < c), if_pos (by
    omega : 4096 < c)]

theorem size_class_mono (a b : Nat) (h : a ≤ b) : size_class a ≤ size_class b := by
  rw [size_class_count a, size_class_count b]
  have m : ∀ T, (if T < a then 1 else 0) ≤ (if T < b then 1 else 0) := by
    intro T
    split_ifs <;> omega
  have := m 32; have := m 64; have := m 128; have := m 256; have := m 512
  have := m 1024; have := m 2048; have := m 4096
  omega

theorem get_free_lists_index_mono (a b : Nat) (h1 : 1 ≤ a) (h : a ≤ b) (h2 : b < 2 ^ 64) :
    get_free_lists_index a ≤ get_free_lists_index b := by
  rw [get_free_lists_index_eq a h1 (by omega), get_free_lists_index_eq b (by omega) h2]
  exact size_class_mono a b h

theorem mm_init_fail (s : Heap) (h : ¬ (s.mem_brk + 4 * WORD_SIZE ≤ s.mem_max_addr)) :
    mm_init s = (-1, { s with sbrk_calls := 4 * WORD_SIZE :: s.sbrk_calls,
                              heap_ptr := 2 ^ 64 - 1 }) := by
  unfold mm_init
  show (match mem_sbrk (4 * WORD_SIZE) s with
    | (none, s) => (-1, { s with heap_ptr := 2 ^ 64 - 1 })
    | (some p, s) => _) = _
  rw [mem_sbrk_fail _ s h]

theorem mm_init_ok (s : Heap) (h : s.mem_brk + 4 * WORD_SIZE ≤ s.mem_max_addr) :
    mm_init s =
      if (extend_heap (HEAP_EXT_SIZE / WORD_SIZE) (init_base s)).1 = NULL then
        (-1, (extend_heap (HEAP_EXT_SIZE / WORD_SIZE) (init_base s)).2)
      else (0, (extend_heap (HEAP_EXT_SIZE / WORD_SIZE) (init_base s)).2) := by
  unfold mm_init
  show (match mem_sbrk (4 * WORD_SIZE) s with
    | (none, s) => (-1, { s with heap_ptr := 2 ^ 64 - 1 })
    | (some p, s) => _) = _
  rw [mem_sbrk_ok _ s h]
  rfl

theorem ext_bytes_init : ext_bytes (HEAP_EXT_SIZE / WORD_SIZE) = 4096 := by
  unfold ext_bytes
  have e : HEAP_EXT_SIZE / WORD_SIZE = 1024 := by decide
  rw [e, if_neg (by decide), mul64_eq _ _ (by simp only [WORD_SIZE]; norm_num)]
  rfl

/-- Before the first extension the heap has no block and the lists are empty. -/
theorem init_base_inv (s : Heap) (hf : Fresh s) (h : s.mem_brk + 16 ≤ s.mem_max_addr) :
    Inv (init_base s) [] (fun _ => []) := by
  obtain ⟨f1, f2, f3, f4⟩ := hf
  have t9 : make_btag DWORD_SIZE 1 = 9 := make_btag_eq 8 1 (by norm_num) (by norm_num) (by norm_num)
  have hmem : (init_base s).mem =
      put_u32 (put_u32 (put_u32 (put_u32 s.mem s.mem_brk 0) (s.mem_brk + 4) 9)
        (s.mem_brk + 8) 9) (s.mem_brk + 12) 1 := by
    show put_btag (put_btag (put_btag (put_val s.mem s.mem_brk 0x0)
      (s.mem_brk + 1 * WORD_SIZE) (make_btag DWORD_SIZE 1))
      (s.mem_brk + 2 * WORD_SIZE) (make_btag DWORD_SIZE 1))
      (s.mem_brk + 3 * WORD_SIZE) (make_btag 0 1) = _
    rw [t9, make_btag_epi]
    rfl
  have hbrk : (init_base s).mem_brk = s.mem_brk + 16 := rfl
  have hheap : (init_base s).mem_heap = s.mem_heap := rfl
  have hmax : (init_base s).mem_max_addr = s.mem_max_addr := rfl
  have hptr : (init_base s).heap_ptr = s.mem_brk + 12 := rfl
  refine ⟨?_, List.chain'_nil⟩
  refine
    { hp_eq := by rw [hptr, hheap, f1]
      hp_al := by rw [hheap]; exact f2
      brk_hi := by rw [hbrk, hmax]; exact h
      max_lt := by rw [hmax]; exact f3
      small := by rw [hmax, hheap]; exact f4
      pro_h := ?_
      pro_f := ?_
      epi := ?_
      lay := ?_
      sub := fun b hb => hb
      tags := fun b hb => absurd hb (List.not_mem_nil _)
      lists := ?_
      nodup := fun _ _ => List.nodup_nil
      sound := fun _ _ x hx => absurd hx (List.not_mem_nil _)
      complete := fun b hb => absurd hb (List.not_mem_nil _) }
  · rw [hmem, hheap, ← f1, get_u32_put_u32_ne _ _ _ _ (by omega),
      get_u32_put_u32_ne _ _ _ _ (by omega), get_u32_put_u32_same]
    rfl
  · rw [hmem, hheap, ← f1, get_u32_put_u32_ne _ _ _ _ (by omega), get_u32_put_u32_same]
    rfl
  · rw [hmem, hbrk]
    have e : s.mem_brk + 16 - 4 = s.mem_brk + 12 := by omega
    rw [e, get_u32_put_u32_same]
    rfl
  · show (init_base s).heap_ptr = (init_base s).mem_brk - 4
    rw [hptr, hbrk]
    omega
  · intro i hi
    show (init_base s).free_lists i = NULL
    show (if i < NUM_SIZE_CLASSES then NULL else s.free_lists i) = NULL
    exact if_pos hi

theorem list_singleton_of (l : List Nat) (a : Nat) (hnd : l.Nodup) (hm : a ∈ l)
    (hall : ∀ x, x ∈ l → x = a) : l = [a] := by
  cases l with
  | nil => exact absurd hm (List.not_mem_nil _)
  | cons x xs =>
    have hx : x = a := hall x (List.mem_cons_self _ _)
    subst hx
    cases xs with
    | nil => rfl
    | cons y ys =>
      have hy : y = x := hall y (by simp)
      subst hy
      exact absurd hnd (by simp)

theorem get_free_lists_index_4096 : get_free_lists_index 4096 = 7 := by
  rw [get_free_lists_index_eq 4096 (by norm_num) (by norm_num)]
  rfl

/-- `mm_init` on a fresh arena: it fails exactly when the arena cannot take the
16 bytes of the sentinels and the first chunk of 4096 bytes; otherwise the
heap consists of one free block of 4096 bytes, filed in list 7. -/
theorem mm_init_spec (s : Heap) (hf : Fresh s) :
    (¬ (s.mem_brk + 16 + 4096 ≤ s.mem_max_addr) → (mm_init s).1 = -1) ∧
    (s.mem_brk + 16 + 4096 ≤ s.mem_max_addr →
      (mm_init s).1 = 0 ∧
      Inv (mm_init s).2 [⟨s.mem_heap + 12, 4096, 0⟩] (init_lists (s.mem_heap + 12)) ∧
      (mm_init s).2.mem_heap = s.mem_heap ∧ (mm_init s).2.mem_brk = s.mem_heap + 16 + 4096 ∧
      (mm_init s).2.mem_max_addr = s.mem_max_addr ∧
      (mm_init s).2.sbrk_calls = 4096 :: 16 :: s.sbrk_calls) := by
  have hw : 4 * WORD_SIZE = 16 := rfl
  constructor
  · intro h
    by_cases h16 : s.mem_brk + 16 ≤ s.mem_max_addr
    · rw [mm_init_ok s (by rw [hw]; exact h16)]
      have hfit : ¬ ((init_base s).mem_brk + ext_bytes (HEAP_EXT_SIZE / WORD_SIZE) ≤
          (init_base s).mem_max_addr) := by
        rw [ext_bytes_init]
        show ¬ (s.mem_brk + 16 + 4096 ≤ s.mem_max_addr)
        exact h
      rw [extend_heap_fail _ _ hfit]
      rfl
    · rw [mm_init_fail s (by rw [hw]; exact h16)]
  · intro h
    have h16 : s.mem_brk + 16 ≤ s.mem_max_addr := by omega
    have hi0 := init_base_inv s hf h16
    have hfit : (init_base s).mem_brk + ext_bytes (HEAP_EXT_SIZE / WORD_SIZE) ≤
        (init_base s).mem_max_addr := by
      rw [ext_bytes_init]
      exact h
    obtain ⟨s', pre', t', L', x1, x2, x3, x4, x5, x6, x7, x8⟩ :=
      extend_heap_spec_ok hi0 (HEAP_EXT_SIZE / WORD_SIZE) (by rw [ext_bytes_init]; norm_num)
        (by rw [ext_bytes_init]) hfit
    have hpre : pre' = [] := by
      cases hp : pre' with
      | nil => rfl
      | cons c rest => exact absurd (x8 c (by rw [hp]; simp)) (List.not_mem_nil _)
    subst hpre
    rw [ext_bytes_init] at x3 x5
    obtain ⟨g1, g2, g3, g4, g5⟩ := x3
    have hlay := x2.gen.lay
    have hta : t'.addr = s.mem_heap + 12 := by
      have := hlay.1
      rw [this, g4]
      show s.mem_brk + 12 = _
      rw [hf.empty]
    have hbrk' : s'.mem_brk = s.mem_heap + 16 + 4096 := by
      rw [g2]
      show s.mem_brk + 16 + 4096 = _
      rw [hf.empty]
    have hts : t'.size = 4096 := by omega
    have ht : t' = ⟨s.mem_heap + 12, 4096, 0⟩ := by
      cases t'
      simp only at hta hts x4
      rw [hta, hts, x4]
    have hnull : t'.addr ≠ NULL := by rw [hta]; simp only [NULL]; omega
    rw [mm_init_ok s (by rw [hw]; exact h16), x1]
    simp only [if_neg hnull]
    have hL : ∀ i, i < 9 → L' i = init_lists (s.mem_heap + 12) i := by
      intro i hi
      have hall : ∀ x, x ∈ L' i → x = s.mem_heap + 12 ∧ i = 7 := by
        intro x hx
        obtain ⟨b, hb1, hb2, hb3, hb4⟩ := x2.gen.sound i hi x hx
        have hb : b = t' := by simpa using hb1
        rw [hb] at hb2 hb4
        rw [hts, get_free_lists_index_4096] at hb4
        exact ⟨by rw [← hb2, hta], hb4.symm⟩
      unfold init_lists
      by_cases h7 : i = 7
      · rw [if_pos h7]
        apply list_singleton_of _ _ (x2.gen.nodup i hi) _ (fun x hx => (hall x hx).1)
        have := x2.gen.complete t' (by simp) x4
        rw [hts, get_free_lists_index_4096, hta] at this
        rw [h7]; exact this
      · rw [if_neg h7]
        apply List.eq_nil_iff_forall_not_mem.2
        intro x hx
        exact h7 (hall x hx).2
    have hinv : Inv s' [⟨s.mem_heap + 12, 4096, 0⟩] (init_lists (s.mem_heap + 12)) := by
      rw [← ht]
      have hg := x2.gen
      simp only [List.nil_append] at hg
      refine ⟨?_, by simpa using x2.noadj⟩
      exact
        { hp_eq := hg.hp_eq, hp_al := hg.hp_al, brk_hi := hg.brk_hi, max_lt := hg.max_lt,
          small := hg.small, pro_h := hg.pro_h, pro_f := hg.pro_f, epi := hg.epi,
          lay := hg.lay, sub := hg.sub, tags := hg.tags
          lists := fun i hi => by rw [← hL i hi]; exact hg.lists i hi
          nodup := fun i hi => by rw [← hL i hi]; exact hg.nodup i hi
          sound := fun i hi x hx => hg.sound i hi x (by rw [hL i hi]; exact hx)
          complete := fun b hb hb0 => by
            rw [← hL _ (get_free_lists_index_lt _)]; exact hg.complete b hb hb0 }
    refine ⟨trivial, hinv, ?_, hbrk', ?_, ?_⟩
    · rw [g1]; rfl
    · rw [g3]; rfl
    · rw [g5]; rfl

/-! ## The walks read the ghost description -/

theorem heap_walk_succ (fuel : Nat) (m : Mem) (blk : Nat) :
    heap_walk (fuel + 1) m blk =
      if get_size m blk = 0 ∧ get_alloc m blk = 1 then []
      else ⟨blk, get_size m blk, get_alloc m blk⟩ ::
        heap_walk fuel m (get_next_hdr_addr m blk) := rfl

theorem heap_walk_end_succ (fuel : Nat) (m : Mem) (blk : Nat) :
    heap_walk_end (fuel + 1) m blk =
      if get_size m blk = 0 ∧ get_alloc m blk = 1 then blk
      else heap_walk_end fuel m (get_next_hdr_addr m blk) := rfl

theorem list_walk_succ (fuel : Nat) (m : Mem) (p : Nat) :
    list_walk (fuel + 1) m p =
      if p ≠ NULL then p :: list_walk fuel m (get_next_free m p) else [] := rfl

theorem heap_walk_spec (m : Mem) (e : Nat) (he : get_u32 m e = 1) (hlt : e < 2 ^ 64) :
    ∀ (bs : List Blk) (a fuel : Nat), Layout a bs e → (∀ b, b ∈ bs → TagOK m b) →
      bs.length < fuel → heap_walk fuel m a = bs ∧ heap_walk_end fuel m a = e := by
  intro bs
  induction bs with
  | nil =>
    intro a fuel hl _ hf
    have ha : a = e := hl
    subst ha
    obtain ⟨f, hf'⟩ : ∃ f, fuel = f + 1 := ⟨fuel - 1, by simp at hf; omega⟩
    subst hf'
    have h0 : get_size m a = 0 := get_size_of_tag m a 0 1 (by rw [he]) rfl (le_refl _)
    have h1 : get_alloc m a = 1 := get_alloc_of_tag m a 0 1 (by rw [he]) rfl (le_refl _)
    rw [heap_walk_succ, heap_walk_end_succ, if_pos ⟨h0, h1⟩, if_pos ⟨h0, h1⟩]
    exact ⟨rfl, rfl⟩
  | cons b bs ih =>
    intro a fuel hl ht hf
    obtain ⟨l1, l2, l3, l4, l5⟩ := hl
    obtain ⟨f, hf'⟩ : ∃ f, fuel = f + 1 := ⟨fuel - 1, by simp at hf; omega⟩
    subst hf'
    have hle := Layout_le _ _ _ l5
    have h0 : get_size m a = b.size := by
      have := get_size_of_tag m b.addr b.size b.alloc (ht b (List.mem_cons_self _ _)).1 l3 l4
      rw [l1] at this; exact this
    have h1 : get_alloc m a = b.alloc := by
      have := get_alloc_of_tag m b.addr b.size b.alloc (ht b (List.mem_cons_self _ _)).1 l3 l4
      rw [l1] at this; exact this
    have hnext : get_next_hdr_addr m a = a + b.size := by
      unfold get_next_hdr_addr
      rw [h0, add64_eq _ _ (by omega)]
    have hrec := ih (a + b.size) f l5 (fun c hc => ht c (List.mem_cons_of_mem _ hc))
      (by simp at hf; omega)
    rw [heap_walk_succ, heap_walk_end_succ, if_neg (by rw [h0]; omega),
      if_neg (by rw [h0]; omega), hnext, hrec.1, hrec.2, h0, h1, ← l1]
    exact ⟨rfl, rfl⟩

theorem list_walk_spec (m : Mem) :
    ∀ (xs : List Nat) (p h fuel : Nat), FSeg m p h xs NULL → xs.length < fuel →
      list_walk fuel m h = xs := by
  intro xs
  induction xs with
  | nil =>
    intro p h fuel hs hf
    have h0 : h = NULL := hs
    subst h0
    obtain ⟨f, hf'⟩ : ∃ f, fuel = f + 1 := ⟨fuel - 1, by simp at hf; omega⟩
    subst hf'
    rw [list_walk_succ, if_neg (fun hh => hh rfl)]
  | cons x xs ih =>
    intro p h fuel hs hf
    obtain ⟨h1, h2, h3, h4⟩ := hs
    subst h1
    obtain ⟨f, hf'⟩ : ∃ f, fuel = f + 1 := ⟨fuel - 1, by simp at hf; omega⟩
    subst hf'
    rw [list_walk_succ, if_pos h2, ih _ _ f h4 (by simp at hf; omega)]

theorem Layout_length (a e : Nat) (bs : List Blk) (h : Layout a bs e) :
    a + 24 * bs.length ≤ e := by
  induction bs generalizing a with
  | nil =>
    have : a = e := h
    simp; omega
  | cons b bs ih =>
    obtain ⟨l1, l2, l3, l4, l5⟩ := h
    have := ih _ l5
    simp only [List.length_cons]
    omega

theorem nodup_length_lt (l : List Nat) (n : Nat) (hn : 0 < n) (hnd : l.Nodup)
    (h : ∀ x, x ∈ l → 1 ≤ x ∧ x < n) : l.length < n := by
  have hsub : l.toFinset ⊆ Finset.Ico 1 n := by
    intro x hx
    rw [List.mem_toFinset] at hx
    rw [Finset.mem_Ico]
    exact h x hx
  have hc := Finset.card_le_card hsub
  rw [List.toFinset_card_of_nodup hnd, Nat.card_Ico] at hc
  omega

/-- The walks of `mm_checkheap` read exactly the blocks and the lists of the
invariant. -/
theorem Inv.walk {s : Heap} {bs : List Blk} {L : Nat → List Nat} (hi : Inv s bs L) :
    heap_blocks s = bs ∧ heap_walk_end s.mem_brk s.mem s.heap_ptr = s.mem_brk - 4 ∧
      ∀ i, i < 9 → free_list s i = L i := by
  have hg := hi.gen
  have h1 := hg.hp_eq
  have h2 := hg.brk_hi
  have h3 := hg.max_lt
  have hlo := hg.brk_lo
  have hlen := Layout_length _ _ _ hg.lay
  have hw := heap_walk_spec s.mem (s.mem_brk - 4) hg.epi (by omega) bs s.heap_ptr s.mem_brk
    hg.lay (fun b hb => hg.tags b hb) (by omega)
  refine ⟨hw.1, hw.2, fun i hi9 => ?_⟩
  unfold free_list
  apply list_walk_spec s.mem (L i) NULL _ _ (hg.lists i hi9)
  apply nodup_length_lt _ _ (by omega) (hg.nodup i hi9)
  intro x hx
  obtain ⟨b, _, hb2, hb3, _⟩ := hg.node i hi9 x hx
  have := hg.blk b hb2
  omega

theorem Inv.live {s : Heap} {bs : List Blk} {L : Nat → List Nat} (hi : Inv s bs L) (p : Nat) :
    Live s p ↔ ∃ b, b ∈ bs ∧ b.alloc = 1 ∧ b.addr + 4 = p := by
  unfold Live
  rw [hi.walk.1]
  constructor
  · rintro ⟨b, h1, h2, h3⟩; exact ⟨b, h1, h2, h3⟩
  · rintro ⟨b, h1, h2, h3⟩; exact ⟨b, h1, h2, h3⟩

theorem Inv.usable {s : Heap} {bs : List Blk} {L : Nat → List Nat} (hi : Inv s bs L) (t : Blk)
    (ht : t ∈ bs) : usable s (t.addr + 4) = t.size - 8 := (realloc_reads hi t ht).2.2

/-! ## Every reachable state satisfies the invariant -/

theorem free_inv {s : Heap} {bs : List Blk} {L : Nat → List Nat} (hi : Inv s bs L) (p : Nat)
    (hp : p = NULL ∨ Live s p) : ∃ bs' L', Inv (free p s) bs' L' := by
  rcases hp with hp | hp
  · rw [hp, free_null]; exact ⟨bs, L, hi⟩
  · obtain ⟨t, ht, ht1, htp⟩ := (hi.live p).1 hp
    obtain ⟨pre, post, hsplit⟩ := List.append_of_mem ht
    subst hsplit
    obtain ⟨bs', L', _, f1, _⟩ := free_spec hi ht1
    rw [← htp]
    exact ⟨bs', L', f1⟩

theorem malloc_inv_any {s : Heap} {bs : List Blk} {L : Nat → List Nat} (hi : Inv s bs L)
    (fuel n p : Nat) (s' : Heap) (hm : malloc fuel n s = some (p, s')) :
    ∃ bs' L', Inv s' bs' L' := by
  by_cases hv : n = 0 ∨ n > MAX_BLK_SIZE
  · rw [malloc_reject fuel n s hv] at hm
    have := congrArg Prod.snd (Option.some.inj hm)
    simp only at this
    rw [← this]
    exact ⟨bs, L, hi⟩
  · rw [MAX_BLK_SIZE_eq] at hv
    obtain ⟨bs', L', _, h, _⟩ := malloc_spec hi fuel n p s' (by omega) (by omega) hm
    exact ⟨bs', L', h⟩

theorem Reachable.inv {s : Heap} (h : Reachable s) : ∃ bs L, Inv s bs L := by
  induction h with
  | init s0 hf h0 =>
    by_cases hfit : s0.mem_brk + 16 + 4096 ≤ s0.mem_max_addr
    · exact ⟨_, _, ((mm_init_spec s0 hf).2 hfit).2.1⟩
    · have := (mm_init_spec s0 hf).1 hfit
      rw [this] at h0
      exact absurd h0 (by decide)
  | malloc s fuel n p s' _ hm ih =>
    obtain ⟨bs, L, hi⟩ := ih
    exact malloc_inv_any hi fuel n p s' hm
  | free s p _ hp ih =>
    obtain ⟨bs, L, hi⟩ := ih
    exact free_inv hi p hp
  | realloc s fuel p n q s' _ hp hr ih =>
    obtain ⟨bs, L, hi⟩ := ih
    by_cases hn : n = 0
    · subst hn
      rw [realloc_zero] at hr
      have := congrArg Prod.snd (Option.some.inj hr)
      simp only at this
      rw [← this]
      exact free_inv hi p hp
    · rcases hp with hp | hp
      · rw [hp, realloc_null fuel n s hn] at hr
        exact malloc_inv_any hi fuel n q s' hr
      · obtain ⟨t, ht, ht1, htp⟩ := (hi.live p).1 hp
        rw [← htp] at hr
        rcases realloc_spec hi t ht ht1 fuel n q s' hn hr with ⟨_, h2, _⟩ | ⟨_, _, bs', L', _, _, h, _⟩
        · rw [h2]; exact ⟨bs, L, hi⟩
        · exact ⟨bs', L', h⟩
  | calloc s fuel k n q s' _ hc hq ih =>
    obtain ⟨bs, L, hi⟩ := ih
    by_cases hv : mul64 k n = 0 ∨ mul64 k n > MAX_BLK_SIZE
    · have hm := malloc_reject fuel _ s hv
      rw [calloc_some fuel k n s NULL s hm] at hc
      have h' := Option.some.inj hc
      have hq0 : NULL = q := congrArg Prod.fst h'
      have hs' := congrArg Prod.snd h'
      simp only at hs'
      have hz : mul64 k n = 0 := by
        rcases hq with hq | hq
        · exact absurd hq0.symm hq
        · exact hq
      rw [hz, memset_zero_len] at hs'
      rw [← hs']
      exact ⟨bs, L, hi⟩
    · rw [MAX_BLK_SIZE_eq] at hv
      obtain ⟨bs', L', _, h, _⟩ := calloc_spec hi fuel k n q s' (by omega) (by omega) hc
      exact ⟨bs', L', h⟩
  | store s p a v _ hl h1 h2 ih =>
    obtain ⟨bs, L, hi⟩ := ih
    obtain ⟨t, ht, ht1, htp⟩ := (hi.live p).1 hl
    rw [← htp, hi.usable t ht] at h2
    have htb := hi.gen.blk t ht
    refine ⟨bs, L, hi.store t ht ht1 _ (fun x hx => write_u8_out _ _ _ _ (by omega))⟩

theorem find_fit_list_complete (m : Mem) (size : Nat) :
    ∀ (xs : List Nat) (p h fuel : Nat), FSeg m p h xs NULL → xs.length < fuel →
      ∃ r, find_fit_list fuel m size h = some r ∧ FirstFit m size xs r := by
  intro xs
  induction xs with
  | nil =>
    intro p h fuel hs hf
    have h0 : h = NULL := hs
    subst h0
    obtain ⟨f, hf'⟩ : ∃ f, fuel = f + 1 := ⟨fuel - 1, by simp at hf; omega⟩
    subst hf'
    refine ⟨NULL, ?_, Or.inl ⟨rfl, fun x hx => absurd hx (List.not_mem_nil _)⟩⟩
    rw [find_fit_list_succ, if_neg (fun hh => hh rfl)]
  | cons x xs ih =>
    intro p h fuel hs hf
    obtain ⟨h1, h2, h3, h4⟩ := hs
    subst h1
    obtain ⟨f, hf'⟩ : ∃ f, fuel = f + 1 := ⟨fuel - 1, by simp at hf; omega⟩
    subst hf'
    rw [find_fit_list_succ, if_pos h2]
    by_cases hc : get_size m h ≥ size
    · rw [if_pos hc]
      exact ⟨h, rfl, Or.inr ⟨h2, hc, [], xs, rfl, fun y hy => absurd hy (List.not_mem_nil _)⟩⟩
    · rw [if_neg hc]
      obtain ⟨r, hr1, hr2⟩ := ih _ _ f h4 (by simp at hf; omega)
      refine ⟨r, hr1, ?_⟩
      rcases hr2 with ⟨a1, a2⟩ | ⟨a1, a2, ys, zs, a3, a4⟩
      · left
        refine ⟨a1, fun y hy => ?_⟩
        rcases List.mem_cons.1 hy with e | e
        · rw [e]; omega
        · exact a2 y e
      · right
        refine ⟨a1, a2, h :: ys, zs, by rw [a3]; rfl, fun y hy => ?_⟩
        rcases List.mem_cons.1 hy with e | e
        · rw [e]; omega
        · exact a4 y e

theorem find_fit_lists_complete (s : Heap) (L : Nat → List Nat) (size fuel : Nat)
    (hl : ∀ i, i < 9 → FList s.mem (s.free_lists i) (L i))
    (hlen : ∀ i, i < 9 → (L i).length < fuel) (k : Nat) :
    ∀ index, ∃ r, find_fit_lists k fuel s size index = some r ∧
      FirstFitLists s L size index k r := by
  induction k with
  | zero =>
    intro index
    exact ⟨NULL, rfl, Or.inl ⟨rfl, fun i h1 h2 => by omega⟩⟩
  | succ k ih =>
    intro index
    rw [find_fit_lists_succ]
    by_cases hi : index < NUM_SIZE_CLASSES
    · have hi9 : index < 9 := hi
      rw [if_pos hi]
      obtain ⟨r, hr1, hr2⟩ :=
        find_fit_list_complete s.mem size (L index) NULL _ fuel (hl index hi9) (hlen index hi9)
      rw [hr1]
      by_cases hr : r ≠ NULL
      · refine ⟨r, if_pos hr, Or.inr ⟨hr, index, le_refl _, by omega, hi9, hr2, ?_⟩⟩
        intro j h1 h2; omega
      · have hr0 : r = NULL := by
          by_contra hh; exact hr hh
        have hnone : ∀ x, x ∈ L index → get_size s.mem x < size := by
          rcases hr2 with ⟨_, a2⟩ | ⟨a1, _⟩
          · exact a2
          · exact absurd hr0 a1
        obtain ⟨r', hr1', hr2'⟩ := ih (index + 1)
        refine ⟨r', ?_, ?_⟩
        · show (if r ≠ NULL then some r else find_fit_lists k fuel s size (index + 1)) = _
          rw [if_neg hr, hr1']
        · rcases hr2' with ⟨a1, a2⟩ | ⟨a1, i, a2, a3, a4, a5, a6⟩
          · left
            refine ⟨a1, fun i h1 h2 h3 x hx => ?_⟩
            by_cases e : i = index
            · rw [e] at hx; exact hnone x hx
            · exact a2 i (by omega) (by omega) h3 x hx
          · right
            refine ⟨a1, i, by omega, by omega, a4, a5, fun j h1 h2 x hx => ?_⟩
            by_cases e : j = index
            · rw [e] at hx; exact hnone x hx
            · exact a6 j (by omega) h2 x hx
    · rw [if_neg hi]
      refine ⟨NULL, rfl, Or.inl ⟨rfl, fun i h1 h2 h3 => ?_⟩⟩
      have : ¬ (index < 9) := hi
      omega

/-- The nodes of a list are fewer than `mem_brk`. -/
theorem Inv.list_len {s : Heap} {bs : List Blk} {L : Nat → List Nat} (hi : Inv s bs L)
    (i : Nat) (hi9 : i < 9) : (L i).length < s.mem_brk := by
  have hg := hi.gen
  have h1 := hg.hp_eq
  have hlo := hg.brk_lo
  apply nodup_length_lt _ _ (by omega) (hg.nodup i hi9)
  intro x hx
  obtain ⟨b, _, hb2, hb3, _⟩ := hg.node i hi9 x hx
  have := hg.blk b hb2
  omega

/-- With a free block that fits in the heap, the scan does not return `NULL`. -/
theorem scan_finds {s : Heap} {bs : List Blk} {L : Nat → List Nat} (hi : Inv s bs L)
    (size : Nat) (h1 : 1 ≤ size) (b : Blk) (hb : b ∈ bs) (hb0 : b.alloc = 0)
    (hsz : size ≤ b.size) (r : Nat)
    (hr : FirstFitLists s L size (get_free_lists_index size) NUM_SIZE_CLASSES r) : r ≠ NULL := by
  rcases hr with ⟨_, a2⟩ | ⟨a1, _⟩
  · exfalso
    have hbb := hi.gen.blk b hb
    have hmono := get_free_lists_index_mono size b.size h1 hsz (by omega)
    have hlt := get_free_lists_index_lt b.size
    have hmem := hi.gen.complete b hb hb0
    have := a2 (get_free_lists_index b.size) hmono
      (by have : NUM_SIZE_CLASSES = 9 := rfl
          rw [this]; omega) hlt b.addr hmem
    rw [get_size_of_tag _ _ _ _ (hi.gen.tags b hb).1 hbb.2.2.2.1 hbb.2.2.2.2.1] at this
    omega
  · exact a1

/-- `find_fit` returns when it is given enough fuel and either a free block
fits or the arena can take one extension. -/
theorem find_fit_progress {s : Heap} {bs : List Blk} {L : Nat → List Nat} (hi : Inv s bs L)
    (size fuel : Nat) (h1 : 1 ≤ size) (h4 : size % 4 = 0) (h32 : size < 2 ^ 32)
    (hfuel : s.mem_max_addr + 2 ≤ fuel)
    (hroom : (∃ b, b ∈ bs ∧ b.alloc = 0 ∧ size ≤ b.size) ∨
      s.mem_brk + ext_bytes (max size HEAP_EXT_SIZE / WORD_SIZE) ≤ s.mem_max_addr) :
    ∃ blk s1, find_fit fuel size s = some (blk, s1) := by
  obtain ⟨f, hf'⟩ : ∃ f, fuel = f + 1 := ⟨fuel - 1, by omega⟩
  subst hf'
  have hbrk := hi.gen.brk_hi
  obtain ⟨r, hr1, hr2⟩ := find_fit_lists_complete s L size (f + 1) hi.gen.lists
    (fun i hi9 => by have := hi.list_len i hi9; omega) NUM_SIZE_CLASSES
    (get_free_lists_index size)
  rw [find_fit_succ, hr1]
  by_cases hr : r ≠ NULL
  · exact ⟨r, _, find_fit_result_found r s _ hr⟩
  · have hr0 : r = NULL := by
      by_contra hh; exact hr hh
    subst hr0
    rw [find_fit_result_null]
    rcases hroom with ⟨b, hb, hb0, hsz⟩ | hfit
    · exact absurd rfl (scan_finds hi size h1 b hb hb0 hsz NULL hr2)
    · obtain ⟨e1, e2, _, e4⟩ := ext_bytes_max size
      obtain ⟨s', pre', t', L', x1, x2, x3, x4, x5, x6, x7, x8⟩ :=
        extend_heap_spec_ok hi (max size HEAP_EXT_SIZE / WORD_SIZE) (by omega) e2 hfit
      rw [x1]
      obtain ⟨f2, hf2⟩ : ∃ f2, f = f2 + 1 := ⟨f - 1, by omega⟩
      subst hf2
      have hbrk' := x2.gen.brk_hi
      have hmax' : s'.mem_max_addr = s.mem_max_addr := x3.2.2.1
      obtain ⟨r', hr1', hr2'⟩ := find_fit_lists_complete s' L' size (f2 + 1) x2.gen.lists
        (fun i hi9 => by have := x2.list_len i hi9; omega) NUM_SIZE_CLASSES
        (get_free_lists_index size)
      have hr' := scan_finds x2 size h1 t' (by simp) x4 (by have := e4 h4 h32; omega) r' hr2'
      rw [find_fit_succ, hr1']
      exact ⟨r', _, find_fit_result_found r' s' _ hr'⟩

/-- `malloc` returns when it is given enough fuel and either a free block fits
or the arena can take one extension. -/
theorem malloc_progress {s : Heap} {bs : List Blk} {L : Nat → List Nat} (hi : Inv s bs L)
    (n fuel : Nat) (h1 : 1 ≤ n) (h2 : n ≤ 2147483647) (hfuel : s.mem_max_addr + 2 ≤ fuel)
    (hroom : (∃ b, b ∈ bs ∧ b.alloc = 0 ∧ adj_size n ≤ b.size) ∨
      s.mem_brk + ext_bytes (max (adj_size n) HEAP_EXT_SIZE / WORD_SIZE) ≤ s.mem_max_addr) :
    ∃ p s', malloc fuel n s = some (p, s') := by
  obtain ⟨a1, a2, a3, a4⟩ := adj_size_spec n h1 h2
  obtain ⟨blk, s1, hf⟩ := find_fit_progress hi (adj_size n) fuel (by omega) (by omega) a4 hfuel
    hroom
  have hv : ¬ (n = 0 ∨ n > MAX_BLK_SIZE) := by
    rw [MAX_BLK_SIZE_eq]; omega
  exact ⟨_, _, malloc_some fuel n s hv blk s1 hf⟩

/-! ## Exact results of `free` -/

/-- `free` of a block whose two neighbours are allocated: the block becomes a
free block of the same extent, pushed on the list of its size class. -/
theorem free_exact_AA {s : Heap} {pre post : List Blk} {t : Blk} {L : Nat → List Nat}
    (hi : Inv s (pre ++ t :: post) L) (ht1 : t.alloc = 1)
    (hp : ∀ p, p ∈ pre.getLast? → p.alloc = 1) (hn : ∀ n, n ∈ post.head? → n.alloc = 1) :
    Inv (free (t.addr + 4) s) (pre ++ ⟨t.addr, t.size, 0⟩ :: post)
        (file L ⟨t.addr, t.size, 0⟩) ∧
      SameArena s (free (t.addr + 4) s) ∧
      KeepAlloc (pre ++ post) s.mem (free (t.addr + 4) s).mem := by
  obtain ⟨hg, hsz, n1, n2⟩ := open_hole hi ht1
  have htb := hole_blk hg
  have hq := hg.max_lt
  have hq2 := hg.brk_hi
  have hco := coalesce_case_AA hg hsz hp hn
  have hsub : sub64 (t.addr + 4) WORD_SIZE = t.addr := by
    rw [sub64_eq _ _ (by simp only [WORD_SIZE]; omega) (by omega)]
    simp only [WORD_SIZE]; omega
  have hfree : free (t.addr + 4) s = add_to_free_list t.addr t.size s := by
    rw [free_eq (t.addr + 4) s (by simp only [NULL]; omega) t.addr s (by rw [hsub]; exact hco),
      hsz]
  obtain ⟨l1, l2, l3, l4, _⟩ := Layout_split _ _ pre post t hg.lay
  have hl : Layout s.heap_ptr (pre ++ ⟨t.addr, t.size, 0⟩ :: post) (s.mem_brk - 4) :=
    Layout_join _ _ pre post ⟨t.addr, t.size, 0⟩ l1 l2 l3 l4 (by simp)
  have hg' := hg.regroup _ hl (fun b hb => by
    rcases List.mem_append.1 hb with h | h
    · exact List.mem_append_left _ h
    · exact List.mem_append_right _ (List.mem_cons_of_mem _ h))
  have := file_hole (t := ⟨t.addr, t.size, 0⟩) hg' rfl (noadj_join pre post _ n1 n2 hp hn)
  rw [hfree]
  exact this

/-- `free` of a block whose predecessor is free and whose successor is
allocated: the two blocks become one free block that starts at the
predecessor; it is pushed on the list of the class of the combined size, and
the predecessor has left its list. -/
theorem free_exact_FA {s : Heap} {pre0 post : List Blk} {p t : Blk} {L : Nat → List Nat}
    (hi : Inv s ((pre0 ++ [p]) ++ t :: post) L) (ht1 : t.alloc = 1) (hp : p.alloc = 0)
    (hn : ∀ n, n ∈ post.head? → n.alloc = 1) :
    Inv (free (t.addr + 4) s) (pre0 ++ ⟨p.addr, t.size + p.size, 0⟩ :: post)
        (file (unfile L p) ⟨p.addr, t.size + p.size, 0⟩) ∧
      SameArena s (free (t.addr + 4) s) ∧
      KeepAlloc (pre0 ++ post) s.mem (free (t.addr + 4) s).mem := by
  obtain ⟨hg, hsz, n1, n2⟩ := open_hole hi ht1
  have htb := hole_blk hg
  have hq := hg.max_lt
  have hq2 := hg.brk_hi
  obtain ⟨s', c1, c2, c3, c4, c5⟩ := coalesce_case_FA hg hsz hp hn
  have hsub : sub64 (t.addr + 4) WORD_SIZE = t.addr := by
    rw [sub64_eq _ _ (by simp only [WORD_SIZE]; omega) (by omega)]
    simp only [WORD_SIZE]; omega
  have hfree : free (t.addr + 4) s = add_to_free_list p.addr (t.size + p.size) s' := by
    rw [free_eq (t.addr + 4) s (by simp only [NULL]; omega) p.addr s' (by rw [hsub]; exact c1),
      c3]
  obtain ⟨k1, k2⟩ := noadj_snoc pre0 p n1 hp
  obtain ⟨f1, f2, f3⟩ := file_hole (t := ⟨p.addr, t.size + p.size, 0⟩) c2 rfl
    (noadj_join pre0 post _ k1 n2 k2 hn)
  rw [hfree]
  refine ⟨f1, c4.same_trans f2, ?_⟩
  intro c hc hc1 x hx1 hx2
  rw [f3 c hc hc1 x hx1 hx2, c5 c hc hc1 x hx1 hx2]

/-! ## Exact results of `find_fit` and `malloc` -/

theorem FirstFit.mem {m : Mem} {size : Nat} {xs : List Nat} {r : Nat}
    (h : FirstFit m size xs r) (hr : r ≠ NULL) : r ∈ xs ∧ size ≤ get_size m r := by
  rcases h with ⟨a1, _⟩ | ⟨_, a2, ys, zs, a3, _⟩
  · exact absurd a1 hr
  · rw [a3]; exact ⟨by simp, a2⟩

/-- With a free block that fits and enough fuel, `find_fit` returns the first
fit of the scan, taken off its list, without extending the heap. -/
theorem find_fit_found {s : Heap} {bs : List Blk} {L : Nat → List Nat} (hi : Inv s bs L)
    (size fuel : Nat) (hfuel : s.mem_brk ≤ fuel) (h1 : 1 ≤ size)
    (hex : ∃ b, b ∈ bs ∧ b.alloc = 0 ∧ size ≤ b.size) :
    ∃ r, r ≠ NULL ∧ FirstFitLists s L size (get_free_lists_index size) NUM_SIZE_CLASSES r ∧
      find_fit fuel size s = some (r, remove_from_free_list r s) := by
  have hlo := hi.gen.brk_lo
  have hpe := hi.gen.hp_eq
  obtain ⟨f, hf'⟩ : ∃ f, fuel = f + 1 := ⟨fuel - 1, by omega⟩
  subst hf'
  obtain ⟨r, hr1, hr2⟩ := find_fit_lists_complete s L size (f + 1) hi.gen.lists
    (fun i hi9 => by have := hi.list_len i hi9; omega) NUM_SIZE_CLASSES
    (get_free_lists_index size)
  obtain ⟨b, hb, hb0, hsz⟩ := hex
  have hr := scan_finds hi size h1 b hb hb0 hsz r hr2
  refine ⟨r, hr, hr2, ?_⟩
  rw [find_fit_succ, hr1]
  exact find_fit_result_found r s _ hr

/-- Without a free block that fits, with room in the arena and enough fuel,
`find_fit` extends the heap once and returns the first fit of the second
scan. -/
theorem find_fit_grow {s : Heap} {bs : List Blk} {L : Nat → List Nat} (hi : Inv s bs L)
    (size fuel : Nat) (hfuel : s.mem_max_addr + 2 ≤ fuel) (h1 : 1 ≤ size)
    (h4 : size % 4 = 0) (h32 : size < 2 ^ 32)
    (hno : ∀ b, b ∈ bs → b.alloc = 0 → b.size < size)
    (hfit : s.mem_brk + ext_bytes (max size HEAP_EXT_SIZE / WORD_SIZE) ≤ s.mem_max_addr) :
    ∃ s' pre' t' L' r,
      extend_heap (max size HEAP_EXT_SIZE / WORD_SIZE) s = (t'.addr, s') ∧
      Inv s' (pre' ++ [t']) L' ∧ Grown s s' (ext_bytes (max size HEAP_EXT_SIZE / WORD_SIZE)) ∧
      t'.alloc = 0 ∧ size ≤ t'.size ∧ Stable bs s.mem (pre' ++ [t']) s'.mem ∧
      (∀ c, c ∈ pre' → c ∈ bs) ∧ r ≠ NULL ∧
      FirstFitLists s' L' size (get_free_lists_index size) NUM_SIZE_CLASSES r ∧
      find_fit fuel size s = some (r, remove_from_free_list r s') := by
  obtain ⟨f, hf'⟩ : ∃ f, fuel = f + 1 := ⟨fuel - 1, by omega⟩
  subst hf'
  have hbrk := hi.gen.brk_hi
  obtain ⟨r, hr1, hr2⟩ := find_fit_lists_complete s L size (f + 1) hi.gen.lists
    (fun i hi9 => by have := hi.list_len i hi9; omega) NUM_SIZE_CLASSES
    (get_free_lists_index size)
  have hr0 : r = NULL := by
    by_contra hr
    rcases hr2 with ⟨a1, _⟩ | ⟨_, i, _, _, a4, a5, _⟩
    · exact hr a1
    · obtain ⟨m1, m2⟩ := a5.mem hr
      obtain ⟨b, _, hb2, hb3, hb4, _⟩ := hi.gen.node i a4 r m1
      have hbb := hi.gen.blk b hb2
      have := hno b hb2 hb4
      rw [← hb3, get_size_of_tag _ _ _ _ (hi.gen.tags b hb2).1 hbb.2.2.2.1 hbb.2.2.2.2.1] at m2
      omega
  subst hr0
  obtain ⟨e1, e2, _, e4⟩ := ext_bytes_max size
  obtain ⟨s', pre', t', L', x1, x2, x3, x4, x5, x6, x7, x8⟩ :=
    extend_heap_spec_ok hi (max size HEAP_EXT_SIZE / WORD_SIZE) (by omega) e2 hfit
  obtain ⟨f2, hf2⟩ : ∃ f2, f = f2 + 1 := ⟨f - 1, by omega⟩
  subst hf2
  have hbrk' := x2.gen.brk_hi
  have hmax' : s'.mem_max_addr = s.mem_max_addr := x3.2.2.1
  obtain ⟨r', hr1', hr2'⟩ := find_fit_lists_complete s' L' size (f2 + 1) x2.gen.lists
    (fun i hi9 => by have := x2.list_len i hi9; omega) NUM_SIZE_CLASSES
    (get_free_lists_index size)
  have hsz : size ≤ t'.size := by have := e4 h4 h32; omega
  have hr' := scan_finds x2 size h1 t' (by simp) x4 hsz r' hr2'
  refine ⟨s', pre', t', L', r', x1, x2, x3, x4, hsz, x7, x8, hr', hr2', ?_⟩
  rw [find_fit_succ, hr1, find_fit_result_null, x1, find_fit_succ, hr1']
  exact find_fit_result_found r' s' _ hr'

/-- Taking the free block `t` for a request of adjusted size `adj`, as
`find_fit` and `allocate` do: the block leaves its list; it is split when the
remainder is a block, and handed out whole otherwise. -/
theorem take_exact {s : Heap} {pre post : List Blk} {t : Blk} {L : Nat → List Nat}
    (hi : Inv s (pre ++ t :: post) L) (ht0 : t.alloc = 0) (adj : Nat) (a1 : 24 ≤ adj)
    (a2 : adj % 8 = 0) (hle : adj ≤ t.size) :
    SameArena s (allocate t.addr adj (remove_from_free_list t.addr s)) ∧
      KeepAlloc (pre ++ post) s.mem
        (allocate t.addr adj (remove_from_free_list t.addr s)).mem ∧
      (24 ≤ t.size - adj →
        Inv (allocate t.addr adj (remove_from_free_list t.addr s))
          ((pre ++ [⟨t.addr, adj, 1⟩]) ++ ⟨t.addr + adj, t.size - adj, 0⟩ :: post)
          (file (unfile L t) ⟨t.addr + adj, t.size - adj, 0⟩)) ∧
      (¬ (24 ≤ t.size - adj) →
        Inv (allocate t.addr adj (remove_from_free_list t.addr s))
          (pre ++ ⟨t.addr, t.size, 1⟩ :: post) (unfile L t)) := by
  have htall : t ∈ pre ++ t :: post := by simp
  have hnd := Layout_nodup _ _ _ hi.gen.lay
  obtain ⟨r1, r2, r3, r4, r5, r6⟩ := remove_neighbor hi.gen t htall ht0 hnd
  rw [erase_post pre post t hnd] at r1
  have htb := hi.gen.blk t htall
  have hq := hi.gen.max_lt
  have hq2 := hi.gen.brk_hi
  have htag := r3 t htall (hi.gen.tags t htall)
  have hB : get_size (remove_from_free_list t.addr s).mem t.addr = t.size :=
    get_size_of_tag _ _ _ _ htag.1 htb.2.2.2.1 htb.2.2.2.2.1
  have hkeep : KeepAlloc (pre ++ post) s.mem (remove_from_free_list t.addr s).mem := by
    intro c hc hc1 x hx1 hx2
    have hcall := (mem_insert_hole pre post t c).1 (Or.inl hc)
    exact r5 c hcall (fun hh => by rw [hh.2.1] at hc1; exact absurd hc1 (by decide)) x hx1 hx2
  refine ⟨?_, ?_, ?_, ?_⟩
  · by_cases hsp : 24 ≤ t.size - adj
    · rw [allocate_split_eq t.addr _ t.size _ hB hle a1 a2 (by omega) (by omega) hsp]
      exact r2.same_trans (allocate_split r1 hi.noadj ht0 _ hle a1 a2 hsp).2.1
    · rw [allocate_whole_eq t.addr _ t.size _ hB hle (by omega) (by omega) (by omega)
        (by omega) hsp]
      exact r2.same_trans ⟨rfl, rfl, rfl, rfl, rfl⟩
  · by_cases hsp : 24 ≤ t.size - adj
    · rw [allocate_split_eq t.addr _ t.size _ hB hle a1 a2 (by omega) (by omega) hsp]
      intro c hc hc1 x hx1 hx2
      rw [(allocate_split r1 hi.noadj ht0 _ hle a1 a2 hsp).2.2 c hc hc1 x hx1 hx2]
      exact hkeep c hc hc1 x hx1 hx2
    · rw [allocate_whole_eq t.addr _ t.size _ hB hle (by omega) (by omega) (by omega)
        (by omega) hsp]
      intro c hc hc1 x hx1 hx2
      have := Layout_not_mem _ _ pre post t hi.gen.lay c hc
      show mark _ t.addr t.size x = _
      rw [mark_out _ _ _ _ (by omega) (by omega)]
      exact hkeep c hc hc1 x hx1 hx2
  · intro hsp
    rw [allocate_split_eq t.addr _ t.size _ hB hle a1 a2 (by omega) (by omega) hsp]
    exact (allocate_split r1 hi.noadj ht0 _ hle a1 a2 hsp).1
  · intro hsp
    rw [allocate_whole_eq t.addr _ t.size _ hB hle (by omega) (by omega) (by omega)
      (by omega) hsp]
    exact allocate_whole r1 hi.noadj

/-- `malloc` when `find_fit` has picked the free block `t` of state `s1`
(the state itself, or the state after an extension of the heap). -/
theorem malloc_exact {s s1 : Heap} {pre post : List Blk} {t : Blk} {L : Nat → List Nat}
    (hi : Inv s1 (pre ++ t :: post) L) (fuel n : Nat) (h1 : 1 ≤ n) (h2 : n ≤ 2147483647)
    (hff : find_fit fuel (adj_size n) s = some (t.addr, remove_from_free_list t.addr s1)) :
    malloc fuel n s =
      some (t.addr + 4, allocate t.addr (adj_size n) (remove_from_free_list t.addr s1)) := by
  have hv : ¬ (n = 0 ∨ n > MAX_BLK_SIZE) := by
    rw [MAX_BLK_SIZE_eq]; omega
  have htb := hi.gen.blk t (by simp)
  have hm := malloc_some fuel n s hv _ _ hff
  rw [add64_eq _ _ (by simp only [WORD_SIZE]; omega)] at hm
  exact hm

/-! ## Reachable states -/

theorem INT_MAX_eq : INT_MAX = 2147483647 := rfl

/-- A reachable state has a ghost description, which the walks read. -/
theorem Reachable.desc {s : Heap} (h : Reachable s) :
    ∃ L, Inv s (heap_blocks s) L ∧ ∀ i, i < 9 → free_list s i = L i := by
  obtain ⟨bs, L, hi⟩ := h.inv
  have hw := hi.walk
  rw [hw.1]
  exact ⟨L, hi, hw.2.2⟩

/-- Without a fitting free block and without room in the arena `find_fit`
never returns: it ignores the failure of `extend_heap` and calls itself. -/
theorem find_fit_diverges (size : Nat) (fuel : Nat) :
    ∀ (s : Heap) (bs : List Blk) (L : Nat → List Nat), Inv s bs L →
      (∀ b, b ∈ bs → b.alloc = 0 → b.size < size) →
      ¬ (s.mem_brk + ext_bytes (max size HEAP_EXT_SIZE / WORD_SIZE) ≤ s.mem_max_addr) →
      find_fit fuel size s = none := by
  induction fuel with
  | zero => intro s bs L _ _ _; rfl
  | succ fuel ih =>
    intro s bs L hi hno hfail
    rw [find_fit_succ]
    cases hscan : find_fit_lists NUM_SIZE_CLASSES (fuel + 1) s size
        (get_free_lists_index size) with
    | none => rfl
    | some r =>
      by_cases hr : r ≠ NULL
      · exfalso
        obtain ⟨i, hi9, hbi, hsz⟩ := find_fit_lists_sound s L hi.gen.lists size r (fuel + 1)
          NUM_SIZE_CLASSES _ hscan hr
        obtain ⟨b, _, hb2, hb3, hb4, _⟩ := hi.gen.node i hi9 r hbi
        have hbb := hi.gen.blk b hb2
        have := hno b hb2 hb4
        rw [← hb3, get_size_of_tag _ _ _ _ (hi.gen.tags b hb2).1 hbb.2.2.2.1 hbb.2.2.2.2.1] at hsz
        omega
      · have hr0 : r = NULL := by
          by_contra hh; exact hr hh
        subst hr0
        rw [find_fit_result_null, extend_heap_fail _ s hfail]
        exact ih _ bs L (hi.log _) hno hfail

theorem getD_of_isSome (r : Option (Nat × Heap)) (d : Nat × Heap) (h : r.isSome = true) :
    r = some ((r.getD d).1, (r.getD d).2) := by
  cases r with
  | none => exact absurd h (by simp)
  | some v => rfl

theorem ex_fresh : Fresh ex_s0 := ⟨rfl, by decide, by decide, by decide⟩

theorem ex_reach1 : Reachable ex_s1 :=
  Reachable.init ex_s0 ex_fresh ((mm_init_spec ex_s0 ex_fresh).2 (by decide)).1

theorem ex_malloc1 : malloc 2 100 ex_s1 = some (ex_p1, ex_s2) :=
  getD_of_isSome _ _ (by decide!)

theorem ex_reach2 : Reachable ex_s2 := Reachable.malloc ex_s1 2 100 ex_p1 ex_s2 ex_reach1 ex_malloc1

theorem ex_t_fresh : Fresh ex_t0 := ⟨rfl, by decide, by decide, by decide⟩

theorem ex_t_reach : Reachable ex_t1 :=
  Reachable.init ex_t0 ex_t_fresh ((mm_init_spec ex_t0 ex_t_fresh).2 (by decide)).1

/-! ## Consequences for the public operations -/

/-- A successful `malloc` in a reachable state. -/
theorem malloc_live {s : Heap} (hr : Reachable s) (fuel n p : Nat) (s' : Heap) (h1 : 1 ≤ n)
    (h2 : n ≤ 2147483647) (hm : malloc fuel n s = some (p, s')) :
    p ≠ NULL ∧ p % 8 = 0 ∧ Live s' p ∧ n ≤ usable s' p ∧ n + 8 ≤ get_size s'.mem (p - WORD_SIZE) ∧
      ¬ Live s p := by
  obtain ⟨L, hi, _⟩ := hr.desc
  obtain ⟨bs', L', t, m1, m2, m3, m4, m5, m6, _, m7, m8, m9, m10⟩ :=
    malloc_spec hi fuel n p s' h1 h2 hm
  have hu := m1.usable t m3
  have htb := m1.gen.blk t m3
  rw [← m5] at hu
  have hsz : get_size s'.mem (p - WORD_SIZE) = t.size := by
    have e : p - WORD_SIZE = t.addr := by rw [m5]; simp only [WORD_SIZE]; omega
    rw [e]
    exact get_size_of_tag _ _ _ _ (m1.gen.tags t m3).1 htb.2.2.2.1 htb.2.2.2.2.1
  refine ⟨by rw [m5]; simp only [NULL]; omega, m7, (m1.live p).2 ⟨t, m3, m4, m5.symm⟩,
    by rw [hu]; omega, by rw [hsz]; omega, ?_⟩
  intro hl
  obtain ⟨c, hc, hc1, hcp⟩ := (hi.live p).1 hl
  exact m9 c hc hc1 (by omega)

theorem ex_live1 : Live ex_s2 ex_p1 :=
  (malloc_live ex_reach1 2 100 ex_p1 ex_s2 (by decide) (by decide) ex_malloc1).2.2.1

/-! ## The claims -/

/-- C1: in every reachable state, a `malloc(n)` with `1 <= n <= INT_MAX` that
returns `p` returns a non-null payload address that is a multiple of 8, four
bytes past the header of a block that is allocated in the new state, and the
usable region of that block (block size minus 8) has at least `n` bytes. -/
theorem C1_malloc_aligned_and_large_enough (s : Heap) (fuel n p : Nat) (s' : Heap)
    (hr : Reachable s) (h1 : 1 ≤ n) (h2 : n ≤ INT_MAX)
    (hm : malloc fuel n s = some (p, s')) :
    p ≠ NULL ∧ p % 8 = 0 ∧ Live s' p ∧ n ≤ usable s' p ∧
      n + 8 ≤ get_size s'.mem (p - WORD_SIZE) := by
  obtain ⟨a1, a2, a3, a4, a5, _⟩ := malloc_live hr fuel n p s' h1 (by rw [INT_MAX_eq] at h2; exact h2) hm
  exact ⟨a1, a2, a3, a4, a5⟩

theorem C1_witness :
    ex_p1 ≠ NULL ∧ ex_p1 % 8 = 0 ∧ Live ex_s2 ex_p1 ∧ 100 ≤ usable ex_s2 ex_p1 ∧
      100 + 8 ≤ get_size ex_s2.mem (ex_p1 - WORD_SIZE) :=
  C1_malloc_aligned_and_large_enough ex_s1 2 100 ex_p1 ex_s2 ex_reach1 (by decide) (by decide)
    ex_malloc1

/-- C2 (refuted on the code): when no free block fits the adjusted request and
`mem_sbrk` fails, `malloc` does not return `NULL`: `find_fit` ignores the
failure reported by `extend_heap` and calls itself again, so the call never
returns, whatever the fuel. -/
theorem C2_malloc_never_returns_when_sbrk_fails (s : Heap) (n : Nat) (hr : Reachable s)
    (h1 : 1 ≤ n) (h2 : n ≤ INT_MAX)
    (hno : ∀ b, b ∈ heap_blocks s → b.alloc = 0 → b.size < adj_size n)
    (hfail : ¬ (s.mem_brk + ext_bytes (max (adj_size n) HEAP_EXT_SIZE / WORD_SIZE) ≤
      s.mem_max_addr)) :
    ∀ fuel, malloc fuel n s = none := by
  intro fuel
  obtain ⟨L, hi, _⟩ := hr.desc
  have hv : ¬ (n = 0 ∨ n > MAX_BLK_SIZE) := by
    rw [MAX_BLK_SIZE_eq]; rw [INT_MAX_eq] at h2; omega
  exact malloc_none fuel n s hv (find_fit_diverges _ fuel s _ L hi hno hfail)

theorem C2_witness : malloc 1000 5000 ex_t1 = none :=
  C2_malloc_never_returns_when_sbrk_fails ex_t1 5000 ex_t_reach (by decide) (by decide)
    (by decide!) (by decide!) 1000

/-- C3: in every state, `malloc(0)` and `malloc(n)` with `n > INT_MAX` return
`NULL` and leave the whole state as it is: memory, arena extent, list heads,
and the log of `mem_sbrk` calls. -/
theorem C3_malloc_rejects_zero_and_oversize (s : Heap) (fuel n : Nat)
    (h : n = 0 ∨ INT_MAX < n) : malloc fuel n s = some (NULL, s) :=
  malloc_reject fuel n s h

theorem C3_witness :
    malloc 0 0 ex_s1 = some (NULL, ex_s1) ∧ malloc 0 2147483648 ex_s1 = some (NULL, ex_s1) :=
  ⟨C3_malloc_rejects_zero_and_oversize ex_s1 0 0 (Or.inl rfl),
    C3_malloc_rejects_zero_and_oversize ex_s1 0 2147483648 (Or.inr (by decide))⟩

/-- C4: in every reachable state the first block lies right after the Prologue,
the walk that adds each block's tag size stops exactly at the Epilogue tag
(size 0, allocated), the blocks read on the way are laid out without gap or
overlap, and their sizes add up to the extent of the arena, i.e. the bytes
obtained from `mem_sbrk`, minus the 16 bytes of the sentinels. -/
theorem C4_blocks_tile_the_arena (s : Heap) (hr : Reachable s) :
    s.heap_ptr = s.mem_heap + 12 ∧
      heap_walk_end s.mem_brk s.mem s.heap_ptr = s.mem_brk - 4 ∧
      get_size s.mem (s.mem_brk - 4) = 0 ∧ get_alloc s.mem (s.mem_brk - 4) = 1 ∧
      Layout s.heap_ptr (heap_blocks s) (s.mem_brk - 4) ∧
      total_size (heap_blocks s) + 16 = s.mem_brk - s.mem_heap := by
  obtain ⟨L, hi, _⟩ := hr.desc
  have hg := hi.gen
  have hw := hi.walk
  have ht := Layout_total _ _ _ hg.lay
  have h1 := hg.hp_eq
  have hlo := hg.brk_lo
  refine ⟨h1, hw.2.1, get_size_of_tag _ _ 0 1 (by rw [hg.epi]) rfl (le_refl _),
    get_alloc_of_tag _ _ 0 1 (by rw [hg.epi]) rfl (le_refl _), hg.lay, by omega⟩

theorem C4_witness :
    ex_s2.heap_ptr = ex_s2.mem_heap + 12 ∧
      heap_walk_end ex_s2.mem_brk ex_s2.mem ex_s2.heap_ptr = ex_s2.mem_brk - 4 ∧
      get_size ex_s2.mem (ex_s2.mem_brk - 4) = 0 ∧ get_alloc ex_s2.mem (ex_s2.mem_brk - 4) = 1 ∧
      Layout ex_s2.heap_ptr (heap_blocks ex_s2) (ex_s2.mem_brk - 4) ∧
      total_size (heap_blocks ex_s2) + 16 = ex_s2.mem_brk - ex_s2.mem_heap :=
  C4_blocks_tile_the_arena ex_s2 ex_reach2

/-- C6: in every reachable state, a block between Prologue and Epilogue is a
node of some free list exactly when its header tag marks it free; it then
occurs exactly once in the list of index `get_free_lists_index` of its size
and in no other list. -/
theorem C6_free_blocks_are_filed_once (s : Heap) (b : Blk) (hr : Reachable s)
    (hb : b ∈ heap_blocks s) :
    ((∃ i, i < 9 ∧ b.addr ∈ free_list s i) ↔ b.alloc = 0) ∧
      (b.alloc = 0 →
        (free_list s (get_free_lists_index b.size)).count b.addr = 1 ∧
        ∀ i, i < 9 → i ≠ get_free_lists_index b.size → b.addr ∉ free_list s i) := by
  obtain ⟨L, hi, hl⟩ := hr.desc
  have hidx := get_free_lists_index_lt b.size
  have hfiled : ∀ i, i < 9 → b.addr ∈ free_list s i →
      b.alloc = 0 ∧ i = get_free_lists_index b.size := by
    intro i hi9 hm
    rw [hl i hi9] at hm
    obtain ⟨c, _, hc2, hc3, hc4, hc5⟩ := hi.gen.node i hi9 b.addr hm
    have : c = b := Layout_inj _ _ _ hi.gen.lay c b hc2 hb hc3
    rw [this] at hc4 hc5
    exact ⟨hc4, hc5.symm⟩
  refine ⟨⟨fun ⟨i, hi9, hm⟩ => (hfiled i hi9 hm).1, fun h0 => ?_⟩, fun h0 => ⟨?_, ?_⟩⟩
  · refine ⟨_, hidx, ?_⟩
    rw [hl _ hidx]
    exact hi.gen.complete b hb h0
  · rw [hl _ hidx]
    exact List.count_eq_one_of_mem (hi.gen.nodup _ hidx) (hi.gen.complete b hb h0)
  · intro i hi9 hne hm
    exact hne (hfiled i hi9 hm).2

/-- C7: in every reachable state, i.e. whenever a public operation has
returned, every block between Prologue and Epilogue has at `header + size - 4`
a footer tag that is equal to its header tag. -/
theorem C7_footer_equals_header (s : Heap) (b : Blk) (hr : Reachable s)
    (hb : b ∈ heap_blocks s) :
    get_u32 s.mem (b.addr + b.size - 4) = get_u32 s.mem b.addr ∧
      get_size s.mem b.addr = b.size ∧ get_alloc s.mem b.addr = b.alloc := by
  obtain ⟨L, hi, _⟩ := hr.desc
  have ht := hi.gen.tags b hb
  have hbb := hi.gen.blk b hb
  exact ⟨by rw [ht.1, ht.2], get_size_of_tag _ _ _ _ ht.1 hbb.2.2.2.1 hbb.2.2.2.2.1,
    get_alloc_of_tag _ _ _ _ ht.1 hbb.2.2.2.1 hbb.2.2.2.2.1⟩

theorem C6_witness :
    ((∃ i, i < 9 ∧ ex_free.addr ∈ free_list ex_s2 i) ↔ ex_free.alloc = 0) ∧
      (ex_free.alloc = 0 →
        (free_list ex_s2 (get_free_lists_index ex_free.size)).count ex_free.addr = 1 ∧
        ∀ i, i < 9 → i ≠ get_free_lists_index ex_free.size →
          ex_free.addr ∉ free_list ex_s2 i) :=
  C6_free_blocks_are_filed_once ex_s2 ex_free ex_reach2 (by decide!)

theorem C7_witness :
    get_u32 ex_s2.mem (ex_used.addr + ex_used.size - 4) = get_u32 ex_s2.mem ex_used.addr ∧
      get_size ex_s2.mem ex_used.addr = ex_used.size ∧
      get_alloc ex_s2.mem ex_used.addr = ex_used.alloc :=
  C7_footer_equals_header ex_s2 ex_used ex_reach2 (by decide!)

/-! ## `realloc` and `calloc` in reachable states -/

/-- A `realloc` of a live pointer with a non-zero size that returns a non-null
pointer. -/
theorem realloc_live {s : Heap} (hr : Reachable s) (fuel p n q : Nat) (s' : Heap)
    (hp : Live s p) (hn : n ≠ 0) (hre : realloc fuel p n s = some (q, s')) (hq : q ≠ NULL) :
    max (usable s p) n ≤ MAX_BLK_SIZE ∧ Live s' q ∧ ¬ Live s q ∧ q ≠ p ∧ q % 8 = 0 ∧
      max (usable s p) n ≤ usable s' q ∧ ¬ Live s' p ∧
      (∀ i, i < usable s p → s'.mem (q + i) = s.mem (p + i)) ∧
      ∃ f, f ∈ heap_blocks s' ∧ f.alloc = 0 ∧ f.addr ≤ p - 4 ∧
        (p - 4) + get_size s.mem (p - 4) ≤ f.addr + f.size := by
  obtain ⟨L, hi, _⟩ := hr.desc
  obtain ⟨t, ht, ht1, htp⟩ := (hi.live p).1 hp
  have hu := hi.usable t ht
  rw [htp] at hu
  have htb := hi.gen.blk t ht
  have hsz : get_size s.mem (p - 4) = t.size := by
    have e : p - 4 = t.addr := by omega
    rw [e]
    exact get_size_of_tag _ _ _ _ (hi.gen.tags t ht).1 htb.2.2.2.1 htb.2.2.2.2.1
  rw [← htp] at hre
  rcases realloc_spec hi t ht ht1 fuel n q s' hn hre with ⟨h0, _⟩ |
    ⟨_, hmax, bs', L', t2, f, r1, r2, r3, r4, r5, r6, r7, r8, r9, r10, r11, r12, r13, r14, r15⟩
  · exact absurd h0 hq
  · have hu2 := r1.usable t2 r3
    rw [← r5] at hu2
    rw [hu, hu2, hsz]
    refine ⟨hmax, (r1.live q).2 ⟨t2, r3, r4, r5.symm⟩, ?_, ?_, r6, by omega, ?_, ?_,
      f, by rw [r1.walk.1]; exact r10, r11, by omega, by omega⟩
    · intro hl
      obtain ⟨c, hc, hc1, hcp⟩ := (hi.live q).1 hl
      exact r8 c hc hc1 (by omega)
    · intro e
      exact r8 t ht ht1 (by omega)
    · intro hl
      obtain ⟨c, hc, hc1, hcp⟩ := (r1.live p).1 hl
      rcases r15 c hc hc1 with e | ⟨e1, e2⟩
      · rw [e] at hcp
        exact r8 t ht ht1 (by omega)
      · exact e2 (Layout_inj _ _ _ hi.gen.lay c t e1 ht (by omega))
    · intro i hi'
      rw [← htp]
      exact r9 i hi'

/-- A `calloc` whose byte count `malloc` accepts, in a reachable state. -/
theorem calloc_live {s : Heap} (hr : Reachable s) (fuel k n q : Nat) (s' : Heap)
    (h1 : 1 ≤ mul64 k n) (h2 : mul64 k n ≤ 2147483647)
    (hc : calloc fuel k n s = some (q, s')) :
    q ≠ NULL ∧ q % 8 = 0 ∧ Live s' q ∧ mul64 k n ≤ usable s' q ∧ ¬ Live s q ∧
      ∀ i, i < mul64 k n → s'.mem (q + i) = 0 := by
  obtain ⟨L, hi, _⟩ := hr.desc
  obtain ⟨bs', L', t, m1, m2, m3, m4, m5, m6, m7, m8, m9, m10, m11⟩ :=
    calloc_spec hi fuel k n q s' h1 h2 hc
  have hu := m1.usable t m3
  rw [← m5] at hu
  refine ⟨by rw [m5]; simp only [NULL]; omega, m6, (m1.live q).2 ⟨t, m3, m4, m5.symm⟩,
    by rw [hu]; omega, ?_, m8⟩
  intro hl
  obtain ⟨c, hc, hc1, hcp⟩ := (hi.live q).1 hl
  exact m10 c hc hc1 (by omega)

theorem calloc_progress {s : Heap} (hr : Reachable s) (fuel k n : Nat) (h1 : 1 ≤ mul64 k n)
    (h2 : mul64 k n ≤ 2147483647) (hfuel : s.mem_max_addr + 2 ≤ fuel)
    (hroom : s.mem_brk + ext_bytes (max (adj_size (mul64 k n)) HEAP_EXT_SIZE / WORD_SIZE) ≤
      s.mem_max_addr) :
    ∃ q s', calloc fuel k n s = some (q, s') := by
  obtain ⟨L, hi, _⟩ := hr.desc
  obtain ⟨p, s1, hm⟩ := malloc_progress hi (mul64 k n) fuel h1 h2 hfuel (Or.inr hroom)
  exact ⟨_, _, calloc_some fuel k n s p s1 hm⟩

theorem ex_realloc : realloc 2 ex_p1 200 ex_s2 = some (ex_q, ex_s3) :=
  getD_of_isSome _ _ (by decide!)

theorem ex_q_ne : ex_q ≠ NULL := by decide!

theorem ex_realloc_big : realloc 2 ex_p1 4294967296 ex_s2 = some (ex_r3.1, ex_r3.2) :=
  getD_of_isSome _ _ (by decide!)

theorem max_nat (a b : Nat) (ha : a < 2 ^ 32) (hb : b < 2 ^ 32) : max a b = Nat.max a b := by
  rw [max_eq a b ha hb]
  by_cases h : a ≥ b
  · rw [if_pos h]; exact (Nat.max_eq_left h).symm
  · rw [if_neg h]; exact (Nat.max_eq_right (by omega)).symm

theorem usable_lt (s : Heap) (p : Nat) : usable s p < 2 ^ 32 := by
  unfold usable
  have := get_size_lt s.mem (p - WORD_SIZE)
  omega

/-- C8: for a live pointer `p` with usable size `u` and `1 <= n <= INT_MAX`, when
`realloc(p, n)` returns a non-null `q`, the first `min(u, n)` bytes at `q`
(indeed the first `u` bytes) are the bytes that were at `p` before the call. -/
theorem C8_realloc_preserves_contents (s : Heap) (fuel p n q : Nat) (s' : Heap)
    (hr : Reachable s) (hp : Live s p) (h1 : 1 ≤ n) (h2 : n ≤ INT_MAX)
    (hre : realloc fuel p n s = some (q, s')) (hq : q ≠ NULL) :
    (∀ i, i < Nat.min (usable s p) n → s'.mem (q + i) = s.mem (p + i)) ∧
      ∀ i, i < usable s p → read_u8 s'.mem (q + i) = read_u8 s.mem (p + i) := by
  have _hn : n ≤ 2147483647 := h2
  obtain ⟨_, _, _, _, _, _, _, hb, _⟩ := realloc_live hr fuel p n q s' hp (by omega) hre hq
  refine ⟨fun i hi => hb i (lt_of_lt_of_le hi (Nat.min_le_left _ _)), fun i hi => ?_⟩
  unfold read_u8
  rw [hb i hi]

theorem C8_witness :
    (∀ i, i < Nat.min (usable ex_s2 ex_p1) 200 → ex_s3.mem (ex_q + i) = ex_s2.mem (ex_p1 + i)) ∧
      ∀ i, i < usable ex_s2 ex_p1 → read_u8 ex_s3.mem (ex_q + i) = read_u8 ex_s2.mem (ex_p1 + i) :=
  C8_realloc_preserves_contents ex_s2 2 ex_p1 200 ex_q ex_s3 ex_reach2 ex_live1 (by decide)
    (by decide) ex_realloc ex_q_ne

/-- C9: for a live pointer `p` with usable size `u` and `1 <= n <= INT_MAX`, when
`realloc(p, n)` returns a non-null `q`: `q` is the payload of a block allocated
in the new state that was not allocated before, `q` differs from `p`, its
usable size is at least `max(u, n)`, so the block is never smaller than the
old one, `p` is not live any more and the bytes of its old block lie inside a
free block of the heap. -/
theorem C9_realloc_moves_to_fresh_block (s : Heap) (fuel p n q : Nat) (s' : Heap)
    (hr : Reachable s) (hp : Live s p) (h1 : 1 ≤ n) (h2 : n ≤ INT_MAX)
    (hre : realloc fuel p n s = some (q, s')) (hq : q ≠ NULL) :
    Live s' q ∧ ¬ Live s q ∧ q ≠ p ∧ Nat.max (usable s p) n ≤ usable s' q ∧ ¬ Live s' p ∧
      ∃ f, f ∈ heap_blocks s' ∧ f.alloc = 0 ∧ f.addr ≤ p - 4 ∧
        (p - 4) + get_size s.mem (p - 4) ≤ f.addr + f.size := by
  obtain ⟨_, a1, a2, a3, _, a4, a5, _, a6⟩ :=
    realloc_live hr fuel p n q s' hp (by omega) hre hq
  rw [INT_MAX_eq] at h2
  rw [max_nat _ _ (usable_lt s p) (by omega)] at a4
  exact ⟨a1, a2, a3, a4, a5, a6⟩

theorem C9_witness :
    Live ex_s3 ex_q ∧ ¬ Live ex_s2 ex_q ∧ ex_q ≠ ex_p1 ∧
      Nat.max (usable ex_s2 ex_p1) 200 ≤ usable ex_s3 ex_q ∧ ¬ Live ex_s3 ex_p1 ∧
      ∃ f, f ∈ heap_blocks ex_s3 ∧ f.alloc = 0 ∧ f.addr ≤ ex_p1 - 4 ∧
        (ex_p1 - 4) + get_size ex_s2.mem (ex_p1 - 4) ≤ f.addr + f.size :=
  C9_realloc_moves_to_fresh_block ex_s2 2 ex_p1 200 ex_q ex_s3 ex_reach2 ex_live1 (by decide)
    (by decide) ex_realloc ex_q_ne

/-- C10 (refuted on the code): `realloc(p, size)` of a live pointer fails and
changes nothing when `INT_MAX < size < 2^32`; but `size` goes through
`max(unsigned int, unsigned int)`, so a size that is a non-zero multiple of
`2^32` is read as 0: when such a call returns, it returns a non-null pointer
to a new block and the old block has been freed. -/
theorem C10_realloc_truncates_oversize (s : Heap) (fuel p n : Nat) (hr : Reachable s)
    (hp : Live s p) (hu : usable s p ≤ INT_MAX) :
    (INT_MAX < n → n < 2 ^ 32 → realloc fuel p n s = some (NULL, s)) ∧
      (n ≠ 0 → n % 2 ^ 32 = 0 → ∀ q s', realloc fuel p n s = some (q, s') →
        q ≠ NULL ∧ Live s' q ∧ ¬ Live s' p ∧ usable s p ≤ usable s' q) := by
  obtain ⟨L, hi, _⟩ := hr.desc
  obtain ⟨t, ht, ht1, htp⟩ := (hi.live p).1 hp
  have hus := hi.usable t ht
  rw [htp] at hus
  have htb := hi.gen.blk t ht
  rw [INT_MAX_eq] at hu
  constructor
  · intro h1 h2
    rw [INT_MAX_eq] at h1
    have hge : n ≤ max (t.size - 8) n := by
      rw [max_eq _ _ (by omega) h2]
      split <;> omega
    have hm := malloc_reject fuel (realloc_size (t.addr + 4) n s) s (by
      unfold realloc_size
      rw [(realloc_reads hi t ht).1, MAX_BLK_SIZE_eq]
      right; omega)
    rw [← htp]
    exact realloc_fail fuel _ n s (by omega) (realloc_reads hi t ht).2.1 s hm
  · intro h1 h2 q s' hre
    have hmax : max (t.size - 8) n = t.size - 8 := by
      unfold max
      simp only []
      rw [h2, Nat.mod_eq_of_lt (by omega : t.size - 8 < 2 ^ 32)]
      exact if_pos (Nat.zero_le _)
    have hre' := hre
    rw [← htp] at hre'
    rcases realloc_spec hi t ht ht1 fuel n q s' h1 hre' with ⟨_, _, h0⟩ | ⟨hq, _⟩
    · rw [hmax, MAX_BLK_SIZE_eq] at h0
      omega
    · obtain ⟨_, a1, _, _, _, a4, a5, _⟩ := realloc_live hr fuel p n q s' hp h1 hre hq
      rw [hus, hmax] at a4
      rw [hus]
      exact ⟨hq, a1, a5, a4⟩

theorem C10_witness :
    ex_r3.1 ≠ NULL ∧ Live ex_r3.2 ex_r3.1 ∧ ¬ Live ex_r3.2 ex_p1 ∧
      usable ex_s2 ex_p1 ≤ usable ex_r3.2 ex_r3.1 :=
  (C10_realloc_truncates_oversize ex_s2 2 ex_p1 4294967296 ex_reach2 ex_live1 (by decide!)).2
    (by decide) (by decide) ex_r3.1 ex_r3.2 ex_realloc_big

/-- C11: `realloc(p, 0)` ends in the state of `free(p)` and returns `NULL`, for
every state and pointer; `free(NULL)` changes nothing; and `realloc(NULL, n)`
with `n > 0` is `malloc(n)`: same pointer, same state. -/
theorem C11_realloc_degenerate_cases (s : Heap) (fuel p n : Nat) (hn : 0 < n) :
    realloc fuel p 0 s = some (NULL, free p s) ∧ free NULL s = s ∧
      realloc fuel NULL n s = malloc fuel n s :=
  ⟨realloc_zero fuel p s, free_null s, realloc_null fuel n s (by omega)⟩

theorem C11_witness :
    realloc 2 ex_p1 0 ex_s2 = some (NULL, free ex_p1 ex_s2) ∧ free NULL ex_s2 = ex_s2 ∧
      realloc 2 NULL 100 ex_s2 = malloc 2 100 ex_s2 :=
  C11_realloc_degenerate_cases ex_s2 2 ex_p1 100 (by decide)

/-- C12: in a reachable state, when the product `b` of `count` and `elemSize` is
in `1 .. INT_MAX` and the arena can take one extension, `calloc` returns (given
enough fuel) the payload of an allocated block with usable size at least `b`
whose first `b` bytes are zero. -/
theorem C12_calloc_returns_zeroed_block (s : Heap) (fuel k n : Nat) (hr : Reachable s)
    (h1 : 1 ≤ k * n) (h2 : k * n ≤ INT_MAX) (hfuel : s.mem_max_addr + 2 ≤ fuel)
    (hroom : s.mem_brk + ext_bytes (max (adj_size (k * n)) HEAP_EXT_SIZE / WORD_SIZE) ≤
      s.mem_max_addr) :
    ∃ q s', calloc fuel k n s = some (q, s') ∧ q ≠ NULL ∧ q % 8 = 0 ∧ Live s' q ∧
      k * n ≤ usable s' q ∧ ∀ i, i < k * n → read_u8 s'.mem (q + i) = 0 := by
  rw [INT_MAX_eq] at h2
  have hmul : mul64 k n = k * n := mul64_eq k n (by omega)
  rw [← hmul] at h1 h2 hroom ⊢
  obtain ⟨q, s', hc⟩ := calloc_progress hr fuel k n h1 h2 hfuel hroom
  obtain ⟨a1, a2, a3, a4, _, a6⟩ := calloc_live hr fuel k n q s' h1 h2 hc
  refine ⟨q, s', hc, a1, a2, a3, a4, fun i hi => ?_⟩
  unfold read_u8
  rw [a6 i hi]

theorem C12_witness :
    ∃ q s', calloc 1052674 10 10 ex_s1 = some (q, s') ∧ q ≠ NULL ∧ q % 8 = 0 ∧ Live s' q ∧
      10 * 10 ≤ usable s' q ∧ ∀ i, i < 10 * 10 → read_u8 s'.mem (q + i) = 0 :=
  C12_calloc_returns_zeroed_block ex_s1 1052674 10 10 ex_reach1 (by decide) (by decide)
    (by decide!) (by decide!)

/-- C13 (refuted on the code): when the product is zero `calloc` returns `NULL`
and changes nothing; when it exceeds `INT_MAX`, `calloc` returns `NULL` but has
called `memset(NULL, 0, bytes)`: it stores `bytes` zero bytes through the null
pointer. -/
theorem C13_calloc_zero_fills_through_null (s : Heap) (fuel k n : Nat) :
    (mul64 k n = 0 → calloc fuel k n s = some (NULL, s)) ∧
      (INT_MAX < mul64 k n →
        calloc fuel k n s = some (NULL, { s with mem := memset s.mem NULL 0 (mul64 k n) }) ∧
        ∀ i, i < mul64 k n → memset s.mem NULL 0 (mul64 k n) i = 0) := by
  constructor
  · intro h0
    have hm := malloc_reject fuel (mul64 k n) s (Or.inl h0)
    rw [calloc_some fuel k n s NULL s hm, h0, memset_zero_len]
  · intro h
    have hm := malloc_reject fuel (mul64 k n) s (Or.inr h)
    refine ⟨calloc_some fuel k n s NULL s hm, fun i hi => ?_⟩
    have := memset_in s.mem NULL 0 (mul64 k n) i hi
    simpa [NULL] using this

/-! ## The state after `mm_init` -/

theorem mem_sbrk_none_iff (size : Nat) (s : Heap) :
    (mem_sbrk size s).1 = none ↔ ¬ (s.mem_brk + size ≤ s.mem_max_addr) := by
  by_cases h : s.mem_brk + size ≤ s.mem_max_addr
  · rw [mem_sbrk_ok size s h]
    simp [h]
  · rw [mem_sbrk_fail size s h]
    simp [h]

theorem make_btag_pro : make_btag 8 1 = 9 :=
  make_btag_eq 8 1 (by norm_num) (by norm_num) (by norm_num)

/-- C14: `mm_init` on a fresh arena returns 0 or -1, and -1 exactly when one of
its two calls of `mem_sbrk` fails (16 bytes for the sentinels, then 4096 bytes
for the first chunk). After a successful `mm_init` the Prologue header and
footer are the tag (8, allocated), the Epilogue is the tag (0, allocated),
the heap holds exactly one block, free and of size 4096, which is the only
node of list 7, and the other eight lists are empty. -/
theorem C14_mm_init_post_state (s0 : Heap) (hf : Fresh s0) :
    ((mm_init s0).1 = 0 ∨ (mm_init s0).1 = -1) ∧
    ((mm_init s0).1 = -1 ↔
      ((mem_sbrk (4 * WORD_SIZE) s0).1 = none ∨
        (mem_sbrk (ext_bytes (HEAP_EXT_SIZE / WORD_SIZE)) (init_base s0)).1 = none)) ∧
    ((mm_init s0).1 = 0 →
      get_u32 (mm_init s0).2.mem (s0.mem_heap + 4) = make_btag 8 1 ∧
      get_u32 (mm_init s0).2.mem (s0.mem_heap + 8) = make_btag 8 1 ∧
      get_u32 (mm_init s0).2.mem ((mm_init s0).2.mem_brk - 4) = make_btag 0 1 ∧
      (mm_init s0).2.heap_ptr = s0.mem_heap + 12 ∧
      (mm_init s0).2.mem_brk = s0.mem_heap + 16 + 4096 ∧
      heap_blocks (mm_init s0).2 = [⟨s0.mem_heap + 12, 4096, 0⟩] ∧
      free_list (mm_init s0).2 7 = [s0.mem_heap + 12] ∧
      ∀ i, i < 9 → i ≠ 7 → free_list (mm_init s0).2 i = []) := by
  obtain ⟨hfail, hok⟩ := mm_init_spec s0 hf
  have hiff : ((mem_sbrk (4 * WORD_SIZE) s0).1 = none ∨
      (mem_sbrk (ext_bytes (HEAP_EXT_SIZE / WORD_SIZE)) (init_base s0)).1 = none) ↔
      ¬ (s0.mem_brk + 16 + 4096 ≤ s0.mem_max_addr) := by
    rw [mem_sbrk_none_iff, mem_sbrk_none_iff, ext_bytes_init]
    have e1 : 4 * WORD_SIZE = 16 := rfl
    have e2 : (init_base s0).mem_brk = s0.mem_brk + 16 := rfl
    have e3 : (init_base s0).mem_max_addr = s0.mem_max_addr := rfl
    rw [e1, e2, e3]
    omega
  by_cases hroom : s0.mem_brk + 16 + 4096 ≤ s0.mem_max_addr
  · obtain ⟨h0, hi, h1, h2, h3, h4⟩ := hok hroom
    refine ⟨Or.inl h0, ?_, fun _ => ?_⟩
    · rw [hiff, h0]
      constructor
      · intro h; exact absurd h (by decide)
      · intro h; exact absurd hroom h
    · have hw := hi.walk
      have hg := hi.gen
      refine ⟨?_, ?_, ?_, ?_, h2, hw.1, ?_, ?_⟩
      · rw [make_btag_pro, ← h1]; exact hg.pro_h
      · rw [make_btag_pro, ← h1]; exact hg.pro_f
      · rw [make_btag_epi]; exact hg.epi
      · rw [hg.hp_eq, h1]
      · rw [hw.2.2 7 (by norm_num)]; rfl
      · intro i hi9 hne
        rw [hw.2.2 i hi9]
        exact if_neg hne
  · have h1 := hfail hroom
    refine ⟨Or.inr h1, ?_, fun h0 => ?_⟩
    · rw [hiff]
      exact ⟨fun _ => hroom, fun _ => h1⟩
    · rw [h1] at h0
      exact absurd h0 (by decide)

theorem C14_witness :
    ((mm_init ex_s0).1 = 0 ∨ (mm_init ex_s0).1 = -1) ∧
    ((mm_init ex_s0).1 = -1 ↔
      ((mem_sbrk (4 * WORD_SIZE) ex_s0).1 = none ∨
        (mem_sbrk (ext_bytes (HEAP_EXT_SIZE / WORD_SIZE)) (init_base ex_s0)).1 = none)) ∧
    ((mm_init ex_s0).1 = 0 →
      get_u32 (mm_init ex_s0).2.mem (ex_s0.mem_heap + 4) = make_btag 8 1 ∧
      get_u32 (mm_init ex_s0).2.mem (ex_s0.mem_heap + 8) = make_btag 8 1 ∧
      get_u32 (mm_init ex_s0).2.mem ((mm_init ex_s0).2.mem_brk - 4) = make_btag 0 1 ∧
      (mm_init ex_s0).2.heap_ptr = ex_s0.mem_heap + 12 ∧
      (mm_init ex_s0).2.mem_brk = ex_s0.mem_heap + 16 + 4096 ∧
      heap_blocks (mm_init ex_s0).2 = [⟨ex_s0.mem_heap + 12, 4096, 0⟩] ∧
      free_list (mm_init ex_s0).2 7 = [ex_s0.mem_heap + 12] ∧
      ∀ i, i < 9 → i ≠ 7 → free_list (mm_init ex_s0).2 i = []) :=
  C14_mm_init_post_state ex_s0 ex_fresh

/-! ## Growth or no growth -/

theorem ext_bytes_exact (size : Nat) (h8 : size % 8 = 0) (h32 : size < 2 ^ 32) :
    ext_bytes (max size HEAP_EXT_SIZE / WORD_SIZE) = max size HEAP_EXT_SIZE := by
  obtain ⟨hm1, hm2, hm3, hm4⟩ := max_bounds size
  have h8' : max size HEAP_EXT_SIZE % 8 = 0 := by
    rcases hm4 with e | e
    · rw [e]
    · rw [e, Nat.mod_eq_of_lt h32]; exact h8
  generalize max size HEAP_EXT_SIZE = e at hm1 hm2 h8' ⊢
  unfold ext_bytes
  have hw : WORD_SIZE = 4 := rfl
  rw [hw, if_neg (by omega), mul64_eq _ _ (by omega)]
  omega

theorem FirstFitLists.pick {s : Heap} {L : Nat → List Nat} {size index k r : Nat}
    (h : FirstFitLists s L size index k r) (hr : r ≠ NULL) :
    ∃ i, index ≤ i ∧ i < 9 ∧ r ∈ L i ∧ size ≤ get_size s.mem r ∧
      ∀ j, index ≤ j → j < i → ∀ x, x ∈ L j → get_size s.mem x < size := by
  rcases h with ⟨a1, _⟩ | ⟨_, i, a2, _, a4, a5, a6⟩
  · exact absurd a1 hr
  · exact ⟨i, a2, a4, (a5.mem hr).1, (a5.mem hr).2, a6⟩

/-- The node picked by the scan is a free block of the heap that fits. -/
theorem pick_block {s : Heap} {bs : List Blk} {L : Nat → List Nat} (hi : Inv s bs L)
    {size index k r : Nat} (h : FirstFitLists s L size index k r) (hr : r ≠ NULL) :
    ∃ t, t ∈ bs ∧ t.addr = r ∧ t.alloc = 0 ∧ size ≤ t.size := by
  obtain ⟨i, _, hi9, hm, hsz, _⟩ := h.pick hr
  obtain ⟨t, _, ht2, ht3, ht4, _⟩ := hi.gen.node i hi9 r hm
  have htb := hi.gen.blk t ht2
  rw [← ht3, get_size_of_tag _ _ _ _ (hi.gen.tags t ht2).1 htb.2.2.2.1 htb.2.2.2.2.1] at hsz
  exact ⟨t, ht2, ht3, ht4, hsz⟩

theorem mem_init_lists (a x i : Nat) (h : x ∈ init_lists a i) : x = a ∧ i = 7 := by
  unfold init_lists at h
  by_cases h7 : i = 7
  · rw [if_pos h7] at h
    exact ⟨List.mem_singleton.1 h, h7⟩
  · rw [if_neg h7] at h
    exact absurd h (List.not_mem_nil _)

theorem file_unfile_init (t b : Blk) (h1 : get_free_lists_index t.size = 7)
    (h2 : get_free_lists_index b.size = 7) :
    file (unfile (init_lists t.addr) t) b = init_lists b.addr := by
  funext j
  unfold file unfile init_lists
  rw [h1, h2]
  by_cases h7 : j = 7
  · simp [h7]
  · simp [h7]

theorem adj_size_100 : adj_size 100 = 112 := by
  unfold adj_size
  have hd : DWORD_SIZE = 8 := rfl
  rw [hd, if_neg (by norm_num), add64_eq _ _ (by norm_num), mul64_eq _ _ (by norm_num)]

theorem adj_size_50 : adj_size 50 = 64 := by
  unfold adj_size
  have hd : DWORD_SIZE = 8 := rfl
  rw [hd, if_neg (by norm_num), add64_eq _ _ (by norm_num), mul64_eq _ _ (by norm_num)]

theorem adj_size_3000 : adj_size 3000 = 3008 := by
  unfold adj_size
  have hd : DWORD_SIZE = 8 := rfl
  rw [hd, if_neg (by norm_num), add64_eq _ _ (by norm_num), mul64_eq _ _ (by norm_num)]

theorem index_of_class (s k : Nat) (h1 : 1 ≤ s) (h2 : s < 2 ^ 64) (h : size_class s = k) :
    get_free_lists_index s = k := by
  rw [get_free_lists_index_eq s h1 h2, h]

/-- `malloc` in a heap whose lists hold only the last block `t`, when `t` is
split and the remainder stays in class 7. -/
theorem malloc_single {s : Heap} {pre : List Blk} {t : Blk}
    (hi : Inv s (pre ++ [t]) (init_lists t.addr)) (ht0 : t.alloc = 0) (fuel n : Nat)
    (h1 : 1 ≤ n) (h2 : n ≤ 2147483647) (hfuel : s.mem_brk ≤ fuel)
    (hle : adj_size n ≤ t.size) (hsp : 24 ≤ t.size - adj_size n)
    (h7 : get_free_lists_index (t.size - adj_size n) = 7) :
    ∃ s', malloc fuel n s = some (t.addr + 4, s') ∧ SameArena s s' ∧
      Inv s' ((pre ++ [⟨t.addr, adj_size n, 1⟩]) ++ [⟨t.addr + adj_size n, t.size - adj_size n, 0⟩])
        (init_lists (t.addr + adj_size n)) := by
  obtain ⟨a1, a2, a3, a4⟩ := adj_size_spec n h1 h2
  obtain ⟨r, hr, hpick, hff⟩ := find_fit_found hi (adj_size n) fuel hfuel (by omega)
    ⟨t, by simp, ht0, hle⟩
  obtain ⟨i, _, _, hm, _⟩ := hpick.pick hr
  have hra : r = t.addr := (mem_init_lists _ _ _ hm).1
  rw [hra] at hff
  have hidx : get_free_lists_index t.size = 7 :=
    (mem_init_lists _ _ _ (hi.gen.complete t (by simp) ht0)).2
  obtain ⟨k1, _, k3, _⟩ := take_exact hi ht0 _ a1 a2 hle
  have hinv := k3 hsp
  rw [file_unfile_init t ⟨t.addr + adj_size n, t.size - adj_size n, 0⟩ hidx h7] at hinv
  exact ⟨_, malloc_exact hi fuel n h1 h2 hff, k1, hinv⟩

theorem size_class_3984 : get_free_lists_index 3984 = 7 :=
  index_of_class 3984 7 (by norm_num) (by norm_num) (by decide)

theorem size_class_3872 : get_free_lists_index 3872 = 7 :=
  index_of_class 3872 7 (by norm_num) (by norm_num) (by decide)

theorem size_class_112 : get_free_lists_index 112 = 2 :=
  index_of_class 112 2 (by norm_num) (by norm_num) (by decide)

theorem size_class_64 : get_free_lists_index 64 = 1 :=
  index_of_class 64 1 (by norm_num) (by norm_num) (by decide)

/-- The states of the scenario `p1 = malloc(100); p2 = malloc(100); free(p1);
malloc(50)` on a freshly initialised arena whose first block is at `a`. -/
theorem scenario_states (s1 : Heap) (a fuel : Nat)
    (hi1 : Inv s1 [⟨a, 4096, 0⟩] (init_lists a)) (hfuel : s1.mem_brk ≤ fuel) :
    ∃ s2 s3 s5, malloc fuel 100 s1 = some (a + 4, s2) ∧
      malloc fuel 100 s2 = some (a + 116, s3) ∧
      Inv s3 [⟨a, 112, 1⟩, ⟨a + 112, 112, 1⟩, ⟨a + 224, 3872, 0⟩] (init_lists (a + 224)) ∧
      malloc fuel 50 (free (a + 4) s3) = some (a + 4, s5) ∧
      SameArena s1 s3 ∧ SameArena s1 s5 := by
  -- first malloc(100)
  obtain ⟨s2, m1, sa1, hi2⟩ := @malloc_single s1 [] ⟨a, 4096, 0⟩ hi1 rfl fuel 100
    (by norm_num) (by norm_num) hfuel (by rw [adj_size_100]; norm_num)
    (by rw [adj_size_100]; norm_num) (by rw [adj_size_100]; exact size_class_3984)
  rw [adj_size_100] at hi2
  simp only [List.nil_append] at hi2 m1
  have e1 : 4096 - 112 = 3984 := by norm_num
  rw [e1] at hi2
  -- second malloc(100)
  obtain ⟨s3, m2, sa2, hi3⟩ := @malloc_single s2 [⟨a, 112, 1⟩] ⟨a + 112, 3984, 0⟩
    hi2 rfl fuel 100 (by norm_num) (by norm_num) (by rw [sa1.2.1]; exact hfuel)
    (by rw [adj_size_100]; norm_num) (by rw [adj_size_100]; norm_num)
    (by rw [adj_size_100]; exact size_class_3872)
  rw [adj_size_100] at hi3
  simp only at hi3 m2
  have e2 : 3984 - 112 = 3872 := by norm_num
  have e3 : a + 112 + 112 = a + 224 := by omega
  have e4 : a + 112 + 4 = a + 116 := by omega
  rw [e2, e3] at hi3
  rw [e4] at m2
  have hi3' : Inv s3 ([] ++ ⟨a, 112, 1⟩ :: [⟨a + 112, 112, 1⟩, ⟨a + 224, 3872, 0⟩])
      (init_lists (a + 224)) := hi3
  -- free(p1)
  obtain ⟨hi4, sa3, _⟩ := free_exact_AA hi3' rfl (fun p hp => by simp at hp)
    (fun n hn => by simp at hn; rw [← hn])
  simp only at hi4 sa3
  -- malloc(50)
  have hex : ∃ b, b ∈ ([] ++ (⟨a, 112, 0⟩ : Blk) :: [⟨a + 112, 112, 1⟩, ⟨a + 224, 3872, 0⟩]) ∧
      b.alloc = 0 ∧ adj_size 50 ≤ b.size :=
    ⟨⟨a, 112, 0⟩, by simp, rfl, by rw [adj_size_50]; norm_num⟩
  obtain ⟨b1, b2, b3, b4⟩ := adj_size_spec 50 (by norm_num) (by norm_num)
  obtain ⟨r, hr, hpick, hff⟩ := find_fit_found hi4 (adj_size 50) fuel
    (by rw [sa3.2.1, sa2.2.1, sa1.2.1]; exact hfuel) (by omega) hex
  obtain ⟨i, hlo, hi9, hm, _, hearlier⟩ := hpick.pick hr
  have hsz : get_size (free (a + 4) s3).mem a = 112 := by
    have ht := hi4.gen.tags ⟨a, 112, 0⟩ (by simp)
    exact get_size_of_tag _ _ 112 0 ht.1 (by norm_num) (by norm_num)
  have hra : r = a := by
    unfold file at hm hearlier
    simp only [size_class_112] at hm hearlier
    by_cases h2 : i = 2
    · rw [if_pos h2] at hm
      rcases List.mem_cons.1 hm with e | e
      · exact e
      · have := (mem_init_lists _ _ _ e).2
        omega
    · rw [if_neg h2] at hm
      obtain ⟨_, h7⟩ := mem_init_lists _ _ _ hm
      have := hearlier 2 (by rw [adj_size_50, size_class_64] at hlo ⊢; norm_num) (by omega) a
        (by rw [if_pos rfl]; exact List.mem_cons_self _ _)
      rw [hsz, adj_size_50] at this
      omega
  rw [hra] at hff
  have m3 := malloc_exact (t := ⟨a, 112, 0⟩) hi4 fuel 50 (by norm_num) (by norm_num) hff
  have sa4 := (take_exact (t := ⟨a, 112, 0⟩) hi4 rfl (adj_size 50) b1 b2
    (by rw [adj_size_50]; norm_num)).1
  simp only at m3 sa4
  exact ⟨s2, s3, _, m1, m2, hi3, m3, sa1.same_trans sa2, ((sa1.same_trans sa2).same_trans sa3).same_trans sa4⟩

/-- C15: on a freshly initialised arena, `p1 = malloc(100)` and
`p2 = malloc(100)` return two different non-null pointers to allocated blocks
whose payload regions do not overlap; after `free(p1)`, `malloc(50)` returns
`p1` again, and the arena has not grown: `mem_sbrk` has not been called since
`mm_init`. -/
theorem C15_scenario_reuse_after_free (s0 : Heap) (fuel : Nat) (hf : Fresh s0)
    (hroom : s0.mem_brk + 16 + 4096 ≤ s0.mem_max_addr) (hfuel : s0.mem_heap + 4112 ≤ fuel) :
    ∃ p1 p2 s2 s3 s5,
      malloc fuel 100 (mm_init s0).2 = some (p1, s2) ∧ malloc fuel 100 s2 = some (p2, s3) ∧
      p1 ≠ NULL ∧ p2 ≠ NULL ∧ p2 ≠ p1 ∧ Live s3 p1 ∧ Live s3 p2 ∧
      100 ≤ usable s3 p1 ∧ 100 ≤ usable s3 p2 ∧ p1 + usable s3 p1 ≤ p2 ∧
      malloc fuel 50 (free p1 s3) = some (p1, s5) ∧
      s5.mem_brk = (mm_init s0).2.mem_brk ∧ s5.sbrk_calls = (mm_init s0).2.sbrk_calls ∧
      s3.sbrk_calls = (mm_init s0).2.sbrk_calls := by
  obtain ⟨_, hi1, _, hbrk, _, _⟩ := (mm_init_spec s0 hf).2 hroom
  obtain ⟨s2, s3, s5, m1, m2, hi3, m3, sa3, sa5⟩ :=
    scenario_states (mm_init s0).2 (s0.mem_heap + 12) fuel hi1 (by rw [hbrk]; omega)
  have u1 := hi3.usable ⟨s0.mem_heap + 12, 112, 1⟩ (by simp)
  have u2 := hi3.usable ⟨s0.mem_heap + 12 + 112, 112, 1⟩ (by simp)
  simp only at u1 u2
  have e : s0.mem_heap + 12 + 112 + 4 = s0.mem_heap + 12 + 116 := by omega
  rw [e] at u2
  refine ⟨s0.mem_heap + 12 + 4, s0.mem_heap + 12 + 116, s2, s3, s5, m1, m2,
    by simp only [NULL]; omega, by simp only [NULL]; omega, by omega,
    (hi3.live _).2 ⟨⟨s0.mem_heap + 12, 112, 1⟩, by simp, rfl, rfl⟩,
    (hi3.live _).2 ⟨⟨s0.mem_heap + 12 + 112, 112, 1⟩, by simp, rfl, e⟩,
    by rw [u1]; norm_num, by rw [u2]; norm_num, by rw [u1]; omega, m3, sa5.2.1,
    sa5.2.2.2.2, sa3.2.2.2.2⟩

theorem C15_witness :
    ∃ p1 p2 s2 s3 s5,
      malloc 8208 100 (mm_init ex_s0).2 = some (p1, s2) ∧ malloc 8208 100 s2 = some (p2, s3) ∧
      p1 ≠ NULL ∧ p2 ≠ NULL ∧ p2 ≠ p1 ∧ Live s3 p1 ∧ Live s3 p2 ∧
      100 ≤ usable s3 p1 ∧ 100 ≤ usable s3 p2 ∧ p1 + usable s3 p1 ≤ p2 ∧
      malloc 8208 50 (free p1 s3) = some (p1, s5) ∧
      s5.mem_brk = (mm_init ex_s0).2.mem_brk ∧ s5.sbrk_calls = (mm_init ex_s0).2.sbrk_calls ∧
      s3.sbrk_calls = (mm_init ex_s0).2.sbrk_calls :=
  C15_scenario_reuse_after_free ex_s0 8208 ex_fresh (by decide) (by decide)

theorem ex_malloc2 : malloc 2 100 ex_s2 = some (ex_r4.1, ex_r4.2) :=
  getD_of_isSome _ _ (by decide!)

theorem ex_malloc3 : malloc 2 100 ex_r4.2 = some (ex_r5.1, ex_w) :=
  getD_of_isSome _ _ (by decide!)

theorem ex_reach_w : Reachable ex_w :=
  Reachable.malloc _ 2 100 _ _ (Reachable.malloc _ 2 100 _ _ ex_reach2 ex_malloc2) ex_malloc3

/-- C17: in a reachable state whose blocks are `pre ++ b1 :: b2 :: post` with
`b1`, `b2` allocated and the outer neighbours (if any) allocated, after
`free(p1); free(p2)` for the payload pointers of `b1` and `b2` the two blocks
have become one free block that starts at the header of `b1` and has size
`size b1 + size b2`; its header and footer hold that tag, and it occurs
exactly once in the free list of index `get_free_lists_index` of the sum and
in no other list. -/
theorem C17_adjacent_frees_merge (s : Heap) (pre post : List Blk) (b1 b2 : Blk)
    (hr : Reachable s) (hbs : heap_blocks s = pre ++ b1 :: b2 :: post)
    (h1 : b1.alloc = 1) (h2 : b2.alloc = 1) (hp : ∀ x, x ∈ pre.getLast? → x.alloc = 1)
    (hn : ∀ y, y ∈ post.head? → y.alloc = 1) :
    Live s (b1.addr + 4) ∧ Live s (b2.addr + 4) ∧ b1.addr + b1.size = b2.addr ∧
      heap_blocks (free (b2.addr + 4) (free (b1.addr + 4) s)) =
        pre ++ ⟨b1.addr, b1.size + b2.size, 0⟩ :: post ∧
      get_u32 (free (b2.addr + 4) (free (b1.addr + 4) s)).mem b1.addr =
        make_btag (b1.size + b2.size) 0 ∧
      get_u32 (free (b2.addr + 4) (free (b1.addr + 4) s)).mem
        (b1.addr + (b1.size + b2.size) - 4) = make_btag (b1.size + b2.size) 0 ∧
      (free_list (free (b2.addr + 4) (free (b1.addr + 4) s))
        (get_free_lists_index (b1.size + b2.size))).count b1.addr = 1 ∧
      ∀ i, i < 9 → i ≠ get_free_lists_index (b1.size + b2.size) →
        b1.addr ∉ free_list (free (b2.addr + 4) (free (b1.addr + 4) s)) i := by
  obtain ⟨L, hi, _⟩ := hr.desc
  rw [hbs] at hi
  have hl1 := (hi.live (b1.addr + 4)).2 ⟨b1, by simp, h1, rfl⟩
  have hl2 := (hi.live (b2.addr + 4)).2 ⟨b2, by simp, h2, rfl⟩
  have hadj : b1.addr + b1.size = b2.addr :=
    ((Layout_split _ _ pre (b2 :: post) b1 hi.gen.lay).2.1).1.symm
  obtain ⟨hi2, _, _⟩ := free_exact_AA hi h1 hp (fun n hn' => by simp at hn'; rw [← hn', h2])
  have e : pre ++ (⟨b1.addr, b1.size, 0⟩ : Blk) :: b2 :: post =
      (pre ++ [⟨b1.addr, b1.size, 0⟩]) ++ b2 :: post := by simp
  rw [e] at hi2
  obtain ⟨hi3, _, _⟩ := free_exact_FA hi2 h2 rfl hn
  simp only at hi3
  rw [Nat.add_comm b2.size b1.size] at hi3
  have hw := hi3.walk
  have hmem : (⟨b1.addr, b1.size + b2.size, 0⟩ : Blk) ∈
      pre ++ ⟨b1.addr, b1.size + b2.size, 0⟩ :: post := by simp
  have hbb := hi3.gen.blk _ hmem
  have ht := hi3.gen.tags _ hmem
  have hidx := get_free_lists_index_lt (b1.size + b2.size)
  have hc := hi3.gen.complete _ hmem rfl
  simp only at hbb ht hc
  have htag : make_btag (b1.size + b2.size) 0 = b1.size + b2.size + 0 :=
    make_btag_eq _ 0 hbb.2.2.2.1 (by norm_num) hbb.2.2.2.2.2.2.1
  refine ⟨hl1, hl2, hadj, hw.1, by rw [htag]; exact ht.1, by rw [htag]; exact ht.2, ?_, ?_⟩
  · rw [hw.2.2 _ hidx]
    exact List.count_eq_one_of_mem (hi3.gen.nodup _ hidx) hc
  · intro i hi9 hne hm
    rw [hw.2.2 i hi9] at hm
    exact hne (hi3.gen.node_idx i _ hi9 hidx b1.addr hm hc)

theorem C17_witness :
    Live ex_w (4108 + 4) ∧ Live ex_w (4220 + 4) ∧ 4108 + 112 = 4220 ∧
      heap_blocks (free (4220 + 4) (free (4108 + 4) ex_w)) =
        [] ++ ⟨4108, 112 + 112, 0⟩ :: [⟨4332, 112, 1⟩, ⟨4444, 3760, 0⟩] ∧
      get_u32 (free (4220 + 4) (free (4108 + 4) ex_w)).mem 4108 = make_btag (112 + 112) 0 ∧
      get_u32 (free (4220 + 4) (free (4108 + 4) ex_w)).mem (4108 + (112 + 112) - 4) =
        make_btag (112 + 112) 0 ∧
      (free_list (free (4220 + 4) (free (4108 + 4) ex_w))
        (get_free_lists_index (112 + 112))).count 4108 = 1 ∧
      ∀ i, i < 9 → i ≠ get_free_lists_index (112 + 112) →
        4108 ∉ free_list (free (4220 + 4) (free (4108 + 4) ex_w)) i :=
  C17_adjacent_frees_merge ex_w [] [⟨4332, 112, 1⟩, ⟨4444, 3760, 0⟩] ⟨4108, 112, 1⟩
    ⟨4220, 112, 1⟩ ex_reach_w (by decide!) rfl rfl (fun x hx => by simp at hx)
    (fun y hy => by simp at hy; rw [← hy])

/-- C18: for every block size `s >= 24` (a `size_t`), `get_free_lists_index`
is the size-class table: 0 for 24..32, `k` for `2^(k+4)+1 .. 2^(k+5)` with
`k = 1..7`, and 8 from 4097 on; the result is in `0..8`. -/
theorem C18_size_class_table (s : Nat) (h24 : 24 ≤ s) (hlt : s < 2 ^ 64) :
    get_free_lists_index s = size_class s ∧ get_free_lists_index s ≤ 8 ∧
      (s ≤ 32 → get_free_lists_index s = 0) ∧
      (∀ k, 1 ≤ k → k ≤ 7 → 2 ^ (k + 4) + 1 ≤ s → s ≤ 2 ^ (k + 5) →
        get_free_lists_index s = k) ∧
      (4097 ≤ s → get_free_lists_index s = 8) := by
  have he := get_free_lists_index_eq s (by omega) hlt
  rw [he]
  refine ⟨rfl, size_class_le s, ?_, ?_, ?_⟩
  · intro h
    unfold size_class
    rw [if_pos h]
  · intro k hk1 hk7 hlo hhi
    unfold size_class
    interval_cases k <;> norm_num at hlo hhi <;> split_ifs <;> omega
  · intro h
    exact size_class_top s (by omega)

theorem C18_witness :
    get_free_lists_index 100 = size_class 100 ∧ get_free_lists_index 100 ≤ 8 ∧
      (100 ≤ 32 → get_free_lists_index 100 = 0) ∧
      (∀ k, 1 ≤ k → k ≤ 7 → 2 ^ (k + 4) + 1 ≤ 100 → 100 ≤ 2 ^ (k + 5) →
        get_free_lists_index 100 = k) ∧
      (4097 ≤ 100 → get_free_lists_index 100 = 8) :=
  C18_size_class_table 100 (by decide) (by decide)

/-- C19: for every size that is a multiple of 8 below `2^32` and every
`alloc` in `{0, 1}`, the tag `make_btag(size, alloc)` is `size + alloc`: the
flag is the lowest bit and the size the bits from bit 3 up; once stored,
`get_size` reads `size` and `get_alloc` reads `alloc`. -/
theorem C19_tag_round_trip (m : Mem) (a size alloc : Nat) (h8 : size % 8 = 0)
    (hlt : size < 2 ^ 32) (hal : alloc ≤ 1) :
    get_size (put_btag m a (make_btag size alloc)) a = size ∧
      get_alloc (put_btag m a (make_btag size alloc)) a = alloc ∧
      make_btag size alloc = size + alloc ∧ make_btag size alloc % 2 = alloc ∧
      make_btag size alloc / 8 * 8 = size := by
  have htag := make_btag_eq size alloc h8 (by omega) hlt
  have hget : get_u32 (put_btag m a (make_btag size alloc)) a = size + alloc := by
    unfold put_btag
    rw [get_u32_put_u32_same, htag]
    omega
  exact ⟨get_size_of_tag _ _ _ _ hget h8 hal, get_alloc_of_tag _ _ _ _ hget h8 hal, htag,
    by rw [htag]; omega, by rw [htag]; omega⟩

theorem C19_witness :
    get_size (put_btag ex_s0.mem 4108 (make_btag 4096 1)) 4108 = 4096 ∧
      get_alloc (put_btag ex_s0.mem 4108 (make_btag 4096 1)) 4108 = 1 ∧
      make_btag 4096 1 = 4096 + 1 ∧ make_btag 4096 1 % 2 = 1 ∧
      make_btag 4096 1 / 8 * 8 = 4096 :=
  C19_tag_round_trip ex_s0.mem 4108 4096 1 (by decide) (by decide) (by decide)

end MM

namespace Bits

theorem make_set_mask : make_set [1, 2, 3, 4, 5, 6, 7, 8, 9] 9 = some 1022 := by decide

theorem and_mask_lt (x : Nat) : x &&& 1022 < 1024 :=
  lt_of_le_of_lt Nat.and_le_right (by norm_num)

theorem union_mask (r c b : Nat) :
    ((r % 2 ^ 16) &&& 1022) ||| ((c % 2 ^ 16) &&& 1022) ||| ((b % 2 ^ 16) &&& 1022) =
      (r ||| c ||| b) &&& 1022 := by
  apply Nat.eq_of_testBit_eq
  intro i
  simp only [Nat.testBit_or, Nat.testBit_and, Nat.testBit_mod_two_pow]
  by_cases hi : i < 16
  · simp [hi]
    cases Nat.testBit r i <;> cases Nat.testBit c i <;> cases Nat.testBit b i <;> simp
  · have h1 : Nat.testBit 1022 i = false := by
      apply Nat.testBit_lt_two_pow
      exact lt_of_lt_of_le (by norm_num : 1022 < 2 ^ 16)
        (Nat.pow_le_pow_right (by norm_num) (by omega))
    simp [hi, h1]

theorem is_single_eq (r c b : Nat) :
    is_single r c b = some (single_of_union ((r ||| c ||| b) &&& 1022)) := by
  unfold is_single
  rw [make_set_mask]
  simp only [union_mask]
  unfold single_of_union
  by_cases h : (((2 ^ 32 - 1 - ((r ||| c ||| b) &&& 1022)) &&& 1022) % 2 ^ 16) &&&
      (((((2 ^ 32 - 1 - ((r ||| c ||| b) &&& 1022)) &&& 1022) % 2 ^ 16) + (2 ^ 32 - 1)) %
        2 ^ 32) = 0
  · rw [if_pos h, decide_eq_true h]
  · rw [if_neg h, decide_eq_false h]

theorem unused_mask (r c b : Nat) :
    unused_digits r c b = unused_digits ((r ||| c ||| b) &&& 1022) 0 0 := by
  unfold unused_digits
  apply List.filter_congr
  intro d hd
  rw [List.mem_range'_1] at hd
  have h1 : Nat.testBit 1022 d = true := by
    obtain ⟨h1, h2⟩ := hd
    interval_cases d <;> decide
  simp [Nat.testBit_and, Nat.testBit_or, h1]

theorem single_table : ∀ v, v < 1024 →
    single_of_union v = decide ((unused_digits v 0 0).length ≤ 1) := by
  decide!

/-- C20 (refuted on the code): `is_single` returns true exactly when at most
one digit in 1..9 is absent from the union of the three sets: true for exactly
one, false for two or more, but also true when all nine digits are used and no
possibility remains, e.g. for `is_single(0x3fe, 0, 0)`, where bits.h promises
false. -/
theorem C20_is_single_true_iff_at_most_one (r c b : Nat) :
    is_single r c b = some (decide ((unused_digits r c b).length ≤ 1)) ∧
      (is_single 0x3fe 0 0 = some true ∧ unused_digits 0x3fe 0 0 = []) := by
  refine ⟨?_, by decide, by decide⟩
  rw [is_single_eq, unused_mask, single_table _ (and_mask_lt _)]

theorem cmp_bits_loop_neg : ∀ (fuel : Nat) (a a_on : Int), a < 0 →
    cmp_bits_loop fuel a a_on = none := by
  intro fuel
  induction fuel with
  | zero => intro a a_on _; rfl
  | succ f ih =>
    intro a a_on ha
    have h0 : a ≠ 0x0 := by intro h; rw [h] at ha; exact absurd ha (by decide)
    have h1 : a >>> (1 : Nat) < 0 := by
      rw [Int.shiftRight_eq_div_pow]
      have : ((2 ^ 1 : Nat) : Int) = 2 := by norm_num
      rw [this]
      omega
    show (if a ≠ 0x0 then
      cmp_bits_loop f (a >>> (1 : Nat)) (if Int.land a 0x1 ≠ 0 then a_on + 1 else a_on)
      else some a_on) = none
    rw [if_pos h0]
    exact ih _ _ h1

theorem filter_range_succ (p : Nat → Bool) (k : Nat) :
    ((List.range (k + 1)).filter p).length =
      (if p 0 then 1 else 0) + ((List.range k).filter (fun i => p (i + 1))).length := by
  have hc : (p ∘ Nat.succ) = fun i => p (i + 1) := rfl
  rw [List.range_succ_eq_map, List.filter_cons, List.filter_map, hc]
  by_cases h : p 0 = true
  · rw [if_pos h, if_pos h, List.length_cons, List.length_map]; omega
  · rw [if_neg h, if_neg h, List.length_map]; omega

theorem cmp_bits_loop_nat : ∀ (k n : Nat) (a_on : Int), n < 2 ^ k → ∀ fuel, k < fuel →
    cmp_bits_loop fuel (n : Int) a_on =
      some (a_on + (((List.range k).filter (fun i => n.testBit i)).length : Nat)) := by
  intro k
  induction k with
  | zero =>
    intro n a_on hn fuel hf
    obtain ⟨f, rfl⟩ : ∃ f, fuel = f + 1 := ⟨fuel - 1, by omega⟩
    have h0 : n = 0 := by simpa using hn
    subst h0
    show (if ((0 : Nat) : Int) ≠ 0x0 then _ else some a_on) = _
    rw [if_neg (by simp)]
    simp
  | succ k ih =>
    intro n a_on hn fuel hf
    obtain ⟨f, rfl⟩ : ∃ f, fuel = f + 1 := ⟨fuel - 1, by omega⟩
    by_cases h0 : n = 0
    · subst h0
      show (if ((0 : Nat) : Int) ≠ 0x0 then _ else some a_on) = _
      rw [if_neg (by simp)]
      simp
    · have hne : (n : Int) ≠ 0x0 := by
        intro h; exact h0 (by exact_mod_cast h)
      show (if (n : Int) ≠ 0x0 then
        cmp_bits_loop f ((n : Int) >>> (1 : Nat))
          (if Int.land (n : Int) 0x1 ≠ 0 then a_on + 1 else a_on)
        else some a_on) = _
      rw [if_pos hne]
      have hs : (n : Int) >>> (1 : Nat) = ((n / 2 : Nat) : Int) := by
        rw [Int.shiftRight_eq_div_pow]
        norm_num
      have hl : Int.land (n : Int) 0x1 = ((n % 2 : Nat) : Int) := by
        show ((n &&& 1 : Nat) : Int) = _
        rw [Nat.and_one_is_mod]
      rw [hs, hl, ih (n / 2) _ (by rw [pow_succ] at hn; omega) f (by omega),
        filter_range_succ]
      have hb : (fun i => n.testBit (i + 1)) = fun i => (n / 2).testBit i := by
        funext i
        rw [Nat.testBit_succ]
      rw [hb]
      have ht : n.testBit 0 = decide (n % 2 = 1) := Nat.testBit_zero n
      rw [ht]
      rcases Nat.mod_two_eq_zero_or_one n with e | e
      · rw [e]
        simp
      · rw [e]
        simp
        omega

theorem on_bits_nat (n : Nat) :
    on_bits (n : Int) =
      ((List.range 32).filter (fun i => (n % 2 ^ 32).testBit i)).length := by
  unfold on_bits
  have : ((n : Int) % 2 ^ 32).toNat = n % 2 ^ 32 := by
    have h : ((n : Int) % 2 ^ 32) = ((n % 2 ^ 32 : Nat) : Int) := by norm_num
    rw [h, Int.toNat_natCast]
  rw [this]

theorem cmp_bits_loop_nonneg (a : Int) (h0 : 0 ≤ a) (h1 : a < 2 ^ 31) (fuel : Nat)
    (hf : 32 < fuel) : cmp_bits_loop fuel a 0 = some (on_bits a : Int) := by
  obtain ⟨n, rfl⟩ := Int.eq_ofNat_of_zero_le h0
  have hn : n < 2 ^ 31 := by exact_mod_cast h1
  rw [cmp_bits_loop_nat 32 n 0 (by omega) fuel hf, on_bits_nat,
    Nat.mod_eq_of_lt (by omega : n < 2 ^ 32)]
  simp

/-- C21: for non-negative `a` and `b` the call returns the difference of the
numbers of 1 bits (33 iterations of fuel are enough), but when `a` or `b` is
negative the arithmetic right shift never reaches zero and the call returns for
no amount of fuel. -/
theorem C21_cmp_bits_returns_only_for_nonnegative (a b : Int)
    (ha : - 2 ^ 31 ≤ a ∧ a < 2 ^ 31) (hb : - 2 ^ 31 ≤ b ∧ b < 2 ^ 31) :
    (0 ≤ a ∧ 0 ≤ b → ∀ fuel, 32 < fuel →
      cmp_bits fuel a b = some ((on_bits a : Int) - (on_bits b : Int))) ∧
    (a < 0 ∨ b < 0 → ∀ fuel, cmp_bits fuel a b = none) := by
  constructor
  · rintro ⟨h1, h2⟩ fuel hf
    unfold cmp_bits
    rw [cmp_bits_loop_nonneg a h1 ha.2 fuel hf, cmp_bits_loop_nonneg b h2 hb.2 fuel hf]
  · intro h fuel
    unfold cmp_bits
    rcases h with h | h
    · rw [cmp_bits_loop_neg fuel a 0 h]
    · rw [cmp_bits_loop_neg fuel b 0 h]
      cases cmp_bits_loop fuel a 0 <;> rfl

theorem C21_witness :
    cmp_bits 1000 (-1) 0 = none ∧ on_bits (-1) = 32 ∧ on_bits 0 = 0 ∧
      cmp_bits 33 0xffff 0 = some 16 ∧ cmp_bits 33 0xa 0x5 = some 0 :=
  ⟨(C21_cmp_bits_returns_only_for_nonnegative (-1) 0 (by decide) (by decide)).2
      (Or.inl (by decide)) 1000,
    by decide, by decide, by decide, by decide⟩

/-- C22: on signed 8-bit arguments `sat_add_signed` is the sum clamped to
`[-128, 127]`. -/
theorem C22_sat_add_signed_clamps (a b : Int) (ha : -128 ≤ a ∧ a ≤ 127)
    (hb : -128 ≤ b ∧ b ≤ 127) :
    sat_add_signed a b = max (-128) (min 127 (a + b)) ∧
      (-128 ≤ a + b ∧ a + b ≤ 127 → sat_add_signed a b = a + b) ∧
      (127 < a + b → sat_add_signed a b = 127) ∧
      (a + b < -128 → sat_add_signed a b = -128) := by
  have _ha := ha
  have _hb := hb
  have hmax : to_stype (to_utype (to_utype (0x0 - 1) / 2)) = 127 := by decide
  have hmin : to_stype (to_stype (to_utype (to_utype (0x0 - 1) / 2)) + 1) = -128 := by decide
  have key : sat_add_signed a b =
      if b > 127 - a then 127 else if b < -128 - a then -128 else to_stype (a + b) := by
    show (if b > to_stype (to_utype (to_utype (0x0 - 1) / 2)) - a then
        to_stype (to_utype (to_utype (0x0 - 1) / 2))
      else if b < to_stype (to_stype (to_utype (to_utype (0x0 - 1) / 2)) + 1) - a then
        to_stype (to_stype (to_utype (to_utype (0x0 - 1) / 2)) + 1)
      else to_stype (a + b)) = _
    rw [hmin, hmax]
  rw [key]
  unfold to_stype
  refine ⟨?_, ?_, ?_, ?_⟩
  · split_ifs <;> omega
  · intro h; split_ifs <;> omega
  · intro h; split_ifs <;> omega
  · intro h; split_ifs <;> omega

theorem C22_witness :
    sat_add_signed 127 127 = 127 ∧ sat_add_signed (-128) (-10) = -128 ∧
      sat_add_signed (-9) 116 = 107 :=
  ⟨(C22_sat_add_signed_clamps 127 127 (by decide) (by decide)).2.2.1 (by decide),
    by decide, by decide⟩

/-- C23: on unsigned 8-bit arguments `sat_add_unsigned` is `min (a + b) 255`. -/
theorem C23_sat_add_unsigned_clamps (a b : Int) (ha : 0 ≤ a ∧ a ≤ 255)
    (hb : 0 ≤ b ∧ b ≤ 255) : sat_add_unsigned a b = min (a + b) 255 := by
  have h255 : to_utype (0x0 - 1) = 255 := by decide
  have key : sat_add_unsigned a b =
      if to_utype (a + b) < a then 255 else to_utype (a + b) := by
    show (if to_utype (a + b) < a then to_utype (0x0 - 1) else to_utype (a + b)) = _
    rw [h255]
  rw [key]
  unfold to_utype
  split_ifs <;> omega

theorem C23_witness :
    sat_add_unsigned 11 96 = 107 ∧ sat_add_unsigned 255 255 = 255 :=
  ⟨by decide, C23_sat_add_unsigned_clamps 255 255 (by decide) (by decide)⟩

end Bits

namespace CMap

theorem hash_range (key : List Nat) (nb : Int) (h0 : 0 < nb) (h1 : nb ≤ INT_MAX) :
    0 ≤ hash key nb ∧ hash key nb < nb := by
  unfold hash to_int
  unfold INT_MAX at h1
  obtain ⟨n, rfl⟩ := Int.eq_ofNat_of_zero_le (le_of_lt h0)
  have hn : 0 < n := by exact_mod_cast h0
  have hn2 : n ≤ 2147483647 := by exact_mod_cast h1
  have e : ((n : Int) % 2 ^ 64).toNat = n := by
    have : ((n : Int) % 2 ^ 64) = ((n % 2 ^ 64 : Nat) : Int) := by norm_num
    rw [this, Int.toNat_natCast]
    exact Nat.mod_eq_of_lt (by omega)
  rw [e]
  have := Nat.mod_lt (hash_loop key 0) hn
  omega

theorem cmap_get_eq (m : cmap) (key : List Nat) :
    cmap_get m key = bucket_get (m.buckets (hash key m.num_buckets).toNat) key := by
  unfold cmap_get bucket_get
  by_cases h : m.buckets (hash key m.num_buckets).toNat = []
  · simp only [h, ne_eq, not_true_eq_false, if_false]
    rfl
  · simp only [ne_eq, h, not_false_eq_true, if_true]

theorem bucket_get_cons (b : blob) (rest : List blob) (key : List Nat) :
    bucket_get (b :: rest) key = if b.key = key then some b.val else bucket_get rest key := by
  unfold bucket_get
  by_cases h : b.key = key
  · simp only [search_bucket, h, if_true, get_val]
  · simp only [search_bucket, h, if_false]
    cases search_bucket rest key <;> rfl

theorem bucket_get_nil (key : List Nat) : bucket_get [] key = none := rfl

theorem search_none_iff (bs : List blob) (key : List Nat) :
    search_bucket bs key = none ↔ bucket_get bs key = none := by
  induction bs with
  | nil => simp [search_bucket, bucket_get]
  | cons b rest ih =>
    rw [bucket_get_cons]
    by_cases h : b.key = key
    · simp [search_bucket, h]
    · simp only [search_bucket, h, if_false]
      rw [← ih]
      cases search_bucket rest key <;> simp

theorem put_val_get (bs : List blob) (key val : List Nat) :
    ∀ pos, search_bucket bs key = some pos →
      bucket_get (put_val bs pos val) key = some val ∧
      ∀ k, k ≠ key → bucket_get (put_val bs pos val) k = bucket_get bs k := by
  induction bs with
  | nil => intro pos h; simp [search_bucket] at h
  | cons b rest ih =>
    intro pos h
    by_cases hk : b.key = key
    · simp only [search_bucket, hk, if_true, Option.some.injEq] at h
      subst h
      refine ⟨?_, fun k hne => ?_⟩
      · show bucket_get (⟨b.key, val⟩ :: rest) key = _
        rw [bucket_get_cons, if_pos hk]
      · show bucket_get (⟨b.key, val⟩ :: rest) k = _
        rw [bucket_get_cons, bucket_get_cons, hk, if_neg (fun e => hne e.symm),
          if_neg (fun e => hne e.symm)]
    · simp only [search_bucket, hk, if_false] at h
      cases hs : search_bucket rest key with
      | none => rw [hs] at h; simp at h
      | some p =>
        rw [hs] at h
        simp only [Option.some.injEq] at h
        subst h
        obtain ⟨i1, i2⟩ := ih p hs
        refine ⟨?_, fun k hne => ?_⟩
        · show bucket_get (b :: put_val rest p val) key = _
          rw [bucket_get_cons, if_neg hk, i1]
        · show bucket_get (b :: put_val rest p val) k = _
          rw [bucket_get_cons, bucket_get_cons, i2 k hne]

theorem insert_blob_eq (bs : List blob) (b : blob) (h : bs ≠ []) :
    insert_blob bs b = some (bs ++ [b]) := by
  induction bs with
  | nil => exact absurd rfl h
  | cons a rest ih =>
    cases rest with
    | nil => rfl
    | cons c rest2 =>
      show (match insert_blob (c :: rest2) b with
        | none => none
        | some l => some (a :: l)) = _
      rw [ih (by simp)]
      rfl

theorem bucket_get_append (bs : List blob) (b : blob) (k : List Nat) :
    bucket_get (bs ++ [b]) k =
      match bucket_get bs k with
      | some v => some v
      | none => if b.key = k then some b.val else none := by
  induction bs with
  | nil =>
    rw [List.nil_append, bucket_get_cons, bucket_get_nil]
  | cons a rest ih =>
    rw [List.cons_append, bucket_get_cons, bucket_get_cons]
    by_cases h : a.key = k
    · rw [if_pos h, if_pos h]
    · rw [if_neg h, if_neg h, ih]

theorem create_blob_ok (m : cmap) (key val : List Nat)
    (h : 8 + key.length + 1 + m.val_size ≤ 2147483647) :
    create_blob m key val = some ⟨key, val.take m.val_size⟩ := by
  unfold create_blob
  have e : to_int ((8 + key.length + 1 + m.val_size) % 2 ^ 64) =
      ((8 + key.length + 1 + m.val_size : Nat) : Int) := by
    unfold to_int
    rw [Nat.mod_eq_of_lt (by omega)]
    omega
  simp only [e, if_true]

theorem create_blob_wide (m : cmap) (key val : List Nat)
    (h1 : 2147483647 < 8 + key.length + 1 + m.val_size)
    (h2 : 8 + key.length + 1 + m.val_size < 2 ^ 64) :
    create_blob m key val = none := by
  unfold create_blob
  have e : to_int ((8 + key.length + 1 + m.val_size) % 2 ^ 64) ≠
      ((8 + key.length + 1 + m.val_size : Nat) : Int) := by
    unfold to_int
    rw [Nat.mod_eq_of_lt h2]
    omega
  simp only [e, if_false]

theorem cmap_put_empty (m : cmap) (key val : List Nat) (b : blob)
    (hr : 0 ≤ CMap.hash key m.num_buckets ∧ CMap.hash key m.num_buckets < m.num_buckets)
    (hB : m.buckets (CMap.hash key m.num_buckets).toNat = [])
    (hcb : create_blob m key val = some b) (hc : ¬ (m.num_entries + 1 > INT_MAX)) :
    cmap_put m key val = some ⟨m.val_size, m.num_buckets, m.num_entries + 1,
      Function.update m.buckets (CMap.hash key m.num_buckets).toNat [b]⟩ := by
  unfold cmap_put
  rw [if_neg (not_not.2 hr), if_pos hB, hcb]
  show (if m.num_entries + 1 > INT_MAX then none else some _) = _
  rw [if_neg hc]

theorem cmap_put_found (m : cmap) (key val : List Nat) (pos : Nat)
    (hr : 0 ≤ CMap.hash key m.num_buckets ∧ CMap.hash key m.num_buckets < m.num_buckets)
    (hB : m.buckets (CMap.hash key m.num_buckets).toNat ≠ [])
    (hs : search_bucket (m.buckets (CMap.hash key m.num_buckets).toNat) key = some pos) :
    cmap_put m key val = some ⟨m.val_size, m.num_buckets, m.num_entries,
      Function.update m.buckets (CMap.hash key m.num_buckets).toNat
        (put_val (m.buckets (CMap.hash key m.num_buckets).toNat) pos
          (val.take m.val_size))⟩ := by
  unfold cmap_put
  rw [if_neg (not_not.2 hr), if_neg hB, hs]

theorem cmap_put_absent (m : cmap) (key val : List Nat) (b : blob)
    (hr : 0 ≤ CMap.hash key m.num_buckets ∧ CMap.hash key m.num_buckets < m.num_buckets)
    (hB : m.buckets (CMap.hash key m.num_buckets).toNat ≠ [])
    (hs : search_bucket (m.buckets (CMap.hash key m.num_buckets).toNat) key = none)
    (hcb : create_blob m key val = some b) (hc : ¬ (m.num_entries + 1 > INT_MAX)) :
    cmap_put m key val = some ⟨m.val_size, m.num_buckets, m.num_entries + 1,
      Function.update m.buckets (CMap.hash key m.num_buckets).toNat
        (m.buckets (CMap.hash key m.num_buckets).toNat ++ [b])⟩ := by
  unfold cmap_put
  rw [if_neg (not_not.2 hr), if_neg hB, hs, hcb]
  show (match insert_blob (m.buckets (CMap.hash key m.num_buckets).toNat) b with
    | none => none
    | some l => _) = _
  rw [insert_blob_eq _ b hB]
  show (if m.num_entries + 1 > INT_MAX then none else some _) = _
  rw [if_neg hc]

theorem cmap_put_fail (m : cmap) (key val : List Nat)
    (hr : 0 ≤ CMap.hash key m.num_buckets ∧ CMap.hash key m.num_buckets < m.num_buckets)
    (hs : search_bucket (m.buckets (CMap.hash key m.num_buckets).toNat) key = none)
    (hcb : create_blob m key val = none) : cmap_put m key val = none := by
  unfold cmap_put
  rw [if_neg (not_not.2 hr)]
  by_cases hB : m.buckets (CMap.hash key m.num_buckets).toNat = []
  · rw [if_pos hB, hcb]
  · rw [if_neg hB, hs, hcb]

theorem update_get (m : cmap) (k v : List Nat) (n : Int) (B : List blob)
    (h1 : bucket_get B k = some v)
    (h2 : ∀ k', k' ≠ k → bucket_get B k' =
      bucket_get (m.buckets (CMap.hash k m.num_buckets).toNat) k') :
    cmap_get ⟨m.val_size, m.num_buckets, n,
        Function.update m.buckets (CMap.hash k m.num_buckets).toNat B⟩ k = some v ∧
      ∀ k', k' ≠ k →
        cmap_get ⟨m.val_size, m.num_buckets, n,
          Function.update m.buckets (CMap.hash k m.num_buckets).toNat B⟩ k' =
            cmap_get m k' := by
  refine ⟨?_, fun k' hne => ?_⟩
  · rw [cmap_get_eq]
    dsimp only
    rw [Function.update_same, h1]
  · rw [cmap_get_eq, cmap_get_eq]
    dsimp only
    by_cases hi : (CMap.hash k' m.num_buckets).toNat = (CMap.hash k m.num_buckets).toNat
    · rw [hi, Function.update_same, h2 k' hne]
    · rw [Function.update_noteq hi]

theorem cmap_put_spec (m : cmap) (k v : List Nat)
    (hb : 0 < m.num_buckets ∧ m.num_buckets ≤ INT_MAX) (hv : v.length = m.val_size)
    (hsz : 8 + k.length + 1 + m.val_size ≤ 2147483647)
    (hcnt : cmap_get m k = none → m.num_entries < INT_MAX) :
    ∃ m', cmap_put m k v = some m' ∧ cmap_get m' k = some v ∧
      (cmap_get m k = none → cmap_count m' = cmap_count m + 1) ∧
      (cmap_get m k ≠ none → cmap_count m' = cmap_count m) ∧
      ∀ k', k' ≠ k → cmap_get m' k' = cmap_get m k' := by
  have hr := hash_range k m.num_buckets hb.1 hb.2
  have htake : v.take m.val_size = v := List.take_of_length_le (le_of_eq hv)
  have hcb := create_blob_ok m k v hsz
  rw [htake] at hcb
  have hget := cmap_get_eq m k
  by_cases hB : m.buckets (CMap.hash k m.num_buckets).toNat = []
  · rw [hB, bucket_get_nil] at hget
    have hc := hcnt hget
    have hlt : ¬ (m.num_entries + 1 > INT_MAX) := by unfold INT_MAX at *; omega
    have b1 : bucket_get [(⟨k, v⟩ : blob)] k = some v := by
      rw [bucket_get_cons, if_pos rfl]
    have b2 : ∀ k', k' ≠ k → bucket_get [(⟨k, v⟩ : blob)] k' =
        bucket_get (m.buckets (CMap.hash k m.num_buckets).toNat) k' := fun k' hne => by
      rw [bucket_get_cons, if_neg (fun e => hne e.symm), hB]
    obtain ⟨g1, g2⟩ := update_get m k v (m.num_entries + 1) [⟨k, v⟩] b1 b2
    refine ⟨_, cmap_put_empty m k v _ hr hB hcb hlt, g1, ?_, ?_, g2⟩
    · intro _; rfl
    · intro h; exact absurd hget h
  · cases hs : search_bucket (m.buckets (CMap.hash k m.num_buckets).toNat) k with
    | some pos =>
      have hne : cmap_get m k ≠ none := by
        rw [hget]
        intro h
        rw [← search_none_iff, hs] at h
        exact absurd h (by simp)
      obtain ⟨p1, p2⟩ := put_val_get _ k v pos hs
      obtain ⟨g1, g2⟩ := update_get m k v m.num_entries _ p1 p2
      have hput := cmap_put_found m k v pos hr hB hs
      rw [htake] at hput
      refine ⟨_, hput, g1, ?_, ?_, g2⟩
      · intro h; exact absurd h hne
      · intro _; rfl
    | none =>
      have hnone : bucket_get (m.buckets (CMap.hash k m.num_buckets).toNat) k = none :=
        (search_none_iff _ _).1 hs
      have hg0 : cmap_get m k = none := by rw [hget, hnone]
      have hc := hcnt hg0
      have hlt : ¬ (m.num_entries + 1 > INT_MAX) := by unfold INT_MAX at *; omega
      have b1 :
          bucket_get (m.buckets (CMap.hash k m.num_buckets).toNat ++ [(⟨k, v⟩ : blob)]) k =
            some v := by
        rw [bucket_get_append, hnone]; exact if_pos rfl
      have b2 : ∀ k', k' ≠ k →
          bucket_get (m.buckets (CMap.hash k m.num_buckets).toNat ++ [(⟨k, v⟩ : blob)]) k' =
            bucket_get (m.buckets (CMap.hash k m.num_buckets).toNat) k' := fun k' hne => by
        rw [bucket_get_append]
        cases bucket_get (m.buckets (CMap.hash k m.num_buckets).toNat) k' with
        | some w => rfl
        | none => exact if_neg (fun e => hne e.symm)
      obtain ⟨g1, g2⟩ := update_get m k v (m.num_entries + 1) _ b1 b2
      refine ⟨_, cmap_put_absent m k v _ hr hB hs hcb hlt, g1, ?_, ?_, g2⟩
      · intro _; rfl
      · intro h; exact absurd hg0 h

theorem cmap_put_wide (m : cmap) (k v : List Nat)
    (hb : 0 < m.num_buckets ∧ m.num_buckets ≤ INT_MAX)
    (h1 : 2147483647 < 8 + k.length + 1 + m.val_size)
    (h2 : 8 + k.length + 1 + m.val_size < 2 ^ 64) (habs : cmap_get m k = none) :
    cmap_put m k v = none := by
  have hr := hash_range k m.num_buckets hb.1 hb.2
  have hget := cmap_get_eq m k
  rw [habs] at hget
  exact cmap_put_fail m k v hr ((search_none_iff _ _).2 hget.symm)
    (create_blob_wide m k v h1 h2)

/-- C24: `cmap_put` stores the value under the key, counts a new key once and
leaves the other keys alone, as long as the blob size `8 + strlen(key) + 1 +
val_size` fits the `int` in which `create_blob` computes it (and the entry
count can still be incremented); past that size a new key is not stored at
all. -/
theorem C24_cmap_put_then_get (m : cmap) (k v : List Nat)
    (hb : 0 < m.num_buckets ∧ m.num_buckets ≤ INT_MAX) :
    (v.length = m.val_size → 8 + k.length + 1 + m.val_size ≤ 2147483647 →
      (cmap_get m k = none → m.num_entries < INT_MAX) →
      ∃ m', cmap_put m k v = some m' ∧ cmap_get m' k = some v ∧
        (cmap_get m k = none → cmap_count m' = cmap_count m + 1) ∧
        (cmap_get m k ≠ none → cmap_count m' = cmap_count m) ∧
        ∀ k', k' ≠ k → cmap_get m' k' = cmap_get m k') ∧
    (2147483647 < 8 + k.length + 1 + m.val_size →
      8 + k.length + 1 + m.val_size < 2 ^ 64 → cmap_get m k = none →
      cmap_put m k v = none) :=
  ⟨cmap_put_spec m k v hb, cmap_put_wide m k v hb⟩

theorem ex_map_get : cmap_get ex_map [107] = none := by decide

theorem ex_wide_get : cmap_get ex_wide [107] = none := by decide

theorem C24_witness :
    (∃ m', cmap_put ex_map [107] [1, 0, 0, 0] = some m' ∧
      cmap_get m' [107] = some [1, 0, 0, 0] ∧ cmap_count m' = 1) ∧
    cmap_put ex_wide [107] [] = none := by
  constructor
  · obtain ⟨m', h1, h2, h3, _⟩ :=
      (C24_cmap_put_then_get ex_map [107] [1, 0, 0, 0] (by decide)).1 rfl (by decide)
        (fun _ => by decide)
    exact ⟨m', h1, h2, h3 ex_map_get⟩
  · exact (C24_cmap_put_then_get ex_wide [107] [] (by decide)).2 (by decide) (by decide)
      ex_wide_get

end CMap

namespace CVec

theorem to_size_nat (j : Nat) (h : j < 2 ^ 64) : to_size (j : Int) = j := by
  unfold to_size
  have : ((j : Int) % 2 ^ 64) = ((j % 2 ^ 64 : Nat) : Int) := by norm_num
  rw [this, Int.toNat_natCast, Nat.mod_eq_of_lt h]

theorem cvec_nth_ok (v : cvector) (j : Nat) (k : Int) (hk : k = j)
    (hj : (j : Int) < v.num_elems) (hsz : j * v.elem_size < 2 ^ 64) (h64 : j < 2 ^ 64) :
    cvec_nth v k = some (j * v.elem_size) := by
  subst hk
  unfold cvec_nth get_elem_addr
  rw [if_pos ⟨by omega, hj⟩, to_size_nat j h64, Nat.mod_eq_of_lt hsz]

theorem set_num_elems_ok (v : cvector) (n : Int) (h1 : - INT_MAX - 1 ≤ n) (h2 : n ≤ INT_MAX) :
    set_num_elems v n = some ⟨v.elem_size, v.cap_hint, v.capacity, n, v.alloc, v.elems⟩ := by
  unfold set_num_elems
  rw [if_neg (by omega)]

theorem memcpy_ok (v : cvector) (dest : Nat) (src : List Nat) (n : Nat)
    (h : dest + n ≤ v.alloc) :
    memcpy v dest src n = some ⟨v.elem_size, v.cap_hint, v.capacity, v.num_elems, v.alloc,
      fun a => if dest ≤ a ∧ a < dest + n then src.getD (a - dest) 0 else v.elems a⟩ := by
  unfold memcpy
  rw [if_pos h]

theorem memmove_ok (v : cvector) (dest src n : Nat) (h1 : dest + n ≤ v.alloc)
    (h2 : src + n ≤ v.alloc) :
    memmove v dest src n = some ⟨v.elem_size, v.cap_hint, v.capacity, v.num_elems, v.alloc,
      fun a => if dest ≤ a ∧ a < dest + n then v.elems (a - dest + src) else v.elems a⟩ := by
  unfold memmove
  rw [if_pos ⟨h1, h2⟩]

/-- Facts about the offsets of a well-formed vector with `n` of `c` elements. -/
theorem offsets (v : cvector) (hw : WF v) (n c : Nat) (hn : v.num_elems = n)
    (hc : v.capacity = c) :
    n ≤ c ∧ c ≤ 2147483647 ∧ v.alloc = c * v.elem_size ∧
      ∀ j, j ≤ c → j * v.elem_size ≤ v.alloc ∧ j * v.elem_size < 2 ^ 64 ∧ j < 2 ^ 64 := by
  have h1 := hw.num_hi
  have h2 := hw.cap_le
  have h3 := hw.size
  have h4 := hw.room
  unfold INT_MAX at h2
  rw [hc] at h1 h2 h3
  rw [hn] at h1
  rw [Int.toNat_natCast] at h3
  have hnc : n ≤ c := by exact_mod_cast h1
  have hc2 : c ≤ 2147483647 := by exact_mod_cast h2
  refine ⟨hnc, hc2, h3, fun j hj => ?_⟩
  have := Nat.mul_le_mul_right v.elem_size hj
  omega

/-- `cvec_insert` on a vector that has room for one more element. -/
theorem insert_room (fresh : Option (Nat → Nat)) (v : cvector) (hw : WF v) (elem : List Nat)
    (n c i : Nat) (hn : v.num_elems = n) (hc : v.capacity = c) (hnc : n < c) (hi : i ≤ n) :
    cvec_insert fresh v elem i =
      some ⟨v.elem_size, v.cap_hint, v.capacity, n + 1, v.alloc,
        inserted v.elems v.elem_size elem i n⟩ := by
  obtain ⟨o1, o2, o3, o4⟩ := offsets v hw n c hn hc
  unfold cvec_insert
  rw [if_neg (by rw [hn]; omega), if_neg (by rw [hn, hc]; omega), Option.some_bind]
  have hsn := set_num_elems_ok v (v.num_elems + 1) (by unfold INT_MAX; rw [hn]; omega)
    (by unfold INT_MAX; rw [hn]; omega)
  have hmul : (i + 1) * v.elem_size = i * v.elem_size + v.elem_size := Nat.succ_mul _ _
  have hmuln : (n + 1) * v.elem_size = n * v.elem_size + v.elem_size := Nat.succ_mul _ _
  have hin := Nat.mul_le_mul_right v.elem_size hi
  by_cases hin2 : i = n
  · subst hin2
    rw [if_pos hn.symm]
    unfold cvec_append
    rw [if_neg (by rw [hn, hc]; omega), Option.some_bind, hsn, Option.some_bind]
    have hnth := cvec_nth_ok
      ⟨v.elem_size, v.cap_hint, v.capacity, v.num_elems + 1, v.alloc, v.elems⟩ i
      (v.num_elems + 1 - 1) (by rw [hn]; omega) (by show (i : Int) < v.num_elems + 1; omega)
      (o4 i (by omega)).2.1 (o4 i (by omega)).2.2
    have hb := (o4 (i + 1) (by omega)).1
    rw [hnth, Option.some_bind,
      memcpy_ok _ _ _ _ (by show i * v.elem_size + v.elem_size ≤ v.alloc; omega)]
    rw [hn]
    congr 2
    funext a
    unfold inserted
    by_cases ha : i * v.elem_size ≤ a ∧ a < i * v.elem_size + v.elem_size
    · rw [if_pos ha, if_pos ha]
    · rw [if_neg ha, if_neg ha, if_neg (by omega)]
  · have hlt : i < n := by omega
    rw [if_neg (by rw [hn]; omega)]
    unfold shift_elems
    have hsrc := cvec_nth_ok v i i rfl (by rw [hn]; omega) (o4 i (by omega)).2.1
      (o4 i (by omega)).2.2
    have hlast := cvec_nth_ok v (n - 1) (v.num_elems - 1) (by rw [hn]; omega)
      (by rw [hn]; omega) (o4 (n - 1) (by omega)).2.1 (o4 (n - 1) (by omega)).2.2
    have hdest := cvec_nth_ok
      ⟨v.elem_size, v.cap_hint, v.capacity, v.num_elems + 1, v.alloc, v.elems⟩ (i + 1)
      ((i : Int) + 1) (by omega) (by show ((i + 1 : Nat) : Int) < v.num_elems + 1; omega)
      (o4 (i + 1) (by omega)).2.1 (o4 (i + 1) (by omega)).2.2
    have hn1 : (n - 1) * v.elem_size + v.elem_size = n * v.elem_size := by
      have : n - 1 + 1 = n := by omega
      rw [← Nat.succ_mul, Nat.succ_eq_add_one, this]
    have hbytes : to_size ((((n - 1) * v.elem_size : Nat) : Int) + v.elem_size -
        ((i * v.elem_size : Nat) : Int)) = n * v.elem_size - i * v.elem_size := by
      have e : (((n - 1) * v.elem_size : Nat) : Int) + v.elem_size -
          ((i * v.elem_size : Nat) : Int) =
            ((n * v.elem_size - i * v.elem_size : Nat) : Int) := by omega
      rw [e, to_size_nat _ (by have := (o4 n (by omega)).2.1; omega)]
    have hbn := (o4 (n + 1) (by omega)).1
    rw [hsrc, Option.some_bind, hlast, Option.some_bind]
    simp only [if_true]
    rw [hsn, Option.some_bind, hdest, Option.some_bind, hbytes,
      memmove_ok _ _ _ _
        (by show (i + 1) * v.elem_size + (n * v.elem_size - i * v.elem_size) ≤ v.alloc; omega)
        (by show i * v.elem_size + (n * v.elem_size - i * v.elem_size) ≤ v.alloc; omega),
      Option.some_bind]
    have hnth := cvec_nth_ok
      ⟨v.elem_size, v.cap_hint, v.capacity, v.num_elems + 1, v.alloc,
        fun a => if (i + 1) * v.elem_size ≤ a ∧
            a < (i + 1) * v.elem_size + (n * v.elem_size - i * v.elem_size) then
          v.elems (a - (i + 1) * v.elem_size + i * v.elem_size) else v.elems a⟩ i i rfl
      (by show (i : Int) < v.num_elems + 1; omega) (o4 i (by omega)).2.1 (o4 i (by omega)).2.2
    have hb := (o4 (i + 1) (by omega)).1
    rw [hnth, Option.some_bind,
      memcpy_ok _ _ _ _ (by show i * v.elem_size + v.elem_size ≤ v.alloc; omega)]
    rw [hn]
    congr 2
    funext a
    unfold inserted
    by_cases ha : i * v.elem_size ≤ a ∧ a < i * v.elem_size + v.elem_size
    · rw [if_pos ha, if_pos ha]
    · rw [if_neg ha, if_neg ha]
      show (if (i + 1) * v.elem_size ≤ a ∧
          a < (i + 1) * v.elem_size + (n * v.elem_size - i * v.elem_size) then
        v.elems (a - (i + 1) * v.elem_size + i * v.elem_size) else v.elems a) = _
      by_cases ha2 : (i + 1) * v.elem_size ≤ a ∧ a < (n + 1) * v.elem_size
      · rw [if_pos ha2, if_pos (by omega)]
        congr 1
        omega
      · rw [if_neg ha2, if_neg (by omega)]

theorem nth_value_eq (v : cvector) (j : Nat) (hj : (j : Int) < v.num_elems)
    (hsz : j * v.elem_size < 2 ^ 64) (h64 : j < 2 ^ 64) :
    nth_value v j =
      some ((List.range v.elem_size).map fun k => v.elems (j * v.elem_size + k)) := by
  unfold nth_value
  rw [cvec_nth_ok v j j rfl hj hsz h64, Option.some_bind]

theorem map_getD_range (x : List Nat) :
    (List.range x.length).map (fun k => x.getD k 0) = x := by
  apply List.ext_getElem
  · simp
  · intro k h1 h2
    simp only [List.getElem_map, List.getElem_range]
    rw [List.getD_eq_getElem _ _ h2]

/-- The elements of the vector after the insertion, read from the buffer. -/
theorem insert_post (v : cvector) (hw : WF v) (x : List Nat) (n c i : Nat)
    (hn : v.num_elems = n) (hc : v.capacity = c) (hnc : n < c) (hi : i ≤ n)
    (hx : x.length = v.elem_size) (e0 : Nat → Nat)
    (he : ∀ a, a < n * v.elem_size → v.elems a = e0 a) :
    nth_value ⟨v.elem_size, v.cap_hint, v.capacity, n + 1, v.alloc,
        inserted v.elems v.elem_size x i n⟩ i = some x ∧
      (∀ j : Nat, j < i →
        nth_value ⟨v.elem_size, v.cap_hint, v.capacity, n + 1, v.alloc,
          inserted v.elems v.elem_size x i n⟩ j =
          some ((List.range v.elem_size).map fun k => e0 (j * v.elem_size + k))) ∧
      (∀ j : Nat, i ≤ j → j < n →
        nth_value ⟨v.elem_size, v.cap_hint, v.capacity, n + 1, v.alloc,
          inserted v.elems v.elem_size x i n⟩ ((j : Int) + 1) =
          some ((List.range v.elem_size).map fun k => e0 (j * v.elem_size + k))) := by
  obtain ⟨o1, o2, o3, o4⟩ := offsets v hw n c hn hc
  have key : ∀ j : Nat, j ≤ n →
      nth_value ⟨v.elem_size, v.cap_hint, v.capacity, n + 1, v.alloc,
          inserted v.elems v.elem_size x i n⟩ j =
        some ((List.range v.elem_size).map
          fun k => inserted v.elems v.elem_size x i n (j * v.elem_size + k)) := by
    intro j hj
    exact nth_value_eq _ j (by show (j : Int) < (n : Int) + 1; omega)
      (o4 j (by omega)).2.1 (o4 j (by omega)).2.2
  have hmul : ∀ j, (j + 1) * v.elem_size = j * v.elem_size + v.elem_size :=
    fun j => Nat.succ_mul _ _
  refine ⟨?_, fun j hj => ?_, fun j hj1 hj2 => ?_⟩
  · rw [key i hi]
    congr 1
    rw [← hx]
    conv_rhs => rw [← map_getD_range x]
    apply List.map_congr_left
    intro k hk
    have hk2 : k < x.length := List.mem_range.1 hk
    unfold inserted
    rw [if_pos (by omega)]
    congr 1
    omega
  · rw [key j (by omega)]
    congr 1
    apply List.map_congr_left
    intro k hk
    have hk2 : k < v.elem_size := List.mem_range.1 hk
    have h1 := Nat.mul_le_mul_right v.elem_size (by omega : j + 1 ≤ i)
    have h2 := Nat.mul_le_mul_right v.elem_size (by omega : j + 1 ≤ n)
    have h3 := hmul j
    have h4 := hmul i
    unfold inserted
    rw [if_neg (by omega), if_neg (by omega)]
    exact he _ (by omega)
  · have e : ((j : Int) + 1) = ((j + 1 : Nat) : Int) := by omega
    rw [e, key (j + 1) (by omega)]
    congr 1
    apply List.map_congr_left
    intro k hk
    have hk2 : k < v.elem_size := List.mem_range.1 hk
    have h1 := Nat.mul_le_mul_right v.elem_size (by omega : i + 1 ≤ j + 1)
    have h2 := Nat.mul_le_mul_right v.elem_size (by omega : j + 1 + 1 ≤ n + 1)
    have h2' := Nat.mul_le_mul_right v.elem_size (by omega : j + 1 ≤ n)
    have h3 := hmul j
    have h4 := hmul i
    have h5 := hmul (j + 1)
    unfold inserted
    rw [if_neg (by omega), if_pos (by omega)]
    have : (j + 1) * v.elem_size + k - v.elem_size = j * v.elem_size + k := by omega
    rw [this]
    exact he _ (by omega)

theorem grow_ok (junk : Nat → Nat) (v : cvector) (hw : WF v) (c : Nat)
    (hc : v.capacity = c) (h2 : 2 * v.capacity ≤ INT_MAX) (hr : 2 * v.alloc < 2 ^ 63) :
    grow (some junk) v = some ⟨v.elem_size, v.cap_hint, ((2 * c : Nat) : Int), v.num_elems,
      2 * c * v.elem_size,
      fun a => if a < v.alloc ∧ a < 2 * c * v.elem_size then v.elems a else junk a⟩ := by
  have h3 := hw.size
  have h0 := hw.cap_pos
  rw [hc, Int.toNat_natCast] at h3
  unfold grow
  unfold INT_MAX at *
  rw [if_neg (by omega)]
  have e1 : 2 * v.capacity = ((2 * c : Nat) : Int) := by rw [hc]; omega
  have e2 : to_size ((2 * c : Nat) : Int) = 2 * c := to_size_nat _ (by rw [hc] at h2; omega)
  have e3 : 2 * c * v.elem_size = 2 * v.alloc := by rw [h3, Nat.mul_assoc]
  have e4 : (2 * c * v.elem_size) % 2 ^ 64 = 2 * c * v.elem_size :=
    Nat.mod_eq_of_lt (by omega)
  show some (cvector.mk _ _ _ _ _ _) = _
  rw [e1, e2, e4]

theorem grow_overflow (fresh : Option (Nat → Nat)) (v : cvector)
    (h : 2 * v.capacity > INT_MAX) : grow fresh v = none := by
  unfold grow
  rw [if_pos (Or.inl h)]

theorem insert_overflow (fresh : Option (Nat → Nat)) (v : cvector) (x : List Nat) (i : Int)
    (hf : v.num_elems = v.capacity) (h : 2 * v.capacity > INT_MAX) :
    cvec_insert fresh v x i = none := by
  unfold cvec_insert
  by_cases hi : ¬ (i ≥ 0 ∧ i ≤ v.num_elems)
  · rw [if_pos hi]
  · rw [if_neg hi, if_pos hf, grow_overflow fresh v h]
    rfl

/-- `cvec_insert` on a well-formed vector: with room, or when the doubling of
a full vector succeeds. -/
theorem insert_spec (fresh : Option (Nat → Nat)) (v : cvector) (hw : WF v) (x : List Nat)
    (n i : Nat) (hn : v.num_elems = n) (hi : i ≤ n) (hx : x.length = v.elem_size)
    (hfull : v.num_elems = v.capacity →
      2 * v.capacity ≤ INT_MAX ∧ 2 * v.alloc < 2 ^ 63 ∧ fresh ≠ none) :
    ∃ v', cvec_insert fresh v x i = some v' ∧ cvec_count v' = n + 1 ∧
      nth_value v' i = some x ∧
      (∀ j : Nat, j < i → nth_value v' j = nth_value v j ∧ nth_value v j ≠ none) ∧
      (∀ j : Nat, i ≤ j → j < n →
        nth_value v' ((j : Int) + 1) = nth_value v j ∧ nth_value v j ≠ none) := by
  obtain ⟨c, hc⟩ := Int.eq_ofNat_of_zero_le (le_of_lt hw.cap_pos)
  obtain ⟨o1, o2, o3, o4⟩ := offsets v hw n c hn hc
  have hold : ∀ j : Nat, j < n → nth_value v j =
      some ((List.range v.elem_size).map fun k => v.elems (j * v.elem_size + k)) :=
    fun j hj => nth_value_eq v j (by rw [hn]; omega) (o4 j (by omega)).2.1
      (o4 j (by omega)).2.2
  by_cases hf : v.num_elems = v.capacity
  · obtain ⟨f1, f2, f3⟩ := hfull hf
    obtain ⟨junk, rfl⟩ : ∃ junk, fresh = some junk := by
      cases fresh with
      | none => exact absurd rfl f3
      | some j => exact ⟨j, rfl⟩
    have hg := grow_ok junk v hw c hc f1 f2
    have hcpos := hw.cap_pos
    have hes := hw.es_pos
    have hnc : n = c := by rw [hn, hc] at hf; exact_mod_cast hf
    have e3 : 2 * c * v.elem_size = 2 * v.alloc := by rw [o3, Nat.mul_assoc]
    have hw1 : WF ⟨v.elem_size, v.cap_hint, ((2 * c : Nat) : Int), v.num_elems,
        2 * c * v.elem_size,
        fun a => if a < v.alloc ∧ a < 2 * c * v.elem_size then v.elems a else junk a⟩ := by
      refine ⟨hes, ?_, ?_, hw.num_lo, ?_, ?_, ?_⟩
      · show (0 : Int) < ((2 * c : Nat) : Int); rw [hc] at hcpos; omega
      · show ((2 * c : Nat) : Int) ≤ INT_MAX; rw [hc] at f1; omega
      · show v.num_elems ≤ ((2 * c : Nat) : Int); rw [hn]; omega
      · show 2 * c * v.elem_size = (((2 * c : Nat) : Int)).toNat * v.elem_size
        rw [Int.toNat_natCast]
      · show 2 * c * v.elem_size < 2 ^ 63; omega
    have hcne : c ≠ 0 := by rw [hc] at hcpos; omega
    have hins := insert_room (some junk) _ hw1 x n (2 * c) i hn rfl (by omega) hi
    have hcall : cvec_insert (some junk) v x i = cvec_insert (some junk)
        ⟨v.elem_size, v.cap_hint, ((2 * c : Nat) : Int), v.num_elems, 2 * c * v.elem_size,
          fun a => if a < v.alloc ∧ a < 2 * c * v.elem_size then v.elems a else junk a⟩
        x i := by
      have a1 : ¬ ¬ ((i : Int) ≥ 0 ∧ (i : Int) ≤ v.num_elems) := by rw [hn]; omega
      have a2 : ¬ (v.num_elems = ((2 * c : Nat) : Int)) := by rw [hn]; omega
      conv_lhs => rw [cvec_insert, if_neg a1, if_pos hf, hg, Option.some_bind]
      conv_rhs => rw [cvec_insert, if_neg a1, if_neg a2, Option.some_bind]
    obtain ⟨p1, p2, p3⟩ := insert_post _ hw1 x n (2 * c) i hn rfl (by omega) hi hx v.elems
      (fun a ha => by
        have := (o4 n o1).1
        have ha' : a < n * v.elem_size := ha
        show (if a < v.alloc ∧ a < 2 * c * v.elem_size then v.elems a else junk a) = _
        rw [if_pos (by omega)])
    refine ⟨_, hcall.trans hins, rfl, p1, fun j hj => ?_, fun j hj1 hj2 => ?_⟩
    · rw [hold j (by omega)]
      exact ⟨p2 j hj, by simp⟩
    · rw [hold j hj2]
      exact ⟨p3 j hj1 hj2, by simp⟩
  · have hnc : n < c := by
      have : n ≠ c := fun e => hf (by rw [hn, hc, e])
      omega
    have hins := insert_room fresh v hw x n c i hn hc hnc hi
    obtain ⟨p1, p2, p3⟩ := insert_post v hw x n c i hn hc hnc hi hx v.elems (fun _ _ => rfl)
    refine ⟨_, hins, rfl, p1, fun j hj => ?_, fun j hj1 hj2 => ?_⟩
    · rw [hold j (by omega)]
      exact ⟨p2 j hj, by simp⟩
    · rw [hold j hj2]
      exact ⟨p3 j hj1 hj2, by simp⟩

theorem ex_vec_wf : WF ex_vec :=
  ⟨by decide, by decide, by decide, by decide, by decide, by decide, by decide⟩

theorem ex_big_wf : WF ex_big :=
  ⟨by decide, by decide, by decide, by decide, by decide, by decide, by decide⟩

/-- C25: `cvec_insert` puts the element at the index, keeps the elements before
it and moves the others up by one, also when the vector is full and the
doubling succeeds; but a full vector whose doubled capacity does not fit an
`int` (capacity 2^30 and more) cannot take the element. -/
theorem C25_cvec_insert_shifts_unless_doubling_overflows (fresh : Option (Nat → Nat))
    (v : cvector) (hw : WF v) (x : List Nat) (n i : Nat) (hn : v.num_elems = n)
    (hi : i ≤ n) (hx : x.length = v.elem_size) :
    ((v.num_elems = v.capacity →
        2 * v.capacity ≤ INT_MAX ∧ 2 * v.alloc < 2 ^ 63 ∧ fresh ≠ none) →
      ∃ v', cvec_insert fresh v x i = some v' ∧ cvec_count v' = n + 1 ∧
        nth_value v' i = some x ∧
        (∀ j : Nat, j < i → nth_value v' j = nth_value v j ∧ nth_value v j ≠ none) ∧
        (∀ j : Nat, i ≤ j → j < n →
          nth_value v' ((j : Int) + 1) = nth_value v j ∧ nth_value v j ≠ none)) ∧
    (v.num_elems = v.capacity → 2 * v.capacity > INT_MAX →
      cvec_insert fresh v x i = none) :=
  ⟨insert_spec fresh v hw x n i hn hi hx,
    fun hf h => insert_overflow fresh v x i hf h⟩

theorem C25_witness :
    (∃ v', cvec_insert (some fun _ => 0) ex_vec [99] 2 = some v' ∧ cvec_count v' = 5 ∧
      nth_value v' 2 = some [99] ∧ nth_value v' 1 = some [11] ∧
      nth_value v' 3 = some [12]) ∧
    cvec_insert none ex_big [99] 0 = none := by
  constructor
  · obtain ⟨v', h1, h2, h3, h4, h5⟩ :=
      (C25_cvec_insert_shifts_unless_doubling_overflows (some fun _ => 0) ex_vec ex_vec_wf
        [99] 4 2 rfl (by decide) rfl).1
        (fun _ => ⟨by decide, by decide, fun h => Option.noConfusion h⟩)
    refine ⟨v', h1, h2, h3, ?_, ?_⟩
    · exact (h4 1 (by decide)).1.trans (by decide)
    · exact (h5 2 (by decide) (by decide)).1.trans (by decide)
  · exact (C25_cvec_insert_shifts_unless_doubling_overflows none ex_big ex_big_wf [99]
      1073741824 0 rfl (by decide) rfl).2 rfl (by decide)

end CVec

namespace MM

/-! ## Reading the lists and the blocks of a state described by `Gen` -/

theorem Gen.walk_lists {s : Heap} {all : List Blk} {G : Blk → Prop} {L : Nat → List Nat}
    (hg : Gen s all G L) (i : Nat) (hi9 : i < 9) : free_list s i = L i := by
  have h1 := hg.hp_eq
  have hlo := hg.brk_lo
  unfold free_list
  apply list_walk_spec s.mem (L i) NULL _ _ (hg.lists i hi9)
  apply nodup_length_lt _ _ (by omega) (hg.nodup i hi9)
  intro x hx
  obtain ⟨b, _, hb2, hb3, _⟩ := hg.node i hi9 x hx
  have := hg.blk b hb2
  omega

theorem Gen.walk_blocks {s : Heap} {all : List Blk} {G : Blk → Prop} {L : Nat → List Nat}
    (hg : Gen s all G L) (ht : ∀ b, b ∈ all → TagOK s.mem b) : heap_blocks s = all := by
  have h1 := hg.hp_eq
  have h2 := hg.brk_hi
  have h3 := hg.max_lt
  have hlo := hg.brk_lo
  have hlen := Layout_length _ _ _ hg.lay
  exact (heap_walk_spec s.mem (s.mem_brk - 4) hg.epi (by omega) all s.heap_ptr s.mem_brk
    hg.lay ht (by omega)).1

theorem erase_middle (ys zs : List Nat) (r : Nat) (hnd : (ys ++ r :: zs).Nodup) :
    (ys ++ r :: zs).erase r = ys ++ zs := by
  have hr : r ∉ ys := by
    intro h
    have := List.nodup_append.1 hnd
    exact this.2.2 h (List.mem_cons_self _ _) 
  rw [List.erase_append_right _ hr, List.erase_cons_head]

/-- `find_fit` on a state with a free block that fits: the block returned is
the first fit of the scan, it leaves its list and nothing else changes in the
lists or in the chain of blocks. -/
theorem find_fit_first {s : Heap} {bs : List Blk} {L : Nat → List Nat} (hi : Inv s bs L)
    (size fuel : Nat) (hfuel : s.mem_brk ≤ fuel) (h1 : 1 ≤ size)
    (hex : ∃ b, b ∈ bs ∧ b.alloc = 0 ∧ size ≤ b.size) :
    ∃ r i ys zs t,
      find_fit fuel size s = some (r, remove_from_free_list r s) ∧
      get_free_lists_index size ≤ i ∧ i < 9 ∧ L i = ys ++ r :: zs ∧
      size ≤ get_size s.mem r ∧ (∀ y, y ∈ ys → get_size s.mem y < size) ∧
      (∀ j, get_free_lists_index size ≤ j → j < i → ∀ x, x ∈ L j → get_size s.mem x < size) ∧
      t ∈ bs ∧ t.addr = r ∧ t.alloc = 0 ∧ get_size s.mem r = t.size ∧
      get_free_lists_index t.size = i ∧
      free_list (remove_from_free_list r s) i = ys ++ zs ∧
      (∀ j, j < 9 → j ≠ i → free_list (remove_from_free_list r s) j = L j) ∧
      heap_blocks (remove_from_free_list r s) = bs ∧
      SameArena s (remove_from_free_list r s) := by
  obtain ⟨r, hr, hff, hfind⟩ := find_fit_found hi size fuel hfuel h1 hex
  rcases hff with ⟨a1, _⟩ | ⟨_, i, i1, _, i3, i4, i5⟩
  · exact absurd a1 hr
  rcases i4 with ⟨a1, _⟩ | ⟨_, f1, ys, zs, f2, f3⟩
  · exact absurd a1 hr
  have hm : r ∈ L i := by rw [f2]; simp
  obtain ⟨t, _, ht2, ht3, ht4, ht5⟩ := hi.gen.node i i3 r hm
  have htb := hi.gen.blk t ht2
  have hsz : get_size s.mem r = t.size := by
    rw [← ht3]
    exact get_size_of_tag _ _ _ _ (hi.gen.tags t ht2).1 htb.2.2.2.1 htb.2.2.2.2.1
  have hnd := Layout_nodup _ _ _ hi.gen.lay
  obtain ⟨r1, r2, r3, _, _, _⟩ := remove_neighbor hi.gen t ht2 ht4 hnd
  rw [ht3] at r1 r2 r3
  have hl := fun j hj => r1.walk_lists j hj
  refine ⟨r, i, ys, zs, t, hfind, i1, i3, f2, f1, f3, i5, ht2, ht3, ht4, hsz, ht5, ?_, ?_, ?_, r2⟩
  · rw [hl i i3]
    unfold unfile
    rw [if_pos ht5.symm, ht3, f2]
    exact erase_middle ys zs r (by rw [← f2]; exact hi.gen.nodup i i3)
  · intro j hj hne
    rw [hl j hj]
    unfold unfile
    rw [if_neg (by rw [ht5]; exact hne)]
  · exact r1.walk_blocks (fun b hb => r3 b hb (hi.gen.tags b hb))

theorem ex_alloc1 : malloc 2 40 ex_s1 = some (ex_a1.1, ex_a1.2) :=
  getD_of_isSome _ _ (by decide!)

theorem ex_alloc2 : malloc 2 24 ex_a1.2 = some (ex_a2.1, ex_a2.2) :=
  getD_of_isSome _ _ (by decide!)

theorem ex_alloc3 : malloc 2 56 ex_a2.2 = some (ex_a3.1, ex_a3.2) :=
  getD_of_isSome _ _ (by decide!)

theorem ex_alloc4 : malloc 2 24 ex_a3.2 = some (ex_a4.1, ex_a4.2) :=
  getD_of_isSome _ _ (by decide!)

theorem ex_reach_a4 : Reachable ex_a4.2 :=
  Reachable.malloc _ 2 24 _ _
    (Reachable.malloc _ 2 56 _ _
      (Reachable.malloc _ 2 24 _ _
        (Reachable.malloc _ 2 40 _ _ ex_reach1 ex_alloc1) ex_alloc2) ex_alloc3) ex_alloc4

theorem ex_blocks_a4 : heap_blocks ex_a4.2 =
    [⟨4108, 48, 1⟩, ⟨4156, 32, 1⟩, ⟨4188, 64, 1⟩, ⟨4252, 32, 1⟩, ⟨4284, 3920, 0⟩] := by
  decide!

theorem ex_reach_f1 : Reachable ex_f1 :=
  Reachable.free _ _ ex_reach_a4 (Or.inr (by decide!))

theorem ex_reach_ff : Reachable ex_ff :=
  Reachable.free _ _ ex_reach_f1 (Or.inr (by decide!))

theorem ex_blocks_ff : heap_blocks ex_ff =
    [⟨4108, 48, 0⟩, ⟨4156, 32, 1⟩, ⟨4188, 64, 0⟩, ⟨4252, 32, 1⟩, ⟨4284, 3920, 0⟩] := by
  decide!

theorem ex_lists_ff : free_list ex_ff 1 = [4188, 4108] ∧ get_size ex_ff.mem 4188 = 64 ∧
    get_size ex_ff.mem 4108 = 48 ∧ get_free_lists_index 40 = 1 ∧ ex_ff.mem_brk = 8208 := by
  decide!

theorem ex_find_ff : (find_fit 8208 40 ex_ff).map Prod.fst = some 4188 := by
  decide!

/-- C26: in a reachable state with a free block of size at least `adj`,
`find_fit adj` (with fuel for the scan) returns the first node `r` of size at
least `adj` met when the lists are scanned from index
`get_free_lists_index adj` upward, each from head to tail: the lists before
list `i` of `r` and the nodes before `r` in list `i` hold smaller blocks only.
The state returned is that of `remove_from_free_list r`: list `i` has lost
`r`, the other lists and the chain of blocks are as before. -/
theorem C26_find_fit_returns_first_fit (s : Heap) (hr : Reachable s) (adj fuel : Nat)
    (h1 : 1 ≤ adj) (hfuel : s.mem_brk ≤ fuel)
    (hex : ∃ b, b ∈ heap_blocks s ∧ b.alloc = 0 ∧ adj ≤ b.size) :
    ∃ r i ys zs,
      find_fit fuel adj s = some (r, remove_from_free_list r s) ∧
      get_free_lists_index adj ≤ i ∧ i < 9 ∧ free_list s i = ys ++ r :: zs ∧
      adj ≤ get_size s.mem r ∧ (∀ y, y ∈ ys → get_size s.mem y < adj) ∧
      (∀ j, get_free_lists_index adj ≤ j → j < i →
        ∀ x, x ∈ free_list s j → get_size s.mem x < adj) ∧
      (⟨r, get_size s.mem r, 0⟩ : Blk) ∈ heap_blocks s ∧
      get_free_lists_index (get_size s.mem r) = i ∧
      free_list (remove_from_free_list r s) i = ys ++ zs ∧
      (∀ j, j < 9 → j ≠ i → free_list (remove_from_free_list r s) j = free_list s j) ∧
      heap_blocks (remove_from_free_list r s) = heap_blocks s := by
  obtain ⟨L, hi, hL⟩ := hr.desc
  obtain ⟨r, i, ys, zs, t, f1, f2, f3, f4, f5, f6, f7, f8, f9, f10, f11, f12, f13, f14, f15,
    _⟩ := find_fit_first hi adj fuel hfuel h1 hex
  refine ⟨r, i, ys, zs, f1, f2, f3, by rw [hL i f3]; exact f4, f5, f6, ?_, ?_, ?_, f13, ?_,
    f15⟩
  · intro j hj1 hj2 x hx
    rw [hL j (by omega)] at hx
    exact f7 j hj1 hj2 x hx
  · have e : (⟨r, get_size s.mem r, 0⟩ : Blk) = t := by
      rw [f11, ← f9, ← f10]
    rw [e]; exact f8
  · rw [f11]; exact f12
  · intro j hj hne
    rw [f14 j hj hne, hL j hj]

theorem C26_witness :
    (∃ r i ys zs,
      find_fit 8208 40 ex_ff = some (r, remove_from_free_list r ex_ff) ∧
      get_free_lists_index 40 ≤ i ∧ i < 9 ∧ free_list ex_ff i = ys ++ r :: zs ∧
      40 ≤ get_size ex_ff.mem r ∧ (∀ y, y ∈ ys → get_size ex_ff.mem y < 40) ∧
      (∀ j, get_free_lists_index 40 ≤ j → j < i →
        ∀ x, x ∈ free_list ex_ff j → get_size ex_ff.mem x < 40) ∧
      (⟨r, get_size ex_ff.mem r, 0⟩ : Blk) ∈ heap_blocks ex_ff ∧
      get_free_lists_index (get_size ex_ff.mem r) = i ∧
      free_list (remove_from_free_list r ex_ff) i = ys ++ zs ∧
      (∀ j, j < 9 → j ≠ i →
        free_list (remove_from_free_list r ex_ff) j = free_list ex_ff j) ∧
      heap_blocks (remove_from_free_list r ex_ff) = heap_blocks ex_ff) ∧
    (find_fit 8208 40 ex_ff).map Prod.fst = some 4188 ∧
    free_list ex_ff 1 = [4188, 4108] ∧ get_size ex_ff.mem 4188 = 64 ∧
    get_size ex_ff.mem 4108 = 48 :=
  ⟨C26_find_fit_returns_first_fit ex_ff ex_reach_ff 40 8208 (by decide)
      (by rw [ex_lists_ff.2.2.2.2])
      ⟨⟨4108, 48, 0⟩, by rw [ex_blocks_ff]; decide, rfl, by decide⟩,
    ex_find_ff, ex_lists_ff.1, ex_lists_ff.2.1, ex_lists_ff.2.2.1⟩

/-- C27: `allocate` on the free block `t` that `find_fit` has taken off its
list for the adjusted size `adj`. When the remainder `t.size - adj` is at
least 24 bytes, the block at `t.addr` becomes an allocated block of size `adj`,
followed by a free block of size `t.size - adj` that is the new head of list
`get_free_lists_index (t.size - adj)`; the other lists are unchanged.
Otherwise the whole block becomes allocated with size `t.size`, and the lists
are unchanged: no free block is created. The other blocks stay as they are. -/
theorem C27_allocate_splits_or_takes_whole (s : Heap) (hr : Reachable s)
    (pre post : List Blk) (t : Blk) (adj : Nat) (hbs : heap_blocks s = pre ++ t :: post)
    (ht0 : t.alloc = 0) (a1 : 24 ≤ adj) (a2 : adj % 8 = 0) (hle : adj ≤ t.size) :
    get_size (remove_from_free_list t.addr s).mem t.addr = t.size ∧
    (24 ≤ t.size - adj →
      heap_blocks (allocate t.addr adj (remove_from_free_list t.addr s)) =
        pre ++ ⟨t.addr, adj, 1⟩ :: ⟨t.addr + adj, t.size - adj, 0⟩ :: post ∧
      TagOK (allocate t.addr adj (remove_from_free_list t.addr s)).mem ⟨t.addr, adj, 1⟩ ∧
      TagOK (allocate t.addr adj (remove_from_free_list t.addr s)).mem
        ⟨t.addr + adj, t.size - adj, 0⟩ ∧
      free_list (allocate t.addr adj (remove_from_free_list t.addr s))
          (get_free_lists_index (t.size - adj)) =
        (t.addr + adj) ::
          free_list (remove_from_free_list t.addr s) (get_free_lists_index (t.size - adj)) ∧
      ∀ i, i < 9 → i ≠ get_free_lists_index (t.size - adj) →
        free_list (allocate t.addr adj (remove_from_free_list t.addr s)) i =
          free_list (remove_from_free_list t.addr s) i) ∧
    (t.size - adj < 24 →
      heap_blocks (allocate t.addr adj (remove_from_free_list t.addr s)) =
        pre ++ ⟨t.addr, t.size, 1⟩ :: post ∧
      TagOK (allocate t.addr adj (remove_from_free_list t.addr s)).mem
        ⟨t.addr, t.size, 1⟩ ∧
      ∀ i, i < 9 →
        free_list (allocate t.addr adj (remove_from_free_list t.addr s)) i =
          free_list (remove_from_free_list t.addr s) i) := by
  obtain ⟨L, hi, hL⟩ := hr.desc
  rw [hbs] at hi
  have htall : t ∈ pre ++ t :: post := by simp
  have hnd := Layout_nodup _ _ _ hi.gen.lay
  obtain ⟨r1, _, r3, _, _, _⟩ := remove_neighbor hi.gen t htall ht0 hnd
  have htb := hi.gen.blk t htall
  have htag := r3 t htall (hi.gen.tags t htall)
  have hB : get_size (remove_from_free_list t.addr s).mem t.addr = t.size :=
    get_size_of_tag _ _ _ _ htag.1 htb.2.2.2.1 htb.2.2.2.2.1
  have hl1 := fun j hj => r1.walk_lists j hj
  obtain ⟨_, _, k3, k4⟩ := take_exact hi ht0 adj a1 a2 hle
  refine ⟨hB, fun hsp => ?_, fun hsp => ?_⟩
  · have hi' := k3 hsp
    have hw := hi'.walk
    have hidx := get_free_lists_index_lt (t.size - adj)
    refine ⟨by rw [hw.1]; simp, hi'.gen.tags _ (by simp), hi'.gen.tags _ (by simp), ?_, ?_⟩
    · rw [hw.2.2 _ hidx, hl1 _ hidx]
      unfold file
      exact if_pos rfl
    · intro i hi9 hne
      rw [hw.2.2 i hi9, hl1 i hi9]
      unfold file
      exact if_neg hne
  · have hi' := k4 (by omega)
    have hw := hi'.walk
    refine ⟨hw.1, hi'.gen.tags _ (by simp), fun i hi9 => ?_⟩
    rw [hw.2.2 i hi9, hl1 i hi9]

theorem ex_state_s1 : heap_blocks ex_s1 = [] ++ ⟨4108, 4096, 0⟩ :: [] ∧
    heap_blocks ex_ff =
      [] ++ ⟨4108, 48, 0⟩ :: [⟨4156, 32, 1⟩, ⟨4188, 64, 0⟩, ⟨4252, 32, 1⟩, ⟨4284, 3920, 0⟩] := by
  decide!

theorem C27_witness :
    (heap_blocks (allocate 4108 48 (remove_from_free_list 4108 ex_s1)) =
        [] ++ ⟨4108, 48, 1⟩ :: ⟨4108 + 48, 4096 - 48, 0⟩ :: [] ∧
      free_list (allocate 4108 48 (remove_from_free_list 4108 ex_s1))
          (get_free_lists_index (4096 - 48)) =
        (4108 + 48) ::
          free_list (remove_from_free_list 4108 ex_s1) (get_free_lists_index (4096 - 48))) ∧
    heap_blocks (allocate 4108 40 (remove_from_free_list 4108 ex_ff)) =
      [] ++ ⟨4108, 48, 1⟩ ::
        [⟨4156, 32, 1⟩, ⟨4188, 64, 0⟩, ⟨4252, 32, 1⟩, ⟨4284, 3920, 0⟩] := by
  have h1 := (C27_allocate_splits_or_takes_whole ex_s1 ex_reach1 [] [] ⟨4108, 4096, 0⟩ 48
    ex_state_s1.1 rfl (by decide) (by decide) (by decide)).2.1 (by decide)
  have h2 := (C27_allocate_splits_or_takes_whole ex_ff ex_reach_ff []
    [⟨4156, 32, 1⟩, ⟨4188, 64, 0⟩, ⟨4252, 32, 1⟩, ⟨4284, 3920, 0⟩] ⟨4108, 48, 0⟩ 40
    ex_state_s1.2 rfl (by decide) (by decide) (by decide)).2.2 (by decide)
  exact ⟨⟨h1.1, h1.2.2.2.1⟩, h2.1⟩

/-- C28: in a reachable state without a free block of size at least `adj`, and
with room in the arena for `max(adj, 4096)` more bytes, `find_fit adj` makes
one call of `extend_heap`, which calls `mem_sbrk` once, for exactly
`max(adj, 4096)` bytes; the scan that follows finds a block that fits, namely
the last block of the extended heap (the new extent, merged with the former
last block when that was free), and `find_fit` returns it: no second growth
takes place. -/
theorem C28_find_fit_grows_once (s : Heap) (hr : Reachable s) (adj fuel : Nat)
    (a1 : 24 ≤ adj) (a2 : adj % 8 = 0) (a3 : adj < 2 ^ 32)
    (hfuel : s.mem_max_addr + 2 ≤ fuel)
    (hno : ∀ b, b ∈ heap_blocks s → b.alloc = 0 → b.size < adj)
    (hfit : s.mem_brk + Nat.max adj 4096 ≤ s.mem_max_addr) :
    ∃ r s1 pre t,
      extend_heap (max adj HEAP_EXT_SIZE / WORD_SIZE) s = (r, s1) ∧
      s1.sbrk_calls = Nat.max adj 4096 :: s.sbrk_calls ∧
      s1.mem_brk = s.mem_brk + Nat.max adj 4096 ∧
      heap_blocks s1 = pre ++ [t] ∧ t.addr = r ∧ t.alloc = 0 ∧ adj ≤ t.size ∧
      (∀ c, c ∈ pre → c ∈ heap_blocks s) ∧
      find_fit fuel adj s = some (r, remove_from_free_list r s1) ∧
      (remove_from_free_list r s1).sbrk_calls = Nat.max adj 4096 :: s.sbrk_calls ∧
      (remove_from_free_list r s1).mem_brk = s.mem_brk + Nat.max adj 4096 := by
  obtain ⟨L, hi, _⟩ := hr.desc
  have hmax : max adj HEAP_EXT_SIZE = Nat.max adj 4096 := by
    rw [HEAP_EXT_SIZE_eq]; exact max_nat adj 4096 a3 (by norm_num)
  have hext : ext_bytes (max adj HEAP_EXT_SIZE / WORD_SIZE) = Nat.max adj 4096 := by
    rw [ext_bytes_exact adj a2 a3, hmax]
  obtain ⟨s1, pre, t, L1, r, g1, g2, g3, g4, g5, _, g7, g8, g9, g10⟩ :=
    find_fit_grow hi adj fuel hfuel (by omega) (by omega) a3 hno (by rw [hext]; exact hfit)
  rw [hext] at g3
  obtain ⟨t2, p1, p2, p3, p4⟩ := pick_block g2 g9 g8
  have ht2 : t2 = t := by
    rcases List.mem_append.1 p1 with h | h
    · have := hno t2 (g7 t2 h) p3
      omega
    · exact List.mem_singleton.1 h
  subst ht2
  have hnd := Layout_nodup _ _ _ g2.gen.lay
  obtain ⟨_, r2, _⟩ := remove_neighbor g2.gen t2 p1 p3 hnd
  rw [p2] at r2
  obtain ⟨_, q2, _, _, q5⟩ := r2
  obtain ⟨_, w2, _, _, w5⟩ := g3
  refine ⟨r, s1, pre, t2, by rw [← p2]; exact g1, w5, w2, g2.walk.1, p2, p3, p4, g7, g10, ?_,
    ?_⟩
  · rw [q5, w5]
  · rw [q2, w2]

theorem C28_witness :
    ∃ r s1 pre t,
      extend_heap (max 5008 HEAP_EXT_SIZE / WORD_SIZE) ex_s1 = (r, s1) ∧
      s1.sbrk_calls = Nat.max 5008 4096 :: ex_s1.sbrk_calls ∧
      s1.mem_brk = ex_s1.mem_brk + Nat.max 5008 4096 ∧
      heap_blocks s1 = pre ++ [t] ∧ t.addr = r ∧ t.alloc = 0 ∧ 5008 ≤ t.size ∧
      (∀ c, c ∈ pre → c ∈ heap_blocks ex_s1) ∧
      find_fit 1052674 5008 ex_s1 = some (r, remove_from_free_list r s1) ∧
      (remove_from_free_list r s1).sbrk_calls = Nat.max 5008 4096 :: ex_s1.sbrk_calls ∧
      (remove_from_free_list r s1).mem_brk = ex_s1.mem_brk + Nat.max 5008 4096 :=
  C28_find_fit_grows_once ex_s1 ex_reach1 5008 1052674 (by decide) (by decide) (by decide)
    (by decide!)
    (fun b hb hb0 => by
      rw [ex_state_s1.1] at hb
      rw [List.mem_singleton.1 hb]
      decide)
    (by decide!)

/-- `free` of a block whose predecessor is allocated and whose successor is
free: the two blocks become one free block that starts at the block freed; it
is pushed on the list of the class of the combined size, and the successor
has left its list. -/
theorem free_exact_AF {s : Heap} {pre post0 : List Blk} {t n : Blk} {L : Nat → List Nat}
    (hi : Inv s (pre ++ t :: n :: post0) L) (ht1 : t.alloc = 1)
    (hp : ∀ x, x ∈ pre.getLast? → x.alloc = 1) (hn : n.alloc = 0) :
    Inv (free (t.addr + 4) s) (pre ++ ⟨t.addr, t.size + n.size, 0⟩ :: post0)
        (file (unfile L n) ⟨t.addr, t.size + n.size, 0⟩) ∧
      SameArena s (free (t.addr + 4) s) ∧
      KeepAlloc (pre ++ post0) s.mem (free (t.addr + 4) s).mem := by
  obtain ⟨hg, hsz, n1, n2⟩ := open_hole hi ht1
  have htb := hole_blk hg
  have hq := hg.max_lt
  have hq2 := hg.brk_hi
  obtain ⟨s', c1, c2, c3, c4, c5⟩ := coalesce_case_AF hg hsz hp hn
  have hsub : sub64 (t.addr + 4) WORD_SIZE = t.addr := by
    rw [sub64_eq _ _ (by simp only [WORD_SIZE]; omega) (by omega)]
    simp only [WORD_SIZE]; omega
  have hfree : free (t.addr + 4) s = add_to_free_list t.addr (t.size + n.size) s' := by
    rw [free_eq (t.addr + 4) s (by simp only [NULL]; omega) t.addr s' (by rw [hsub]; exact c1),
      c3]
  obtain ⟨k1, k2⟩ := noadj_cons post0 n n2 hn
  obtain ⟨f1, f2, f3⟩ := file_hole (t := ⟨t.addr, t.size + n.size, 0⟩) c2 rfl
    (noadj_join pre post0 _ n1 k1 hp k2)
  rw [hfree]
  refine ⟨f1, c4.same_trans f2, ?_⟩
  intro c hc hc1 x hx1 hx2
  rw [f3 c hc hc1 x hx1 hx2, c5 c hc hc1 x hx1 hx2]

/-- `free` of a block between two free blocks: the three blocks become one
free block that starts at the predecessor; it is pushed on the list of the
class of the combined size, and both neighbours have left their lists. -/
theorem free_exact_FF {s : Heap} {pre0 post0 : List Blk} {p t n : Blk} {L : Nat → List Nat}
    (hi : Inv s ((pre0 ++ [p]) ++ t :: n :: post0) L) (ht1 : t.alloc = 1)
    (hp : p.alloc = 0) (hn : n.alloc = 0) :
    Inv (free (t.addr + 4) s) (pre0 ++ ⟨p.addr, t.size + (p.size + n.size), 0⟩ :: post0)
        (file (unfile (unfile L p) n) ⟨p.addr, t.size + (p.size + n.size), 0⟩) ∧
      SameArena s (free (t.addr + 4) s) ∧
      KeepAlloc (pre0 ++ post0) s.mem (free (t.addr + 4) s).mem := by
  obtain ⟨hg, hsz, n1, n2⟩ := open_hole hi ht1
  have htb := hole_blk hg
  have hq := hg.max_lt
  have hq2 := hg.brk_hi
  obtain ⟨s', c1, c2, c3, c4, c5⟩ := coalesce_case_FF hg hsz hp hn
  have hsub : sub64 (t.addr + 4) WORD_SIZE = t.addr := by
    rw [sub64_eq _ _ (by simp only [WORD_SIZE]; omega) (by omega)]
    simp only [WORD_SIZE]; omega
  have hfree : free (t.addr + 4) s =
      add_to_free_list p.addr (t.size + (p.size + n.size)) s' := by
    rw [free_eq (t.addr + 4) s (by simp only [NULL]; omega) p.addr s' (by rw [hsub]; exact c1),
      c3]
  obtain ⟨k1, k2⟩ := noadj_snoc pre0 p n1 hp
  obtain ⟨k3, k4⟩ := noadj_cons post0 n n2 hn
  obtain ⟨f1, f2, f3⟩ := file_hole (t := ⟨p.addr, t.size + (p.size + n.size), 0⟩) c2 rfl
    (noadj_join pre0 post0 _ k1 k3 k2 k4)
  rw [hfree]
  refine ⟨f1, c4.same_trans f2, ?_⟩
  intro c hc hc1 x hx1 hx2
  rw [f3 c hc hc1 x hx1 hx2, c5 c hc hc1 x hx1 hx2]

theorem coalesced_of_inv {s' : Heap} {pre post : List Blk} {m : Blk} {L : Nat → List Nat}
    (hi : Inv s' (pre ++ m :: post) (file L m)) (hm : m.alloc = 0) :
    Coalesced s' pre m post L := by
  have hw := hi.walk
  have hmem : m ∈ pre ++ m :: post := by simp
  have hbb := hi.gen.blk m hmem
  have ht := hi.gen.tags m hmem
  have hidx := get_free_lists_index_lt m.size
  have htag : make_btag m.size 0 = m.size + 0 :=
    make_btag_eq _ 0 hbb.2.2.2.1 (by norm_num) hbb.2.2.2.2.2.2.1
  unfold TagOK at ht
  rw [hm] at ht
  refine ⟨hw.1, hm, by rw [htag]; exact ht.1, by rw [htag]; exact ht.2, ?_, ?_⟩
  · rw [hw.2.2 _ hidx]
    unfold file
    exact if_pos rfl
  · intro i hi9 hne
    rw [hw.2.2 i hi9]
    unfold file
    exact if_neg hne

theorem Coalesced.lists {s' : Heap} {pre post : List Blk} {m : Blk} {L L' : Nat → List Nat}
    (h : Coalesced s' pre m post L) (hl : ∀ i, i < 9 → L i = L' i) :
    Coalesced s' pre m post L' := by
  obtain ⟨h1, h2, h3, h4, h5, h6⟩ := h
  refine ⟨h1, h2, h3, h4, ?_, fun i hi9 hne => ?_⟩
  · rw [h5, hl _ (get_free_lists_index_lt m.size)]
  · rw [h6 i hi9 hne, hl i hi9]

theorem unfile_congr {L L' : Nat → List Nat} (hl : ∀ i, i < 9 → L i = L' i) (n : Blk) :
    ∀ i, i < 9 → unfile L n i = unfile L' n i := by
  intro i hi9
  unfold unfile
  rw [hl i hi9]

/-- C29: `free(p)` for the payload pointer `p = t.addr + 4` of an allocated
block `t` in a reachable state, in the four cases of its neighbours `P`
(before) and `N` (after), a missing neighbour (Prologue or Epilogue side)
counting as allocated. The result is one free block of size `t.size` plus the
sizes of the free neighbours, starting at `P` when `P` is free and at `t`
otherwise; its header and footer hold the tag (size, free); it is the head of
the list of its size class, before the nodes that list had once the merged
neighbours had been taken out of their lists; the other lists are the former
lists without the merged neighbours. -/
theorem C29_free_coalesces_four_ways (s : Heap) (hr : Reachable s) :
    (∀ pre post t, heap_blocks s = pre ++ t :: post → t.alloc = 1 →
      (∀ x, x ∈ pre.getLast? → x.alloc = 1) → (∀ y, y ∈ post.head? → y.alloc = 1) →
      Coalesced (free (t.addr + 4) s) pre ⟨t.addr, t.size, 0⟩ post (free_list s)) ∧
    (∀ pre post0 t n, heap_blocks s = pre ++ t :: n :: post0 → t.alloc = 1 →
      (∀ x, x ∈ pre.getLast? → x.alloc = 1) → n.alloc = 0 →
      n.addr ∈ free_list s (get_free_lists_index n.size) ∧
      Coalesced (free (t.addr + 4) s) pre ⟨t.addr, t.size + n.size, 0⟩ post0
        (unfile (free_list s) n)) ∧
    (∀ pre0 post p t, heap_blocks s = pre0 ++ p :: t :: post → t.alloc = 1 →
      p.alloc = 0 → (∀ y, y ∈ post.head? → y.alloc = 1) →
      p.addr ∈ free_list s (get_free_lists_index p.size) ∧
      Coalesced (free (t.addr + 4) s) pre0 ⟨p.addr, t.size + p.size, 0⟩ post
        (unfile (free_list s) p)) ∧
    (∀ pre0 post0 p t n, heap_blocks s = pre0 ++ p :: t :: n :: post0 → t.alloc = 1 →
      p.alloc = 0 → n.alloc = 0 →
      p.addr ∈ free_list s (get_free_lists_index p.size) ∧
      n.addr ∈ free_list s (get_free_lists_index n.size) ∧
      Coalesced (free (t.addr + 4) s) pre0 ⟨p.addr, t.size + p.size + n.size, 0⟩ post0
        (unfile (unfile (free_list s) p) n)) := by
  obtain ⟨L, hi, hL⟩ := hr.desc
  have hLs : ∀ i, i < 9 → L i = free_list s i := fun i h => (hL i h).symm
  have hin : ∀ b, b ∈ heap_blocks s → b.alloc = 0 →
      b.addr ∈ free_list s (get_free_lists_index b.size) := by
    intro b hb hb0
    rw [hL _ (get_free_lists_index_lt b.size)]
    exact hi.gen.complete b hb hb0
  refine ⟨?_, ?_, ?_, ?_⟩
  · intro pre post t hbs ht1 hp hn
    rw [hbs] at hi
    exact (coalesced_of_inv (free_exact_AA hi ht1 hp hn).1 rfl).lists hLs
  · intro pre post0 t n hbs ht1 hp hn
    have hmem := hin n (by rw [hbs]; simp) hn
    rw [hbs] at hi
    exact ⟨hmem, (coalesced_of_inv (free_exact_AF hi ht1 hp hn).1 rfl).lists
      (unfile_congr hLs n)⟩
  · intro pre0 post p t hbs ht1 hp hn
    have hmem := hin p (by rw [hbs]; simp) hp
    have e : pre0 ++ p :: t :: post = (pre0 ++ [p]) ++ t :: post := by simp
    rw [hbs, e] at hi
    exact ⟨hmem, (coalesced_of_inv (free_exact_FA hi ht1 hp hn).1 rfl).lists
      (unfile_congr hLs p)⟩
  · intro pre0 post0 p t n hbs ht1 hp hn
    have hmp := hin p (by rw [hbs]; simp) hp
    have hmn := hin n (by rw [hbs]; simp) hn
    have e : pre0 ++ p :: t :: n :: post0 = (pre0 ++ [p]) ++ t :: n :: post0 := by simp
    rw [hbs, e] at hi
    have h := (coalesced_of_inv (free_exact_FF hi ht1 hp hn).1 rfl).lists
      (unfile_congr (unfile_congr hLs p) n)
    rw [← Nat.add_assoc] at h
    exact ⟨hmp, hmn, h⟩

theorem C29_witness :
    4108 ∈ free_list ex_ff (get_free_lists_index 48) ∧
    4188 ∈ free_list ex_ff (get_free_lists_index 64) ∧
    Coalesced (free (4156 + 4) ex_ff) [] ⟨4108, 32 + 48 + 64, 0⟩
      [⟨4252, 32, 1⟩, ⟨4284, 3920, 0⟩]
      (unfile (unfile (free_list ex_ff) ⟨4108, 48, 0⟩) ⟨4188, 64, 0⟩) :=
  (C29_free_coalesces_four_ways ex_ff ex_reach_ff).2.2.2 []
    [⟨4252, 32, 1⟩, ⟨4284, 3920, 0⟩] ⟨4108, 48, 0⟩ ⟨4156, 32, 1⟩ ⟨4188, 64, 0⟩
    ex_state_s1.2 rfl rfl rfl

/-! ## Exact result of `extend_heap` -/

theorem ext_bytes_small (w : Nat) (hw : w + 1 < 2 ^ 62) : ext_bytes w = 4 * (w + w % 2) := by
  unfold ext_bytes add64 mul64 WORD_SIZE
  have hp : (2 : Nat) ^ 62 = 4611686018427387904 := by norm_num
  have hq : (2 : Nat) ^ 64 = 18446744073709551616 := by norm_num
  rw [hp] at hw
  rw [hq]
  by_cases h : w % 2 ≠ 0
  · have e1 : (w + 1) % 18446744073709551616 = w + 1 := by
      apply Nat.mod_eq_of_lt
      omega
    have e2 : ((w + 1) * 4) % 18446744073709551616 = (w + 1) * 4 := by
      apply Nat.mod_eq_of_lt
      omega
    rw [if_pos h, e1, e2]
    omega
  · have e2 : (w * 4) % 18446744073709551616 = w * 4 := by
      apply Nat.mod_eq_of_lt
      omega
    rw [if_neg h, e2]
    omega

theorem grow_fields (s : Heap) (size : Nat) :
    (grow s size).mem_brk = s.mem_brk + size ∧
      (grow s size).sbrk_calls = size :: s.sbrk_calls := ⟨rfl, rfl⟩

/-- A successful `extend_heap` when the last block is allocated (or there is
no block): the new extent is the new last block, free and filed. -/
theorem extend_heap_exact_A {s : Heap} {bs : List Blk} {L : Nat → List Nat}
    (hi : Inv s bs L) (words : Nat) (h24 : 24 ≤ ext_bytes words)
    (h8 : ext_bytes words % 8 = 0)
    (hfit : s.mem_brk + ext_bytes words ≤ s.mem_max_addr)
    (hp : ∀ x, x ∈ bs.getLast? → x.alloc = 1) :
    extend_heap words s = (s.mem_brk - 4, (extend_heap words s).2) ∧
      Inv (extend_heap words s).2 (bs ++ [⟨s.mem_brk - 4, ext_bytes words, 0⟩])
        (file L ⟨s.mem_brk - 4, ext_bytes words, 0⟩) ∧
      (extend_heap words s).2.mem_brk = s.mem_brk + ext_bytes words ∧
      (extend_heap words s).2.sbrk_calls = ext_bytes words :: s.sbrk_calls := by
  obtain ⟨g1, g2, _⟩ := grow_spec hi.gen (ext_bytes words) h24 h8 hfit
  have hge := hi.gen.brk_lo
  have h2 := hi.gen.max_lt
  have h4 := hi.gen.brk_hi
  have h1 := hi.gen.hp_eq
  have e1 : sub64 s.mem_brk WORD_SIZE = s.mem_brk - 4 := by
    rw [sub64_eq _ _ (by simp only [WORD_SIZE]; omega) (by omega)]
    rfl
  have hco := coalesce_case_AA (t := ⟨s.mem_brk - 4, ext_bytes words, 0⟩) g1 g2 hp
    (fun n hn => by simp at hn)
  simp only at hco
  obtain ⟨f1, f2, _⟩ := file_hole (t := ⟨s.mem_brk - 4, ext_bytes words, 0⟩) g1 rfl
    (noadj_join bs [] _ hi.noadj List.chain'_nil hp (fun n hn => by simp at hn))
  have hext := extend_heap_ok words s hfit
  rw [e1, hco] at hext
  simp only [g2] at hext
  obtain ⟨_, b2, _, _, b5⟩ := f2
  rw [hext]
  exact ⟨rfl, f1, by rw [b2]; rfl, by rw [b5]; rfl⟩

/-- A successful `extend_heap` when the last block `p` is free: the new extent
is merged with `p`, and the merged block is the new last block, filed in the
list of its size; `p` has left its list. -/
theorem extend_heap_exact_F {s : Heap} {pre0 : List Blk} {p : Blk} {L : Nat → List Nat}
    (hi : Inv s (pre0 ++ [p]) L) (words : Nat) (h24 : 24 ≤ ext_bytes words)
    (h8 : ext_bytes words % 8 = 0)
    (hfit : s.mem_brk + ext_bytes words ≤ s.mem_max_addr) (hp : p.alloc = 0) :
    extend_heap words s = (p.addr, (extend_heap words s).2) ∧
      Inv (extend_heap words s).2 (pre0 ++ [⟨p.addr, ext_bytes words + p.size, 0⟩])
        (file (unfile L p) ⟨p.addr, ext_bytes words + p.size, 0⟩) ∧
      (extend_heap words s).2.mem_brk = s.mem_brk + ext_bytes words ∧
      (extend_heap words s).2.sbrk_calls = ext_bytes words :: s.sbrk_calls := by
  obtain ⟨g1, g2, _⟩ := grow_spec hi.gen (ext_bytes words) h24 h8 hfit
  have hge := hi.gen.brk_lo
  have h2 := hi.gen.max_lt
  have h4 := hi.gen.brk_hi
  have h1 := hi.gen.hp_eq
  have e1 : sub64 s.mem_brk WORD_SIZE = s.mem_brk - 4 := by
    rw [sub64_eq _ _ (by simp only [WORD_SIZE]; omega) (by omega)]
    rfl
  obtain ⟨s', c1, c2, c3, c4, _⟩ :=
    coalesce_case_FA (t := ⟨s.mem_brk - 4, ext_bytes words, 0⟩) g1 g2 hp
      (fun n hn => by simp at hn)
  simp only at c1 c2 c3
  obtain ⟨k1, k2⟩ := noadj_snoc pre0 p hi.noadj hp
  obtain ⟨f1, f2, _⟩ := file_hole (t := ⟨p.addr, ext_bytes words + p.size, 0⟩) c2 rfl
    (noadj_join pre0 [] _ k1 List.chain'_nil k2 (fun n hn => by simp at hn))
  have hext := extend_heap_ok words s hfit
  rw [e1, c1] at hext
  simp only [c3] at hext
  obtain ⟨_, a2, _, _, a5⟩ := c4
  obtain ⟨_, b2, _, _, b5⟩ := f2
  rw [hext]
  exact ⟨rfl, f1, by rw [b2, a2]; rfl, by rw [b5, a5]; rfl⟩

theorem ex_alloc_full : malloc 2 4080 ex_s1 = some (ex_b1.1, ex_full) :=
  getD_of_isSome _ _ (by decide!)

theorem ex_reach_full : Reachable ex_full :=
  Reachable.malloc _ 2 4080 _ _ ex_reach1 ex_alloc_full

/-- `extend_heap` in a reachable state, for a word count that makes at least
24 bytes. -/
theorem extend_heap_exact {s : Heap} (hr : Reachable s) (words : Nat)
    (h24 : 24 ≤ ext_bytes words) (h8 : ext_bytes words % 8 = 0)
    (hfit : s.mem_brk + ext_bytes words ≤ s.mem_max_addr) :
    ∃ pre t,
      extend_heap words s = (t.addr, (extend_heap words s).2) ∧ t.addr ≠ NULL ∧
      (extend_heap words s).2.sbrk_calls = ext_bytes words :: s.sbrk_calls ∧
      (extend_heap words s).2.mem_brk = s.mem_brk + ext_bytes words ∧
      get_u32 (extend_heap words s).2.mem ((extend_heap words s).2.mem_brk - 4) =
        make_btag 0 1 ∧
      heap_blocks (extend_heap words s).2 = pre ++ [t] ∧ t.alloc = 0 ∧
      t.addr + t.size = (extend_heap words s).2.mem_brk - 4 ∧
      TagOK (extend_heap words s).2.mem t ∧
      t.addr ∈ free_list (extend_heap words s).2 (get_free_lists_index t.size) ∧
      ((∀ x, x ∈ (heap_blocks s).getLast? → x.alloc = 1) →
        pre = heap_blocks s ∧ t = ⟨s.mem_brk - 4, ext_bytes words, 0⟩) ∧
      (∀ pre0 p, heap_blocks s = pre0 ++ [p] → p.alloc = 0 →
        pre = pre0 ∧ t = ⟨p.addr, ext_bytes words + p.size, 0⟩) := by
  obtain ⟨L, hi, _⟩ := hr.desc
  have fin : ∀ (pre : List Blk) (t : Blk) (L' : Nat → List Nat),
      Inv (extend_heap words s).2 (pre ++ [t]) L' → t.alloc = 0 →
      t.addr ≠ NULL ∧
        get_u32 (extend_heap words s).2.mem ((extend_heap words s).2.mem_brk - 4) =
          make_btag 0 1 ∧
        heap_blocks (extend_heap words s).2 = pre ++ [t] ∧
        t.addr + t.size = (extend_heap words s).2.mem_brk - 4 ∧
        TagOK (extend_heap words s).2.mem t ∧
        t.addr ∈ free_list (extend_heap words s).2 (get_free_lists_index t.size) := by
    intro pre t L' hi' ht0
    have hmem : t ∈ pre ++ [t] := by simp
    have hb := hi'.gen.blk t hmem
    have hw := hi'.walk
    refine ⟨by simp only [NULL]; omega, by rw [make_btag_epi]; exact hi'.gen.epi, hw.1,
      (Layout_split _ _ pre [] t hi'.gen.lay).2.1, hi'.gen.tags t hmem, ?_⟩
    rw [hw.2.2 _ (get_free_lists_index_lt t.size)]
    exact hi'.gen.complete t hmem ht0
  have hlast : ∀ pre0 (p : Blk), (pre0 ++ [p]).getLast? = some p := by
    intro pre0 p; simp
  rcases List.eq_nil_or_concat (heap_blocks s) with hnil | ⟨pre0, p, hcat⟩
  · have hp : ∀ x, x ∈ (heap_blocks s).getLast? → x.alloc = 1 := by
      intro x hx; rw [hnil] at hx; simp at hx
    obtain ⟨e1, e2, e3, e4⟩ := extend_heap_exact_A hi words h24 h8 hfit hp
    obtain ⟨f1, f2, f3, f4, f5, f6⟩ := fin _ _ _ e2 rfl
    refine ⟨heap_blocks s, ⟨s.mem_brk - 4, ext_bytes words, 0⟩, e1, f1, e4, e3, f2, f3, rfl,
      f4, f5, f6, fun _ => ⟨rfl, rfl⟩, ?_⟩
    intro pre1 p1 h1 _
    rw [hnil] at h1
    exact absurd h1 (by simp)
  · have hcat' : heap_blocks s = pre0 ++ [p] := by rw [hcat, List.concat_eq_append]
    rcases alloc_cases p (hi.gen.blk p (by rw [hcat']; simp)).2.2.2.2.1 with hp0 | hp1
    · rw [hcat'] at hi
      obtain ⟨e1, e2, e3, e4⟩ := extend_heap_exact_F hi words h24 h8 hfit hp0
      obtain ⟨f1, f2, f3, f4, f5, f6⟩ := fin _ _ _ e2 rfl
      refine ⟨pre0, ⟨p.addr, ext_bytes words + p.size, 0⟩, e1, f1, e4, e3, f2, f3, rfl,
        f4, f5, f6, ?_, ?_⟩
      · intro hp
        have := hp p (by rw [hcat', hlast]; rfl)
        rw [hp0] at this
        exact absurd this (by decide)
      · intro pre1 p1 h1 _
        rw [hcat'] at h1
        obtain ⟨a1, a2⟩ := List.append_inj' h1 rfl
        have a3 : p = p1 := by simpa using a2
        subst a3
        exact ⟨a1, rfl⟩
    · have hp : ∀ x, x ∈ (heap_blocks s).getLast? → x.alloc = 1 := by
        intro x hx
        rw [hcat', hlast] at hx
        have : p = x := by simpa using hx
        rw [← this]; exact hp1
      obtain ⟨e1, e2, e3, e4⟩ := extend_heap_exact_A hi words h24 h8 hfit hp
      obtain ⟨f1, f2, f3, f4, f5, f6⟩ := fin _ _ _ e2 rfl
      refine ⟨heap_blocks s, ⟨s.mem_brk - 4, ext_bytes words, 0⟩, e1, f1, e4, e3, f2, f3, rfl,
        f4, f5, f6, fun _ => ⟨rfl, rfl⟩, ?_⟩
      intro pre1 p1 h1 h2
      rw [hcat'] at h1
      obtain ⟨_, a2⟩ := List.append_inj' h1 rfl
      have a3 : p = p1 := by simpa using a2
      rw [← a3, hp1] at h2
      exact absurd h2 (by decide)

/-- C30, counterexample: in the reachable state whose only block is allocated,
`extend_heap 2` asks `mem_sbrk` for 8 bytes and succeeds, but the free header
written for the 8-byte block is 20 bytes long: the last 4 bytes of the new
extent hold 0 and not the Epilogue tag `make_btag 0 1 = 1`. -/
theorem C30_counterexample :
    Reachable ex_full ∧ heap_blocks ex_full = [⟨4108, 4096, 1⟩] ∧ ex_full.mem_brk = 8208 ∧
      (extend_heap 2 ex_full).1 = 8204 ∧
      (extend_heap 2 ex_full).2.sbrk_calls = 8 :: ex_full.sbrk_calls ∧
      (extend_heap 2 ex_full).2.mem_brk = 8216 ∧
      get_u32 (extend_heap 2 ex_full).2.mem ((extend_heap 2 ex_full).2.mem_brk - 4) = 0 ∧
      make_btag 0 1 = 1 :=
  ⟨ex_reach_full, by decide!⟩

/-- C30, amended: for every word count `w` of at least 5 (so that the byte
count is at least the minimum block size 24; below `2^62 - 1`, so that it does
not wrap), a successful `extend_heap w` in a reachable state asks `mem_sbrk`
once for `4 * (w rounded up to even)` bytes, the last 4 bytes of the new
extent hold the Epilogue tag, and the last block before it is a free block
with valid header and footer that is a member of the list of its size class
and that is returned; its size is the byte count when the former last block
was allocated (or missing), and the byte count plus the size of the former
last block, at whose address it starts, when that block was free. -/
theorem C30_extend_heap_appends_free_block (s : Heap) (hr : Reachable s) (w : Nat)
    (h5 : 5 ≤ w) (hw : w + 1 < 2 ^ 62)
    (hfit : s.mem_brk + 4 * (w + w % 2) ≤ s.mem_max_addr) :
    ∃ pre t,
      extend_heap w s = (t.addr, (extend_heap w s).2) ∧ t.addr ≠ NULL ∧
      (extend_heap w s).2.sbrk_calls = 4 * (w + w % 2) :: s.sbrk_calls ∧
      (extend_heap w s).2.mem_brk = s.mem_brk + 4 * (w + w % 2) ∧
      get_u32 (extend_heap w s).2.mem ((extend_heap w s).2.mem_brk - 4) = make_btag 0 1 ∧
      heap_blocks (extend_heap w s).2 = pre ++ [t] ∧ t.alloc = 0 ∧
      t.addr + t.size = (extend_heap w s).2.mem_brk - 4 ∧
      TagOK (extend_heap w s).2.mem t ∧
      t.addr ∈ free_list (extend_heap w s).2 (get_free_lists_index t.size) ∧
      ((∀ x, x ∈ (heap_blocks s).getLast? → x.alloc = 1) →
        pre = heap_blocks s ∧ t = ⟨s.mem_brk - 4, 4 * (w + w % 2), 0⟩) ∧
      (∀ pre0 p, heap_blocks s = pre0 ++ [p] → p.alloc = 0 →
        pre = pre0 ∧ t = ⟨p.addr, 4 * (w + w % 2) + p.size, 0⟩) := by
  have he := ext_bytes_small w hw
  have h := extend_heap_exact hr w (by rw [he]; omega) (by rw [he]; omega)
    (by rw [he]; exact hfit)
  rw [he] at h
  exact h

theorem C30_witness :
    ∃ pre t,
      extend_heap 6 ex_full = (t.addr, (extend_heap 6 ex_full).2) ∧ t.addr ≠ NULL ∧
      (extend_heap 6 ex_full).2.sbrk_calls = 4 * (6 + 6 % 2) :: ex_full.sbrk_calls ∧
      (extend_heap 6 ex_full).2.mem_brk = ex_full.mem_brk + 4 * (6 + 6 % 2) ∧
      get_u32 (extend_heap 6 ex_full).2.mem ((extend_heap 6 ex_full).2.mem_brk - 4) =
        make_btag 0 1 ∧
      heap_blocks (extend_heap 6 ex_full).2 = pre ++ [t] ∧ t.alloc = 0 ∧
      t.addr + t.size = (extend_heap 6 ex_full).2.mem_brk - 4 ∧
      TagOK (extend_heap 6 ex_full).2.mem t ∧
      t.addr ∈ free_list (extend_heap 6 ex_full).2 (get_free_lists_index t.size) ∧
      ((∀ x, x ∈ (heap_blocks ex_full).getLast? → x.alloc = 1) →
        pre = heap_blocks ex_full ∧ t = ⟨ex_full.mem_brk - 4, 4 * (6 + 6 % 2), 0⟩) ∧
      (∀ pre0 p, heap_blocks ex_full = pre0 ++ [p] → p.alloc = 0 →
        pre = pre0 ∧ t = ⟨p.addr, 4 * (6 + 6 % 2) + p.size, 0⟩) :=
  C30_extend_heap_appends_free_block ex_full ex_reach_full 6 (by decide) (by decide)
    (by decide!)

/-! ## `get_free_lists_index`: termination and monotonicity -/

/-- Once `index + k` reaches 8, more iterations than `k` change nothing: the
loop has stopped by itself. -/
theorem loop_fuel (k : Nat) : ∀ (x i j : Nat), 8 ≤ i + k →
    get_free_lists_index_loop (k + j) x i = get_free_lists_index_loop k x i := by
  induction k with
  | zero =>
    intro x i j h
    cases j with
    | zero => rfl
    | succ j =>
      rw [Nat.zero_add, loop_succ, if_neg (by simp only [NUM_SIZE_CLASSES]; omega)]
      rfl
  | succ k ih =>
    intro x i j h
    have e : k + 1 + j = (k + j) + 1 := by omega
    rw [e, loop_succ, loop_succ]
    by_cases hc : x ≠ 0 ∧ i < NUM_SIZE_CLASSES - 1
    · rw [if_pos hc, if_pos hc]
      exact ih _ _ _ (by omega)
    · rw [if_neg hc, if_neg hc]

/-- C39: `get_free_lists_index` is monotone on sizes from 1 on (a `size_t`),
its result lies in `0..8`, and the loop stops by itself after at most 8
iterations: more fuel than 8 iterations gives the same result. -/
theorem C39_index_monotone_and_bounded (s1 s2 : Nat) (h1 : 1 ≤ s1) (h12 : s1 ≤ s2)
    (h2 : s2 < 2 ^ 64) :
    get_free_lists_index s1 ≤ get_free_lists_index s2 ∧
      get_free_lists_index s1 ≤ 8 ∧ get_free_lists_index s2 ≤ 8 ∧
      (∀ x k, NUM_SIZE_CLASSES - 1 ≤ k →
        get_free_lists_index_loop k x 0 =
          get_free_lists_index_loop (NUM_SIZE_CLASSES - 1) x 0) := by
  have a1 := get_free_lists_index_lt s1
  have a2 := get_free_lists_index_lt s2
  refine ⟨get_free_lists_index_mono s1 s2 h1 h12 h2, by omega, by omega, ?_⟩
  intro x k hk
  have e8 : NUM_SIZE_CLASSES - 1 = 8 := rfl
  rw [e8] at hk ⊢
  obtain ⟨j, rfl⟩ : ∃ j, k = 8 + j := ⟨k - 8, by omega⟩
  exact loop_fuel 8 x 0 j (by omega)

theorem C39_witness :
    get_free_lists_index 24 ≤ get_free_lists_index 5000 ∧
      get_free_lists_index 24 ≤ 8 ∧ get_free_lists_index 5000 ≤ 8 ∧
      (∀ x k, NUM_SIZE_CLASSES - 1 ≤ k →
        get_free_lists_index_loop k x 0 =
          get_free_lists_index_loop (NUM_SIZE_CLASSES - 1) x 0) :=
  C39_index_monotone_and_bounded 24 5000 (by decide) (by decide) (by decide)

/-! ## The adjusted size -/

theorem adj_size_eq (n : Nat) (h2 : n ≤ 2147483647) :
    adj_size n = if n ≤ 16 then 24 else 8 * ((n + 15) / 8) := by
  unfold adj_size
  simp only [DWORD_SIZE, MIN_BLK_SIZE]
  by_cases h : n ≤ 16
  · rw [if_pos (by omega), if_pos h]
  · rw [if_neg (by omega), if_neg h, add64_eq _ _ (by omega), mul64_eq _ _ (by omega)]

/-- C31: for a request `n` with `1 <= n <= INT_MAX`, the adjusted size that
`malloc` passes to `find_fit` and `allocate` is
`max(24, 8 * ceil((n + 8) / 8))`; it is a multiple of 8, at least 24, at least
`n + 8`, less than `n + 16` when `n > 16`, and below `2^32`, so that the tag
made of it holds it unchanged. -/
theorem C31_adjusted_size (n : Nat) (h1 : 1 ≤ n) (h2 : n ≤ INT_MAX) :
    (∀ fuel s, malloc fuel n s =
      (find_fit fuel (adj_size n) s).map
        (fun r => (add64 r.1 WORD_SIZE, allocate r.1 (adj_size n) r.2))) ∧
    adj_size n = Nat.max 24 (8 * ((n + 8 + 7) / 8)) ∧
    adj_size n % 8 = 0 ∧ 24 ≤ adj_size n ∧ n + 8 ≤ adj_size n ∧
    (16 < n → adj_size n < n + 16) ∧ adj_size n < 2 ^ 32 ∧
    make_btag (adj_size n) 1 = adj_size n + 1 ∧ make_btag (adj_size n) 0 = adj_size n := by
  rw [INT_MAX_eq] at h2
  have he := adj_size_eq n h2
  have hv : ¬ (n = 0 ∨ n > MAX_BLK_SIZE) := by rw [MAX_BLK_SIZE_eq]; omega
  have hlt : adj_size n < 2 ^ 32 := by rw [he]; split_ifs <;> omega
  have h8 : adj_size n % 8 = 0 := by rw [he]; split_ifs <;> omega
  refine ⟨?_, ?_, h8, ?_, ?_, ?_, hlt, make_btag_eq _ 1 h8 (by norm_num) hlt,
    make_btag_eq _ 0 h8 (by norm_num) hlt⟩
  · intro fuel s
    cases hf : find_fit fuel (adj_size n) s with
    | none => rw [malloc_none fuel n s hv hf]; rfl
    | some r => rw [malloc_some fuel n s hv r.1 r.2 hf]; rfl
  · rw [he]
    by_cases h : n ≤ 16
    · rw [if_pos h]
      exact (Nat.max_eq_left (by omega)).symm
    · rw [if_neg h]
      have : n + 8 + 7 = n + 15 := by omega
      rw [this]
      exact (Nat.max_eq_right (by omega)).symm
  · rw [he]; split_ifs <;> omega
  · rw [he]; split_ifs <;> omega
  · intro h; rw [he, if_neg (by omega)]; omega

theorem C31_witness :
    (∀ fuel s, malloc fuel 100 s =
      (find_fit fuel (adj_size 100) s).map
        (fun r => (add64 r.1 WORD_SIZE, allocate r.1 (adj_size 100) r.2))) ∧
    adj_size 100 = Nat.max 24 (8 * ((100 + 8 + 7) / 8)) ∧
    adj_size 100 % 8 = 0 ∧ 24 ≤ adj_size 100 ∧ 100 + 8 ≤ adj_size 100 ∧
    (16 < 100 → adj_size 100 < 100 + 16) ∧ adj_size 100 < 2 ^ 32 ∧
    make_btag (adj_size 100) 1 = adj_size 100 + 1 ∧
    make_btag (adj_size 100) 0 = adj_size 100 :=
  C31_adjusted_size 100 (by decide) (by decide)

/-! ## Block sizes -/

/-- C32: in every reachable state, every block read on the walk from the
Prologue to the Epilogue, free or allocated, has a size (as read from its
header, and as held by its footer) that is a multiple of 8 and at least
`MIN_BLK_SIZE = 3 * DWORD_SIZE = 24`. -/
theorem C32_block_sizes (s : Heap) (hr : Reachable s) (b : Blk) (hb : b ∈ heap_blocks s) :
    b.size % 8 = 0 ∧ MIN_BLK_SIZE ≤ b.size ∧ MIN_BLK_SIZE = 3 * DWORD_SIZE ∧
      MIN_BLK_SIZE = 24 ∧ get_size s.mem b.addr = b.size ∧
      get_size s.mem (b.addr + b.size - 4) = b.size := by
  obtain ⟨L, hi, _⟩ := hr.desc
  have ht := hi.gen.tags b hb
  have hbb := hi.gen.blk b hb
  refine ⟨hbb.2.2.2.1, by rw [MIN_BLK_SIZE_eq]; exact hbb.2.2.1, rfl, rfl,
    get_size_of_tag _ _ _ _ ht.1 hbb.2.2.2.1 hbb.2.2.2.2.1,
    get_size_of_tag _ _ _ _ ht.2 hbb.2.2.2.1 hbb.2.2.2.2.1⟩

theorem C32_witness :
    (3920 : Nat) % 8 = 0 ∧ MIN_BLK_SIZE ≤ 3920 ∧ MIN_BLK_SIZE = 3 * DWORD_SIZE ∧
      MIN_BLK_SIZE = 24 ∧ get_size ex_ff.mem 4284 = 3920 ∧
      get_size ex_ff.mem (4284 + 3920 - 4) = 3920 :=
  C32_block_sizes ex_ff ex_reach_ff ⟨4284, 3920, 0⟩ (by rw [ex_blocks_ff]; decide)

/-! ## Completeness of the search -/

/-- C37: in a reachable state with a free block of size at least `adj`,
`find_fit adj` returns a free block of the heap of size at least `adj`, and
`mem_sbrk` is not called: the log of its calls and the end of the arena are
unchanged. The lists below index `get_free_lists_index adj` hold only blocks
smaller than `adj`, and every free block of size at least `adj` is a node of a
list of index at least `get_free_lists_index adj`, so the scan skips no block
that fits. -/
theorem C37_search_is_complete (s : Heap) (hr : Reachable s) (adj fuel : Nat)
    (h1 : 1 ≤ adj) (hfuel : s.mem_brk ≤ fuel)
    (hex : ∃ b, b ∈ heap_blocks s ∧ b.alloc = 0 ∧ adj ≤ b.size) :
    (∃ r, find_fit fuel adj s = some (r, remove_from_free_list r s) ∧ r ≠ NULL ∧
      (⟨r, get_size s.mem r, 0⟩ : Blk) ∈ heap_blocks s ∧ adj ≤ get_size s.mem r ∧
      (remove_from_free_list r s).sbrk_calls = s.sbrk_calls ∧
      (remove_from_free_list r s).mem_brk = s.mem_brk) ∧
    (∀ j, j < get_free_lists_index adj → ∀ x, x ∈ free_list s j → get_size s.mem x < adj) ∧
    (∀ b, b ∈ heap_blocks s → b.alloc = 0 → adj ≤ b.size →
      get_free_lists_index adj ≤ get_free_lists_index b.size ∧
      b.addr ∈ free_list s (get_free_lists_index b.size)) := by
  obtain ⟨L, hi, hL⟩ := hr.desc
  obtain ⟨r, i, ys, zs, t, f1, _, _, _, f5, _, _, f8, f9, f10, f11, _, _, _, _, f16⟩ :=
    find_fit_first hi adj fuel hfuel h1 hex
  have hidx := get_free_lists_index_lt adj
  refine ⟨⟨r, f1, ?_, ?_, f5, f16.2.2.2.2, f16.2.1⟩, ?_, ?_⟩
  · have := hi.gen.blk t f8
    rw [← f9]
    simp only [NULL]; omega
  · have e : (⟨r, get_size s.mem r, 0⟩ : Blk) = t := by rw [f11, ← f9, ← f10]
    rw [e]; exact f8
  · intro j hj x hx
    rw [hL j (by omega)] at hx
    obtain ⟨b, _, hb2, hb3, _, hb5⟩ := hi.gen.node j (by omega) x hx
    have hbb := hi.gen.blk b hb2
    rw [← hb3, get_size_of_tag _ _ _ _ (hi.gen.tags b hb2).1 hbb.2.2.2.1 hbb.2.2.2.2.1]
    by_contra hge
    have := get_free_lists_index_mono adj b.size h1 (by omega) (by omega)
    omega
  · intro b hb hb0 hsz
    have hbb := hi.gen.blk b hb
    refine ⟨get_free_lists_index_mono adj b.size h1 hsz (by omega), ?_⟩
    rw [hL _ (get_free_lists_index_lt b.size)]
    exact hi.gen.complete b hb hb0

theorem C37_witness :
    (∃ r, find_fit 8208 40 ex_ff = some (r, remove_from_free_list r ex_ff) ∧ r ≠ NULL ∧
      (⟨r, get_size ex_ff.mem r, 0⟩ : Blk) ∈ heap_blocks ex_ff ∧ 40 ≤ get_size ex_ff.mem r ∧
      (remove_from_free_list r ex_ff).sbrk_calls = ex_ff.sbrk_calls ∧
      (remove_from_free_list r ex_ff).mem_brk = ex_ff.mem_brk) ∧
    (∀ j, j < get_free_lists_index 40 →
      ∀ x, x ∈ free_list ex_ff j → get_size ex_ff.mem x < 40) ∧
    (∀ b, b ∈ heap_blocks ex_ff → b.alloc = 0 → 40 ≤ b.size →
      get_free_lists_index 40 ≤ get_free_lists_index b.size ∧
      b.addr ∈ free_list ex_ff (get_free_lists_index b.size)) :=
  C37_search_is_complete ex_ff ex_reach_ff 40 8208 (by decide)
    (by rw [ex_lists_ff.2.2.2.2])
    ⟨⟨4108, 48, 0⟩, by rw [ex_blocks_ff]; decide, rfl, by decide⟩

/-! ## Shape of a well-formed list -/

theorem FSeg_links (m : Mem) : ∀ (xs : List Nat) (p h : Nat), FSeg m p h xs NULL →
    ∀ n, n ∈ xs → get_next_free m n ≠ NULL →
      get_next_free m n ∈ xs ∧ get_prev_free m (get_next_free m n) = n := by
  intro xs
  induction xs with
  | nil => intro p h _ n hn; exact absurd hn (List.not_mem_nil _)
  | cons x rest ih =>
    intro p h hs n hn hne
    obtain ⟨_, _, _, h4⟩ := hs
    rcases List.mem_cons.1 hn with e | e
    · subst e
      cases rest with
      | nil => exact absurd h4 hne
      | cons y rest2 =>
        obtain ⟨k1, _, k3, _⟩ := h4
        rw [k1]
        exact ⟨by simp, k3⟩
    · obtain ⟨a1, a2⟩ := ih _ _ h4 n e hne
      exact ⟨List.mem_cons_of_mem _ a1, a2⟩

theorem FSeg_last (m : Mem) : ∀ (xs : List Nat) (p h : Nat), FSeg m p h xs NULL →
    ∀ x, xs.getLast? = some x → get_next_free m x = NULL := by
  intro xs
  induction xs with
  | nil => intro p h _ x hx; simp at hx
  | cons y rest ih =>
    intro p h hs x hx
    obtain ⟨_, _, _, h4⟩ := hs
    cases rest with
    | nil =>
      have : y = x := by simpa using hx
      rw [← this]
      exact h4
    | cons z rest2 =>
      refine ih _ _ h4 x ?_
      rw [List.getLast?_cons_cons] at hx
      exact hx

theorem FSeg_first (m : Mem) (p h : Nat) (xs : List Nat) (hs : FSeg m p h xs NULL) :
    (xs = [] ↔ h = NULL) ∧ ∀ x, xs.head? = some x → h = x ∧ get_prev_free m x = p := by
  cases xs with
  | nil => exact ⟨⟨fun _ => hs, fun _ => rfl⟩, fun x hx => by simp at hx⟩
  | cons y rest =>
    obtain ⟨h1, h2, h3, _⟩ := hs
    refine ⟨⟨fun e => by simp at e, fun e => absurd (h1 ▸ e) h2⟩, fun x hx => ?_⟩
    have : y = x := by simpa using hx
    rw [← this]
    exact ⟨h1, h3⟩

/-- C38: in every reachable state each of the nine free lists is a
well-formed doubly linked list. The walk from the head along the `next` links
ends at a null link after fewer steps than the arena has bytes and meets no
node twice; the list is empty exactly when the head is null; the first node
is the head and its `prev` link is null; for every node with a non-null
`next` link, the successor is a node of the list and its `prev` link points
back; the `next` link of the last node is null; and no node of the list is a
node of another list. -/
theorem C38_lists_are_well_formed (s : Heap) (hr : Reachable s) (i : Nat) (hi9 : i < 9) :
    FList s.mem (s.free_lists i) (free_list s i) ∧
    (free_list s i).Nodup ∧ (free_list s i).length < s.mem_brk ∧
    (free_list s i = [] ↔ s.free_lists i = NULL) ∧
    (∀ x, (free_list s i).head? = some x →
      s.free_lists i = x ∧ get_prev_free s.mem x = NULL) ∧
    (∀ n, n ∈ free_list s i → n ≠ NULL ∧
      (get_next_free s.mem n ≠ NULL →
        get_next_free s.mem n ∈ free_list s i ∧
        get_prev_free s.mem (get_next_free s.mem n) = n)) ∧
    (∀ x, (free_list s i).getLast? = some x → get_next_free s.mem x = NULL) ∧
    (∀ j, j < 9 → j ≠ i → ∀ n, n ∈ free_list s i → n ∉ free_list s j) := by
  obtain ⟨L, hi, hL⟩ := hr.desc
  have hfl : FList s.mem (s.free_lists i) (free_list s i) := by
    rw [hL i hi9]; exact hi.gen.lists i hi9
  have hfs : FSeg s.mem NULL (s.free_lists i) (free_list s i) NULL := hfl
  obtain ⟨a1, a2⟩ := FSeg_first _ _ _ _ hfs
  refine ⟨hfl, by rw [hL i hi9]; exact hi.gen.nodup i hi9,
    by rw [hL i hi9]; exact hi.list_len i hi9, a1, a2, ?_, FSeg_last _ _ _ _ hfs, ?_⟩
  · intro n hn
    exact ⟨FSeg_ne_null _ _ _ _ _ hfs n hn, FSeg_links _ _ _ _ hfs n hn⟩
  · intro j hj hne n hn hn'
    rw [hL i hi9] at hn
    rw [hL j hj] at hn'
    exact hne (hi.gen.node_idx i j hi9 hj n hn hn').symm

theorem C38_witness :
    FList ex_ff.mem (ex_ff.free_lists 1) (free_list ex_ff 1) ∧
    (free_list ex_ff 1).Nodup ∧ (free_list ex_ff 1).length < ex_ff.mem_brk ∧
    (free_list ex_ff 1 = [] ↔ ex_ff.free_lists 1 = NULL) ∧
    (∀ x, (free_list ex_ff 1).head? = some x →
      ex_ff.free_lists 1 = x ∧ get_prev_free ex_ff.mem x = NULL) ∧
    (∀ n, n ∈ free_list ex_ff 1 → n ≠ NULL ∧
      (get_next_free ex_ff.mem n ≠ NULL →
        get_next_free ex_ff.mem n ∈ free_list ex_ff 1 ∧
        get_prev_free ex_ff.mem (get_next_free ex_ff.mem n) = n)) ∧
    (∀ x, (free_list ex_ff 1).getLast? = some x → get_next_free ex_ff.mem x = NULL) ∧
    (∀ j, j < 9 → j ≠ 1 → ∀ n, n ∈ free_list ex_ff 1 → n ∉ free_list ex_ff j) :=
  C38_lists_are_well_formed ex_ff ex_reach_ff 1 (by decide)

/-! ## `add_to_free_list` and `remove_from_free_list` as list operations -/

theorem FSeg_end (m : Mem) : ∀ (xs : List Nat) (p h t : Nat), FSeg m p h xs t →
    (xs = [] → h = t) ∧
      (xs ≠ [] → h = xs.headD NULL ∧ get_next_free m (xs.getLastD NULL) = t) := by
  intro xs
  induction xs with
  | nil => intro p h t hs; exact ⟨fun _ => hs, fun e => absurd rfl e⟩
  | cons x rest ih =>
    intro p h t hs
    obtain ⟨h1, _, _, h4⟩ := hs
    refine ⟨fun e => by simp at e, fun _ => ⟨h1, ?_⟩⟩
    obtain ⟨i1, i2⟩ := ih _ _ _ h4
    cases rest with
    | nil => exact i1 rfl
    | cons y rest2 => exact (i2 (by simp)).2

theorem FSeg_head_prev (m : Mem) (p h t : Nat) (xs : List Nat) (hs : FSeg m p h xs t) :
    ∀ z, xs.head? = some z → get_prev_free m z = p := by
  cases xs with
  | nil => intro z hz; simp at hz
  | cons y rest =>
    intro z hz
    have : y = z := by simpa using hz
    rw [← this]
    exact hs.2.2.1

/-- Pushing the block `t`, which is in no list, on the list of its class. -/
theorem push_hole {s : Heap} {pre post : List Blk} {t : Blk} {L : Nat → List Nat}
    (hi : Inv s (pre ++ t :: post) L) (ht1 : t.alloc = 1) :
    Gen (add_to_free_list t.addr t.size s) (pre ++ ⟨t.addr, t.size, 0⟩ :: post)
        (fun b => b ∈ pre ++ post ∨ b = ⟨t.addr, t.size, 0⟩)
        (file L ⟨t.addr, t.size, 0⟩) := by
  obtain ⟨hg, _, _, _⟩ := open_hole hi ht1
  have htb := hole_blk hg
  obtain ⟨l1, l2, l3, l4, _⟩ := Layout_split _ _ pre post t hg.lay
  have hl : Layout s.heap_ptr (pre ++ ⟨t.addr, t.size, 0⟩ :: post) (s.mem_brk - 4) :=
    Layout_join _ _ pre post ⟨t.addr, t.size, 0⟩ l1 l2 l3 l4 (by simp)
  have hg' := hg.regroup _ hl (fun b hb => by
    rcases List.mem_append.1 hb with h | h
    · exact List.mem_append_left _ h
    · exact List.mem_append_right _ (List.mem_cons_of_mem _ h))
  have hnG : ¬ ((⟨t.addr, t.size, 0⟩ : Blk) ∈ pre ++ post) := by
    intro h
    have := Layout_not_mem _ _ pre post ⟨t.addr, t.size, 0⟩ hl _ h
    simp only at this
    omega
  exact (add_spec hg' ⟨t.addr, t.size, 0⟩ (by simp) hnG rfl).1

/-- C33: `add_to_free_list(b, size)` for a block of a reachable state that is
in no list (`b = t.addr`, `size = t.size`) pushes it at the head of list
`i = get_free_lists_index size`: the head of list `i` becomes `b`, the `prev`
link of `b` is null, its `next` link is the former head, the `prev` link of
the former head (if there was one) is `b`, header and footer of `b` hold the
tag (size, free), the list read from the head is `b` followed by the former
list, and every other list (head and nodes) is unchanged. -/
theorem C33_add_pushes_at_head (s : Heap) (hr : Reachable s) (pre post : List Blk)
    (t : Blk) (hbs : heap_blocks s = pre ++ t :: post) (ht1 : t.alloc = 1) :
    (add_to_free_list t.addr t.size s).free_lists (get_free_lists_index t.size) = t.addr ∧
    get_prev_free (add_to_free_list t.addr t.size s).mem t.addr = NULL ∧
    get_next_free (add_to_free_list t.addr t.size s).mem t.addr =
      s.free_lists (get_free_lists_index t.size) ∧
    (s.free_lists (get_free_lists_index t.size) ≠ NULL →
      get_prev_free (add_to_free_list t.addr t.size s).mem
        (s.free_lists (get_free_lists_index t.size)) = t.addr) ∧
    get_u32 (add_to_free_list t.addr t.size s).mem t.addr = make_btag t.size 0 ∧
    get_u32 (add_to_free_list t.addr t.size s).mem (t.addr + t.size - 4) =
      make_btag t.size 0 ∧
    free_list (add_to_free_list t.addr t.size s) (get_free_lists_index t.size) =
      t.addr :: free_list s (get_free_lists_index t.size) ∧
    (∀ j, j < 9 → j ≠ get_free_lists_index t.size →
      (add_to_free_list t.addr t.size s).free_lists j = s.free_lists j ∧
      free_list (add_to_free_list t.addr t.size s) j = free_list s j) := by
  obtain ⟨L, hi, hL⟩ := hr.desc
  rw [hbs] at hi
  have hidx := get_free_lists_index_lt t.size
  have hg := push_hole hi ht1
  have htb := hi.gen.blk t (by simp)
  have htag : make_btag t.size 0 = t.size + 0 :=
    make_btag_eq _ 0 htb.2.2.2.1 (by norm_num) htb.2.2.2.2.2.2.1
  have hT := hg.tags ⟨t.addr, t.size, 0⟩ (Or.inr rfl)
  have hfl := hg.lists _ hidx
  have hfile : file L ⟨t.addr, t.size, 0⟩ (get_free_lists_index t.size) =
      t.addr :: L (get_free_lists_index t.size) := by
    unfold file; exact if_pos rfl
  rw [hfile] at hfl
  obtain ⟨k1, _, k3, k4⟩ := hfl
  have hold := FList_head _ _ _ (hi.gen.lists _ hidx)
  have hnext : get_next_free (add_to_free_list t.addr t.size s).mem t.addr =
      s.free_lists (get_free_lists_index t.size) := by
    rw [hold]
    exact FSeg_next_head _ _ _ _ k4
  refine ⟨k1, k3, hnext, ?_, by rw [htag]; exact hT.1, by rw [htag]; exact hT.2, ?_, ?_⟩
  · intro hne
    cases hl : L (get_free_lists_index t.size) with
    | nil => rw [hold, hl] at hne; exact absurd rfl hne
    | cons y rest =>
      rw [hl] at k4
      rw [hold, hl]
      exact k4.2.2.1
  · rw [hg.walk_lists _ hidx, hfile, hL _ hidx]
  · intro j hj hne
    refine ⟨?_, ?_⟩
    · rw [add_free_lists, if_neg hne]
    · rw [hg.walk_lists j hj, hL j hj]
      unfold file
      exact if_neg hne

theorem C33_witness :
    (add_to_free_list 4156 32 ex_ff).free_lists (get_free_lists_index 32) = 4156 ∧
    get_prev_free (add_to_free_list 4156 32 ex_ff).mem 4156 = NULL ∧
    get_next_free (add_to_free_list 4156 32 ex_ff).mem 4156 =
      ex_ff.free_lists (get_free_lists_index 32) ∧
    (ex_ff.free_lists (get_free_lists_index 32) ≠ NULL →
      get_prev_free (add_to_free_list 4156 32 ex_ff).mem
        (ex_ff.free_lists (get_free_lists_index 32)) = 4156) ∧
    get_u32 (add_to_free_list 4156 32 ex_ff).mem 4156 = make_btag 32 0 ∧
    get_u32 (add_to_free_list 4156 32 ex_ff).mem (4156 + 32 - 4) = make_btag 32 0 ∧
    free_list (add_to_free_list 4156 32 ex_ff) (get_free_lists_index 32) =
      4156 :: free_list ex_ff (get_free_lists_index 32) ∧
    (∀ j, j < 9 → j ≠ get_free_lists_index 32 →
      (add_to_free_list 4156 32 ex_ff).free_lists j = ex_ff.free_lists j ∧
      free_list (add_to_free_list 4156 32 ex_ff) j = free_list ex_ff j) :=
  C33_add_pushes_at_head ex_ff ex_reach_ff [⟨4108, 48, 0⟩]
    [⟨4188, 64, 0⟩, ⟨4252, 32, 1⟩, ⟨4284, 3920, 0⟩] ⟨4156, 32, 1⟩ ex_blocks_ff rfl

/-- C34: in a reachable state, for a node `b` of list `i` (the list read from
its head being `ys ++ b :: zs`), `remove_from_free_list b` leaves list `i`
equal to `ys ++ zs`: `b` is gone and the other nodes keep their order. When
`b` was the head (`ys` empty) the head becomes the successor of `b`, null when
`b` was the only node; otherwise the head stays and the `next` link of the
predecessor of `b` is the successor of `b` (or null); the `prev` link of the
successor of `b`, if any, is the predecessor of `b` (or null). The other
lists, heads and nodes, and the chain of blocks are unchanged. -/
theorem C34_remove_unlinks_node (s : Heap) (hr : Reachable s) (i b : Nat) (ys zs : List Nat)
    (hi9 : i < 9) (hl : free_list s i = ys ++ b :: zs) :
    free_list (remove_from_free_list b s) i = ys ++ zs ∧
    (ys = [] → (remove_from_free_list b s).free_lists i = zs.headD NULL) ∧
    (ys ≠ [] → (remove_from_free_list b s).free_lists i = s.free_lists i ∧
      get_next_free (remove_from_free_list b s).mem (ys.getLastD NULL) = zs.headD NULL) ∧
    (∀ z, zs.head? = some z →
      get_prev_free (remove_from_free_list b s).mem z = ys.getLastD NULL) ∧
    (∀ j, j < 9 → j ≠ i →
      (remove_from_free_list b s).free_lists j = s.free_lists j ∧
      free_list (remove_from_free_list b s) j = free_list s j) ∧
    heap_blocks (remove_from_free_list b s) = heap_blocks s := by
  obtain ⟨L, hi, hL⟩ := hr.desc
  rw [hL i hi9] at hl
  have hm : b ∈ L i := by rw [hl]; simp
  obtain ⟨t, _, ht2, ht3, ht4, ht5⟩ := hi.gen.node i hi9 b hm
  have hnd := Layout_nodup _ _ _ hi.gen.lay
  obtain ⟨r1, _, r3, _, _, _⟩ := remove_neighbor hi.gen t ht2 ht4 hnd
  rw [ht3] at r1 r3
  have hui : unfile L t i = ys ++ zs := by
    unfold unfile
    rw [if_pos ht5.symm, ht3, hl]
    exact erase_middle ys zs b (by rw [← hl]; exact hi.gen.nodup i hi9)
  have huj : ∀ j, j ≠ i → unfile L t j = L j := by
    intro j hne
    unfold unfile
    rw [if_neg (by rw [ht5]; exact hne)]
  have hfl := r1.lists i hi9
  rw [hui] at hfl
  obtain ⟨mid, s1, s2⟩ := (FSeg_append _ _ _ _ ys zs).1 hfl
  have hmid := FSeg_next_head _ _ _ _ s2
  obtain ⟨e1, e2⟩ := FSeg_end _ _ _ _ _ s1
  have hold := FList_head _ _ _ (hi.gen.lists i hi9)
  refine ⟨by rw [r1.walk_lists i hi9, hui], ?_, ?_, ?_, ?_,
    by rw [r1.walk_blocks (fun c hc => r3 c hc (hi.gen.tags c hc)), hi.walk.1]⟩
  · intro hy
    rw [e1 hy, hmid]
  · intro hy
    obtain ⟨a1, a2⟩ := e2 hy
    refine ⟨?_, by rw [a2, hmid]⟩
    rw [a1, hold, hl]
    cases ys with
    | nil => exact absurd rfl hy
    | cons y rest => rfl
  · intro z hz
    exact FSeg_head_prev _ _ _ _ _ s2 z hz
  · intro j hj hne
    refine ⟨?_, by rw [r1.walk_lists j hj, huj j hne, hL j hj]⟩
    rw [FList_head _ _ _ (r1.lists j hj), huj j hne, ← FList_head _ _ _ (hi.gen.lists j hj)]

theorem C34_witness :
    free_list (remove_from_free_list 4108 ex_ff) 1 = [4188] ++ [] ∧
    (([4188] : List Nat) = [] →
      (remove_from_free_list 4108 ex_ff).free_lists 1 = ([] : List Nat).headD NULL) ∧
    (([4188] : List Nat) ≠ [] →
      (remove_from_free_list 4108 ex_ff).free_lists 1 = ex_ff.free_lists 1 ∧
      get_next_free (remove_from_free_list 4108 ex_ff).mem (([4188] : List Nat).getLastD NULL) =
        ([] : List Nat).headD NULL) ∧
    (∀ z, ([] : List Nat).head? = some z →
      get_prev_free (remove_from_free_list 4108 ex_ff).mem z =
        ([4188] : List Nat).getLastD NULL) ∧
    (∀ j, j < 9 → j ≠ 1 →
      (remove_from_free_list 4108 ex_ff).free_lists j = ex_ff.free_lists j ∧
      free_list (remove_from_free_list 4108 ex_ff) j = free_list ex_ff j) ∧
    heap_blocks (remove_from_free_list 4108 ex_ff) = heap_blocks ex_ff :=
  C34_remove_unlinks_node ex_ff ex_reach_ff 1 4108 [4188] [] (by decide) ex_lists_ff.1

theorem Kept.same (c : Blk) (s : Heap) (hc : c ∈ heap_blocks s) : Kept c s s :=
  ⟨hc, fun _ _ _ => rfl⟩

theorem malloc_keeps {s : Heap} {bs : List Blk} {L : Nat → List Nat} (hi : Inv s bs L)
    (c : Blk) (hc : c ∈ bs) (hc1 : c.alloc = 1) (fuel n p : Nat) (s' : Heap)
    (hm : malloc fuel n s = some (p, s')) : Kept c s s' := by
  by_cases hv : n = 0 ∨ n > MAX_BLK_SIZE
  · rw [malloc_reject fuel n s hv] at hm
    have := congrArg Prod.snd (Option.some.inj hm)
    simp only at this
    rw [← this]
    exact Kept.same c s (by rw [hi.walk.1]; exact hc)
  · rw [MAX_BLK_SIZE_eq] at hv
    obtain ⟨bs', L', _, h, _, _, _, _, _, _, _, hst, _⟩ :=
      malloc_spec hi fuel n p s' (by omega) (by omega) hm
    obtain ⟨a1, a2⟩ := hst c hc hc1
    exact ⟨by rw [h.walk.1]; exact a1, a2⟩

theorem free_keeps {s : Heap} {bs : List Blk} {L : Nat → List Nat} (hi : Inv s bs L)
    (c : Blk) (hc : c ∈ bs) (hc1 : c.alloc = 1) (p : Nat) (hp : p = NULL ∨ Live s p)
    (hne : p ≠ c.addr + 4) : Kept c s (free p s) := by
  rcases hp with hp | hp
  · rw [hp, free_null]
    exact Kept.same c s (by rw [hi.walk.1]; exact hc)
  · obtain ⟨t, ht, ht1, htp⟩ := (hi.live p).1 hp
    obtain ⟨pre, post, hsplit⟩ := List.append_of_mem ht
    subst hsplit
    obtain ⟨bs', L', _, f1, _, hst, _⟩ := free_spec hi ht1
    have hct : c ≠ t := fun e => hne (by rw [e]; exact htp.symm)
    have hc' : c ∈ pre ++ post :=
      ((mem_insert_hole pre post t c).2 hc).resolve_right hct
    obtain ⟨a1, a2⟩ := hst c hc' hc1
    rw [← htp]
    exact ⟨by rw [f1.walk.1]; exact a1, a2⟩

/-- C36: in a reachable state, let `c` be an allocated block. After a call of
`malloc` (any size), of `free` or `realloc` on null or a live pointer other
than the payload of `c`, or of `calloc` (when it returns a block or was asked
for zero bytes, which leaves out the store through the null pointer of an
oversize `calloc`), `c` is still a block of the heap and every byte from its
header to its footer, so in particular every payload byte, is unchanged:
tags and list links are written only in free blocks and in the block the
call works on. -/
theorem C36_payload_isolation (s : Heap) (hr : Reachable s) (c : Blk)
    (hc : c ∈ heap_blocks s) (hc1 : c.alloc = 1) :
    (∀ fuel n p s', malloc fuel n s = some (p, s') → Kept c s s') ∧
    (∀ p, (p = NULL ∨ Live s p) → p ≠ c.addr + 4 → Kept c s (free p s)) ∧
    (∀ fuel p n q s', (p = NULL ∨ Live s p) → p ≠ c.addr + 4 →
      realloc fuel p n s = some (q, s') → Kept c s s') ∧
    (∀ fuel k n q s', calloc fuel k n s = some (q, s') → (q ≠ NULL ∨ mul64 k n = 0) →
      Kept c s s') := by
  obtain ⟨L, hi, _⟩ := hr.desc
  refine ⟨fun fuel n p s' hm => malloc_keeps hi c hc hc1 fuel n p s' hm,
    fun p hp hne => free_keeps hi c hc hc1 p hp hne, ?_, ?_⟩
  · intro fuel p n q s' hp hne hre
    by_cases hn : n = 0
    · subst hn
      rw [realloc_zero] at hre
      have := congrArg Prod.snd (Option.some.inj hre)
      simp only at this
      rw [← this]
      exact free_keeps hi c hc hc1 p hp hne
    · rcases hp with hp | hp
      · rw [hp, realloc_null fuel n s hn] at hre
        exact malloc_keeps hi c hc hc1 fuel n q s' hre
      · obtain ⟨t, ht, ht1, htp⟩ := (hi.live p).1 hp
        have hct : c ≠ t := fun e => hne (by rw [e]; exact htp.symm)
        rw [← htp] at hre
        rcases realloc_spec hi t ht ht1 fuel n q s' hn hre with
          ⟨_, h2, _⟩ | ⟨_, _, bs', L', _, _, h, _, _, _, _, _, _, _, _, _, _, _, _, hfr, _⟩
        · rw [h2]
          exact Kept.same c s hc
        · obtain ⟨a1, a2⟩ := hfr c hc hc1 hct
          exact ⟨by rw [h.walk.1]; exact a1, a2⟩
  · intro fuel k n q s' hcl hq
    by_cases hv : mul64 k n = 0 ∨ mul64 k n > MAX_BLK_SIZE
    · have hm := malloc_reject fuel _ s hv
      rw [calloc_some fuel k n s NULL s hm] at hcl
      have h' := Option.some.inj hcl
      have hq0 : NULL = q := congrArg Prod.fst h'
      have hs' := congrArg Prod.snd h'
      simp only at hs'
      have hz : mul64 k n = 0 := by
        rcases hq with hq | hq
        · exact absurd hq0.symm hq
        · exact hq
      rw [hz, memset_zero_len] at hs'
      rw [← hs']
      exact Kept.same c s hc
    · rw [MAX_BLK_SIZE_eq] at hv
      obtain ⟨bs', L', _, h, _, _, _, _, _, _, _, hst, _⟩ :=
        calloc_spec hi fuel k n q s' (by omega) (by omega) hcl
      obtain ⟨a1, a2⟩ := hst c hc hc1
      exact ⟨by rw [h.walk.1]; exact a1, a2⟩

theorem C36_witness :
    (∀ fuel n p s', malloc fuel n ex_ff = some (p, s') → Kept ⟨4156, 32, 1⟩ ex_ff s') ∧
    (∀ p, (p = NULL ∨ Live ex_ff p) → p ≠ 4156 + 4 →
      Kept ⟨4156, 32, 1⟩ ex_ff (free p ex_ff)) ∧
    (∀ fuel p n q s', (p = NULL ∨ Live ex_ff p) → p ≠ 4156 + 4 →
      realloc fuel p n ex_ff = some (q, s') → Kept ⟨4156, 32, 1⟩ ex_ff s') ∧
    (∀ fuel k n q s', calloc fuel k n ex_ff = some (q, s') → (q ≠ NULL ∨ mul64 k n = 0) →
      Kept ⟨4156, 32, 1⟩ ex_ff s') :=
  C36_payload_isolation ex_ff ex_reach_ff ⟨4156, 32, 1⟩ (by rw [ex_blocks_ff]; decide) rfl

end MM

namespace IFL

theorem pack_free (size : Nat) (h8 : size % 8 = 0) (h : size < 2 ^ 32) : pack size 0 = size := by
  unfold pack
  rw [MM.or_small size (0 % 256) h8 (by decide)]
  omega

theorem size_of_tag (m : MM.Mem) (a size al : Nat) (h : get m a = size + al)
    (hs : size % 8 = 0) (ha : al ≤ 1) : get_size m a = size := by
  unfold get_size
  unfold get at h ⊢
  rw [MM.and_mask_eq _ (MM.get_u32_lt m a), h]
  omega

theorem size_of_free (m : MM.Mem) (a size : Nat) (h : get m a = size)
    (hs : size % 8 = 0) : get_size m a = size :=
  size_of_tag m a size 0 h hs (Nat.zero_le 1)

theorem alloc_of_tag (m : MM.Mem) (a size al : Nat) (h : get m a = size + al)
    (hs : size % 8 = 0) (ha : al ≤ 1) : get_alloc m a = al := by
  unfold get_alloc
  rw [Nat.and_one_is_mod, h]
  omega

theorem hdr_eq (x : Nat) (h4 : 4 ≤ x) (hx : x < 2 ^ 64) : get_hdr_addr x = x - 4 :=
  MM.sub64_eq x 4 h4 hx

theorem get_put_same (m : MM.Mem) (a v : Nat) (hv : v < 2 ^ 32) : get (put m a v) a = v := by
  unfold get put
  rw [MM.get_u32_put_u32_same]
  exact Nat.mod_eq_of_lt hv

theorem get_put_ne (m : MM.Mem) (a v b : Nat) (h : a + 4 ≤ b ∨ b + 4 ≤ a) :
    get (put m a v) b = get m b :=
  MM.get_u32_put_u32_ne m a v b h

/-- What `coalesce` reads before it branches. -/
theorem reads {m : MM.Mem} {b sp pa sz sn na : Nat} (h : Around m b sp pa sz sn na) :
    get_prev_blk_ptr m b = b - sp ∧ get_next_blk_ptr m b = b + sz ∧
    get_hdr_addr b = b - 4 ∧ get_hdr_addr (b - sp) = b - sp - 4 ∧
    get_hdr_addr (b + sz) = b + sz - 4 ∧
    get_ftr_addr m (b - sp) = b - 8 ∧
    get_alloc m (b - 8) = pa ∧ get_alloc m (b + sz - 4) = na ∧
    get_size m (b - 4) = sz ∧ get_size m (b - sp - 4) = sp ∧ get_size m (b + sz - 4) = sn := by
  obtain ⟨h1, h2, h3, h4, h5, h6, h7, h8, h9, h10, g1, g2, g3, g4, g5⟩ := h
  have s1 : get_size m (b - 8) = sp := size_of_tag m _ sp pa g1 h4 h9
  have s2 : get_size m (b - sp - 4) = sp := size_of_tag m _ sp pa g2 h4 h9
  have s3 : get_size m (b - 4) = sz := size_of_free m _ sz g3 h5
  have s5 : get_size m (b + sz - 4) = sn := size_of_tag m _ sn na g5 h6 h10
  have e1 : get_hdr_addr b = b - 4 := hdr_eq b (by omega) (by omega)
  have e2 : get_hdr_addr (b - sp) = b - sp - 4 := hdr_eq _ (by omega) (by omega)
  have e3 : get_hdr_addr (b + sz) = b + sz - 4 := hdr_eq _ (by omega) (by omega)
  refine ⟨?_, ?_, e1, e2, e3, ?_, alloc_of_tag m _ sp pa g1 h4 h9,
    alloc_of_tag m _ sn na g5 h6 h10, s3, s2, s5⟩
  · unfold get_prev_blk_ptr
    rw [show MM.sub64 b DWORD_SIZE = b - 8 from MM.sub64_eq b 8 (by omega) (by omega), s1]
    exact MM.sub64_eq b sp (by omega) (by omega)
  · unfold get_next_blk_ptr
    rw [show MM.sub64 b WORD_SIZE = b - 4 from MM.sub64_eq b 4 (by omega) (by omega), s3]
    exact MM.add64_eq b sz (by omega)
  · unfold get_ftr_addr
    rw [e2, s2, MM.add64_eq _ _ (by omega)]
    rw [show DWORD_SIZE = 8 from rfl, MM.sub64_eq _ 8 (by omega) (by omega)]
    omega

theorem ifl_coalesce_AA {m : MM.Mem} {b sp sz sn : Nat} (h : Around m b sp 1 sz sn 1) :
    coalesce b m = (b, m) := by
  obtain ⟨r1, r2, r3, r4, r5, r6, r7, r8, r9, r10, r11⟩ := reads h
  unfold coalesce
  simp only [r1, r2, r3, r4, r5, r6, r7, r8]
  simp

theorem ifl_coalesce_AF {m : MM.Mem} {b sp sz sn : Nat} (h : Around m b sp 1 sz sn 0) :
    coalesce b m = (b, put (put m (b - 4) (sz + sn)) (b + (sz + sn) - 8) (sz + sn)) := by
  obtain ⟨r1, r2, r3, r4, r5, r6, r7, r8, r9, r10, r11⟩ := reads h
  obtain ⟨h1, h2, h3, h4, h5, h6, h7, h8, h9, h10, g1, g2, g3, g4, g5⟩ := h
  have hp : pack (sz + sn) 0 = sz + sn := pack_free _ (by omega) (by omega)
  have ef : get_ftr_addr (put m (b - 4) (sz + sn)) b = b + (sz + sn) - 8 := by
    unfold get_ftr_addr
    rw [r3, size_of_free _ (b - 4) (sz + sn) (get_put_same m _ _ (by omega)) (by omega), MM.add64_eq _ _ (by omega)]
    exact MM.sub64_eq _ 8 (by omega) (by omega)
  unfold coalesce
  simp only [r1, r2, r3, r4, r5, r6, r7, r8, r9, r10, r11, ne_eq, not_true_eq_false,
    one_ne_zero, not_false_eq_true, false_and, and_false, and_self, if_false, if_true]
  rw [MM.add64_eq _ _ (by omega), hp, ef]

theorem ifl_coalesce_FA {m : MM.Mem} {b sp sz sn : Nat} (h : Around m b sp 0 sz sn 1) :
    coalesce b m =
      (b - sp, put (put m (b - sp - 4) (sz + sp)) (b + sz - 8) (sz + sp)) := by
  obtain ⟨r1, r2, r3, r4, r5, r6, r7, r8, r9, r10, r11⟩ := reads h
  obtain ⟨h1, h2, h3, h4, h5, h6, h7, h8, h9, h10, g1, g2, g3, g4, g5⟩ := h
  have hp : pack (sz + sp) 0 = sz + sp := pack_free _ (by omega) (by omega)
  have ef : get_ftr_addr (put m (b - sp - 4) (sz + sp)) b = b + sz - 8 := by
    unfold get_ftr_addr
    rw [r3, size_of_free _ (b - 4) sz ((get_put_ne m _ _ _ (by omega)).trans g3) h5, MM.add64_eq _ _ (by omega)]
    exact MM.sub64_eq _ 8 (by omega) (by omega)
  have ep : get_prev_blk_ptr
      (put (put m (b - sp - 4) (sz + sp)) (b + sz - 8) (sz + sp)) b = b - sp := by
    unfold get_prev_blk_ptr
    rw [show MM.sub64 b DWORD_SIZE = b - 8 from MM.sub64_eq b 8 (by omega) (by omega),
      size_of_free _ (b - 8) sp
        (((get_put_ne _ _ _ _ (by omega)).trans (get_put_ne _ _ _ _ (by omega))).trans g1)
        h4]
    exact MM.sub64_eq b sp (by omega) (by omega)
  unfold coalesce
  simp only [r1, r2, r3, r4, r5, r6, r7, r8, r9, r10, r11, ne_eq, not_true_eq_false,
    one_ne_zero, not_false_eq_true, false_and, and_false, and_self, if_false, if_true]
  rw [MM.add64_eq _ _ (by omega), hp, ef, ep]

theorem ifl_coalesce_FF {m : MM.Mem} {b sp sz sn : Nat} (h : Around m b sp 0 sz sn 0) :
    coalesce b m =
      (b, put (put m (b - sp - 4) (sz + (sp + sn))) (b + sz + sn - 8) (sz + (sp + sn))) := by
  obtain ⟨r1, r2, r3, r4, r5, r6, r7, r8, r9, r10, r11⟩ := reads h
  obtain ⟨h1, h2, h3, h4, h5, h6, h7, h8, h9, h10, g1, g2, g3, g4, g5⟩ := h
  have hp : pack (sz + (sp + sn)) 0 = sz + (sp + sn) := pack_free _ (by omega) (by omega)
  have en : get_next_blk_ptr (put m (b - sp - 4) (sz + (sp + sn))) b = b + sz := by
    unfold get_next_blk_ptr
    rw [show MM.sub64 b WORD_SIZE = b - 4 from MM.sub64_eq b 4 (by omega) (by omega),
      size_of_free _ (b - 4) sz ((get_put_ne m _ _ _ (by omega)).trans g3) h5]
    exact MM.add64_eq b sz (by omega)
  have ef : get_ftr_addr (put m (b - sp - 4) (sz + (sp + sn))) (b + sz) = b + sz + sn - 8 := by
    unfold get_ftr_addr
    rw [r5, size_of_free _ (b + sz - 4) sn ((get_put_ne m _ _ _ (by omega)).trans g5) h6, MM.add64_eq _ _ (by omega)]
    exact MM.sub64_eq _ 8 (by omega) (by omega)
  unfold coalesce
  simp only [r1, r2, r3, r4, r5, r6, r7, r8, r9, r10, r11, ne_eq, not_true_eq_false,
    one_ne_zero, not_false_eq_true, false_and, and_false, and_self, if_false, if_true]
  rw [Nat.mod_eq_of_lt (show sp + sn < 2 ^ 32 by omega), MM.add64_eq _ _ (by omega), hp, en, ef]

theorem ex_mem_around : Around ex_mem 32 16 0 16 16 0 := by
  unfold Around
  decide!

/-- C40 (mm_ifl.c): let the block at payload pointer `b` be free with size
`sz`, between a previous block (`sp`, `pa`) and a next block (`sn`, `na`).
After `coalesce(b)` the merged free block starts at `start` (the previous
block's pointer when that block was free, else `b`) and has the combined size
`total`, and its header and footer both hold `pack(total, 0) = total`. The
returned pointer is `start` in three of the four cases; when both neighbours
are free the call returns its argument `b`, which is not the pointer of the
merged block: the branch lacks the assignment
`blk_ptr = get_prev_blk_ptr(blk_ptr)`. -/
theorem C40_coalesce_returns_argument_when_both_free (m : MM.Mem)
    (b sp pa sz sn na : Nat) (h : Around m b sp pa sz sn na) (start total : Nat)
    (hstart : start = if pa = 0 then b - sp else b)
    (htotal : total = sz + (if pa = 0 then sp else 0) + (if na = 0 then sn else 0)) :
    get (coalesce b m).2 (start - 4) = pack total 0 ∧
    get (coalesce b m).2 (start + total - 8) = pack total 0 ∧
    pack total 0 = total ∧
    (¬ (pa = 0 ∧ na = 0) → (coalesce b m).1 = start) ∧
    (pa = 0 ∧ na = 0 → (coalesce b m).1 = b ∧ b ≠ start) := by
  have h' := h
  obtain ⟨h1, h2, h3, h4, h5, h6, h7, h8, h9, h10, g1, g2, g3, g4, g5⟩ := h'
  have hpa : pa = 0 ∨ pa = 1 := by omega
  have hna : na = 0 ∨ na = 1 := by omega
  rcases hpa with hpa | hpa <;> rcases hna with hna | hna <;> subst hpa <;> subst hna
  · -- both neighbours free
    have e1 : start = b - sp := by rw [hstart, if_pos rfl]
    have e2 : total = sz + (sp + sn) := by rw [htotal, if_pos rfl, if_pos rfl]; omega
    have hp : pack total 0 = total := pack_free _ (by omega) (by omega)
    rw [ifl_coalesce_FF h, hp, e1, e2]
    refine ⟨?_, ?_, rfl, fun hn => absurd ⟨rfl, rfl⟩ hn, fun _ => ⟨rfl, by omega⟩⟩
    · show get (put (put m (b - sp - 4) _) (b + sz + sn - 8) _) (b - sp - 4) = _
      rw [get_put_ne _ _ _ _ (by omega), get_put_same _ _ _ (by omega)]
    · show get (put (put m (b - sp - 4) _) (b + sz + sn - 8) _)
        (b - sp + (sz + (sp + sn)) - 8) = _
      rw [show b - sp + (sz + (sp + sn)) - 8 = b + sz + sn - 8 by omega,
        get_put_same _ _ _ (by omega)]
  · -- previous free, next allocated
    have e1 : start = b - sp := by rw [hstart, if_pos rfl]
    have e2 : total = sz + sp := by
      rw [htotal]; simp
    have hp : pack total 0 = total := pack_free _ (by omega) (by omega)
    rw [ifl_coalesce_FA h, hp, e1, e2]
    refine ⟨?_, ?_, rfl, fun _ => rfl, fun hn => absurd hn.2 (by decide)⟩
    · show get (put (put m (b - sp - 4) _) (b + sz - 8) _) (b - sp - 4) = _
      rw [get_put_ne _ _ _ _ (by omega), get_put_same _ _ _ (by omega)]
    · show get (put (put m (b - sp - 4) _) (b + sz - 8) _) (b - sp + (sz + sp) - 8) = _
      rw [show b - sp + (sz + sp) - 8 = b + sz - 8 by omega, get_put_same _ _ _ (by omega)]
  · -- previous allocated, next free
    have e1 : start = b := by rw [hstart, if_neg (by decide)]
    have e2 : total = sz + sn := by
      rw [htotal]; simp
    have hp : pack total 0 = total := pack_free _ (by omega) (by omega)
    rw [ifl_coalesce_AF h, hp, e1, e2]
    refine ⟨?_, ?_, rfl, fun _ => rfl, fun hn => absurd hn.1 (by decide)⟩
    · show get (put (put m (b - 4) _) (b + (sz + sn) - 8) _) (b - 4) = _
      rw [get_put_ne _ _ _ _ (by omega), get_put_same _ _ _ (by omega)]
    · show get (put (put m (b - 4) _) (b + (sz + sn) - 8) _) (b + (sz + sn) - 8) = _
      rw [get_put_same _ _ _ (by omega)]
  · -- both neighbours allocated
    have e1 : start = b := by rw [hstart, if_neg (by decide)]
    have e2 : total = sz := by
      rw [htotal]; simp
    have hp : pack total 0 = total := pack_free _ (by omega) (by omega)
    rw [ifl_coalesce_AA h, hp, e1, e2]
    exact ⟨g3, g4, rfl, fun _ => rfl, fun hn => absurd hn.1 (by decide)⟩

theorem C40_witness :
    Around ex_mem 32 16 0 16 16 0 ∧ (coalesce 32 ex_mem).1 = 32 ∧ (32 : Nat) ≠ 16 ∧
    get (coalesce 32 ex_mem).2 (16 - 4) = 48 ∧ get (coalesce 32 ex_mem).2 (16 + 48 - 8) = 48 :=
  have h := C40_coalesce_returns_argument_when_both_free ex_mem 32 16 0 16 16 0
    ex_mem_around 16 48 rfl rfl
  ⟨ex_mem_around, (h.2.2.2.2 ⟨rfl, rfl⟩).1, (h.2.2.2.2 ⟨rfl, rfl⟩).2,
    h.1.trans h.2.2.1, h.2.1.trans h.2.2.1⟩

end IFL

namespace MM

theorem check_blocks_succ (fuel : Nat) (m : Mem) (blk_ptr : Nat) (num : Nat → Nat) :
    check_blocks (fuel + 1) m blk_ptr num =
      if get_size m blk_ptr = 0 ∧ get_alloc m blk_ptr = 1 then some (some num)
      else if get_size m (get_ftr_addr m blk_ptr) ≠ get_size m blk_ptr ∧
          get_alloc m (get_ftr_addr m blk_ptr) ≠ get_alloc m blk_ptr then some none
      else
        check_blocks fuel m (get_next_hdr_addr m blk_ptr)
          (if get_alloc m blk_ptr = 0 then
            bump num (get_free_lists_index (get_size m blk_ptr))
          else num) := rfl

theorem count_list_succ (fuel : Nat) (m : Mem) (p c : Nat) :
    count_list (fuel + 1) m p c =
      if p ≠ NULL then count_list fuel m (get_next_free m p) (add64 c 1) else some c := rfl

/-- What one iteration of the block loop reads at a block with a valid header. -/
theorem check_reads (m : Mem) (b : Blk) (h : get_u32 m b.addr = b.size + b.alloc)
    (h24 : 24 ≤ b.size) (h8 : b.size % 8 = 0) (ha : b.alloc ≤ 1)
    (hlt : b.addr + b.size < 2 ^ 64) :
    get_size m b.addr = b.size ∧ get_alloc m b.addr = b.alloc ∧
      get_ftr_addr m b.addr = b.addr + b.size - 4 ∧
      get_next_hdr_addr m b.addr = b.addr + b.size := by
  have h0 := get_size_of_tag m b.addr b.size b.alloc h h8 ha
  have h1 := get_alloc_of_tag m b.addr b.size b.alloc h h8 ha
  refine ⟨h0, h1, ?_, ?_⟩
  · unfold get_ftr_addr
    rw [h0, show WORD_SIZE = 4 from rfl, sub64_eq _ 4 (by omega) (by omega),
      add64_eq _ _ (by omega)]
    omega
  · unfold get_next_hdr_addr
    rw [h0, add64_eq _ _ (by omega)]

theorem check_blocks_pass (m : Mem) (e : Nat) (he : get_u32 m e = 1) (hlt : e < 2 ^ 64) :
    ∀ (bs : List Blk) (a fuel : Nat) (num : Nat → Nat), Layout a bs e →
      (∀ b, b ∈ bs → get_u32 m b.addr = b.size + b.alloc) → (∀ b, b ∈ bs → FtrWeak m b) →
      bs.length < fuel → check_blocks fuel m a num = some (some (tally bs num)) := by
  intro bs
  induction bs with
  | nil =>
    intro a fuel num hl _ _ hf
    have ha : a = e := hl
    subst ha
    obtain ⟨f, hf'⟩ : ∃ f, fuel = f + 1 := ⟨fuel - 1, by simp at hf; omega⟩
    subst hf'
    have h0 : get_size m a = 0 := get_size_of_tag m a 0 1 (by rw [he]) rfl (le_refl _)
    have h1 : get_alloc m a = 1 := get_alloc_of_tag m a 0 1 (by rw [he]) rfl (le_refl _)
    rw [check_blocks_succ, if_pos ⟨h0, h1⟩]
    rfl
  | cons b bs ih =>
    intro a fuel num hl hh hw hf
    obtain ⟨l1, l2, l3, l4, l5⟩ := hl
    obtain ⟨f, hf'⟩ : ∃ f, fuel = f + 1 := ⟨fuel - 1, by simp at hf; omega⟩
    subst hf'
    have hle := Layout_le _ _ _ l5
    obtain ⟨r0, r1, r2, r3⟩ := check_reads m b (hh b (List.mem_cons_self _ _)) l2 l3 l4
      (by omega)
    rw [l1] at r0 r1 r2 r3
    have hwb := hw b (List.mem_cons_self _ _)
    unfold FtrWeak at hwb
    rw [l1] at hwb
    have hrec := ih (a + b.size) f
      (if b.alloc = 0 then bump num (get_free_lists_index b.size) else num) l5
      (fun c hc => hh c (List.mem_cons_of_mem _ hc))
      (fun c hc => hw c (List.mem_cons_of_mem _ hc)) (by simp at hf; omega)
    rw [check_blocks_succ, if_neg (by rw [r0]; omega), r2, r0, r1, r3,
      if_neg (fun hn => hwb.elim hn.1 hn.2), hrec]
    rfl

theorem check_blocks_exit (m : Mem) (e : Nat) (hlt : e < 2 ^ 64) (c : Blk) (post : List Blk)
    (hc : ¬ FtrWeak m c) :
    ∀ (pre : List Blk) (a fuel : Nat) (num : Nat → Nat), Layout a (pre ++ c :: post) e →
      (∀ b, b ∈ pre ++ c :: post → get_u32 m b.addr = b.size + b.alloc) →
      (∀ b, b ∈ pre → FtrWeak m b) →
      pre.length < fuel → check_blocks fuel m a num = some none := by
  intro pre
  induction pre with
  | nil =>
    intro a fuel num hl hh _ hf
    obtain ⟨l1, l2, l3, l4, l5⟩ := hl
    obtain ⟨f, hf'⟩ : ∃ f, fuel = f + 1 := ⟨fuel - 1, by simp at hf; omega⟩
    subst hf'
    have hle := Layout_le _ _ _ l5
    obtain ⟨r0, r1, r2, r3⟩ := check_reads m c (hh c (List.mem_cons_self _ _)) l2 l3 l4
      (by omega)
    rw [l1] at r0 r1 r2 r3
    unfold FtrWeak at hc
    rw [l1] at hc
    rw [check_blocks_succ, if_neg (by rw [r0]; omega), r2, r0, r1,
      if_pos ⟨fun h => hc (Or.inl h), fun h => hc (Or.inr h)⟩]
  | cons b pre ih =>
    intro a fuel num hl hh hw hf
    obtain ⟨l1, l2, l3, l4, l5⟩ := hl
    obtain ⟨f, hf'⟩ : ∃ f, fuel = f + 1 := ⟨fuel - 1, by simp at hf; omega⟩
    subst hf'
    have hle := Layout_le _ _ _ l5
    obtain ⟨r0, r1, r2, r3⟩ := check_reads m b (hh b (List.mem_cons_self _ _)) l2 l3 l4
      (by omega)
    rw [l1] at r0 r1 r2 r3
    have hwb := hw b (List.mem_cons_self _ _)
    unfold FtrWeak at hwb
    rw [l1] at hwb
    have hrec := ih (a + b.size) f
      (if b.alloc = 0 then bump num (get_free_lists_index b.size) else num) l5
      (fun c hc => hh c (List.mem_cons_of_mem _ hc))
      (fun c hc => hw c (List.mem_cons_of_mem _ hc)) (by simp at hf; omega)
    rw [check_blocks_succ, if_neg (by rw [r0]; omega), r2, r0, r1, r3,
      if_neg (fun hn => hwb.elim hn.1 hn.2), hrec]

/-- The counter of class `i` after the block loop: the number of free blocks of
that class. -/
theorem tally_count (i : Nat) :
    ∀ (bs : List Blk) (num : Nat → Nat), num i + bs.length < 2 ^ 64 →
      tally bs num i =
        num i + bs.countP (fun b => decide (b.alloc = 0 ∧ get_free_lists_index b.size = i)) := by
  intro bs
  induction bs with
  | nil => intro num _; rfl
  | cons b bs ih =>
    intro num hn
    have hlen : (b :: bs).length = bs.length + 1 := rfl
    rw [hlen] at hn
    show tally bs _ i = _
    by_cases h0 : b.alloc = 0
    · rw [if_pos h0]
      by_cases hi : get_free_lists_index b.size = i
      · have hb : bump num (get_free_lists_index b.size) i = num i + 1 := by
          unfold bump
          rw [if_pos hi.symm, add64_eq _ _ (by omega)]
        rw [ih _ (by rw [hb]; omega), hb, List.countP_cons_of_pos _ _ (by simp [h0, hi])]
        omega
      · have hb : bump num (get_free_lists_index b.size) i = num i := by
          unfold bump
          rw [if_neg (fun h => hi h.symm)]
        rw [ih _ (by rw [hb]; omega), hb, List.countP_cons_of_neg _ _ (by simp [hi])]
    · rw [if_neg h0, ih _ (by omega), List.countP_cons_of_neg _ _ (by simp [h0])]

theorem count_list_spec (m : Mem) :
    ∀ (xs : List Nat) (p h fuel c : Nat), FSeg m p h xs NULL → xs.length < fuel →
      c + xs.length < 2 ^ 64 → count_list fuel m h c = some (c + xs.length) := by
  intro xs
  induction xs with
  | nil =>
    intro p h fuel c hs hf _
    have h0 : h = NULL := hs
    subst h0
    obtain ⟨f, hf'⟩ : ∃ f, fuel = f + 1 := ⟨fuel - 1, by simp at hf; omega⟩
    subst hf'
    rw [count_list_succ, if_neg (fun hh => hh rfl)]
    rfl
  | cons x xs ih =>
    intro p h fuel c hs hf hc
    obtain ⟨h1, h2, h3, h4⟩ := hs
    subst h1
    obtain ⟨f, hf'⟩ : ∃ f, fuel = f + 1 := ⟨fuel - 1, by simp at hf; omega⟩
    subst hf'
    have hlen : (h :: xs).length = xs.length + 1 := rfl
    rw [hlen] at hc
    rw [count_list_succ, if_pos h2, add64_eq _ _ (by omega),
      ih _ _ f _ h4 (by simp at hf; omega) (by omega), hlen]
    congr 1
    omega

theorem check_lists_pass (fuel : Nat) (m : Mem) (fl num : Nat → Nat)
    (h : ∀ i, i < 9 → count_list fuel m (fl i) 0 = some (num i)) :
    ∀ (k index : Nat), check_lists fuel m fl num k index = some true := by
  intro k
  induction k with
  | zero => intro index; rfl
  | succ k ih =>
    intro index
    show (if index < NUM_SIZE_CLASSES then _ else _) = _
    by_cases hi : index < NUM_SIZE_CLASSES
    · rw [if_pos hi, h index hi]
      show (if num index ≠ num index then _ else _) = _
      rw [if_neg (fun hn => hn rfl)]
      exact ih _
    · rw [if_neg hi]

/-- The list of class `i` has as many nodes as there are free blocks of the
class among the blocks. -/
theorem Gen.count {s : Heap} {bs : List Blk} {L : Nat → List Nat}
    (hg : Gen s bs (fun b => b ∈ bs) L) (i : Nat) (hi9 : i < 9) :
    (L i).length =
      bs.countP (fun b => decide (b.alloc = 0 ∧ get_free_lists_index b.size = i)) := by
  rw [List.countP_eq_length_filter, ← List.length_map _ Blk.addr]
  apply List.Perm.length_eq
  rw [List.perm_ext_iff_of_nodup (hg.nodup i hi9)]
  · intro x
    constructor
    · intro hx
      obtain ⟨b, _, hb, hbx, hb0, hbi⟩ := hg.node i hi9 x hx
      exact List.mem_map.2 ⟨b, List.mem_filter.2 ⟨hb, by simp [hb0, hbi]⟩, hbx⟩
    · intro hx
      obtain ⟨b, hb, hbx⟩ := List.mem_map.1 hx
      obtain ⟨hb1, hb2⟩ := List.mem_filter.1 hb
      have hb3 : b.alloc = 0 ∧ get_free_lists_index b.size = i := by simpa using hb2
      rw [← hbx, ← hb3.2]
      exact hg.complete b hb1 hb3.1
  · apply List.Nodup.map_on
    · intro x hx y hy hxy
      exact Layout_inj _ _ _ hg.lay x y (List.mem_filter.1 hx).1 (List.mem_filter.1 hy).1 hxy
    · exact (Layout_nodup _ _ _ hg.lay).filter _

/-- On a state that satisfies the invariant except that the footer of the one
block `c` holds arbitrary bytes, `mm_checkheap` ends the process exactly when
that footer differs from the header of `c` both in the size and in the
allocation bit. -/
theorem checkheap_footer {s : Heap} {bs : List Blk} {L : Nat → List Nat} (hi : Inv s bs L)
    (c : Blk) (hc : c ∈ bs) (m' : Mem)
    (hm : ∀ x, x < c.addr + c.size - 4 ∨ c.addr + c.size ≤ x → m' x = s.mem x)
    (fuel : Nat) (hfuel : s.mem_brk ≤ fuel) :
    (FtrWeak m' c → mm_checkheap fuel { s with mem := m' } = some true) ∧
    (¬ FtrWeak m' c → mm_checkheap fuel { s with mem := m' } = some false) := by
  have hg := hi.gen
  have h1 := hg.hp_eq
  have h2 := hg.brk_hi
  have h3 := hg.max_lt
  have hlo := hg.brk_lo
  have hcb := hg.blk c hc
  have hlen := Layout_length _ _ _ hg.lay
  have hph : get_u32 m' (sub64 s.heap_ptr DWORD_SIZE) = 9 := by
    rw [show DWORD_SIZE = 8 from rfl, sub64_eq _ 8 (by omega) (by omega),
      show s.heap_ptr - 8 = s.mem_heap + 4 by omega, ← hg.pro_h]
    exact get_u32_congr _ _ _ (fun x hx1 hx2 => hm x (by omega))
  have hpf : get_u32 m' (sub64 s.heap_ptr WORD_SIZE) = 9 := by
    rw [show WORD_SIZE = 4 from rfl, sub64_eq _ 4 (by omega) (by omega),
      show s.heap_ptr - 4 = s.mem_heap + 8 by omega, ← hg.pro_f]
    exact get_u32_congr _ _ _ (fun x hx1 hx2 => hm x (by omega))
  have hepi : get_u32 m' (s.mem_brk - 4) = 1 := by
    rw [← hg.epi]
    exact get_u32_congr _ _ _ (fun x hx1 hx2 => hm x (by omega))
  have hhdr : ∀ b, b ∈ bs → get_u32 m' b.addr = b.size + b.alloc := by
    intro b hb
    have hbb := hg.blk b hb
    rw [← (hg.tags b hb).1]
    apply get_u32_congr
    intro x hx1 hx2
    apply hm
    rcases Layout_disj _ _ _ hg.lay b c hb hc with h | h | h
    · rw [h] at hx1 hx2; omega
    · omega
    · omega
  have hftr : ∀ b, b ∈ bs → b ≠ c → FtrWeak m' b := by
    intro b hb hne
    have hbb := hg.blk b hb
    left
    rw [get_size_congr s.mem m' _ (fun x hx1 hx2 => hm x (by
      rcases Layout_disj _ _ _ hg.lay b c hb hc with h | h | h
      · exact absurd h hne
      · omega
      · omega))]
    exact get_size_of_tag _ _ _ _ (hg.tags b hb).2 hbb.2.2.2.1 hbb.2.2.2.2.1
  have hlists : ∀ i, i < 9 → FSeg m' NULL (s.free_lists i) (L i) NULL := by
    intro i hi9
    apply FSeg_congr s.mem _ _ _ _ _ _ (hg.lists i hi9)
    intro a ha
    obtain ⟨d, _, hd, hda, _⟩ := hg.node i hi9 a ha
    have hdb := hg.blk d hd
    have hout : ∀ x, a + 4 ≤ x → x < a + 20 → m' x = s.mem x := by
      intro x hx1 hx2
      apply hm
      rw [← hda] at hx1 hx2
      rcases Layout_disj _ _ _ hg.lay d c hd hc with h | h | h
      · rw [h] at hx1 hx2; omega
      · omega
      · omega
    exact ⟨get_prev_free_congr _ _ _ (fun x h1 h2 => hout x h1 (by omega)),
      get_next_free_congr _ _ _ (fun x h1 h2 => hout x (by omega) h2)⟩
  have hcnt : ∀ i, i < 9 →
      count_list fuel m' (s.free_lists i) 0 = some (tally bs (fun _ => 0) i) := by
    intro i hi9
    have hl := hi.list_len i hi9
    rw [count_list_spec m' (L i) NULL _ fuel 0 (hlists i hi9) (by omega) (by omega),
      tally_count i bs _ (by show 0 + bs.length < 2 ^ 64; omega), hg.count i hi9]
  constructor
  · intro hw
    have hall : ∀ b, b ∈ bs → FtrWeak m' b := by
      intro b hb
      by_cases hbc : b = c
      · rw [hbc]; exact hw
      · exact hftr b hb hbc
    have hcb := check_blocks_pass m' (s.mem_brk - 4) hepi (by omega) bs s.heap_ptr fuel
      (fun _ => 0) hg.lay hhdr hall (by omega)
    unfold mm_checkheap
    show (if get_u32 m' (sub64 s.heap_ptr DWORD_SIZE) ≠ 9 then some false
      else if get_u32 m' (sub64 s.heap_ptr WORD_SIZE) ≠ 9 then some false
      else
        match check_blocks fuel m' s.heap_ptr (fun _ => 0) with
        | none => none
        | some none => some false
        | some (some num_free_blks) =>
          check_lists fuel m' s.free_lists num_free_blks NUM_SIZE_CLASSES 0) = some true
    rw [if_neg (not_not.2 hph), if_neg (not_not.2 hpf), hcb]
    exact check_lists_pass fuel m' s.free_lists _ hcnt _ _
  · intro hw
    obtain ⟨pre, post, hsplit⟩ := List.append_of_mem hc
    subst hsplit
    have hnd := Layout_nodup _ _ _ hg.lay
    have hpre : ∀ b, b ∈ pre → FtrWeak m' b := by
      intro b hb
      apply hftr b (List.mem_append_left _ hb)
      intro hbc
      rw [hbc] at hb
      exact (List.nodup_append.1 hnd).2.2 hb (List.mem_cons_self _ _)
    have hcb := check_blocks_exit m' (s.mem_brk - 4) (by omega) c post hw pre s.heap_ptr fuel
      (fun _ => 0) hg.lay hhdr hpre (by
        rw [List.length_append] at hlen
        omega)
    unfold mm_checkheap
    show (if get_u32 m' (sub64 s.heap_ptr DWORD_SIZE) ≠ 9 then some false
      else if get_u32 m' (sub64 s.heap_ptr WORD_SIZE) ≠ 9 then some false
      else
        match check_blocks fuel m' s.heap_ptr (fun _ => 0) with
        | none => none
        | some none => some false
        | some (some num_free_blks) =>
          check_lists fuel m' s.free_lists num_free_blks NUM_SIZE_CLASSES 0) = some false
    rw [if_neg (not_not.2 hph), if_neg (not_not.2 hpf), hcb]

/-- C35: `mm_checkheap` does not report every block whose footer differs from
its header. In a reachable state the check passes. Overwrite the footer of a
block `c` of the walk with a tag `v`: the header of `c` is untouched and the
footer reads `v`, and the check ends the process only when `v` differs from
the header both in the size field and in the allocation bit; when `v` differs
in the size only or in the allocation bit only the check still prints "Heap
seems okay", because the test joins the two comparisons with `&&`. -/
theorem C35_checkheap_misses_one_field_mismatch (s : Heap) (hr : Reachable s) (c : Blk)
    (hc : c ∈ heap_blocks s) (v fuel : Nat) (hv : v < 2 ^ 32) (hfuel : s.mem_brk ≤ fuel) :
    mm_checkheap fuel s = some true ∧
    get_u32 (put_u32 s.mem (c.addr + c.size - 4) v) c.addr = c.size + c.alloc ∧
    get_u32 (put_u32 s.mem (c.addr + c.size - 4) v) (c.addr + c.size - 4) = v ∧
    (v &&& 0xFFFFFFF8 ≠ c.size ∧ v &&& 0x1 ≠ c.alloc →
      mm_checkheap fuel { s with mem := put_u32 s.mem (c.addr + c.size - 4) v } = some false) ∧
    (v &&& 0xFFFFFFF8 = c.size ∨ v &&& 0x1 = c.alloc →
      mm_checkheap fuel { s with mem := put_u32 s.mem (c.addr + c.size - 4) v } = some true) := by
  obtain ⟨L, hi, _⟩ := hr.desc
  have hcb := hi.gen.blk c hc
  have htag := hi.gen.tags c hc
  have hsame : get_u32 (put_u32 s.mem (c.addr + c.size - 4) v) (c.addr + c.size - 4) = v := by
    rw [get_u32_put_u32_same]
    exact Nat.mod_eq_of_lt hv
  have hweak : FtrWeak (put_u32 s.mem (c.addr + c.size - 4) v) c ↔
      (v &&& 0xFFFFFFF8 = c.size ∨ v &&& 0x1 = c.alloc) := by
    unfold FtrWeak get_size get_alloc
    rw [hsame]
  have hout : ∀ x, x < c.addr + c.size - 4 ∨ c.addr + c.size ≤ x →
      put_u32 s.mem (c.addr + c.size - 4) v x = s.mem x :=
    fun x hx => put_u32_out _ _ _ _ (by omega)
  have hmain := checkheap_footer hi c hc _ hout fuel hfuel
  have hself := (checkheap_footer hi c hc s.mem (fun _ _ => rfl) fuel hfuel).1
    (Or.inl (get_size_of_tag _ _ _ _ htag.2 hcb.2.2.2.1 hcb.2.2.2.2.1))
  refine ⟨hself, ?_, hsame, fun h => hmain.2 (fun hw => ?_), fun h => hmain.1 (hweak.2 h)⟩
  · rw [get_u32_put_u32_ne _ _ _ _ (by omega)]
    exact htag.1
  · rcases hweak.1 hw with h' | h'
    · exact h.1 h'
    · exact h.2 h'

theorem C35_witness :
    mm_checkheap 8208 ex_ff = some true ∧
    get_u32 (put_u32 ex_ff.mem (4156 + 32 - 4) 32) 4156 = 32 + 1 ∧
    get_u32 (put_u32 ex_ff.mem (4156 + 32 - 4) 32) (4156 + 32 - 4) = 32 ∧
    mm_checkheap 8208 { ex_ff with mem := put_u32 ex_ff.mem (4156 + 32 - 4) 32 } = some true ∧
    mm_checkheap 8208 { ex_ff with mem := put_u32 ex_ff.mem (4156 + 32 - 4) 41 } = some true ∧
    mm_checkheap 8208 { ex_ff with mem := put_u32 ex_ff.mem (4156 + 32 - 4) 40 } = some false :=
  have hc : (⟨4156, 32, 1⟩ : Blk) ∈ heap_blocks ex_ff := by rw [ex_blocks_ff]; decide
  have hb : ex_ff.mem_brk ≤ 8208 := by rw [ex_lists_ff.2.2.2.2]
  have h := C35_checkheap_misses_one_field_mismatch ex_ff ex_reach_ff ⟨4156, 32, 1⟩
    hc 32 8208 (by decide) hb
  have h2 := C35_checkheap_misses_one_field_mismatch ex_ff ex_reach_ff ⟨4156, 32, 1⟩
    hc 41 8208 (by decide) hb
  have h3 := C35_checkheap_misses_one_field_mismatch ex_ff ex_reach_ff ⟨4156, 32, 1⟩
    hc 40 8208 (by decide) hb
  ⟨h.1, h.2.1, h.2.2.1, h.2.2.2.2 (Or.inl (by decide)), h2.2.2.2.2 (Or.inr (by decide)),
    h3.2.2.2.1 ⟨by decide, by decide⟩⟩

/-! ## Coalescing completeness -/

end MM
